import Mathlib

/-!
# Scheme interpreter: numeric tower, evaluator and syntax resolver

A shallow embedding of `src/evaluation.cpp`, `src/parser.cpp` and the
definition-group driver of `src/main.cpp`, with the properties of the
specification proved, refuted or amended against it.

Conventions of the embedding.

* The C++ type `int` is modelled by `Int` together with `wrap32`: every `int`
  operation of the source is the exact operation followed by reduction into
  `[-2^31, 2^31)` (two's complement wrap-around).  `long long` is modelled
  the same way with `wrap64`.
* A `throw RuntimeError(msg)` is an `error msg` result.
* The C++ `Value` is a reference to a heap object of class `ValueBase`.  A
  `Value` is an address in the heap of the `Store`; two `Value`s alias exactly
  when they are equal.  The arithmetic and comparison `evalRator` functions
  only read the referenced objects and build a fresh one, so they are embedded
  as functions on the objects themselves.
* The header files, `value.cpp` and `Def.cpp` are not among the sources: the
  classes they declare are modelled from their use in the sources, and the
  tables `primitives` and `reserved_words` are a parameter (`stdTables` holds
  the standard names, for the evaluation of concrete programs).
* Recursion of the interpreter is bounded by a `fuel` argument; running out of
  it is the result `timeout`, which is not an error of the program.
-/

namespace Scheme

/-! ## Machine integers -/

/-- The largest value of the C++ type `int`. -/
def INT_MAX : Int := 2147483647

/-- The smallest value of the C++ type `int`. -/
def INT_MIN : Int := -2147483648

/-- Reduction of an exact integer into the range of `int` (two's complement). -/
def wrap32 (x : Int) : Int := (x + 2147483648) % 4294967296 - 2147483648

/-- Reduction of an exact integer into the range of `long long`. -/
def wrap64 (x : Int) : Int :=
  (x + 9223372036854775808) % 18446744073709551616 - 9223372036854775808

/-- The integer `x` is representable as an `int`. -/
def inInt32 (x : Int) : Prop := INT_MIN ≤ x ∧ x ≤ INT_MAX

instance (x : Int) : Decidable (inInt32 x) :=
  inferInstanceAs (Decidable (INT_MIN ≤ x ∧ x ≤ INT_MAX))

/-- The `int` addition `a + b`. -/
def iadd (a b : Int) : Int := wrap32 (a + b)

/-- The `int` subtraction `a - b`. -/
def isub (a b : Int) : Int := wrap32 (a - b)

/-- The `int` multiplication `a * b`. -/
def imul (a b : Int) : Int := wrap32 (a * b)

/-- The `int` negation `-a`. -/
def ineg (a : Int) : Int := wrap32 (-a)

/-! ## Data model -/

/-- Modelled from the spec: the classes of `syntax.hpp` (not among the sources),
as `parser.cpp` and `syntaxToValue` use them: number, rational, symbol, string
and boolean literals, and lists of syntax nodes. -/
inductive Syntax where
  | Number (n : Int)
  | RationalSyntax (numerator denominator : Int)
  | SymbolSyntax (s : String)
  | StringSyntax (s : String)
  | TrueSyntax
  | FalseSyntax
  | List (stxs : List Syntax)

/-- The subclasses of `Unary` that `evaluation.cpp` gives an `evalRator`. -/
inductive UnaryOp where
  | IsBoolean | IsFixnum | IsNull | IsPair | IsProcedure | IsSymbol | IsString
  | IsList | Car | Cdr | Not | Display
  deriving DecidableEq, Repr

/-- The subclasses of `Binary` that `evaluation.cpp` gives an `evalRator`. -/
inductive BinaryOp where
  | Plus | Minus | Mult | Div | Modulo | Expt
  | Less | LessEq | Equal | GreaterEq | Greater
  | Cons | SetCar | SetCdr | IsEq
  deriving DecidableEq, Repr

/-- The subclasses of `Variadic` that `evaluation.cpp` gives an `evalRator`. -/
inductive VariadicOp where
  | PlusVar | MinusVar | MultVar | DivVar
  | LessVar | LessEqVar | EqualVar | GreaterEqVar | GreaterVar
  | ListFunc
  deriving DecidableEq, Repr

/-- Modelled from the spec: the expression classes of `expr.hpp` (not among the
sources), with the fields that `parser.cpp` passes to their constructors and
`evaluation.cpp` reads. -/
inductive Expr where
  | Fixnum (n : Int)
  | RationalNum (numerator denominator : Int)
  | StringExpr (s : String)
  | True
  | False
  | MakeVoid
  | Exit
  | Unary (op : UnaryOp) (rand : Expr)
  | Binary (op : BinaryOp) (rand1 rand2 : Expr)
  | Variadic (op : VariadicOp) (rands : List Expr)
  | AndVar (rands : List Expr)
  | OrVar (rands : List Expr)
  | Var (x : String)
  | Quote (s : Syntax)
  | If (cond conseq alter : Expr)
  | Cond (clauses : List (List Expr))
  | Lambda (x : List String) (e : Expr)
  | Apply (rator : Expr) (rand : List Expr)
  | Define (var : String) (e : Expr)
  | Let (bind : List (String × Expr)) (body : Expr)
  | Letrec (bind : List (String × Expr)) (body : Expr)
  | Set (var : String) (e : Expr)
  | Begin (es : List Expr)

/-- A non-null `Value`: the address of a heap object. -/
abbrev Value := Nat

/-- Modelled from the spec: the environment `Assoc` of `value.hpp` (not among
the sources), a chain of frames each binding one identifier to a binding cell.
The identifier and the link of a frame never change once the frame is made, so
a handle is the list of its frames, innermost first, each an identifier with
the address of its binding cell in the store. -/
abbrev Assoc := List (String × Nat)

/-- Modelled from the spec: the value classes of `value.hpp` (not among the
sources).  A pair holds two references; a procedure holds its parameter
names, its body and the environment it captured. -/
inductive ValueBase where
  | Integer (n : Int)
  | Rational (numerator denominator : Int)
  | Boolean (b : Bool)
  | String (s : String)
  | Symbol (s : String)
  | Null
  | Void
  | Terminate
  | Pair (car cdr : Value)
  | Procedure (parameters : List String) (e : Expr) (env : Assoc)

/-- The result of an `evalRator` that builds a fresh object. -/
abbrev Res := Except String ValueBase

/-- The result of an `evalRator` that evaluates a C++ expression whose behaviour
can be undefined: a fresh object, a thrown `RuntimeError`, or `trap` when C++
gives the expression no result (the division instruction of the usual hardware
kills the process). -/
inductive ResOrTrap where
  | ok (c : ValueBase)
  | error (msg : String)
  | trap

/-! ## Arithmetic -/

/-- `Plus::evalRator` (evaluation.cpp 143-188). -/
def Plus.evalRator (rand1 rand2 : ValueBase) : Res :=
  match rand1, rand2 with
  | .Integer n1, .Integer n2 => .ok (.Integer (iadd n1 n2))
  | .Rational num1 den1, .Rational num2 den2 =>
    let new_num := iadd (imul num1 den2) (imul num2 den1)
    let new_den := imul den1 den2
    if new_den < 0 then .ok (.Rational (ineg new_num) (ineg new_den))
    else .ok (.Rational new_num new_den)
  | .Integer n1, .Rational num2 den2 => .ok (.Rational (iadd (imul n1 den2) num2) den2)
  | .Rational num1 den1, .Integer n2 => .ok (.Rational (iadd (imul n2 den1) num1) den1)
  | _, _ => .error "Wrong typename"

/-- `Minus::evalRator` (evaluation.cpp 192-232). -/
def Minus.evalRator (rand1 rand2 : ValueBase) : Res :=
  match rand1, rand2 with
  | .Integer n1, .Integer n2 => .ok (.Integer (isub n1 n2))
  | .Rational num1 den1, .Rational num2 den2 =>
    let new_num := isub (imul num1 den2) (imul num2 den1)
    let new_den := imul den1 den2
    if new_den < 0 then .ok (.Rational (ineg new_num) (ineg new_den))
    else .ok (.Rational new_num new_den)
  | .Integer n1, .Rational num den => .ok (.Rational (isub (imul n1 den) num) den)
  | .Rational num den, .Integer n2 => .ok (.Rational (isub num (imul n2 den)) den)
  | _, _ => .error "Wrong typename"

/-- `Mult::evalRator` (evaluation.cpp 234-274). -/
def Mult.evalRator (rand1 rand2 : ValueBase) : Res :=
  match rand1, rand2 with
  | .Integer n1, .Integer n2 => .ok (.Integer (imul n1 n2))
  | .Rational num1 den1, .Rational num2 den2 =>
    let new_num := imul num1 num2
    let new_den := imul den1 den2
    if new_den < 0 then .ok (.Rational (ineg new_num) (ineg new_den))
    else .ok (.Rational new_num new_den)
  | .Integer n, .Rational num den => .ok (.Rational (imul n num) den)
  | .Rational num den, .Integer n => .ok (.Rational (imul n num) den)
  | _, _ => .error "Wrong typename"

/-- `Div::evalRator` (evaluation.cpp 276-347). -/
def Div.evalRator (rand1 rand2 : ValueBase) : Res :=
  match rand1, rand2 with
  | .Integer n1, .Integer n2 =>
    if n2 ≠ 0 then
      if n2 < 0 then .ok (.Rational (ineg n1) (ineg n2))
      else .ok (.Rational n1 n2)
    else .error "Wrong typename"
  | .Rational num1 den1, .Rational num2 den2 =>
    let new_num := imul num1 den2
    let new_den := imul den1 num2
    if new_den ≠ 0 then
      if new_den < 0 then .ok (.Rational (ineg new_num) (ineg new_den))
      else .ok (.Rational new_num new_den)
    else .error "Wrong typename"
  | .Integer n, .Rational num den =>
    let new_num := imul n den
    let new_den := num
    if new_den ≠ 0 then
      if new_den < 0 then .ok (.Rational (ineg new_num) (ineg new_den))
      else .ok (.Rational new_num new_den)
    else .error "Wrong typename"
  | .Rational num den, .Integer n =>
    let new_den := imul den n
    if new_den ≠ 0 then
      if new_den < 0 then .ok (.Rational (ineg num) (ineg new_den))
      else .ok (.Rational num new_den)
    else .error "Wrong typename"
  | _, _ => .error "Wrong typename"

/-- The C++ remainder `a % b` of two `int`s with `b` other than 0 (truncated
division).  Its absolute value is below that of `b`, so it never wraps.
`INT_MIN % -1` has no result: the quotient `INT_MIN / -1` is not an `int`, and
C++ leaves the behaviour undefined. -/
def irem (a b : Int) : Option Int :=
  if a = INT_MIN ∧ b = -1 then none else some (Int.tmod a b)

/-- `Modulo::evalRator` (evaluation.cpp 349-359); no test comes between the
test of the divisor against 0 and `dividend % divisor`. -/
def Modulo.evalRator (rand1 rand2 : ValueBase) : ResOrTrap :=
  match rand1, rand2 with
  | .Integer dividend, .Integer divisor =>
    if divisor = 0 then .error "Division by zero"
    else
      match irem dividend divisor with
      | some r => .ok (.Integer r)
      | none => .trap
  | _, _ => .error "modulo is only defined for integers"

/-- The helper `add` (evaluation.cpp 361-404). -/
def add (rand1 rand2 : ValueBase) : Res :=
  match rand1, rand2 with
  | .Integer n1, .Integer n2 => .ok (.Integer (iadd n1 n2))
  | .Rational num1 den1, .Rational num2 den2 =>
    let new_num := iadd (imul num1 den2) (imul num2 den1)
    let new_den := imul den1 den2
    if new_den < 0 then .ok (.Rational (ineg new_num) (ineg new_den))
    else .ok (.Rational new_num new_den)
  | .Integer n1, .Rational num2 den2 => .ok (.Rational (iadd (imul n1 den2) num2) den2)
  | .Rational num1 den1, .Integer n2 => .ok (.Rational (iadd (imul n2 den1) num1) den1)
  | _, _ => .error "Wrong typename"

/-- The loop `result = f(result, args[i])` of the n-ary arithmetic operators:
it stops at the first error. -/
def foldArgs (f : ValueBase → ValueBase → Res) : ValueBase → List ValueBase → Res
  | result, [] => .ok result
  | result, a :: rest =>
    match f result a with
    | .ok r => foldArgs f r rest
    | .error msg => .error msg

/-- `PlusVar::evalRator` (evaluation.cpp 405-416). -/
def PlusVar.evalRator (args : List ValueBase) : Res :=
  match args with
  | [] => .ok (.Integer 0)
  | a0 :: rest => foldArgs add a0 rest

/-- The helper `minu` (evaluation.cpp 418-457). -/
def minu (rand1 rand2 : ValueBase) : Res :=
  match rand1, rand2 with
  | .Integer n1, .Integer n2 => .ok (.Integer (isub n1 n2))
  | .Rational num1 den1, .Rational num2 den2 =>
    let new_num := isub (imul num1 den2) (imul num2 den1)
    let new_den := imul den1 den2
    if new_den < 0 then .ok (.Rational (ineg new_num) (ineg new_den))
    else .ok (.Rational new_num new_den)
  | .Integer n1, .Rational num den => .ok (.Rational (isub (imul n1 den) num) den)
  | .Rational num den, .Integer n2 => .ok (.Rational (isub num (imul den n2)) den)
  | _, _ => .error "Wrong typename"

/-- `MinusVar::evalRator` (evaluation.cpp 459-473). -/
def MinusVar.evalRator (args : List ValueBase) : Res :=
  match args with
  | [] => .error "Wrong typename"
  | [a0] => minu (.Integer 0) a0
  | a0 :: rest => foldArgs minu a0 rest

/-- The helper `multiply` (evaluation.cpp 475-514). -/
def multiply (rand1 rand2 : ValueBase) : Res :=
  match rand1, rand2 with
  | .Integer n1, .Integer n2 => .ok (.Integer (imul n1 n2))
  | .Rational num1 den1, .Rational num2 den2 =>
    let new_num := imul num1 num2
    let new_den := imul den1 den2
    if new_den < 0 then .ok (.Rational (ineg new_num) (ineg new_den))
    else .ok (.Rational new_num new_den)
  | .Integer n, .Rational num den => .ok (.Rational (imul n num) den)
  | .Rational num den, .Integer n => .ok (.Rational (imul n num) den)
  | _, _ => .error "Wrong typename"

/-- `MultVar::evalRator` (evaluation.cpp 515-525). -/
def MultVar.evalRator (args : List ValueBase) : Res :=
  match args with
  | [] => .ok (.Integer 1)
  | a0 :: rest => foldArgs multiply a0 rest

/-- The helper `divide` (evaluation.cpp 527-597). -/
def divide (rand1 rand2 : ValueBase) : Res :=
  match rand1, rand2 with
  | .Integer n1, .Integer n2 =>
    if n2 ≠ 0 then
      if n2 < 0 then .ok (.Rational (ineg n1) (ineg n2))
      else .ok (.Rational n1 n2)
    else .error "Wrong typename"
  | .Rational num1 den1, .Rational num2 den2 =>
    let new_num := imul num1 den2
    let new_den := imul den1 num2
    if new_den ≠ 0 then
      if new_den < 0 then .ok (.Rational (ineg new_num) (ineg new_den))
      else .ok (.Rational new_num new_den)
    else .error "Wrong typename"
  | .Integer n, .Rational num den =>
    let new_num := imul n den
    let new_den := num
    if new_den ≠ 0 then
      if new_den < 0 then .ok (.Rational (ineg new_num) (ineg new_den))
      else .ok (.Rational new_num new_den)
    else .error "Wrong typename"
  | .Rational num den, .Integer n =>
    let new_den := imul den n
    if new_den ≠ 0 then
      if new_den < 0 then .ok (.Rational (ineg num) (ineg new_den))
      else .ok (.Rational num new_den)
    else .error "Wrong typename"
  | _, _ => .error "Wrong typename"

/-- `DivVar::evalRator` (evaluation.cpp 598-611). -/
def DivVar.evalRator (args : List ValueBase) : Res :=
  match args with
  | [] => .error "Wrong typename"
  | [a0] => divide (.Integer 1) a0
  | a0 :: rest => foldArgs divide a0 rest

/-- The `while (exp > 0)` loop of `Expt::evalRator` (evaluation.cpp 630-644) on
the `long long` variables `result`, `b` and the `int` variable `exp`; `fuel`
bounds the number of iterations. -/
def Expt.loop : Nat → Int → Int → Int → Except String Int
  | 0, result, _, _ => .ok result
  | fuel + 1, result, b, exp =>
    if exp > 0 then
      let result1 := if exp % 2 = 1 then wrap64 (result * b) else result
      if exp % 2 = 1 ∧ (result1 > INT_MAX ∨ result1 < INT_MIN) then
        .error "Integer overflow in expt"
      else
        let b1 := wrap64 (b * b)
        if (b1 > INT_MAX ∨ b1 < INT_MIN) ∧ exp > 1 then
          .error "Integer overflow in expt"
        else Expt.loop fuel result1 b1 (exp / 2)
    else .ok result

/-- `Expt::evalRator` (evaluation.cpp 614-649).  The loop halves `exp`, so
`exponent + 1` iterations are always enough. -/
def Expt.evalRator (rand1 rand2 : ValueBase) : Res :=
  match rand1, rand2 with
  | .Integer base, .Integer exponent =>
    if exponent < 0 then .error "Negative exponent not supported for integers"
    else if base = 0 ∧ exponent = 0 then .error "0^0 is undefined"
    else
      match Expt.loop (exponent.toNat + 1) 1 base exponent with
      | .ok result => .ok (.Integer (wrap32 result))
      | .error msg => .error msg
  | _, _ => .error "Wrong typename"

/-- `compareNumericValues` (evaluation.cpp 652-680). -/
def compareNumericValues (v1 v2 : ValueBase) : Except String Int :=
  match v1, v2 with
  | .Integer n1, .Integer n2 => .ok (if n1 < n2 then -1 else if n1 > n2 then 1 else 0)
  | .Rational num1 den1, .Integer n2 =>
    let left := num1
    let right := imul n2 den1
    .ok (if left < right then -1 else if left > right then 1 else 0)
  | .Integer n1, .Rational num2 den2 =>
    let left := imul n1 den2
    let right := num2
    .ok (if left < right then -1 else if left > right then 1 else 0)
  | .Rational num1 den1, .Rational num2 den2 =>
    let left := imul num1 den2
    let right := imul num2 den1
    .ok (if left < right then -1 else if left > right then 1 else 0)
  | _, _ => .error "Wrong typename in numeric comparison"

/-- `Less::evalRator` (evaluation.cpp 682-687). -/
def Less.evalRator (rand1 rand2 : ValueBase) : Res :=
  match compareNumericValues rand1 rand2 with
  | .ok cmp => .ok (.Boolean (decide (cmp < 0)))
  | .error msg => .error msg

/-- `LessEq::evalRator` (evaluation.cpp 689-694). -/
def LessEq.evalRator (rand1 rand2 : ValueBase) : Res :=
  match compareNumericValues rand1 rand2 with
  | .ok cmp => .ok (.Boolean (decide (cmp ≤ 0)))
  | .error msg => .error msg

/-- `Equal::evalRator` (evaluation.cpp 696-701). -/
def Equal.evalRator (rand1 rand2 : ValueBase) : Res :=
  match compareNumericValues rand1 rand2 with
  | .ok cmp => .ok (.Boolean (decide (cmp = 0)))
  | .error msg => .error msg

/-- `GreaterEq::evalRator` (evaluation.cpp 703-708). -/
def GreaterEq.evalRator (rand1 rand2 : ValueBase) : Res :=
  match compareNumericValues rand1 rand2 with
  | .ok cmp => .ok (.Boolean (decide (cmp ≥ 0)))
  | .error msg => .error msg

/-- `Greater::evalRator` (evaluation.cpp 710-714). -/
def Greater.evalRator (rand1 rand2 : ValueBase) : Res :=
  match compareNumericValues rand1 rand2 with
  | .ok cmp => .ok (.Boolean (decide (cmp > 0)))
  | .error msg => .error msg

/-- The operand is an `Integer` or a `Rational` (`v_type` is `V_INT` or
`V_RATIONAL`). -/
def isNumeric : ValueBase → Bool
  | .Integer _ => true
  | .Rational _ _ => true
  | _ => false

/-- The loop of `LessVar::evalRator` (evaluation.cpp 721-729) over the adjacent
pairs `args[i]`, `args[i+1]`. -/
def LessVar.loop : List ValueBase → Res
  | a :: b :: rest =>
    if isNumeric a = false ∨ isNumeric b = false then .error "Wrong typename"
    else
      match compareNumericValues a b with
      | .ok cmp => if cmp ≥ 0 then .ok (.Boolean false) else LessVar.loop (b :: rest)
      | .error msg => .error msg
  | _ => .ok (.Boolean true)

/-- `LessVar::evalRator` (evaluation.cpp 716-731). -/
def LessVar.evalRator (args : List ValueBase) : Res :=
  if args.length < 2 then .error "Wrong number of arguments"
  else LessVar.loop args

/-- The loop shared by `LessEqVar`, `EqualVar`, `GreaterEqVar` and `GreaterVar`
(evaluation.cpp 738-742, 751-755, 765-770, 779-783): compare the adjacent pairs
in order and return `#f` at the first pair whose comparison result `fails`. -/
def compareLoop (fails : Int → Bool) : List ValueBase → Res
  | a :: b :: rest =>
    match compareNumericValues a b with
    | .ok cmp => if fails cmp then .ok (.Boolean false) else compareLoop fails (b :: rest)
    | .error msg => .error msg
  | _ => .ok (.Boolean true)

/-- `LessEqVar::evalRator` (evaluation.cpp 733-744). -/
def LessEqVar.evalRator (args : List ValueBase) : Res :=
  if args.length < 2 then .error "Wrong number of arguments"
  else compareLoop (fun cmp => decide (cmp > 0)) args

/-- `EqualVar::evalRator` (evaluation.cpp 746-757). -/
def EqualVar.evalRator (args : List ValueBase) : Res :=
  if args.length < 2 then .error "Wrong number of arguments"
  else compareLoop (fun cmp => decide (cmp ≠ 0)) args

/-- `GreaterEqVar::evalRator` (evaluation.cpp 760-772). -/
def GreaterEqVar.evalRator (args : List ValueBase) : Res :=
  if args.length < 2 then .error "Wrong number of arguments"
  else compareLoop (fun cmp => decide (cmp < 0)) args

/-- `GreaterVar::evalRator` (evaluation.cpp 774-785). -/
def GreaterVar.evalRator (args : List ValueBase) : Res :=
  if args.length < 2 then .error "Wrong number of arguments"
  else compareLoop (fun cmp => decide (cmp ≤ 0)) args

/-! ## Exact values -/

/-- The exact rational number that a numeric object denotes (`0` for the
other objects). -/
def toRat : ValueBase → ℚ
  | .Integer n => (n : ℚ)
  | .Rational num den => (num : ℚ) / (den : ℚ)
  | _ => 0

/-- The numerator of a numeric object read as a fraction (`n/1` for an
`Integer`). -/
def numOf : ValueBase → Int
  | .Integer n => n
  | .Rational num _ => num
  | _ => 0

/-- The denominator of a numeric object read as a fraction (`n/1` for an
`Integer`). -/
def denOf : ValueBase → Int
  | .Integer _ => 1
  | .Rational _ den => den
  | _ => 1

/-- The object is an `Integer`. -/
def isInteger : ValueBase → Bool
  | .Integer _ => true
  | _ => false

/-- The result is a thrown `RuntimeError`. -/
def isError {α : Type} : Except String α → Bool
  | .error _ => true
  | .ok _ => false

/-! ## Store, environments and outcomes -/

/-- What the interpreter writes to `std::cout`: a text, or the `show` of an
object (the text that `show` prints is defined in `value.cpp`, which is not
among the sources). -/
inductive Output where
  | text (s : String)
  | shown (v : Value)

/-- The mutable state of a session: the heap of objects (a `Value` is an index
into it), the binding cells of all environment frames (`none` is the null
placeholder `Value(nullptr)`), and the output written so far. -/
structure Store where
  heap : List ValueBase
  cells : List (Option Value)
  out : List Output

/-- The store of a fresh session. -/
def Store.init : Store := { heap := [], cells := [], out := [] }

/-- Allocation of a new object (`IntegerV(..)`, `PairV(..)`, ...). -/
def Store.alloc (σ : Store) (c : ValueBase) : Value × Store :=
  (σ.heap.length, { σ with heap := σ.heap ++ [c] })

/-- The object a `Value` refers to. -/
def Store.deref (σ : Store) (v : Value) : Option ValueBase := σ.heap[v]?

/-- Assignment to a field of the object a `Value` refers to. -/
def Store.update (σ : Store) (v : Value) (c : ValueBase) : Store :=
  { σ with heap := σ.heap.set v c }

/-- Modelled from the spec: `empty()` of `value.cpp`, the environment with no
frame. -/
def empty : Assoc := []

/-- Modelled from the spec: `extend(name, value, env)` of `value.cpp`: a new
environment with one more frame, whose fresh binding cell holds `value`; `env`
is not changed. -/
def extend (x : String) (v : Option Value) (env : Assoc) (σ : Store) : Assoc × Store :=
  ((x, σ.cells.length) :: env, { σ with cells := σ.cells ++ [v] })

/-- Modelled from the spec: `find(name, env)` of `value.cpp`: the content of the
binding cell of the innermost frame that binds `name`; `none` (the null
`Value`) when no frame binds it or when the cell holds the null placeholder. -/
def find (x : String) : Assoc → Store → Option Value
  | [], _ => none
  | (y, c) :: rest, σ => if x = y then (σ.cells[c]?).join else find x rest σ

/-- Modelled from the spec: `modify(name, value, env)` of `value.cpp`: overwrite
in place the binding cell of the innermost frame that binds `name`.  When no
frame binds it nothing changes (no caller in the sources reads a failure
signal, and every caller modifies a name that is bound). -/
def modify (x : String) (v : Value) : Assoc → Store → Store
  | [], σ => σ
  | (y, c) :: rest, σ =>
    if x = y then { σ with cells := σ.cells.set c (some v) } else modify x v rest σ

/-- The outcome of running a piece of the interpreter on the caller's
environment handle `Assoc &e` and the store.  `ok` and `error` (a thrown
`RuntimeError`) carry the handle and the store as they are at that moment;
`timeout` means that the recursion bound of the model was reached, `fault`
that a `Value` did not refer to an object or that a C++ expression without a
result was evaluated (`INT_MIN % -1`): the process does not go on. -/
inductive Outcome (α : Type) where
  | ok (a : α) (e : Assoc) (σ : Store)
  | error (msg : String) (e : Assoc) (σ : Store)
  | timeout
  | fault

/-- The outcome of evaluating an expression. -/
abbrev Result := Outcome Value

/-- The outcome seen by a caller that ran the callee on a local copy `e1` of
its handle: its own handle `e` is unchanged. -/
def Outcome.withEnv {α : Type} (r : Outcome α) (e : Assoc) : Outcome α :=
  match r with
  | .ok a _ σ => .ok a e σ
  | .error msg _ σ => .error msg e σ
  | .timeout => .timeout
  | .fault => .fault

/-- Return a freshly allocated object. -/
def returnNew (c : ValueBase) (e : Assoc) (σ : Store) : Result :=
  .ok (σ.alloc c).1 e (σ.alloc c).2

/-- Return the fresh object that an arithmetic or comparison `evalRator`
built, or throw its error. -/
def returnRes (r : Res) (e : Assoc) (σ : Store) : Result :=
  match r with
  | .ok c => returnNew c e σ
  | .error msg => .error msg e σ

/-- Return the fresh object that `Modulo::evalRator` built, or throw its
error; a remainder without a result is a fault. -/
def returnResOrTrap (r : ResOrTrap) (e : Assoc) (σ : Store) : Result :=
  match r with
  | .ok c => returnNew c e σ
  | .error msg => .error msg e σ
  | .trap => .fault

/-! ## Primitives on references -/

/-- `check_true` (evaluation.cpp 1250-1256): only the Boolean `#f` is false. -/
def check_true (v : ValueBase) : Bool :=
  match v with
  | .Boolean b => b
  | _ => true

/-- How the loop of `IsList::evalRator` ends: the two cursors met, or `fast`
reached an object that is not a pair; `timeout` when the iteration bound of the
model was reached, `fault` when a `Value` did not refer to an object. -/
inductive IsList.Scan where
  | met
  | ended (last : ValueBase)
  | timeout
  | fault

/-- The loop of `IsList::evalRator` (evaluation.cpp 824-837) with the cursors
`slow` and `fast`. -/
def IsList.loop : Nat → Value → Value → Store → IsList.Scan
  | 0, _, _, _ => .timeout
  | fuel + 1, slow, fast, σ =>
    match σ.deref fast with
    | none => .fault
    | some (.Pair _ cdr1) =>
      match σ.deref cdr1 with
      | none => .fault
      | some (.Pair _ cdr2) =>
        match σ.deref slow with
        | some (.Pair _ slow1) =>
          if slow1 = cdr2 then .met
          else IsList.loop fuel slow1 cdr2 σ
        | _ => .fault
      | some c => .ended c
    | some c => .ended c

/-- `IsList::evalRator` (evaluation.cpp 808-841).  Each iteration moves `slow`
by one pair, so one iteration per heap object, and one more, are enough. -/
def IsList.evalRator (rand : Value) (e : Assoc) (σ : Store) : Result :=
  match σ.deref rand with
  | none => .fault
  | some .Null => returnNew (.Boolean true) e σ
  | some (.Pair _ _) =>
    match IsList.loop (σ.heap.length + 1) rand rand σ with
    | .met => returnNew (.Boolean false) e σ
    | .ended .Null => returnNew (.Boolean true) e σ
    | .ended _ => returnNew (.Boolean false) e σ
    | .timeout => .timeout
    | .fault => .fault
  | some _ => returnNew (.Boolean false) e σ

/-- The `evalRator` of the subclasses of `Unary` (evaluation.cpp 808-882,
938-964, 1289-1292, 1534-1543). -/
def Unary.evalRator (op : UnaryOp) (rand : Value) (e : Assoc) (σ : Store) : Result :=
  match σ.deref rand with
  | none => .fault
  | some c =>
    match op with
    | .IsBoolean => returnNew (.Boolean (match c with | .Boolean _ => true | _ => false)) e σ
    | .IsFixnum => returnNew (.Boolean (match c with | .Integer _ => true | _ => false)) e σ
    | .IsNull => returnNew (.Boolean (match c with | .Null => true | _ => false)) e σ
    | .IsPair => returnNew (.Boolean (match c with | .Pair _ _ => true | _ => false)) e σ
    | .IsProcedure =>
      returnNew (.Boolean (match c with | .Procedure _ _ _ => true | _ => false)) e σ
    | .IsSymbol => returnNew (.Boolean (match c with | .Symbol _ => true | _ => false)) e σ
    | .IsString => returnNew (.Boolean (match c with | .String _ => true | _ => false)) e σ
    | .IsList => IsList.evalRator rand e σ
    | .Car =>
      match c with
      | .Pair car _ => .ok car e σ
      | _ => .error "Wrong typename" e σ
    | .Cdr =>
      match c with
      | .Pair _ cdr => .ok cdr e σ
      | _ => .error "Wrong typename" e σ
    | .Not => returnNew (.Boolean (!check_true c)) e σ
    | .Display =>
      match c with
      | .String s => returnNew .Void e { σ with out := σ.out ++ [.text s] }
      | _ => returnNew .Void e { σ with out := σ.out ++ [.shown rand] }

/-- `IsEq::evalRator` (evaluation.cpp 916-936) on the two references and the
objects they refer to. -/
def IsEq.evalRator (rand1 rand2 : Value) (c1 c2 : ValueBase) : Bool :=
  match c1, c2 with
  | .Integer n1, .Integer n2 => decide (n1 = n2)
  | .Boolean b1, .Boolean b2 => decide (b1 = b2)
  | .Symbol s1, .Symbol s2 => decide (s1 = s2)
  | .Null, .Null => true
  | .Void, .Void => true
  | _, _ => decide (rand1 = rand2)

/-- The `evalRator` of the subclasses of `Binary` (evaluation.cpp 143-359,
614-714, 790-793, 884-936). -/
def Binary.evalRator (op : BinaryOp) (rand1 rand2 : Value) (e : Assoc) (σ : Store) : Result :=
  match σ.deref rand1, σ.deref rand2 with
  | some c1, some c2 =>
    match op with
    | .Plus => returnRes (Plus.evalRator c1 c2) e σ
    | .Minus => returnRes (Minus.evalRator c1 c2) e σ
    | .Mult => returnRes (Mult.evalRator c1 c2) e σ
    | .Div => returnRes (Div.evalRator c1 c2) e σ
    | .Modulo => returnResOrTrap (Modulo.evalRator c1 c2) e σ
    | .Expt => returnRes (Expt.evalRator c1 c2) e σ
    | .Less => returnRes (Less.evalRator c1 c2) e σ
    | .LessEq => returnRes (LessEq.evalRator c1 c2) e σ
    | .Equal => returnRes (Equal.evalRator c1 c2) e σ
    | .GreaterEq => returnRes (GreaterEq.evalRator c1 c2) e σ
    | .Greater => returnRes (Greater.evalRator c1 c2) e σ
    | .Cons => returnNew (.Pair rand1 rand2) e σ
    | .SetCar =>
      match c1 with
      | .Pair _ cdr => returnNew .Void e (σ.update rand1 (.Pair rand2 cdr))
      | _ => .error "Wrong typename" e σ
    | .SetCdr =>
      match c1 with
      | .Pair car _ => returnNew .Void e (σ.update rand1 (.Pair car rand2))
      | _ => .error "Wrong typename" e σ
    | .IsEq => returnNew (.Boolean (IsEq.evalRator rand1 rand2 c1 c2)) e σ
  | _, _ => .fault

/-- The objects that a vector of references refers to. -/
def derefAll (σ : Store) : List Value → Option (List ValueBase)
  | [] => some []
  | v :: rest =>
    match σ.deref v, derefAll σ rest with
    | some c, some cs => some (c :: cs)
    | _, _ => none

/-- The loop of `ListFunc::evalRator` (evaluation.cpp 802-804), from the last
argument to the first. -/
def ListFunc.build : List Value → Store → Value × Store
  | [], σ => σ.alloc .Null
  | a :: rest, σ =>
    let r := ListFunc.build rest σ
    r.2.alloc (.Pair a r.1)

/-- The `evalRator` of the subclasses of `Variadic` (evaluation.cpp 405-611,
716-806).  The arithmetic and comparison operators read the objects and return
a fresh object, except that `+` and `*` return their single argument itself. -/
def Variadic.evalRator (op : VariadicOp) (args : List Value) (e : Assoc) (σ : Store) :
    Result :=
  match derefAll σ args with
  | none => .fault
  | some cs =>
    match op with
    | .PlusVar =>
      match args with
      | [a0] => .ok a0 e σ
      | _ => returnRes (PlusVar.evalRator cs) e σ
    | .MinusVar => returnRes (MinusVar.evalRator cs) e σ
    | .MultVar =>
      match args with
      | [a0] => .ok a0 e σ
      | _ => returnRes (MultVar.evalRator cs) e σ
    | .DivVar => returnRes (DivVar.evalRator cs) e σ
    | .LessVar => returnRes (LessVar.evalRator cs) e σ
    | .LessEqVar => returnRes (LessEqVar.evalRator cs) e σ
    | .EqualVar => returnRes (EqualVar.evalRator cs) e σ
    | .GreaterEqVar => returnRes (GreaterEqVar.evalRator cs) e σ
    | .GreaterVar => returnRes (GreaterVar.evalRator cs) e σ
    | .ListFunc =>
      match args with
      | [] => returnNew .Null e σ
      | _ => .ok (ListFunc.build args σ).1 e (ListFunc.build args σ).2

/-! ## Quotation -/

/-- The position and the name test of the loop that looks for the dot symbol
in `syntaxToValue` (evaluation.cpp 1192-1194): the index of the first element
that is the symbol `.`. -/
def findDot : List Syntax → Option Nat
  | [] => none
  | .SymbolSyntax s :: rest =>
    if s = "." then some 0 else (findDot rest).map (· + 1)
  | _ :: rest => (findDot rest).map (· + 1)

/-- The walk of `syntaxToValue` (evaluation.cpp 1217-1224) along the `cdr`s of
`current` to the first pair whose `cdr` is `Null`, which gets `cdrPart`. -/
def setLastCdr : Nat → Value → Value → Store → Option Store
  | 0, _, _, _ => none
  | fuel + 1, current, cdrPart, σ =>
    match σ.deref current with
    | some (.Pair car cdr) =>
      match σ.deref cdr with
      | some .Null => some (σ.update current (.Pair car cdrPart))
      | some _ => setLastCdr fuel cdr cdrPart σ
      | none => none
    | _ => none

/-- The conversion of the elements of a list, from the last to the first, onto
`tail`: `result = PairV(syntaxToValue(elements[i]), result)` (evaluation.cpp
1205-1211 and 1235-1237). -/
def consAll (conv : Syntax → Store → Outcome Value) :
    List Syntax → Value → Store → Outcome Value
  | [], tail, σ => .ok tail [] σ
  | s :: rest, tail, σ =>
    match consAll conv rest tail σ with
    | .ok r _ σ1 =>
      match conv s σ1 with
      | .ok v _ σ2 => .ok (σ2.alloc (.Pair v r)).1 [] (σ2.alloc (.Pair v r)).2
      | other => other
    | other => other

/-- `syntaxToValue` (evaluation.cpp 1164-1242); `fuel` bounds the nesting depth
of the quoted datum.  Errors carry the empty handle, which `Quote::eval`
replaces by its own. -/
def syntaxToValue : Nat → Syntax → Store → Outcome Value
  | 0, _, _ => .timeout
  | fuel + 1, stx, σ =>
    match stx with
    | .Number n => returnNew (.Integer n) [] σ
    | .RationalSyntax num den => returnNew (.Rational num den) [] σ
    | .TrueSyntax => returnNew (.Boolean true) [] σ
    | .FalseSyntax => returnNew (.Boolean false) [] σ
    | .SymbolSyntax s => returnNew (.Symbol s) [] σ
    | .StringSyntax s => returnNew (.String s) [] σ
    | .List [] => returnNew .Null [] σ
    | .List elements =>
      match findDot elements with
      | some i =>
        if i = 0 ∨ i = elements.length - 1 then .error "Invalid dot position" [] σ
        else if elements.length ≠ i + 2 then
          .error "Dot must be followed by exactly one element" [] σ
        else
          match consAll (syntaxToValue fuel) (elements.take i) (σ.alloc .Null).1
              (σ.alloc .Null).2 with
          | .ok carPart _ σ1 =>
            match elements[i + 1]? with
            | none => .fault
            | some last =>
              match syntaxToValue fuel last σ1 with
              | .ok cdrPart _ σ2 =>
                match setLastCdr (i + 1) carPart cdrPart σ2 with
                | some σ3 => .ok carPart [] σ3
                | none => .fault
              | other => other
          | other => other
      | none =>
        consAll (syntaxToValue fuel) elements (σ.alloc .Null).1 (σ.alloc .Null).2

/-! ## Primitive and reserved names -/

/-- Modelled from the spec: the enumeration `ExprType` of `Def.hpp` (not among
the sources): the tags that `parser.cpp`, `evaluation.cpp` and `main.cpp` name
for primitives and reserved words, and `E_LISTQ` for `list?`, which the sources
do not name. -/
inductive ExprType where
  | E_VOID | E_EXIT | E_BOOLQ | E_INTQ | E_NULLQ | E_PAIRQ | E_PROCQ | E_SYMBOLQ
  | E_STRINGQ | E_LISTQ | E_DISPLAY
  | E_PLUS | E_MINUS | E_MUL | E_DIV | E_MODULO | E_EXPT | E_EQQ
  | E_LT | E_LE | E_EQ | E_GE | E_GT
  | E_CONS | E_CAR | E_CDR | E_NOT | E_SETCAR | E_SETCDR | E_LIST | E_AND | E_OR
  | E_BEGIN | E_QUOTE | E_IF | E_COND | E_LAMBDA | E_DEFINE | E_LET | E_LETREC | E_SET
  deriving DecidableEq, Repr

/-- The global tables `primitives` and `reserved_words`, which `Def.cpp` (not
among the sources) fills; the interpreter is parameterised by them. -/
structure Tables where
  primitives : List (String × ExprType)
  reserved_words : List (String × ExprType)

/-- The static table `primitive_map` of `Var::eval` (evaluation.cpp 99-129):
the body and the parameter names of the closure made for a primitive. -/
def primitive_map : ExprType → Option (Expr × List String)
  | .E_VOID => some (.MakeVoid, [])
  | .E_EXIT => some (.Exit, [])
  | .E_BOOLQ => some (.Unary .IsBoolean (.Var "parm"), ["parm"])
  | .E_INTQ => some (.Unary .IsFixnum (.Var "parm"), ["parm"])
  | .E_NULLQ => some (.Unary .IsNull (.Var "parm"), ["parm"])
  | .E_PAIRQ => some (.Unary .IsPair (.Var "parm"), ["parm"])
  | .E_PROCQ => some (.Unary .IsProcedure (.Var "parm"), ["parm"])
  | .E_SYMBOLQ => some (.Unary .IsSymbol (.Var "parm"), ["parm"])
  | .E_STRINGQ => some (.Unary .IsString (.Var "parm"), ["parm"])
  | .E_DISPLAY => some (.Unary .Display (.Var "parm"), ["parm"])
  | .E_PLUS => some (.Binary .Plus (.Var "parm1") (.Var "parm2"), ["parm1", "parm2"])
  | .E_MINUS => some (.Binary .Minus (.Var "parm1") (.Var "parm2"), ["parm1", "parm2"])
  | .E_MUL => some (.Binary .Mult (.Var "parm1") (.Var "parm2"), ["parm1", "parm2"])
  | .E_DIV => some (.Binary .Div (.Var "parm1") (.Var "parm2"), ["parm1", "parm2"])
  | .E_MODULO => some (.Binary .Modulo (.Var "parm1") (.Var "parm2"), ["parm1", "parm2"])
  | .E_EXPT => some (.Binary .Expt (.Var "parm1") (.Var "parm2"), ["parm1", "parm2"])
  | .E_EQQ => some (.Binary .IsEq (.Var "parm1") (.Var "parm2"), ["parm1", "parm2"])
  | .E_LT => some (.Binary .Less (.Var "parm1") (.Var "parm2"), ["parm1", "parm2"])
  | .E_LE => some (.Binary .LessEq (.Var "parm1") (.Var "parm2"), ["parm1", "parm2"])
  | .E_EQ => some (.Binary .Equal (.Var "parm1") (.Var "parm2"), ["parm1", "parm2"])
  | .E_GE => some (.Binary .GreaterEq (.Var "parm1") (.Var "parm2"), ["parm1", "parm2"])
  | .E_GT => some (.Binary .Greater (.Var "parm1") (.Var "parm2"), ["parm1", "parm2"])
  | .E_CONS => some (.Binary .Cons (.Var "parm1") (.Var "parm2"), ["parm1", "parm2"])
  | .E_CAR => some (.Unary .Car (.Var "parm"), ["parm"])
  | .E_CDR => some (.Unary .Cdr (.Var "parm"), ["parm"])
  | .E_NOT => some (.Unary .Not (.Var "parm"), ["parm"])
  | .E_SETCAR => some (.Binary .SetCar (.Var "parm1") (.Var "parm2"), ["parm1", "parm2"])
  | .E_SETCDR => some (.Binary .SetCdr (.Var "parm1") (.Var "parm2"), ["parm1", "parm2"])
  | _ => none

/-- The characters that `Var::eval` refuses anywhere in a name (evaluation.cpp
87): the quote (code 39), the double quote (34), the backquote (96) and `#`
(35). -/
def Var.forbiddenChars : List Char :=
  [Char.ofNat 39, Char.ofNat 34, Char.ofNat 96, Char.ofNat 35]

/-- The checks of `Var::eval` on the name itself (evaluation.cpp 79-90): the
error they raise, if any. -/
def Var.invalidName (x : String) : Option String :=
  match x.data with
  | [] => some "Empty expression"
  | c :: _ =>
    if c.isDigit ∨ c = '.' ∨ c = '@' then some "Invalid expression"
    else if x.data.any (fun c => Var.forbiddenChars.contains c) then
      some "Invalid expression"
    else none

/-- `Var::eval` (evaluation.cpp 72-141). -/
def Var.eval (T : Tables) (x : String) (e : Assoc) (σ : Store) : Result :=
  match Var.invalidName x with
  | some msg => .error msg e σ
  | none =>
    match find x e σ with
    | some matched_value => .ok matched_value e σ
    | none =>
      match T.primitives.lookup x with
      | some t =>
        let σ1 := { σ with out := σ.out ++ [.text ("Found primitive: " ++ x ++ "\n")] }
        match primitive_map t with
        | some (body, params) => returnNew (.Procedure params body e) e σ1
        | none => .error ("Variable " ++ x ++ " not defined") e σ1
      | none => .error ("Variable " ++ x ++ " not defined") e σ

/-! ## The evaluator

`eval T fuel expr e σ` is `expr->eval(e)` in the store `σ`; `fuel` bounds the
nesting depth of the calls of `eval`.  Where the source leaves the order of two
evaluations to the compiler (the two operands of `Binary::eval`), the model
evaluates from left to right. -/

/-- The loop `for (arg_expr : rands) args.push_back(arg_expr->eval(e))` of
`Variadic::eval` and `Apply::eval`. -/
def evalArgs (ev : Expr → Assoc → Store → Result) :
    List Expr → Assoc → Store → Outcome (List Value)
  | [], e, σ => .ok [] e σ
  | arg_expr :: rest, e, σ =>
    match ev arg_expr e σ with
    | .ok v e1 σ1 =>
      match evalArgs ev rest e1 σ1 with
      | .ok vs e2 σ2 => .ok (v :: vs) e2 σ2
      | .error msg e2 σ2 => .error msg e2 σ2
      | .timeout => .timeout
      | .fault => .fault
    | .error msg e1 σ1 => .error msg e1 σ1
    | .timeout => .timeout
    | .fault => .fault

/-- The loop `for (...) result = es[i]->eval(env)` that evaluates expressions
in order and keeps the last value; `result` is the value before the loop. -/
def evalSeq (ev : Expr → Assoc → Store → Result) :
    Value → List Expr → Assoc → Store → Result
  | result, [], e, σ => .ok result e σ
  | _, expr :: rest, e, σ =>
    match ev expr e σ with
    | .ok v e1 σ1 => evalSeq ev v rest e1 σ1
    | other => other

/-- The scan of `AndVar::eval` (evaluation.cpp 1264-1269): `none` when an
operand evaluated to `#f`, otherwise the state after the last operand. -/
def AndVar.scan (ev : Expr → Assoc → Store → Result) :
    List Expr → Assoc → Store → Outcome (Option Unit)
  | [], e, σ => .ok (some ()) e σ
  | expr :: rest, e, σ =>
    match ev expr e σ with
    | .ok result e1 σ1 =>
      match σ1.deref result with
      | none => .fault
      | some c => if check_true c then AndVar.scan ev rest e1 σ1 else .ok none e1 σ1
    | .error msg e1 σ1 => .error msg e1 σ1
    | .timeout => .timeout
    | .fault => .fault

/-- The loop of `OrVar::eval` (evaluation.cpp 1280-1285): the first value that
is not `#f`, or `none` when every operand evaluated to `#f`. -/
def OrVar.scan (ev : Expr → Assoc → Store → Result) :
    List Expr → Assoc → Store → Outcome (Option Value)
  | [], e, σ => .ok none e σ
  | expr :: rest, e, σ =>
    match ev expr e σ with
    | .ok result e1 σ1 =>
      match σ1.deref result with
      | none => .fault
      | some c => if check_true c then .ok (some result) e1 σ1 else OrVar.scan ev rest e1 σ1
    | .error msg e1 σ1 => .error msg e1 σ1
    | .timeout => .timeout
    | .fault => .fault

/-- The body of a matching `cond` clause (evaluation.cpp 1318-1322 and
1344-1348): `result = VoidV()`, then the expressions after the test in order. -/
def Cond.evalBody (ev : Expr → Assoc → Store → Result) (body : List Expr) (env : Assoc)
    (σ : Store) : Result :=
  evalSeq ev (σ.alloc .Void).1 body env (σ.alloc .Void).2

/-- The loop of `Cond::eval` over the clauses (evaluation.cpp 1304-1355). -/
def Cond.evalClauses (ev : Expr → Assoc → Store → Result) :
    List (List Expr) → Assoc → Store → Result
  | [], env, σ => returnNew .Void env σ
  | [] :: rest, env, σ => Cond.evalClauses ev rest env σ
  | (.Var x :: body) :: rest, env, σ =>
    if x = "else" then
      match body with
      | [] => returnNew .Void env σ
      | _ => Cond.evalBody ev body env σ
    else Cond.evalClauses ev rest env σ
  | (test :: body) :: rest, env, σ =>
    match ev test env σ with
    | .ok condition_value env1 σ1 =>
      match σ1.deref condition_value with
      | none => .fault
      | some c =>
        if (match c with | .Boolean b => b | _ => true) then
          match body with
          | [] => .ok condition_value env1 σ1
          | _ => Cond.evalBody ev body env1 σ1
        else Cond.evalClauses ev rest env1 σ1
    | other => other

/-- The scan of `Begin::eval` for the leading run of `define` forms
(evaluation.cpp 980-994): the names and initialisers of the run, and the
expressions from `first_non_define` on. -/
def Begin.leadingDefines : List Expr → List (String × Expr) × List Expr
  | .Define var e :: rest =>
    ((var, e) :: (Begin.leadingDefines rest).1, (Begin.leadingDefines rest).2)
  | es => ([], es)

/-- The loop `new_env = extend(name, placeholder, new_env)` that pre-binds the
names of a group; `placeholder` builds the placeholder of each binding. -/
def extendAll (placeholder : Store → Option Value × Store) :
    List String → Assoc → Store → Assoc × Store
  | [], env, σ => (env, σ)
  | x :: rest, env, σ =>
    let p := placeholder σ
    let r := extend x p.1 env p.2
    extendAll placeholder rest r.1 r.2

/-- The null placeholder `Value(nullptr)`. -/
def nullPlaceholder (σ : Store) : Option Value × Store := (none, σ)

/-- The placeholder `VoidV()` of `Begin::eval`. -/
def voidPlaceholder (σ : Store) : Option Value × Store :=
  (some (σ.alloc .Void).1, (σ.alloc .Void).2)

/-- The loop `value = def.second->eval(env); modify(def.first, value, env)` of
`Begin::eval` (evaluation.cpp 1013-1017) and `evaluateDefineGroup` (main.cpp
70-74): each initialiser is evaluated and its binding patched at once. -/
def evalAndPatch (ev : Expr → Assoc → Store → Result) :
    List (String × Expr) → Assoc → Store → Outcome Unit
  | [], env, σ => .ok () env σ
  | (x, init) :: rest, env, σ =>
    match ev init env σ with
    | .ok value env1 σ1 => evalAndPatch ev rest env1 (modify x value env1 σ1)
    | .error msg env1 σ1 => .error msg env1 σ1
    | .timeout => .timeout
    | .fault => .fault

/-- The loop `values.push_back(b.second->eval(env))` of `Let::eval` and
`Letrec::eval`. -/
def evalBindings (ev : Expr → Assoc → Store → Result) :
    List (String × Expr) → Assoc → Store → Outcome (List Value)
  | [], env, σ => .ok [] env σ
  | (_, init) :: rest, env, σ =>
    match ev init env σ with
    | .ok v env1 σ1 =>
      match evalBindings ev rest env1 σ1 with
      | .ok vs env2 σ2 => .ok (v :: vs) env2 σ2
      | .error msg env2 σ2 => .error msg env2 σ2
      | .timeout => .timeout
      | .fault => .fault
    | .error msg env1 σ1 => .error msg env1 σ1
    | .timeout => .timeout
    | .fault => .fault

/-- The loop `new_env = extend(names[i], values[i], new_env)` of `Let::eval`
and `Apply::eval`, which stops at the shorter of the two vectors. -/
def extendValues : List String → List Value → Assoc → Store → Assoc × Store
  | x :: xs, v :: vs, env, σ =>
    let r := extend x (some v) env σ
    extendValues xs vs r.1 r.2
  | _, _, env, σ => (env, σ)

/-- The loop `modify(bind[i].first, values[i], current_env)` of `Letrec::eval`
(evaluation.cpp 1507-1509). -/
def modifyAll : List String → List Value → Assoc → Store → Store
  | x :: xs, v :: vs, env, σ => modifyAll xs vs env (modify x v env σ)
  | _, _, _, σ => σ

/-- `eval`: the method `eval(Assoc &e)` of every expression class
(evaluation.cpp 25-70, 966-1034, 1244-1247, 1258-1532).  For `Let::eval` the
sources end after the loop that extends the environment; its last step, the
evaluation of the body in the extended environment, is modelled from the spec
("evaluate body there"). -/
def eval (T : Tables) : Nat → Expr → Assoc → Store → Result
  | 0, _, _, _ => .timeout
  | fuel + 1, expr, e, σ =>
    match expr with
    | .Fixnum n => returnNew (.Integer n) e σ
    | .RationalNum num den => returnNew (.Rational num den) e σ
    | .StringExpr s => returnNew (.String s) e σ
    | .True => returnNew (.Boolean true) e σ
    | .False => returnNew (.Boolean false) e σ
    | .MakeVoid => returnNew .Void e σ
    | .Exit => returnNew .Terminate e σ
    | .Unary op rand =>
      match eval T fuel rand e σ with
      | .ok v e1 σ1 => Unary.evalRator op v e1 σ1
      | other => other
    | .Binary op rand1 rand2 =>
      match eval T fuel rand1 e σ with
      | .ok v1 e1 σ1 =>
        match eval T fuel rand2 e1 σ1 with
        | .ok v2 e2 σ2 => Binary.evalRator op v1 v2 e2 σ2
        | other => other
      | other => other
    | .Variadic op rands =>
      match evalArgs (eval T fuel) rands e σ with
      | .ok evaluated_args e1 σ1 => Variadic.evalRator op evaluated_args e1 σ1
      | .error msg e1 σ1 => .error msg e1 σ1
      | .timeout => .timeout
      | .fault => .fault
    | .AndVar rands =>
      match rands with
      | [] => returnNew (.Boolean true) e σ
      | _ =>
        match AndVar.scan (eval T fuel) rands e (σ.alloc (.Boolean true)).2 with
        | .ok none e1 σ1 => returnNew (.Boolean false) e1 σ1
        | .ok (some _) e1 σ1 =>
          match rands.getLast? with
          | some last => eval T fuel last e1 σ1
          | none => .fault
        | .error msg e1 σ1 => .error msg e1 σ1
        | .timeout => .timeout
        | .fault => .fault
    | .OrVar rands =>
      match rands with
      | [] => returnNew (.Boolean false) e σ
      | _ =>
        match OrVar.scan (eval T fuel) rands e σ with
        | .ok (some result) e1 σ1 => .ok result e1 σ1
        | .ok none e1 σ1 => returnNew (.Boolean false) e1 σ1
        | .error msg e1 σ1 => .error msg e1 σ1
        | .timeout => .timeout
        | .fault => .fault
    | .Var x => Var.eval T x e σ
    | .Quote s => (syntaxToValue fuel s σ).withEnv e
    | .If cond conseq alter =>
      match eval T fuel cond e σ with
      | .ok result e1 σ1 =>
        match σ1.deref result with
        | none => .fault
        | some c =>
          if check_true c then eval T fuel conseq e1 σ1
          else eval T fuel alter e1 σ1
      | other => other
    | .Cond clauses => Cond.evalClauses (eval T fuel) clauses e σ
    | .Lambda x body => returnNew (.Procedure x body e) e σ
    | .Apply rator rand =>
      match eval T fuel rator e σ with
      | .ok proc_value e1 σ1 =>
        match σ1.deref proc_value with
        | none => .fault
        | some (.Procedure parameters body env) =>
          match evalArgs (eval T fuel) rand e1 σ1 with
          | .ok args e2 σ2 =>
            if args.length ≠ parameters.length then
              .error "Wrong number of arguments" e2 σ2
            else
              let p := extendValues parameters args env σ2
              (eval T fuel body p.1 p.2).withEnv e2
          | .error msg e2 σ2 => .error msg e2 σ2
          | .timeout => .timeout
          | .fault => .fault
        | some _ => .error "Attempt to apply a non-procedure" e1 σ1
      | other => other
    | .Define var init =>
      if (T.primitives.lookup var).isSome ∨ (T.reserved_words.lookup var).isSome then
        .error "Undefined variable" e σ
      else
        let p := extend var none e σ
        match eval T fuel init p.1 p.2 with
        | .ok value env1 σ1 => returnNew .Void env1 (modify var value env1 σ1)
        | other => other
    | .Let bind body =>
      match evalBindings (eval T fuel) bind e σ with
      | .ok values env1 σ1 =>
        let p := extendValues (bind.map Prod.fst) values env1 σ1
        (eval T fuel body p.1 p.2).withEnv env1
      | .error msg env1 σ1 => .error msg env1 σ1
      | .timeout => .timeout
      | .fault => .fault
    | .Letrec bind body =>
      let p := extendAll nullPlaceholder (bind.map Prod.fst) e σ
      match evalBindings (eval T fuel) bind p.1 p.2 with
      | .ok values env1 σ1 =>
        (eval T fuel body env1 (modifyAll (bind.map Prod.fst) values env1 σ1)).withEnv e
      | .error msg _ σ1 => .error msg e σ1
      | .timeout => .timeout
      | .fault => .fault
    | .Set var init =>
      match eval T fuel init e σ with
      | .ok new_value env1 σ1 =>
        match find var env1 σ1 with
        | none => .error "No such variable" env1 σ1
        | some _ => returnNew .Void env1 (modify var new_value env1 σ1)
      | other => other
    | .Begin es =>
      match es with
      | [] => returnNew .Void e σ
      | first :: others =>
        match Begin.leadingDefines es with
        | ([], _) =>
          match eval T fuel first e σ with
          | .ok result e1 σ1 => evalSeq (eval T fuel) result others e1 σ1
          | other => other
        | (internal_defs, remaining) =>
          let p := extendAll voidPlaceholder (internal_defs.map Prod.fst) e σ
          match evalAndPatch (eval T fuel) internal_defs p.1 p.2 with
          | .ok _ new_env σ1 =>
            match remaining with
            | [] => returnNew .Void e σ1
            | next :: more =>
              match eval T fuel next new_env σ1 with
              | .ok result env2 σ2 => (evalSeq (eval T fuel) result more env2 σ2).withEnv e
              | other => other.withEnv e
          | .error msg _ σ1 => .error msg e σ1
          | .timeout => .timeout
          | .fault => .fault

/-- The first loop of `evaluateDefineGroup` (main.cpp 61-66): each name is
checked against the tables and pre-bound to the null placeholder; the handle
keeps the bindings made before a refused name. -/
def evaluateDefineGroup.prebind (T : Tables) :
    List (String × Expr) → Assoc → Store → Outcome Unit
  | [], env, σ => .ok () env σ
  | (x, _) :: rest, env, σ =>
    if (T.primitives.lookup x).isSome ∨ (T.reserved_words.lookup x).isSome then
      .error ("Cannot redefine primitive: " ++ x) env σ
    else
      evaluateDefineGroup.prebind T rest (extend x none env σ).1 (extend x none env σ).2

/-- The second loop of `evaluateDefineGroup` (main.cpp 70-74): each initialiser
is evaluated and its binding patched, and `last_result` is a new `Void`. -/
def evaluateDefineGroup.loop (ev : Expr → Assoc → Store → Result) :
    List (String × Expr) → Value → Assoc → Store → Result
  | [], last_result, env, σ => .ok last_result env σ
  | (x, init) :: rest, _, env, σ =>
    match ev init env σ with
    | .ok val env1 σ1 =>
      evaluateDefineGroup.loop ev rest ((modify x val env1 σ1).alloc .Void).1 env1
        ((modify x val env1 σ1).alloc .Void).2
    | other => other

/-- `evaluateDefineGroup` (main.cpp 59-77). -/
def evaluateDefineGroup (T : Tables) (fuel : Nat) (defines : List (String × Expr))
    (env : Assoc) (σ : Store) : Result :=
  match evaluateDefineGroup.prebind T defines env σ with
  | .ok _ env1 σ1 =>
    evaluateDefineGroup.loop (eval T fuel) defines (σ1.alloc .Void).1 env1 (σ1.alloc .Void).2
  | .error msg env1 σ1 => .error msg env1 σ1
  | .timeout => .timeout
  | .fault => .fault

/-! ## The syntax resolver

`parse T fuel stx env σ` is `stx->parse(env)` in the store `σ`; `fuel` bounds
the nesting depth of the syntax tree.  `parse` never assigns to its handle
`Assoc &env`; it reads the binding cells through `find` and allocates the
`NullV()` placeholders of the binders it resolves.  Where the source leaves
the order of evaluation of constructor arguments to the compiler, the model
resolves them from left to right. -/

/-- The outcome of resolving a piece of syntax: the result and the store, a
thrown `RuntimeError` and the store, or `timeout` when the recursion bound of
the model was reached. -/
inductive Parsed (α : Type) where
  | ok (a : α) (σ : Store)
  | error (msg : String) (σ : Store)
  | timeout

/-- The loop `for (...) parameters.push_back(stxs[i]->parse(env))`. -/
def parseAll (p : Syntax → Store → Parsed Expr) : List Syntax → Store → Parsed (List Expr)
  | [], σ => .ok [] σ
  | s :: rest, σ =>
    match p s σ with
    | .ok x σ1 =>
      match parseAll p rest σ1 with
      | .ok xs σ2 => .ok (x :: xs) σ2
      | .error msg σ2 => .error msg σ2
      | .timeout => .timeout
    | .error msg σ1 => .error msg σ1
    | .timeout => .timeout

/-- The loop of the `E_COND` case (parser.cpp 214-224): every clause must be a
non-empty list, whose elements are all resolved. -/
def parseClauses (p : Syntax → Store → Parsed Expr) :
    List Syntax → Store → Parsed (List (List Expr))
  | [], σ => .ok [] σ
  | .List (s :: ss) :: rest, σ =>
    match parseAll p (s :: ss) σ with
    | .ok clause_exprs σ1 =>
      match parseClauses p rest σ1 with
      | .ok clauses σ2 => .ok (clause_exprs :: clauses) σ2
      | .error msg σ2 => .error msg σ2
      | .timeout => .timeout
    | .error msg σ1 => .error msg σ1
    | .timeout => .timeout
  | _ :: _, σ => .error "Invalid cond clause" σ

/-- The loop of the `E_LAMBDA` case over the parameter list (parser.cpp
233-240): each parameter is resolved in `env` and must resolve to a variable,
which is bound to a fresh `NullV()` in `New_env`. -/
def parseParams (p : Syntax → Store → Parsed Expr) :
    List Syntax → Assoc → Store → Parsed (List String × Assoc)
  | [], New_env, σ => .ok ([], New_env) σ
  | s :: rest, New_env, σ =>
    match p s σ with
    | .ok (.Var x) σ1 =>
      match parseParams p rest ((extend x (some (σ1.alloc .Null).1) New_env
          (σ1.alloc .Null).2).1) ((extend x (some (σ1.alloc .Null).1) New_env
          (σ1.alloc .Null).2).2) with
      | .ok (vars, env2) σ2 => .ok (x :: vars, env2) σ2
      | .error msg σ2 => .error msg σ2
      | .timeout => .timeout
    | .ok _ σ1 => .error "Invalid input of variable" σ1
    | .error msg σ1 => .error msg σ1
    | .timeout => .timeout

/-- The loop of the function-definition sugar over the parameters (parser.cpp
274-280): every parameter must be a symbol. -/
def defineParams : List Syntax → Option (List String)
  | [] => some []
  | .SymbolSyntax s :: rest => (defineParams rest).map (s :: ·)
  | _ :: _ => none

/-- The loop of the `E_LET` case over the binding list (parser.cpp 335-349):
each binding is a list of two elements headed by a symbol; its initialiser is
resolved in `env` (by `p`), and the name is bound in `local_env`. -/
def parseLetBindings (p : Syntax → Store → Parsed Expr) :
    List Syntax → Assoc → Store → Parsed (List (String × Expr) × Assoc)
  | [], local_env, σ => .ok ([], local_env) σ
  | .List [first, last] :: rest, local_env, σ =>
    match first with
    | .SymbolSyntax x =>
      match p last σ with
      | .ok temp_expr σ1 =>
        match parseLetBindings p rest ((extend x (some (σ1.alloc .Null).1) local_env
            (σ1.alloc .Null).2).1) ((extend x (some (σ1.alloc .Null).1) local_env
            (σ1.alloc .Null).2).2) with
        | .ok (binded, env2) σ2 => .ok ((x, temp_expr) :: binded, env2) σ2
        | .error msg σ2 => .error msg σ2
        | .timeout => .timeout
      | .error msg σ1 => .error msg σ1
      | .timeout => .timeout
    | _ => .error "Invalid input of identifier" σ
  | _ :: _, _, σ => .error "Invalid let binding list" σ

/-- The first loop of the `E_LETREC` case (parser.cpp 368-375): every binding
is a list of two elements headed by a symbol, and every name is bound in
`temp_env`. -/
def letrecNames : List Syntax → Assoc → Store → Parsed (Assoc)
  | [], temp_env, σ => .ok temp_env σ
  | .List [first, _] :: rest, temp_env, σ =>
    match first with
    | .SymbolSyntax x =>
      letrecNames rest ((extend x (some (σ.alloc .Null).1) temp_env (σ.alloc .Null).2).1)
        ((extend x (some (σ.alloc .Null).1) temp_env (σ.alloc .Null).2).2)
    | _ => .error "Invalid letrec binding variable" σ
  | _ :: _, _, σ => .error "Invalid letrec binding" σ

/-- The second loop of the `E_LETREC` case (parser.cpp 377-383): every
initialiser is resolved in `temp_env` (by `p`). -/
def parseLetrecBindings (p : Syntax → Store → Parsed Expr) :
    List Syntax → Store → Parsed (List (String × Expr))
  | [], σ => .ok [] σ
  | .List [.SymbolSyntax x, init] :: rest, σ =>
    match p init σ with
    | .ok temp_store σ1 =>
      match parseLetrecBindings p rest σ1 with
      | .ok binded σ2 => .ok ((x, temp_store) :: binded) σ2
      | .error msg σ2 => .error msg σ2
      | .timeout => .timeout
    | .error msg σ1 => .error msg σ1
    | .timeout => .timeout
  | _ :: _, σ => .error "Invalid letrec binding" σ

/-- The specialisation of a primitive by operator and operand count in
`List::parse` (parser.cpp 89-191); `op` is the head symbol. -/
def parsePrimitive (op : String) (op_type : ExprType) (parameters : List Expr) :
    Except String Expr :=
  match op_type with
  | .E_PLUS =>
    match parameters with
    | [] => .ok (.Variadic .PlusVar parameters)
    | [p0] => .ok p0
    | [p0, p1] => .ok (.Binary .Plus p0 p1)
    | _ => .ok (.Variadic .PlusVar parameters)
  | .E_MINUS =>
    match parameters with
    | [] => .error "Wrong number of arguments for -"
    | [_] => .ok (.Variadic .MinusVar parameters)
    | [p0, p1] => .ok (.Binary .Minus p0 p1)
    | _ => .ok (.Variadic .MinusVar parameters)
  | .E_MUL =>
    match parameters with
    | [] => .ok (.Variadic .MultVar parameters)
    | [p0] => .ok p0
    | [p0, p1] => .ok (.Binary .Mult p0 p1)
    | _ => .ok (.Variadic .MultVar parameters)
  | .E_DIV =>
    match parameters with
    | [] => .error "Wrong number of arguments for /"
    | [_] => .ok (.Variadic .DivVar parameters)
    | [p0, p1] => .ok (.Binary .Div p0 p1)
    | _ => .ok (.Variadic .DivVar parameters)
  | .E_MODULO =>
    match parameters with
    | [p0, p1] => .ok (.Binary .Modulo p0 p1)
    | _ => .error "Wrong number of arguments for modulo"
  | .E_LIST => .ok (.Variadic .ListFunc parameters)
  | .E_LT =>
    match parameters with
    | [] => .error "Wrong number of arguments for <"
    | [_] => .error "Wrong number of arguments for <"
    | [p0, p1] => .ok (.Binary .Less p0 p1)
    | _ => .ok (.Variadic .LessVar parameters)
  | .E_LE =>
    match parameters with
    | [] => .error "Wrong number of arguments for <="
    | [_] => .error "Wrong number of arguments for <="
    | [p0, p1] => .ok (.Binary .LessEq p0 p1)
    | _ => .ok (.Variadic .LessEqVar parameters)
  | .E_EQ =>
    match parameters with
    | [] => .error "Wrong number of arguments for ="
    | [_] => .error "Wrong number of arguments for ="
    | [p0, p1] => .ok (.Binary .Equal p0 p1)
    | _ => .ok (.Variadic .EqualVar parameters)
  | .E_GE =>
    match parameters with
    | [] => .error "Wrong number of arguments for >="
    | [_] => .error "Wrong number of arguments for >="
    | [p0, p1] => .ok (.Binary .GreaterEq p0 p1)
    | _ => .ok (.Variadic .GreaterEqVar parameters)
  | .E_GT =>
    match parameters with
    | [] => .error "Wrong number of arguments for >"
    | [_] => .error "Wrong number of arguments for >"
    | [p0, p1] => .ok (.Binary .Greater p0 p1)
    | _ => .ok (.Variadic .GreaterVar parameters)
  | .E_AND => .ok (.AndVar parameters)
  | .E_OR => .ok (.OrVar parameters)
  | _ => .ok (.Apply (.Var op) parameters)

/-- The body of a `lambda`, of the function-definition sugar and of a `let`:
a single expression, or several wrapped in a `Begin`. -/
def wrapBody (body_exprs : List Expr) : Expr :=
  match body_exprs with
  | [single] => single
  | _ => .Begin body_exprs

/-- `parse`: the method `parse(Assoc &env)` of every syntax class (parser.cpp
30-417). -/
def parse (T : Tables) : Nat → Syntax → Assoc → Store → Parsed Expr
  | 0, _, _, _ => .timeout
  | fuel + 1, stx, env, σ =>
    match stx with
    | .Number n => .ok (.Fixnum n) σ
    | .RationalSyntax num den => .ok (.RationalNum num den) σ
    | .SymbolSyntax s => .ok (.Var s) σ
    | .StringSyntax s => .ok (.StringExpr s) σ
    | .TrueSyntax => .ok .True σ
    | .FalseSyntax => .ok .False σ
    | .List [] => .ok (.Quote (.List [])) σ
    | .List (.SymbolSyntax op :: args) =>
      if (find op env σ).isSome then
        match parseAll (fun s => parse T fuel s env) args σ with
        | .ok parameters σ1 => .ok (.Apply (.Var op) parameters) σ1
        | .error msg σ1 => .error msg σ1
        | .timeout => .timeout
      else
        match T.primitives.lookup op with
        | some op_type =>
          match parseAll (fun s => parse T fuel s env) args σ with
          | .ok parameters σ1 =>
            match parsePrimitive op op_type parameters with
            | .ok expr => .ok expr σ1
            | .error msg => .error msg σ1
          | .error msg σ1 => .error msg σ1
          | .timeout => .timeout
        | none =>
          match T.reserved_words.lookup op with
          | some .E_BEGIN =>
            match parseAll (fun s => parse T fuel s env) args σ with
            | .ok passed_exprs σ1 => .ok (.Begin passed_exprs) σ1
            | .error msg σ1 => .error msg σ1
            | .timeout => .timeout
          | some .E_QUOTE =>
            match args with
            | [quoted] => .ok (.Quote quoted) σ
            | _ => .error "wrong parameter number for quote" σ
          | some .E_IF =>
            match args with
            | [s1, s2, s3] =>
              match parseAll (fun s => parse T fuel s env) [s1, s2, s3] σ with
              | .ok [cond, conseq, alter] σ1 => .ok (.If cond conseq alter) σ1
              | .ok _ σ1 => .error "wrong parameter number for if" σ1
              | .error msg σ1 => .error msg σ1
              | .timeout => .timeout
            | _ => .error "wrong parameter number for if" σ
          | some .E_COND =>
            match args with
            | [] => .error "wrong parameter number for cond" σ
            | _ =>
              match parseClauses (fun s => parse T fuel s env) args σ with
              | .ok clauses σ1 => .ok (.Cond clauses) σ1
              | .error msg σ1 => .error msg σ1
              | .timeout => .timeout
          | some .E_LAMBDA =>
            match args with
            | .List paras :: body1 :: bodies =>
              match parseParams (fun s => parse T fuel s env) paras env σ with
              | .ok (vars, New_env) σ1 =>
                match parseAll (fun s => parse T fuel s New_env) (body1 :: bodies) σ1 with
                | .ok body_exprs σ2 => .ok (.Lambda vars (wrapBody body_exprs)) σ2
                | .error msg σ2 => .error msg σ2
                | .timeout => .timeout
              | .error msg σ1 => .error msg σ1
              | .timeout => .timeout
            | _ :: _ :: _ => .error "Invalid lambda parameter list" σ
            | _ => .error "wrong parameter number for lambda" σ
          | some .E_DEFINE =>
            match args with
            | .List func_def_list :: body1 :: bodies =>
              match func_def_list with
              | [] => .error "Invalid function definition: empty parameter list" σ
              | .SymbolSyntax func_name :: params =>
                match defineParams params with
                | none => .error "Invalid parameter in function definition" σ
                | some param_names =>
                  match parseAll (fun s => parse T fuel s env) (body1 :: bodies) σ with
                  | .ok body_exprs σ1 =>
                    .ok (.Define func_name (.Lambda param_names (wrapBody body_exprs))) σ1
                  | .error msg σ1 => .error msg σ1
                  | .timeout => .timeout
              | _ :: _ => .error "Invalid function name in define" σ
            | [first, init] =>
              match first with
              | .SymbolSyntax var_id =>
                match parse T fuel init env σ with
                | .ok e σ1 => .ok (.Define var_id e) σ1
                | .error msg σ1 => .error msg σ1
                | .timeout => .timeout
              | _ => .error "Invalid define variable" σ
            | _ :: _ :: _ => .error "wrong parameter number for simple define" σ
            | _ => .error "wrong parameter number for define" σ
          | some .E_LET =>
            match args with
            | .List binders :: body1 :: bodies =>
              match parseLetBindings (fun s => parse T fuel s env) binders env σ with
              | .ok (binded_vector, local_env) σ1 =>
                match parseAll (fun s => parse T fuel s local_env) (body1 :: bodies) σ1 with
                | .ok body_exprs σ2 => .ok (.Let binded_vector (wrapBody body_exprs)) σ2
                | .error msg σ2 => .error msg σ2
                | .timeout => .timeout
              | .error msg σ1 => .error msg σ1
              | .timeout => .timeout
            | _ :: _ :: _ => .error "Invalid let binding list" σ
            | _ => .error "wrong parameter number for let" σ
          | some .E_LETREC =>
            match args with
            | [.List binders, body] =>
              match letrecNames binders env σ with
              | .ok temp_env σ1 =>
                match parseLetrecBindings (fun s => parse T fuel s temp_env) binders σ1 with
                | .ok binded_vector σ2 =>
                  match parse T fuel body temp_env σ2 with
                  | .ok b σ3 => .ok (.Letrec binded_vector b) σ3
                  | .error msg σ3 => .error msg σ3
                  | .timeout => .timeout
                | .error msg σ2 => .error msg σ2
                | .timeout => .timeout
              | .error msg σ1 => .error msg σ1
              | .timeout => .timeout
            | [_, _] => .error "Invalid letrec binding list" σ
            | _ => .error "wrong parameter number for letrec" σ
          | some .E_SET =>
            match args with
            | [.SymbolSyntax var_name, value] =>
              match parse T fuel value env σ with
              | .ok value_expr σ1 => .ok (.Set var_name value_expr) σ1
              | .error msg σ1 => .error msg σ1
              | .timeout => .timeout
            | _ => .error "Invalid set! syntax" σ
          | some _ => .error ("Unknown reserved word: " ++ op) σ
          | none =>
            match parseAll (fun s => parse T fuel s env) args σ with
            | .ok to_expr σ1 => .ok (.Apply (.Var op) to_expr) σ1
            | .error msg σ1 => .error msg σ1
            | .timeout => .timeout
    | .List (head :: args) =>
      match parseAll (fun s => parse T fuel s env) args σ with
      | .ok parameters σ1 =>
        match parse T fuel head env σ1 with
        | .ok rator σ2 => .ok (.Apply rator parameters) σ2
        | .error msg σ2 => .error msg σ2
        | .timeout => .timeout
      | .error msg σ1 => .error msg σ1
      | .timeout => .timeout

/-! ## Vocabulary of the properties -/

/-- The divisor is zero-valued: `Integer 0`, or a `Rational` whose numerator is 0. -/
def zeroValued : ValueBase → Bool
  | .Integer n => decide (n = 0)
  | .Rational num _ => decide (num = 0)
  | _ => false

/-- The dividend is a `Rational` and the `int` product of its denominator with
the numerator of the divisor is 0. -/
def denominatorProductIsZero (v1 v2 : ValueBase) : Prop :=
  match v1 with
  | .Rational _ den1 => imul den1 (numOf v2) = 0
  | _ => False

/-- A numeric operand whose denominator, if it is a `Rational`, is strictly
positive. -/
def numericPos (v : ValueBase) : Prop := isNumeric v = true ∧ 0 < denOf v

instance (v : ValueBase) : Decidable (numericPos v) :=
  inferInstanceAs (Decidable (isNumeric v = true ∧ 0 < denOf v))

/-- The object that the binary arithmetic operators build from the exact
numerator `n`: an `Integer` when both operands are `Integer`s, otherwise the
`Rational` whose denominator is the product of the operands' denominators. -/
def crossResult (v1 v2 : ValueBase) (n : Int) : ValueBase :=
  if isInteger v1 = true ∧ isInteger v2 = true then .Integer n
  else .Rational n (denOf v1 * denOf v2)

/-- The exact product of the denominators of the operands. -/
def denProduct (args : List ValueBase) : Int := (args.map denOf).prod

/-- Every exact denominator that the division fold computes from the
denominator `d` of its accumulator (the product of `d` with the absolute
values of the numerators of the divisors so far) is at most `INT_MAX`. -/
def divDenominatorsFit : Int → List ValueBase → Prop
  | _, [] => True
  | d, a :: rest => d * |numOf a| ≤ INT_MAX ∧ divDenominatorsFit (d * |numOf a|) rest

/-- The hypothesis of the division fold for the whole argument vector of
`DivVar`: a single operand divides `Integer 1`, otherwise the fold starts from
the first operand. -/
def DivVar.denominatorsFit : List ValueBase → Prop
  | [] => True
  | [a0] => divDenominatorsFit 1 [a0]
  | a0 :: rest => divDenominatorsFit (denOf a0) rest

/-- The three-way comparison `(l < r) ? -1 : (l > r) ? 1 : 0`. -/
def threeWay (l r : Int) : Int := if l < r then -1 else if l > r then 1 else 0

/-- Every adjacent pair of `args` satisfies the binary relation `B`, that is
`B(args[i], args[i+1])` returns `#t`. -/
def adjacentPairs (B : ValueBase → ValueBase → Res) (args : List ValueBase) : Prop :=
  List.Chain' (fun x y => B x y = .ok (.Boolean true)) args

/-- The statement of C8 for one chained operator `V` and its binary relation
`B`. -/
def chainedSpec (V : List ValueBase → Res) (B : ValueBase → ValueBase → Res)
    (args : List ValueBase) : Prop :=
  (args.length < 2 → V args = .error "Wrong number of arguments") ∧
  ((∀ a ∈ args, isNumeric a = true) → 2 ≤ args.length →
    ∃ b, V args = .ok (.Boolean b) ∧ (b = true ↔ adjacentPairs B args)) ∧
  (∀ (pre : List ValueBase) (a b : ValueBase) (rest : List ValueBase),
    (∀ x ∈ pre ++ [a, b], isNumeric x = true) → adjacentPairs B (pre ++ [a]) →
    B a b = .ok (.Boolean false) → V (pre ++ a :: b :: rest) = .ok (.Boolean false))

/-- Modelled from the spec: the content of the tables `primitives` and
`reserved_words`, which `Def.cpp` (not among the sources) fills.  The names are
those of the comments of `evaluation.cpp` and of the specification; the tags
are those `parser.cpp` and `Var::eval` test for them. -/
def stdTables : Tables :=
  { primitives :=
      [("+", .E_PLUS), ("-", .E_MINUS), ("*", .E_MUL), ("/", .E_DIV),
       ("modulo", .E_MODULO), ("expt", .E_EXPT),
       ("<", .E_LT), ("<=", .E_LE), ("=", .E_EQ), (">=", .E_GE), (">", .E_GT),
       ("void", .E_VOID), ("exit", .E_EXIT),
       ("boolean?", .E_BOOLQ), ("number?", .E_INTQ), ("null?", .E_NULLQ),
       ("pair?", .E_PAIRQ), ("procedure?", .E_PROCQ), ("symbol?", .E_SYMBOLQ),
       ("string?", .E_STRINGQ), ("list?", .E_LISTQ), ("display", .E_DISPLAY),
       ("eq?", .E_EQQ), ("cons", .E_CONS), ("car", .E_CAR), ("cdr", .E_CDR),
       ("not", .E_NOT), ("set-car!", .E_SETCAR), ("set-cdr!", .E_SETCDR),
       ("list", .E_LIST), ("and", .E_AND), ("or", .E_OR)],
    reserved_words :=
      [("begin", .E_BEGIN), ("quote", .E_QUOTE), ("if", .E_IF), ("cond", .E_COND),
       ("lambda", .E_LAMBDA), ("define", .E_DEFINE), ("let", .E_LET),
       ("letrec", .E_LETREC), ("set!", .E_SET)] }

/-- The content of the object that an evaluation returned. -/
def Outcome.content (r : Outcome Value) : Option ValueBase :=
  match r with
  | .ok v _ σ => σ.deref v
  | _ => none

/-- Resolve the form `stx` in `env` and evaluate the result there, as the
driver does with each form it reads (main.cpp 90 and 108). -/
def resolveAndEval (T : Tables) (fuel : Nat) (stx : Syntax) (env : Assoc) (σ : Store) :
    Result :=
  match parse T fuel stx env σ with
  | .ok expr σ1 => eval T fuel expr env σ1
  | .error msg σ1 => .error msg env σ1
  | .timeout => .timeout

/-- Evaluating the operands `xs` one after the other, from the handle `e` and
the store `σ`, gives each time an object that satisfies `P`, and leaves the
handle `e1` and the store `σ1`. -/
def evalsAll (ev : Expr → Assoc → Store → Result) (P : ValueBase → Prop) :
    List Expr → Assoc → Store → Assoc → Store → Prop
  | [], e, σ, e1, σ1 => e1 = e ∧ σ1 = σ
  | x :: rest, e, σ, e1, σ1 =>
    ∃ v e2 σ2 c, ev x e σ = .ok v e2 σ2 ∧ σ2.deref v = some c ∧ P c ∧
      evalsAll ev P rest e2 σ2 e1 σ1

/-- The object is the Boolean `#f`. -/
def isFalseObject (c : ValueBase) : Prop := c = .Boolean false

/-- The object is not the Boolean `#f`. -/
def isTrueObject (c : ValueBase) : Prop := ¬ isFalseObject c

/-- The state `(e1, σ1)` differs from the state `(e, σ)` by freshly allocated
objects only: the handle, the binding cells, the output and every object of
`σ` are the same. -/
def onlyAllocated (e : Assoc) (σ : Store) (e1 : Assoc) (σ1 : Store) : Prop :=
  e1 = e ∧ σ1.cells = σ.cells ∧ σ1.out = σ.out ∧ ∃ fresh, σ1.heap = σ.heap ++ fresh

/-- The operand `x` is side-effect free for the evaluator `ev`: an evaluation
of `x` that returns has only allocated objects. -/
def sideEffectFree (ev : Expr → Assoc → Store → Result) (x : Expr) : Prop :=
  ∀ e σ v e1 σ1, ev x e σ = .ok v e1 σ1 → onlyAllocated e σ e1 σ1

/-- Evaluating the operand `x` once more, right after an evaluation of it that
returned, returns an object of the same content. -/
def sameValueAgain (ev : Expr → Assoc → Store → Result) (x : Expr) : Prop :=
  ∀ e σ v e1 σ1, ev x e σ = .ok v e1 σ1 →
    ∃ v2 e2 σ2, ev x e1 σ1 = .ok v2 e2 σ2 ∧ σ2.deref v2 = σ1.deref v

/-- The form `(and 1 2 3)`. -/
def andExample : Syntax :=
  .List [.SymbolSyntax "and", .Number 1, .Number 2, .Number 3]

/-- The form `(or #f #f 5)`. -/
def orExample : Syntax :=
  .List [.SymbolSyntax "or", .FalseSyntax, .FalseSyntax, .Number 5]

/-- The resolved bindings and the store of an outcome of the loop over a
binding list, without the environment that the loop built. -/
def Parsed.bindings (r : Parsed (List (String × Expr) × Assoc)) :
    Parsed (List (String × Expr)) :=
  match r with
  | .ok (binded, _) σ1 => .ok binded σ1
  | .error msg σ1 => .error msg σ1
  | .timeout => .timeout

/-- The form `(let ((x 1)) (let ((x 2) (y x)) y))`. -/
def letExample : Syntax :=
  .List [.SymbolSyntax "let", .List [.List [.SymbolSyntax "x", .Number 1]],
    .List [.SymbolSyntax "let",
      .List [.List [.SymbolSyntax "x", .Number 2], .List [.SymbolSyntax "y", .SymbolSyntax "x"]],
      .SymbolSyntax "y"]]

/-- The form
`(letrec ((f (lambda (n) (if (= n 0) 1 (* n (f (- n 1))))))) (f k))`. -/
def factorialForm (k : Int) : Syntax :=
  .List [.SymbolSyntax "letrec",
    .List [.List [.SymbolSyntax "f",
      .List [.SymbolSyntax "lambda", .List [.SymbolSyntax "n"],
        .List [.SymbolSyntax "if",
          .List [.SymbolSyntax "=", .SymbolSyntax "n", .Number 0],
          .Number 1,
          .List [.SymbolSyntax "*", .SymbolSyntax "n",
            .List [.SymbolSyntax "f",
              .List [.SymbolSyntax "-", .SymbolSyntax "n", .Number 1]]]]]]],
    .List [.SymbolSyntax "f", .Number k]]

/-- The environment of a `letrec` with the single name `f`: the caller's
environment and one more frame, whose binding cell is the next free one. -/
def letrecEnv (f : String) (e : Assoc) (σ : Store) : Assoc := (f, σ.cells.length) :: e

/-- The store in which the body of `(letrec ((f (lambda params body))) ...)`
is evaluated: the closure is the next free object, and the binding cell of `f`
holds it. -/
def letrecStore (f : String) (params : List String) (body : Expr) (e : Assoc) (σ : Store) :
    Store :=
  { heap := σ.heap ++ [.Procedure params body (letrecEnv f e σ)],
    cells := σ.cells ++ [some σ.heap.length],
    out := σ.out }

/-- The store `σ1` holds every object and every binding cell of `σ`, unchanged,
and possibly more. -/
def Store.grows (σ σ1 : Store) : Prop :=
  (∃ objects, σ1.heap = σ.heap ++ objects) ∧ (∃ cells, σ1.cells = σ.cells ++ cells)

/-- The form `(define (even? n) (if (= n 0) #t (odd? (- n 1))))` for
`isEven = true`, and `(define (odd? n) (if (= n 0) #f (even? (- n 1))))`. -/
def evenOddForm (isEven : Bool) : Syntax :=
  .List [.SymbolSyntax "define",
    .List [.SymbolSyntax (if isEven then "even?" else "odd?"), .SymbolSyntax "n"],
    .List [.SymbolSyntax "if", .List [.SymbolSyntax "=", .SymbolSyntax "n", .Number 0],
      if isEven then .TrueSyntax else .FalseSyntax,
      .List [.SymbolSyntax (if isEven then "odd?" else "even?"),
        .List [.SymbolSyntax "-", .SymbolSyntax "n", .Number 1]]]]

/-- The resolved body of `even?` (`isEven = true`) and of `odd?`. -/
def evenOddBody (isEven : Bool) : Expr :=
  .If (.Binary .Equal (.Var "n") (.Fixnum 0)) (if isEven then .True else .False)
    (.Apply (.Var (if isEven then "odd?" else "even?"))
      [.Binary .Minus (.Var "n") (.Fixnum 1)])

/-- The pending definitions that the driver collected from the two forms. -/
def evenOddDefines : List (String × Expr) :=
  [("even?", .Lambda ["n"] (evenOddBody true)), ("odd?", .Lambda ["n"] (evenOddBody false))]

/-- The global environment after the group of the two definitions. -/
def evenOddEnv : Assoc := [("odd?", 1), ("even?", 0)]

/-- The store after the group of the two definitions, in a fresh session. -/
def evenOddStore : Store :=
  { heap := [.Void, .Procedure ["n"] (evenOddBody true) evenOddEnv, .Void,
      .Procedure ["n"] (evenOddBody false) evenOddEnv, .Void],
    cells := [some 1, some 3],
    out := [] }

/-- The two closures are bound: the binding cells 0 and 1 hold references to
the closures of `even?` and of `odd?`. -/
def evenOddReady (σ : Store) : Prop :=
  ∃ pe po, σ.cells[0]? = some (some pe) ∧ σ.cells[1]? = some (some po) ∧
    σ.deref pe = some (.Procedure ["n"] (evenOddBody true) evenOddEnv) ∧
    σ.deref po = some (.Procedure ["n"] (evenOddBody false) evenOddEnv)

/-- The form `(let ((p (cons 1 2))) (set-car! p 9) (car p))`. -/
def setCarExample : Syntax :=
  .List [.SymbolSyntax "let",
    .List [.List [.SymbolSyntax "p", .List [.SymbolSyntax "cons", .Number 1, .Number 2]]],
    .List [.SymbolSyntax "set-car!", .SymbolSyntax "p", .Number 9],
    .List [.SymbolSyntax "car", .SymbolSyntax "p"]]

/-- The form `(let ((p (cons 1 2))) (let ((q p)) (set-cdr! q 5) (cdr p)))`. -/
def setCdrAliasExample : Syntax :=
  .List [.SymbolSyntax "let",
    .List [.List [.SymbolSyntax "p", .List [.SymbolSyntax "cons", .Number 1, .Number 2]]],
    .List [.SymbolSyntax "let", .List [.List [.SymbolSyntax "q", .SymbolSyntax "p"]],
      .List [.SymbolSyntax "set-cdr!", .SymbolSyntax "q", .Number 5],
      .List [.SymbolSyntax "cdr", .SymbolSyntax "p"]]]

/-- The store with the pair `(1 . 2)` at reference 2 and an `Integer 9` at
reference 3. -/
def onePairStore : Store :=
  { heap := [.Integer 1, .Integer 2, .Pair 0 1, .Integer 9], cells := [], out := [] }

/-- Every `cdr` field of a pair of the heap refers to an object of the heap. -/
def Store.cdrsAllocated (σ : Store) : Bool :=
  σ.heap.all fun c =>
    match c with
    | .Pair _ cdr => decide (cdr < σ.heap.length)
    | _ => true

/-- Following `cdr` from `v` reaches `Null` after finitely many pairs. -/
inductive ProperList (σ : Store) : Value → Prop where
  | null (v : Value) : σ.deref v = some .Null → ProperList σ v
  | pair (v car cdr : Value) :
    σ.deref v = some (.Pair car cdr) → ProperList σ cdr → ProperList σ v

/-- The reference refers to a pair. -/
def Store.isPair (σ : Store) (v : Value) : Bool :=
  match σ.deref v with
  | some (.Pair _ _) => true
  | _ => false

/-- One step along the `cdr` fields: the `cdr` of a pair; any other object is
where the walk stays. -/
def cdrStep (σ : Store) (v : Value) : Value :=
  match σ.deref v with
  | some (.Pair _ cdr) => cdr
  | _ => v

/-- The reference reached from `v` after `k` steps along the `cdr` fields. -/
def cdrChain (σ : Store) (v : Value) (k : Nat) : Value := (cdrStep σ)^[k] v

/-- The expression that `((lambda (p) (set-cdr! p p) (list? p)) (cons 1 2))`
stands for, with the nodes `Cons`, `SetCdr` and `IsList` applied directly. -/
def circularExample : Expr :=
  .Apply (.Lambda ["p"]
      (.Begin [.Binary .SetCdr (.Var "p") (.Var "p"), .Unary .IsList (.Var "p")]))
    [.Binary .Cons (.Fixnum 1) (.Fixnum 2)]

/-- The store holds one pair, whose `cdr` is the pair itself. -/
def selfLoopStore : Store :=
  { heap := [.Integer 1, .Pair 0 1], cells := [], out := [] }

/-- The tags of `list`, `and` and `or`, which the resolver specialises and for
which `primitive_map` has no entry. -/
def specialisedTags : List ExprType := [.E_LIST, .E_AND, .E_OR]

/-- The tags for which `primitive_map` has an entry. -/
def reifiedTags : List ExprType :=
  [.E_VOID, .E_EXIT, .E_BOOLQ, .E_INTQ, .E_NULLQ, .E_PAIRQ, .E_PROCQ, .E_SYMBOLQ,
   .E_STRINGQ, .E_DISPLAY, .E_PLUS, .E_MINUS, .E_MUL, .E_DIV, .E_MODULO, .E_EXPT, .E_EQQ,
   .E_LT, .E_LE, .E_EQ, .E_GE, .E_GT, .E_CONS, .E_CAR, .E_CDR, .E_NOT, .E_SETCAR,
   .E_SETCDR]

/-- The store after `Var::eval` announced the primitive `x` on the output. -/
def announced (x : String) (σ : Store) : Store :=
  { σ with out := σ.out ++ [.text ("Found primitive: " ++ x ++ "\n")] }

/-- The form `(list? (quote (1 2)))`. -/
def listPredicateCall : Syntax :=
  .List [.SymbolSyntax "list?",
    .List [.SymbolSyntax "quote", .List [.Number 1, .Number 2]]]

/-- The identifiers that `Var::eval` is said to refuse: the empty one, those
whose first character is a digit, `.` or `@`, and those that contain a quote
(code 39), a double quote (34), a backquote (96) or `#` (35). -/
def rejectedName (x : String) : Prop :=
  x.data = [] ∨
  (∃ c rest, x.data = c :: rest ∧ (c.isDigit = true ∨ c = '.' ∨ c = '@')) ∨
  (∃ c ∈ x.data, c = Char.ofNat 39 ∨ c = Char.ofNat 34 ∨ c = Char.ofNat 96 ∨
    c = Char.ofNat 35)

/-- The store with an `Integer 7` at reference 0, held by the binding cell 0. -/
def oneCellStore : Store := { heap := [.Integer 7], cells := [some 0], out := [] }

/-- The application of the variable `op` to the resolved operands, or the
failure of their resolution. -/
def applicationOf (op : String) (r : Parsed (List Expr)) : Parsed Expr :=
  match r with
  | .ok parameters σ1 => .ok (.Apply (.Var op) parameters) σ1
  | .error msg σ1 => .error msg σ1
  | .timeout => .timeout

/-- The lambda expression around a resolved body, or the failure of the
resolution of the body. -/
def lambdaOf (vars : List String) (r : Parsed Expr) : Parsed Expr :=
  match r with
  | .ok body σ1 => .ok (.Lambda vars body) σ1
  | .error msg σ1 => .error msg σ1
  | .timeout => .timeout

/-- The placeholder `NullV()` that the resolver binds a parameter to. -/
def nullObject (σ : Store) : Option Value × Store :=
  (some (σ.alloc .Null).1, (σ.alloc .Null).2)

/-- The form `(op 1 2)`. -/
def callOnOneTwo (op : String) : Syntax :=
  .List [.SymbolSyntax op, .Number 1, .Number 2]

/-- The form `(define (f p) (p 1 2))`. -/
def sugarForm (f p : String) : Syntax :=
  .List [.SymbolSyntax "define", .List [.SymbolSyntax f, .SymbolSyntax p], callOnOneTwo p]

/-- The form `(define f (lambda (p) (p 1 2)))`. -/
def desugaredForm (f p : String) : Syntax :=
  .List [.SymbolSyntax "define", .SymbolSyntax f,
    .List [.SymbolSyntax "lambda", .List [.SymbolSyntax p], callOnOneTwo p]]

/-- The form `(begin d (f car))`, for a definition `d` of `f`. -/
def thenCallOnCar (d : Syntax) (f : String) : Syntax :=
  .List [.SymbolSyntax "begin", d, .List [.SymbolSyntax f, .SymbolSyntax "car"]]

/-- The definition of `f` as the procedure of parameters `vars` around a
resolved body, or the failure of the resolution of the body. -/
def defineOf (f : String) (vars : List String) (r : Parsed (List Expr)) : Parsed Expr :=
  match r with
  | .ok body_exprs σ1 => .ok (.Define f (.Lambda vars (wrapBody body_exprs))) σ1
  | .error msg σ1 => .error msg σ1
  | .timeout => .timeout

/-- The name `x` is in the table of primitives or in the table of reserved
words. -/
def Tables.listed (T : Tables) (x : String) : Bool :=
  (T.primitives.lookup x).isSome || (T.reserved_words.lookup x).isSome

/-- The form `(begin (define x 1) x)`. -/
def beginDefineForm (x : String) : Syntax :=
  .List [.SymbolSyntax "begin",
    .List [.SymbolSyntax "define", .SymbolSyntax x, .Number 1], .SymbolSyntax x]

/-- The form `(begin 0 (define x 1) x)`, whose `define` is not a leading one. -/
def lateDefineForm (x : String) : Syntax :=
  .List [.SymbolSyntax "begin", .Number 0,
    .List [.SymbolSyntax "define", .SymbolSyntax x, .Number 1], .SymbolSyntax x]

/-- The handle `e1` is the handle `e` with more frames in front, whose binding
cells are cells of `σ1`; and `σ1` has at least as many binding cells as `σ`. -/
def handleGrows (e : Assoc) (σ : Store) (e1 : Assoc) (σ1 : Store) : Prop :=
  (∃ frames, e1 = frames ++ e ∧ ∀ b ∈ frames, b.2 < σ1.cells.length) ∧
    σ.cells.length ≤ σ1.cells.length

/-- The form `(begin 0 (define (fact n) (if (= n 0) 1 (* n (fact (- n 1)))))
(fact k))`, whose `define` is evaluated by `Define::eval`. -/
def defineFactorialForm (k : Int) : Syntax :=
  .List [.SymbolSyntax "begin", .Number 0,
    .List [.SymbolSyntax "define", .List [.SymbolSyntax "fact", .SymbolSyntax "n"],
      .List [.SymbolSyntax "if",
        .List [.SymbolSyntax "=", .SymbolSyntax "n", .Number 0],
        .Number 1,
        .List [.SymbolSyntax "*", .SymbolSyntax "n",
          .List [.SymbolSyntax "fact",
            .List [.SymbolSyntax "-", .SymbolSyntax "n", .Number 1]]]]],
    .List [.SymbolSyntax "fact", .Number k]]

/-- Evaluating the expressions of a non-empty sequence one after the other,
each from the handle and the store that the one before left, succeeds; the
value of the last one is `v`, and the handle and the store are then `e1` and
`σ1`. -/
def evalsInOrder (ev : Expr → Assoc → Store → Result) :
    List Expr → Assoc → Store → Value → Assoc → Store → Prop
  | [], _, _, _, _, _ => False
  | [x], e, σ, v, e1, σ1 => ev x e σ = .ok v e1 σ1
  | x :: y :: rest, e, σ, v, e1, σ1 =>
    ∃ w e2 σ2, ev x e σ = .ok w e2 σ2 ∧ evalsInOrder ev (y :: rest) e2 σ2 v e1 σ1

/-- Each initialiser of `defs` is evaluated in turn, from the handle and the
store that the step before left, and the binding of its name is patched with
its value at once; `Q` holds of the name, the value, the handle and the store
right after each patch.  The handle and the store are `e1` and `σ1` at the
end. -/
def definesPatched (ev : Expr → Assoc → Store → Result)
    (Q : String → Value → Assoc → Store → Prop) :
    List (String × Expr) → Assoc → Store → Assoc → Store → Prop
  | [], e, σ, e1, σ1 => e1 = e ∧ σ1 = σ
  | (x, init) :: rest, e, σ, e1, σ1 =>
    ∃ v e2 σ2, ev init e σ = .ok v e2 σ2 ∧ Q x v e2 (modify x v e2 σ2) ∧
      definesPatched ev Q rest e2 (modify x v e2 σ2) e1 σ1

/-- No condition on the state after a patch. -/
def anyPatch (_ : String) (_ : Value) (_ : Assoc) (_ : Store) : Prop := True

/-- After the patch, `find` of the name is the value. -/
def boundTo (x : String) (v : Value) (e : Assoc) (σ : Store) : Prop := find x e σ = some v

/-- The sequence of the definitions `defs`. -/
def definesOf (defs : List (String × Expr)) : List Expr :=
  defs.map (fun p => .Define p.1 p.2)

/-- An expression that is not a `define`. -/
def notDefine (x : Expr) : Prop := ∀ var init, x ≠ .Define var init

/-- The form `(begin forms...)`. -/
def beginForm (forms : List Syntax) : Syntax := .List (.SymbolSyntax "begin" :: forms)

/-- The form `(define x n)`. -/
def defineNumber (x : String) (n : Int) : Syntax :=
  .List [.SymbolSyntax "define", .SymbolSyntax x, .Number n]

/-- The operands `xs` are evaluated from left to right, each from the handle
and the store that the one before left, and give the values `vs`; the handle
and the store are `e1` and `σ1` at the end. -/
def operandValues (ev : Expr → Assoc → Store → Result) :
    List Expr → Assoc → Store → List Value → Assoc → Store → Prop
  | [], e, σ, vs, e1, σ1 => vs = [] ∧ e1 = e ∧ σ1 = σ
  | x :: rest, e, σ, vs, e1, σ1 =>
    ∃ v e2 σ2 more, ev x e σ = .ok v e2 σ2 ∧ operandValues ev rest e2 σ2 more e1 σ1 ∧
      vs = v :: more

/-- The object is not a `Procedure`. -/
def notProcedure (c : ValueBase) : Prop := ∀ ps body env, c ≠ .Procedure ps body env

/-- The form `((lambda (x y) (- x y)) operands...)`. -/
def callDifference (operands : List Syntax) : Syntax :=
  .List (.List [.SymbolSyntax "lambda", .List [.SymbolSyntax "x", .SymbolSyntax "y"],
    .List [.SymbolSyntax "-", .SymbolSyntax "x", .SymbolSyntax "y"]] :: operands)

/-- The form `(let ((x 1)) (let ((f (lambda () x))) (let ((x 2)) (f))))`. -/
def lexicalExample : Syntax :=
  .List [.SymbolSyntax "let", .List [.List [.SymbolSyntax "x", .Number 1]],
    .List [.SymbolSyntax "let",
      .List [.List [.SymbolSyntax "f",
        .List [.SymbolSyntax "lambda", .List [], .SymbolSyntax "x"]]],
      .List [.SymbolSyntax "let", .List [.List [.SymbolSyntax "x", .Number 2]],
        .List [.SymbolSyntax "f"]]]]

/-- The form `((lambda (x) ((lambda (f) ((lambda (x) (f)) 2)) (lambda () x))) 1)`,
the same program with each `let` written as the call of a `lambda`. -/
def lexicalLambdaExample : Syntax :=
  .List [.List [.SymbolSyntax "lambda", .List [.SymbolSyntax "x"],
    .List [.List [.SymbolSyntax "lambda", .List [.SymbolSyntax "f"],
        .List [.List [.SymbolSyntax "lambda", .List [.SymbolSyntax "x"],
          .List [.SymbolSyntax "f"]], .Number 2]],
      .List [.SymbolSyntax "lambda", .List [], .SymbolSyntax "x"]]], .Number 1]

/-- The dot token. -/
def dotToken : Syntax := .SymbolSyntax "."

/-- The element is the dot token. -/
def isDot (s : Syntax) : Bool :=
  match s with
  | .SymbolSyntax x => decide (x = ".")
  | _ => false

/-- The number of dot tokens among the elements of a list. -/
def dotCount (elements : List Syntax) : Nat := (elements.filter isDot).length

/-- The form `(quote datum)`. -/
def quoteForm (datum : Syntax) : Syntax := .List [.SymbolSyntax "quote", datum]

/-- The datum `(a . .)`. -/
def twoDotsDatum : Syntax := .List [.SymbolSyntax "a", dotToken, dotToken]

/-- The datum `(1 2 . 3)`. -/
def dottedDatum : Syntax := .List [.Number 1, .Number 2, dotToken, .Number 3]

/-- The steps of `syntaxToValue` after its two tests on the position of the
first dot: the elements `pre` before the dot are consed onto a new `Null`, the
element `last` after the dot is converted, and the `cdr` of the last pair is
set to it. -/
def dottedChain (fuel : Nat) (pre : List Syntax) (last : Syntax) (σ : Store) :
    Outcome Value :=
  match consAll (syntaxToValue fuel) pre (σ.alloc .Null).1 (σ.alloc .Null).2 with
  | .ok carPart _ σ1 =>
    match syntaxToValue fuel last σ1 with
    | .ok cdrPart _ σ2 =>
      match setLastCdr (pre.length + 1) carPart cdrPart σ2 with
      | some σ3 => .ok carPart [] σ3
      | none => .fault
    | other => other
  | other => other

/-- The object that `syntaxToValue` builds for an element that is not a
non-empty list. -/
def atomObject : Syntax → Option ValueBase
  | .Number n => some (.Integer n)
  | .RationalSyntax num den => some (.Rational num den)
  | .TrueSyntax => some (.Boolean true)
  | .FalseSyntax => some (.Boolean false)
  | .SymbolSyntax s => some (.Symbol s)
  | .StringSyntax s => some (.String s)
  | .List [] => some .Null
  | .List (_ :: _) => none

/-- Following the `cdr` fields from `v`: pairs whose `car`s refer to the objects
`objs`, in order, and then a reference to the object `c`. -/
def improperListOf (σ : Store) : Value → List ValueBase → ValueBase → Prop
  | v, [], c => σ.deref v = some c
  | v, o :: rest, c =>
    ∃ a d, σ.deref v = some (.Pair a d) ∧ σ.deref a = some o ∧ improperListOf σ d rest c

/-- Following the `cdr` fields from `r`: pairs whose `car`s refer to the objects
`objs`, in order, and then the reference `tail`; each pair was allocated after
its `car`, and its `car` after its `cdr`. -/
def descSpine (σ : Store) : Value → List ValueBase → Value → Prop
  | r, [], tail => r = tail
  | r, o :: rest, tail =>
    ∃ a d, σ.deref r = some (.Pair a d) ∧ σ.deref a = some o ∧ d < a ∧ a < r ∧
      descSpine σ d rest tail

/-- The two objects are both `Integer`, both `Boolean`, both `Symbol`, both
`Null` or both `Void`: the pairs that `eq?` does not compare by reference. -/
def sameScalarType (c1 c2 : ValueBase) : Prop :=
  match c1, c2 with
  | .Integer _, .Integer _ => True
  | .Boolean _, .Boolean _ => True
  | .Symbol _, .Symbol _ => True
  | .Null, .Null => True
  | .Void, .Void => True
  | _, _ => False

/-- The form `(eq? a b)`. -/
def eqForm (a b : Syntax) : Syntax := .List [.SymbolSyntax "eq?", a, b]

/-- The form `((lambda (p) (eq? p p)) a)`. -/
def eqSelfForm (a : Syntax) : Syntax :=
  .List [.List [.SymbolSyntax "lambda", .List [.SymbolSyntax "p"],
    eqForm (.SymbolSyntax "p") (.SymbolSyntax "p")], a]

/-- The form `(cons 1 2)`. -/
def consOneTwo : Syntax := .List [.SymbolSyntax "cons", .Number 1, .Number 2]

/-- The form `(lambda (x) x)`. -/
def identityForm : Syntax :=
  .List [.SymbolSyntax "lambda", .List [.SymbolSyntax "x"], .SymbolSyntax "x"]

/-- The operand is not an `Integer`. -/
def notInteger (c : ValueBase) : Prop := ∀ n, c ≠ .Integer n

/-- The form `(modulo a b)`. -/
def moduloForm (a b : Syntax) : Syntax := .List [.SymbolSyntax "modulo", a, b]

/-- The reference `v` of the store `σ1` is a list built on top of the store
`σ`: the objects and the binding cells of `σ` are as they were; following the
`cdr` fields from `v`, the `i`-th object is a pair that `σ` did not hold, whose
`car` is the `i`-th element of `args`; these pairs are distinct; and after
`args.length` pairs comes a `Null`. -/
def freshListOf (σ : Store) (args : List Value) (v : Value) (σ1 : Store) : Prop :=
  σ.grows σ1 ∧ σ1.cells = σ.cells ∧
  (∀ i a, args[i]? = some a →
    σ.heap.length ≤ cdrChain σ1 v i ∧
    σ1.deref (cdrChain σ1 v i) = some (.Pair a (cdrChain σ1 v (i + 1)))) ∧
  (∀ i j, i < j → j ≤ args.length → cdrChain σ1 v i ≠ cdrChain σ1 v j) ∧
  σ1.deref (cdrChain σ1 v args.length) = some .Null

/-- The expression `(list? (list 1 2 3))`, with the node `IsList` applied
directly. -/
def listOfThreeIsList : Expr :=
  .Unary .IsList (.Variadic .ListFunc [.Fixnum 1, .Fixnum 2, .Fixnum 3])

/-- The binding cell of the innermost frame that binds `x`. -/
def nearestCell (x : String) : Assoc → Option Nat
  | [] => none
  | (y, c) :: rest => if x = y then some c else nearestCell x rest

/-- Some frame of the environment binds `x` to a value. -/
def boundWithValue (x : String) (env : Assoc) (σ : Store) : Prop :=
  ∃ c v, (x, c) ∈ env ∧ σ.cells[c]? = some (some v)

/-- The store `σ` with the binding cell `c` holding `v`. -/
def Store.assign (σ : Store) (c : Nat) (v : Value) : Store :=
  { σ with cells := σ.cells.set c (some v) }

/-- An environment in which the innermost binding of `x` is a null placeholder
and an outer frame binds `x` to a value. -/
def shadowEnv : Assoc := [("x", 1), ("x", 0)]

/-- The store of `shadowEnv`: the outer `x` is 5, the inner one is the null
placeholder. -/
def shadowStore : Store := { heap := [.Integer 5], cells := [some 0, none], out := [] }

/-- The form `((lambda (x) (letrec ((x (set! x 1))) x)) 5)`. -/
def shadowedSetForm : Syntax :=
  .List [.List [.SymbolSyntax "lambda", .List [.SymbolSyntax "x"],
    .List [.SymbolSyntax "letrec",
      .List [.List [.SymbolSyntax "x",
        .List [.SymbolSyntax "set!", .SymbolSyntax "x", .Number 1]]],
      .SymbolSyntax "x"]], .Number 5]

/-- The form `((lambda (x) ((lambda (f) (begin (set! x 2) (f))) (lambda () x))) 1)`:
a closure made before the assignment is called after it. -/
def sharedSetForm : Syntax :=
  .List [.List [.SymbolSyntax "lambda", .List [.SymbolSyntax "x"],
    .List [.List [.SymbolSyntax "lambda", .List [.SymbolSyntax "f"],
        .List [.SymbolSyntax "begin",
          .List [.SymbolSyntax "set!", .SymbolSyntax "x", .Number 2],
          .List [.SymbolSyntax "f"]]],
      .List [.SymbolSyntax "lambda", .List [], .SymbolSyntax "x"]]], .Number 1]

/-- The form `((lambda (x) (begin ((lambda (x) (set! x 2)) 5) x)) 1)`: the
assignment is to the inner `x`. -/
def innerSetForm : Syntax :=
  .List [.List [.SymbolSyntax "lambda", .List [.SymbolSyntax "x"],
    .List [.SymbolSyntax "begin",
      .List [.List [.SymbolSyntax "lambda", .List [.SymbolSyntax "x"],
        .List [.SymbolSyntax "set!", .SymbolSyntax "x", .Number 2]], .Number 5],
      .SymbolSyntax "x"]], .Number 1]

/-- The resolution ended, with a result or with an error, in a store whose
output is `out`. -/
def Parsed.quiet {α : Type} (out : List Output) : Parsed α → Prop
  | .ok _ σ => σ.out = out
  | .error _ σ => σ.out = out
  | .timeout => False

/-- The resolution raised a `RuntimeError`, in a store whose output is `out`. -/
def Parsed.raisesIn {α : Type} (out : List Output) : Parsed α → Prop
  | .error _ σ => σ.out = out
  | _ => False

/-- With enough fuel, resolving `stx` in `env` raises a `RuntimeError`, and
nothing was written to the output by then. -/
def resolutionRaises (T : Tables) (stx : Syntax) (env : Assoc) (σ : Store) : Prop :=
  ∃ k, ∀ fuel, k ≤ fuel → (parse T fuel stx env σ).raisesIn σ.out

/-- The head symbol `op` is dispatched as the primitive with the tag `t`: no
frame of `env` binds it to a value and the table of the primitives gives `t`. -/
def primitiveHead (T : Tables) (op : String) (t : ExprType) (env : Assoc) (σ : Store) :
    Prop :=
  find op env σ = none ∧ T.primitives.lookup op = some t

/-- The head symbol `op` is dispatched as the reserved word with the tag `t`:
no frame of `env` binds it to a value, it is no primitive, and the table of the
reserved words gives `t`. -/
def reservedHead (T : Tables) (op : String) (t : ExprType) (env : Assoc) (σ : Store) :
    Prop :=
  find op env σ = none ∧ T.primitives.lookup op = none ∧ T.reserved_words.lookup op = some t

/-- The form `(op operands...)`. -/
def callForm (op : String) (operands : List Syntax) : Syntax :=
  .List (.SymbolSyntax op :: operands)

/-- The tags of the comparison operators `<`, `<=`, `=`, `>=` and `>`. -/
def comparisonTags : List ExprType := [.E_LT, .E_LE, .E_EQ, .E_GE, .E_GT]

/-- The form `((lambda (x) (begin (and body) x)) 0)`. -/
def andTwiceForm (body : Syntax) : Syntax :=
  .List [.List [.SymbolSyntax "lambda", .List [.SymbolSyntax "x"],
    .List [.SymbolSyntax "begin", .List [.SymbolSyntax "and", body], .SymbolSyntax "x"]],
    .Number 0]

/-- The form `(set! x (+ x 1))`. -/
def incrementForm : Syntax :=
  .List [.SymbolSyntax "set!", .SymbolSyntax "x",
    .List [.SymbolSyntax "+", .SymbolSyntax "x", .Number 1]]

/-- The texts that a store holds on its output. -/
def Outcome.output (r : Outcome Value) : List Output :=
  match r with
  | .ok _ _ σ => σ.out
  | .error _ _ σ => σ.out
  | _ => []

/-- A clause of `cond`: a non-empty list. -/
def clauseShape (c : Syntax) : Prop := ∃ s ss, c = .List (s :: ss)

/-- A binding of `let` and `letrec`: a list of two elements headed by a symbol. -/
def bindingShape (b : Syntax) : Prop := ∃ x init, b = .List [.SymbolSyntax x, init]

/-- A symbol. -/
def isSymbol (s : Syntax) : Prop := ∃ x, s = .SymbolSyntax x

/-- The resolver turns `s` into a variable, in some environment and store. -/
def resolvesToVar (T : Tables) (s : Syntax) : Prop :=
  ∃ fuel env σ x σ1, parse T fuel s env σ = .ok (.Var x) σ1

/-- A number, a rational, a string, a boolean or the empty list. -/
def isLiteral : Syntax → Prop
  | .Number _ => True
  | .RationalSyntax _ _ => True
  | .StringSyntax _ => True
  | .TrueSyntax => True
  | .FalseSyntax => True
  | .List [] => True
  | _ => False

/-- The form `(lambda ((+ x)) x)`, whose parameter is the list `(+ x)`. -/
def lambdaWithSumParameter : Syntax :=
  .List [.SymbolSyntax "lambda", .List [.List [.SymbolSyntax "+", .SymbolSyntax "x"]],
    .SymbolSyntax "x"]

/-- The form `(define (f (+ x)) x)`, whose parameter is the list `(+ x)`. -/
def defineWithSumParameter : Syntax :=
  .List [.SymbolSyntax "define",
    .List [.SymbolSyntax "f", .List [.SymbolSyntax "+", .SymbolSyntax "x"]],
    .SymbolSyntax "x"]

/-- The operands of a `cond` that the resolver accepts: at least one clause,
and every clause a non-empty list. -/
def condShape (args : List Syntax) : Prop := args ≠ [] ∧ ∀ c ∈ args, clauseShape c

/-- The operands of a `lambda` that the resolver accepts: a list of parameters,
each of which it turns into a variable, and at least one body form. -/
def lambdaShape (T : Tables) (args : List Syntax) : Prop :=
  ∃ paras body1 bodies, args = .List paras :: body1 :: bodies ∧
    ∀ s ∈ paras, resolvesToVar T s

/-- The operands of a `let` that the resolver accepts: a list of bindings and
at least one body form. -/
def letShape (args : List Syntax) : Prop :=
  ∃ binders body1 bodies, args = .List binders :: body1 :: bodies ∧
    ∀ b ∈ binders, bindingShape b

/-- The operands of a `letrec` that the resolver accepts: a list of bindings
and one body form. -/
def letrecShape (args : List Syntax) : Prop :=
  ∃ binders body, args = [.List binders, body] ∧ ∀ b ∈ binders, bindingShape b

/-- The operands of a `set!` that the resolver accepts: a symbol and one form. -/
def setShape (args : List Syntax) : Prop := ∃ v value, args = [.SymbolSyntax v, value]

/-- The operands of a `define` that the resolver accepts: a symbol and one
form, or a non-empty list of symbols and at least one body form. -/
def defineShape (args : List Syntax) : Prop :=
  (∃ x init, args = [.SymbolSyntax x, init]) ∨
  (∃ f params body1 bodies, args = .List (.SymbolSyntax f :: params) :: body1 :: bodies ∧
    ∀ s ∈ params, isSymbol s)

/-- The store after the resolver bound one parameter to its `NullV()`. -/
def oneParameterStore : Store := { heap := [.Null], cells := [some 0], out := [] }

/-- The form `((lambda ((+ x)) x) 5)`. -/
def callLambdaWithSumParameter : Syntax := .List [lambdaWithSumParameter, .Number 5]

/-- The quotient of `a` by `b` truncated toward zero: the sign of the exact
quotient and the integer part of its absolute value. -/
def truncatedQuotient (a b : Int) : Int :=
  a.sign * b.sign * ((a.natAbs / b.natAbs : Nat) : Int)

/-- The handle `e1` is the handle `e` with more frames in front, whose binding
cells are cells of `σ1` that `σ` does not have; and `σ1` has at least as many
binding cells as `σ`. -/
def handleFresh (e : Assoc) (σ : Store) (e1 : Assoc) (σ1 : Store) : Prop :=
  (∃ frames, e1 = frames ++ e ∧
      ∀ b ∈ frames, σ.cells.length ≤ b.2 ∧ b.2 < σ1.cells.length) ∧
    σ.cells.length ≤ σ1.cells.length

/-- The handle that an outcome leaves to the caller when it returns or throws. -/
def Outcome.handle {α : Type} : Outcome α → Option Assoc
  | .ok _ e _ => some e
  | .error _ e _ => some e
  | _ => none

/-- The binding cells below `n` hold in `σ1` what they hold in `σ`. -/
def cellsKept (n : Nat) (σ σ1 : Store) : Prop := ∀ c, c < n → σ1.cells[c]? = σ.cells[c]?

/-- Evaluating `x` with `ev` assigns no binding cell below `n`, in whatever
environment and store. -/
def keepsCells (ev : Expr → Assoc → Store → Result) (n : Nat) (x : Expr) : Prop :=
  ∀ e σ v e1 σ1, ev x e σ = .ok v e1 σ1 → cellsKept n σ σ1

/-- What `find` gives for `x` in the handle and the store that an outcome leaves
to the caller when it returns or throws. -/
def Outcome.found {α : Type} (x : String) : Outcome α → Option Value
  | .ok _ e σ => find x e σ
  | .error _ e σ => find x e σ
  | _ => none

/-- The form `(begin (define x 1) x)`. -/
def beginDefineThenUse : Syntax :=
  beginForm [defineNumber "x" 1, .SymbolSyntax "x"]

/-- The form `(begin 1 (define x 2))`. -/
def beginThenDefine : Syntax :=
  beginForm [.Number 1, defineNumber "x" 2]

/-- The number of parameters that the description gives to the procedure
made for a primitive: none for `void` and `exit`, one for the unary
primitives, two for the arithmetic operators, the comparisons, `eq?`, `cons`,
`set-car!` and `set-cdr!`; no procedure for the other tags. -/
def primitiveArity : ExprType → Option Nat
  | .E_VOID | .E_EXIT => some 0
  | .E_BOOLQ | .E_INTQ | .E_NULLQ | .E_PAIRQ | .E_PROCQ | .E_SYMBOLQ | .E_STRINGQ
  | .E_DISPLAY | .E_CAR | .E_CDR | .E_NOT => some 1
  | .E_PLUS | .E_MINUS | .E_MUL | .E_DIV | .E_MODULO | .E_EXPT | .E_EQQ
  | .E_LT | .E_LE | .E_EQ | .E_GE | .E_GT | .E_CONS | .E_SETCAR | .E_SETCDR => some 2
  | _ => none

/-- The form `((lambda (f) (f operands...)) op)`. -/
def firstClassCall (op : String) (operands : List Syntax) : Syntax :=
  .List [.List [.SymbolSyntax "lambda", .List [.SymbolSyntax "f"],
    .List (.SymbolSyntax "f" :: operands)], .SymbolSyntax op]

/-! ## Theorems -/

theorem wrap32_of_inInt32 {x : Int} (h : inInt32 x) : wrap32 x = x := by
  unfold inInt32 INT_MIN INT_MAX at h
  unfold wrap32
  omega

theorem wrap64_mul_of_inInt32 {x y : Int} (hx : inInt32 x) (hy : inInt32 y) :
    wrap64 (x * y) = x * y := by
  unfold inInt32 INT_MIN INT_MAX at hx hy
  have a1 : x * y ≤ 4611686018427387904 := by nlinarith
  have a2 : -4611686018427387904 ≤ x * y := by nlinarith
  unfold wrap64
  omega

theorem sq_ne_two_pow_31 (b : Int) : b * b ≠ 2147483648 := by
  intro h
  rcases le_or_lt (|b|) 46340 with h1 | h1
  · have : b * b ≤ 46340 * 46340 := by nlinarith [abs_le.mp h1]
    omega
  · have h2 : b * b ≥ 46341 * 46341 := by
      have := abs_mul_abs_self b
      nlinarith
    omega

/-- A value outside the `int` range stays outside when multiplied by a
positive integer. -/
theorem not_inInt32_mul_pos {r p : Int} (hr : ¬ inInt32 r) (hp : 1 ≤ p) :
    ¬ inInt32 (r * p) := by
  unfold inInt32 INT_MIN INT_MAX at *
  intro h
  rcases lt_or_le r (-2147483648) with h1 | h1
  · have : r * p ≤ r := by nlinarith
    omega
  · have h2 : 2147483647 < r := by omega
    have : r ≤ r * p := by nlinarith
    omega

theorem one_le_sq_pow {b : Int} (hb : b ≠ 0) (k : Nat) : 1 ≤ (b * b) ^ k := by
  have h : 1 ≤ b * b := by
    have := mul_self_pos.mpr hb
    omega
  exact one_le_pow₀ h

theorem not_inInt32_mul_big {r q : Int} (hr : r ≠ 0) (hq : 2147483648 < q) :
    ¬ inInt32 (r * q) := by
  unfold inInt32 INT_MIN INT_MAX
  intro h
  rcases lt_or_gt_of_ne hr with h1 | h1
  · have : r * q ≤ -q := by nlinarith
    omega
  · have : q ≤ r * q := by nlinarith
    omega

theorem not_inInt32_mul_sq_pow {r b : Int} (hr : r ≠ 0) (hb : ¬ inInt32 (b * b)) {k : Nat}
    (hk : 0 < k) : ¬ inInt32 (r * (b * b) ^ k) := by
  have hb0 : b ≠ 0 := by
    rintro rfl
    exact hb (by unfold inInt32 INT_MIN INT_MAX; omega)
  have hsq : 2147483648 < b * b := by
    have h0 : 0 ≤ b * b := mul_self_nonneg b
    have h1 := sq_ne_two_pow_31 b
    unfold inInt32 INT_MIN INT_MAX at hb
    omega
  obtain ⟨j, rfl⟩ : ∃ j, k = j + 1 := ⟨k - 1, by omega⟩
  have h1 : 1 ≤ (b * b) ^ j := one_le_sq_pow hb0 j
  have h2 : 2147483648 < (b * b) ^ (j + 1) := by
    rw [pow_succ]
    nlinarith
  exact not_inInt32_mul_big hr h2

theorem Expt_loop_spec (fuel : Nat) : ∀ (e : Nat) (result b : Int), e < fuel → inInt32 result →
    (0 < e → inInt32 b) → (b = 0 ∨ result ≠ 0) →
    Expt.loop fuel result b (e : Int) =
      if inInt32 (result * b ^ e) then .ok (result * b ^ e)
      else .error "Integer overflow in expt" := by
  induction fuel with
  | zero => intro e _ _ h; omega
  | succ fuel ih =>
    intro e result b he hr hb hz
    rcases Nat.eq_zero_or_pos e with rfl | hpos
    · simp [Expt.loop, hr]
    · have hb := hb hpos
      have hpos' : (e : Int) > 0 := by exact_mod_cast hpos
      have hk : ((e : Int) / 2) = ((e / 2 : Nat) : Int) := by omega
      have hwb : wrap64 (b * b) = b * b := wrap64_mul_of_inInt32 hb hb
      have hwr : wrap64 (result * b) = result * b := wrap64_mul_of_inInt32 hr hb
      rw [Expt.loop]
      simp only [hpos', if_true, hwb, hwr, hk]
      have hrange : ∀ x : Int, (x > INT_MAX ∨ x < INT_MIN) ↔ ¬ inInt32 x := by
        intro x; unfold inInt32; omega
      simp only [hrange]
      by_cases hodd : (e : Int) % 2 = 1
      · have he2 : e = 2 * (e / 2) + 1 := by omega
        have hpow : result * b ^ e = (result * b) * (b * b) ^ (e / 2) := by
          conv_lhs => rw [he2]
          rw [pow_succ, pow_mul]; ring
        simp only [hodd, if_true, true_and]
        by_cases hov : inInt32 (result * b)
        · rw [if_neg (not_not.mpr hov)]
          by_cases hbov : ¬ inInt32 (b * b) ∧ (e : Int) > 1
          · rw [if_pos hbov]
            have hb0 : b ≠ 0 := by
              rintro rfl
              exact hbov.1 (by unfold inInt32 INT_MIN INT_MAX; omega)
            have hr0 : result * b ≠ 0 := by
              rcases hz with h | h
              · exact absurd h hb0
              · exact mul_ne_zero h hb0
            have := not_inInt32_mul_sq_pow hr0 hbov.1 (show 0 < e / 2 by omega)
            rw [hpow, if_neg this]
          · rw [if_neg hbov, hpow]
            apply ih (e / 2) (result * b) (b * b) (by omega) hov
            · intro h2
              by_contra hc
              exact hbov ⟨hc, by omega⟩
            · rcases hz with h | h
              · left; rw [h]; ring
              · by_cases hb0 : b = 0
                · left; rw [hb0]; ring
                · right; exact mul_ne_zero h hb0
        · rw [if_pos (by exact hov)]
          have hb0 : b ≠ 0 := by
            rintro rfl
            exact hov (by unfold inInt32 INT_MIN INT_MAX; omega)
          have := not_inInt32_mul_pos hov (one_le_sq_pow hb0 (e / 2))
          rw [hpow, if_neg this]
      · have he2 : e = 2 * (e / 2) := by omega
        have hpow : result * b ^ e = result * (b * b) ^ (e / 2) := by
          conv_lhs => rw [he2]
          rw [pow_mul]; ring
        simp only [hodd, if_false, false_and]
        by_cases hbov : ¬ inInt32 (b * b) ∧ (e : Int) > 1
        · rw [if_pos hbov]
          have hb0 : b ≠ 0 := by
            rintro rfl
            exact hbov.1 (by unfold inInt32 INT_MIN INT_MAX; omega)
          have hr0 : result ≠ 0 := by
            rcases hz with h | h
            · exact absurd h hb0
            · exact h
          have := not_inInt32_mul_sq_pow hr0 hbov.1 (show 0 < e / 2 by omega)
          rw [hpow, if_neg this]
        · rw [if_neg hbov, hpow]
          apply ih (e / 2) result (b * b) (by omega) hr
          · intro h2
            by_contra hc
            exact hbov ⟨hc, by omega⟩
          · rcases hz with h | h
            · left; rw [h]; ring
            · right; exact h

/-- C1: for every `int` base `b` and exponent `e ≥ 0`, not both zero,
`Expt::evalRator` returns the `Integer` `b^e` when the exact power lies in
`[INT_MIN, INT_MAX]` and raises "Integer overflow in expt" otherwise; it never
returns a wrapped-around value. -/
theorem C1_expt_exact_or_overflow (b e : Int) (hb : inInt32 b) (he : 0 ≤ e)
    (h00 : ¬ (b = 0 ∧ e = 0)) :
    Expt.evalRator (.Integer b) (.Integer e) =
      if inInt32 (b ^ e.toNat) then .ok (.Integer (b ^ e.toNat))
      else .error "Integer overflow in expt" := by
  have he' : ¬ e < 0 := by omega
  have hcast : ((e.toNat : Nat) : Int) = e := Int.toNat_of_nonneg he
  have hloop := Expt_loop_spec (e.toNat + 1) e.toNat 1 b (by omega)
    (by unfold inInt32 INT_MIN INT_MAX; omega) (fun _ => hb) (Or.inr one_ne_zero)
  rw [hcast, one_mul] at hloop
  unfold Expt.evalRator
  simp only [he', if_false, h00, hloop]
  by_cases h : inInt32 (b ^ e.toNat)
  · simp only [h, if_true, wrap32_of_inInt32 h]
  · simp only [h, if_false]

/-- C1 at `(expt -2 31)`, whose exact value is `INT_MIN`, and at `(expt 2 31)`,
whose exact value is one more than `INT_MAX`. -/
theorem C1_expt_witness :
    Expt.evalRator (.Integer (-2)) (.Integer 31) = .ok (.Integer (-2147483648)) ∧
    Expt.evalRator (.Integer 2) (.Integer 31) = .error "Integer overflow in expt" := by
  constructor
  · have h := C1_expt_exact_or_overflow (-2) 31 (by decide) (by decide) (by decide)
    rw [h]; rfl
  · have h := C1_expt_exact_or_overflow 2 31 (by decide) (by decide) (by decide)
    rw [h]; rfl

/-- C2: `Expt::evalRator` raises a `RuntimeError` for every negative exponent,
whenever an operand is not an `Integer`, and for base 0 with exponent 0 (the
domain error); `(expt 2 31)` raises the overflow error. -/
theorem C2_expt_errors :
    (∀ b e : Int, e < 0 → Expt.evalRator (.Integer b) (.Integer e) =
        .error "Negative exponent not supported for integers") ∧
    (∀ v1 v2 : ValueBase, isInteger v1 = false ∨ isInteger v2 = false →
        Expt.evalRator v1 v2 = .error "Wrong typename") ∧
    Expt.evalRator (.Integer 0) (.Integer 0) = .error "0^0 is undefined" ∧
    Expt.evalRator (.Integer 2) (.Integer 31) = .error "Integer overflow in expt" := by
  refine ⟨?_, ?_, ?_, ?_⟩
  · intro b e he
    simp [Expt.evalRator, he]
  · intro v1 v2 h
    cases v1 <;> cases v2 <;> simp_all [Expt.evalRator, isInteger]
  · rfl
  · rfl

theorem ineg_of_ne_min {x : Int} (hx : inInt32 x) (h : x ≠ INT_MIN) : ineg x = -x := by
  unfold inInt32 INT_MIN INT_MAX at *
  unfold ineg wrap32
  omega

/-- C3, as stated, fails at the 32-bit divisor `INT_MIN`: `(/ 1 -2147483648)`
returns the `Rational` `-1 / -2147483648`, whose denominator is negative (the
negation of `INT_MIN` wraps to `INT_MIN`). -/
theorem C3_div_int_min_counterexample :
    inInt32 1 ∧ inInt32 (-2147483648) ∧ (-2147483648 : Int) ≠ 0 ∧
    Div.evalRator (.Integer 1) (.Integer (-2147483648)) =
      .ok (.Rational (-1) (-2147483648)) ∧
    ¬ (0 : Int) < -2147483648 :=
  ⟨by decide, by decide, by decide, rfl, by decide⟩

/-- C3 (amended): for all 32-bit integers `a` and `b ≠ 0` such that `b > 0`, or
neither `a` nor `b` is `INT_MIN`, `Div::evalRator` applied to `Integer a` and
`Integer b` returns a `Rational n/d` (never an `Integer`) with `d > 0` and
`n * b = a * d`, equal in value to `a / b`. -/
theorem C3_div_integers_rational (a b : Int) (ha : inInt32 a) (hb : inInt32 b) (hb0 : b ≠ 0)
    (hmin : 0 < b ∨ (a ≠ INT_MIN ∧ b ≠ INT_MIN)) :
    ∃ n d : Int, Div.evalRator (.Integer a) (.Integer b) = .ok (.Rational n d) ∧
      0 < d ∧ n * b = a * d ∧ inInt32 n ∧ inInt32 d ∧
      toRat (.Rational n d) = (a : ℚ) / (b : ℚ) := by
  by_cases hneg : b < 0
  · have hmin' : a ≠ INT_MIN ∧ b ≠ INT_MIN := by
      rcases hmin with h | h
      · omega
      · exact h
    refine ⟨-a, -b, ?_, by omega, by ring, ?_, ?_, ?_⟩
    · simp [Div.evalRator, hb0, hneg, ineg_of_ne_min ha hmin'.1, ineg_of_ne_min hb hmin'.2]
    · unfold inInt32 INT_MIN INT_MAX at *; omega
    · unfold inInt32 INT_MIN INT_MAX at *; omega
    · simp [toRat, neg_div_neg_eq]
  · refine ⟨a, b, ?_, by omega, rfl, ha, hb, ?_⟩
    · simp [Div.evalRator, hb0, hneg]
    · simp [toRat]

/-- C3 (amended) at `(/ 7 -2)`. -/
theorem C3_div_integers_witness :
    ∃ n d : Int, Div.evalRator (.Integer 7) (.Integer (-2)) = .ok (.Rational n d) ∧
      0 < d ∧ n * (-2) = 7 * d ∧ inInt32 n ∧ inInt32 d ∧
      toRat (.Rational n d) = ((7 : Int) : ℚ) / (((-2) : Int) : ℚ) :=
  C3_div_integers_rational 7 (-2) (by decide) (by decide) (by decide)
    (Or.inr ⟨by decide, by decide⟩)

/-- C4, as stated, fails for a `Rational` dividend whose denominator times the
divisor wraps to 0: `(/ 1/65536 65536)` raises a `RuntimeError` although both
operands are numeric and the divisor is not zero-valued. -/
theorem C4_div_error_counterexample :
    isNumeric (.Rational 1 65536) = true ∧ isNumeric (.Integer 65536) = true ∧
    zeroValued (.Integer 65536) = false ∧
    Div.evalRator (.Rational 1 65536) (.Integer 65536) = .error "Wrong typename" ∧
    divide (.Rational 1 65536) (.Integer 65536) = .error "Wrong typename" :=
  ⟨rfl, rfl, rfl, rfl, rfl⟩

theorem Div_isError_iff (v1 v2 : ValueBase) :
    isError (Div.evalRator v1 v2) = true ↔
      (isNumeric v1 = false ∨ isNumeric v2 = false ∨ zeroValued v2 = true ∨
        denominatorProductIsZero v1 v2) := by
  cases v1 <;> cases v2 <;>
    simp [Div.evalRator, isError, isNumeric, zeroValued, denominatorProductIsZero, numOf] <;>
    split_ifs <;> simp_all [isError] <;> rintro rfl <;> simp_all [imul, wrap32]

theorem divide_eq_Div (v1 v2 : ValueBase) : divide v1 v2 = Div.evalRator v1 v2 := by
  cases v1 <;> cases v2 <;> rfl

theorem denominatorProductIsZero_imp (v1 v2 : ValueBase)
    (h : isInteger v1 = true ∨ (inInt32 (denOf v1 * numOf v2) ∧ denOf v1 ≠ 0))
    (hz : denominatorProductIsZero v1 v2) :
    isNumeric v2 = false ∨ zeroValued v2 = true := by
  cases v1 <;> simp [denominatorProductIsZero, isInteger, denOf] at h hz
  rename_i num1 den1
  rw [imul, wrap32_of_inInt32 h.1] at hz
  have hn : numOf v2 = 0 := by
    rcases mul_eq_zero.mp hz with h0 | h0
    · exact absurd h0 h.2
    · exact h0
  cases v2 <;> simp_all [numOf, zeroValued, isNumeric]

/-- C4 (amended): `Div::evalRator` and the helper `divide` raise a `RuntimeError`
if and only if an operand is non-numeric, or the divisor is zero-valued, or the
dividend is a `Rational` and the `int` product of its denominator with the
numerator of the divisor is 0; when the dividend is an `Integer`, or that exact
product fits in an `int` and the dividend's denominator is not 0, this is: if
and only if an operand is non-numeric or the divisor is zero-valued. -/
theorem C4_div_error_iff (v1 v2 : ValueBase) :
    (isError (Div.evalRator v1 v2) = true ↔
      (isNumeric v1 = false ∨ isNumeric v2 = false ∨ zeroValued v2 = true ∨
        denominatorProductIsZero v1 v2)) ∧
    (isError (divide v1 v2) = true ↔
      (isNumeric v1 = false ∨ isNumeric v2 = false ∨ zeroValued v2 = true ∨
        denominatorProductIsZero v1 v2)) ∧
    ((isInteger v1 = true ∨ (inInt32 (denOf v1 * numOf v2) ∧ denOf v1 ≠ 0)) →
      ((isError (Div.evalRator v1 v2) = true ↔
          (isNumeric v1 = false ∨ isNumeric v2 = false ∨ zeroValued v2 = true)) ∧
       (isError (divide v1 v2) = true ↔
          (isNumeric v1 = false ∨ isNumeric v2 = false ∨ zeroValued v2 = true)))) := by
  have hD := Div_isError_iff v1 v2
  refine ⟨hD, ?_, ?_⟩
  · rw [divide_eq_Div]; exact hD
  · intro h
    have key : isError (Div.evalRator v1 v2) = true ↔
        (isNumeric v1 = false ∨ isNumeric v2 = false ∨ zeroValued v2 = true) := by
      rw [hD]
      constructor
      · rintro (h1 | h1 | h1 | h1)
        · exact Or.inl h1
        · exact Or.inr (Or.inl h1)
        · exact Or.inr (Or.inr h1)
        · exact Or.inr (denominatorProductIsZero_imp v1 v2 h h1)
      · rintro (h1 | h1 | h1)
        · exact Or.inl h1
        · exact Or.inr (Or.inl h1)
        · exact Or.inr (Or.inr (Or.inl h1))
    refine ⟨key, ?_⟩
    rw [divide_eq_Div]; exact key

theorem wrap32_add_left (x y : Int) : wrap32 (wrap32 x + y) = wrap32 (x + y) := by
  unfold wrap32; omega

theorem wrap32_add_right (x y : Int) : wrap32 (x + wrap32 y) = wrap32 (x + y) := by
  unfold wrap32; omega

theorem wrap32_sub_left (x y : Int) : wrap32 (wrap32 x - y) = wrap32 (x - y) := by
  unfold wrap32; omega

theorem wrap32_sub_right (x y : Int) : wrap32 (x - wrap32 y) = wrap32 (x - y) := by
  unfold wrap32; omega

/-- The four numeric operand combinations. -/
theorem numeric_cases {P : ValueBase → ValueBase → Prop} (v1 v2 : ValueBase)
    (h1 : isNumeric v1 = true) (h2 : isNumeric v2 = true)
    (hII : ∀ a c, P (.Integer a) (.Integer c))
    (hIR : ∀ a c d, P (.Integer a) (.Rational c d))
    (hRI : ∀ a b c, P (.Rational a b) (.Integer c))
    (hRR : ∀ a b c d, P (.Rational a b) (.Rational c d)) : P v1 v2 := by
  cases v1 <;> cases v2 <;> simp [isNumeric] at h1 h2
  · exact hII _ _
  · exact hIR _ _ _
  · exact hRI _ _ _
  · exact hRR _ _ _ _

theorem Plus_evalRator_exact (v1 v2 : ValueBase) (h1 : numericPos v1) (h2 : numericPos v2)
    (hden : inInt32 (denOf v1 * denOf v2))
    (hnum : inInt32 (numOf v1 * denOf v2 + numOf v2 * denOf v1)) :
    Plus.evalRator v1 v2 =
      .ok (crossResult v1 v2 (numOf v1 * denOf v2 + numOf v2 * denOf v1)) := by
  revert hden hnum
  have p1 := h1.2
  have p2 := h2.2
  revert p1 p2
  apply numeric_cases v1 v2 h1.1 h2.1
  · intro a c _ _ _ hnum
    simp only [denOf, numOf, mul_one] at hnum
    simp [Plus.evalRator, crossResult, isInteger, iadd, denOf, numOf, wrap32_of_inInt32 hnum]
  · intro a c d _ _ hden hnum
    simp only [denOf, numOf, mul_one, one_mul] at hnum hden
    simp [Plus.evalRator, crossResult, isInteger, iadd, imul, denOf, numOf, wrap32_add_left,
      wrap32_of_inInt32 hnum]
  · intro a b c _ _ hden hnum
    simp only [denOf, numOf, mul_one, one_mul] at hnum hden
    rw [add_comm] at hnum
    simp [Plus.evalRator, crossResult, isInteger, iadd, imul, denOf, numOf, wrap32_add_left,
      wrap32_of_inInt32 hnum]
    ring
  · intro a b c d p1 p2 hden hnum
    simp only [denOf, numOf] at hnum hden p1 p2
    have hpos : ¬ (b * d < 0) := not_lt.mpr (le_of_lt (mul_pos p1 p2))
    simp [Plus.evalRator, crossResult, isInteger, iadd, imul, denOf, numOf, wrap32_add_left,
      wrap32_add_right, wrap32_of_inInt32 hnum, wrap32_of_inInt32 hden, hpos]

theorem Minus_evalRator_exact (v1 v2 : ValueBase) (h1 : numericPos v1) (h2 : numericPos v2)
    (hden : inInt32 (denOf v1 * denOf v2))
    (hnum : inInt32 (numOf v1 * denOf v2 - numOf v2 * denOf v1)) :
    Minus.evalRator v1 v2 =
      .ok (crossResult v1 v2 (numOf v1 * denOf v2 - numOf v2 * denOf v1)) := by
  revert hden hnum
  have p1 := h1.2
  have p2 := h2.2
  revert p1 p2
  apply numeric_cases v1 v2 h1.1 h2.1
  · intro a c _ _ _ hnum
    simp only [denOf, numOf, mul_one] at hnum
    simp [Minus.evalRator, crossResult, isInteger, isub, denOf, numOf, wrap32_of_inInt32 hnum]
  · intro a c d _ _ hden hnum
    simp only [denOf, numOf, mul_one, one_mul] at hnum hden
    simp [Minus.evalRator, crossResult, isInteger, isub, imul, denOf, numOf, wrap32_sub_left,
      wrap32_of_inInt32 hnum]
  · intro a b c _ _ hden hnum
    simp only [denOf, numOf, mul_one, one_mul] at hnum hden
    simp [Minus.evalRator, crossResult, isInteger, isub, imul, denOf, numOf, wrap32_sub_right,
      wrap32_of_inInt32 hnum]
  · intro a b c d p1 p2 hden hnum
    simp only [denOf, numOf] at hnum hden p1 p2
    have hpos : ¬ (b * d < 0) := not_lt.mpr (le_of_lt (mul_pos p1 p2))
    simp [Minus.evalRator, crossResult, isInteger, isub, imul, denOf, numOf, wrap32_sub_left,
      wrap32_sub_right, wrap32_of_inInt32 hnum, wrap32_of_inInt32 hden, hpos]

theorem Mult_evalRator_exact (v1 v2 : ValueBase) (h1 : numericPos v1) (h2 : numericPos v2)
    (hden : inInt32 (denOf v1 * denOf v2))
    (hnum : inInt32 (numOf v1 * numOf v2)) :
    Mult.evalRator v1 v2 = .ok (crossResult v1 v2 (numOf v1 * numOf v2)) := by
  revert hden hnum
  have p1 := h1.2
  have p2 := h2.2
  revert p1 p2
  apply numeric_cases v1 v2 h1.1 h2.1
  · intro a c _ _ _ hnum
    simp only [denOf, numOf, mul_one] at hnum
    simp [Mult.evalRator, crossResult, isInteger, imul, denOf, numOf, wrap32_of_inInt32 hnum]
  · intro a c d _ _ hden hnum
    simp only [denOf, numOf, mul_one, one_mul] at hnum hden
    simp [Mult.evalRator, crossResult, isInteger, imul, denOf, numOf, wrap32_of_inInt32 hnum]
  · intro a b c _ _ hden hnum
    simp only [denOf, numOf, mul_one, one_mul] at hnum hden
    rw [mul_comm] at hnum
    simp [Mult.evalRator, crossResult, isInteger, imul, denOf, numOf, wrap32_of_inInt32 hnum]
    ring
  · intro a b c d p1 p2 hden hnum
    simp only [denOf, numOf] at hnum hden p1 p2
    have hpos : ¬ (b * d < 0) := not_lt.mpr (le_of_lt (mul_pos p1 p2))
    simp [Mult.evalRator, crossResult, isInteger, imul, denOf, numOf,
      wrap32_of_inInt32 hnum, wrap32_of_inInt32 hden, hpos]

/-- The exact value of a numeric operand is its numerator over its denominator. -/
theorem toRat_eq_div (v : ValueBase) (h : isNumeric v = true) :
    toRat v = (numOf v : ℚ) / (denOf v : ℚ) := by
  cases v <;> simp [isNumeric] at h <;> simp [toRat, numOf, denOf]

theorem toRat_crossResult (v1 v2 : ValueBase) (n : Int) :
    toRat (crossResult v1 v2 n) = (n : ℚ) / ((denOf v1 * denOf v2 : Int) : ℚ) := by
  unfold crossResult
  split_ifs with h
  · obtain ⟨i1, i2⟩ := h
    cases v1 <;> simp [isInteger] at i1
    cases v2 <;> simp [isInteger] at i2
    simp [toRat, denOf]
  · simp [toRat]

theorem toRat_add (v1 v2 : ValueBase) (h1 : numericPos v1) (h2 : numericPos v2) :
    toRat (crossResult v1 v2 (numOf v1 * denOf v2 + numOf v2 * denOf v1)) =
      toRat v1 + toRat v2 := by
  rw [toRat_crossResult, toRat_eq_div v1 h1.1, toRat_eq_div v2 h2.1]
  have hb : (denOf v1 : ℚ) ≠ 0 := by exact_mod_cast (ne_of_gt h1.2)
  have hd : (denOf v2 : ℚ) ≠ 0 := by exact_mod_cast (ne_of_gt h2.2)
  push_cast
  field_simp

theorem toRat_sub (v1 v2 : ValueBase) (h1 : numericPos v1) (h2 : numericPos v2) :
    toRat (crossResult v1 v2 (numOf v1 * denOf v2 - numOf v2 * denOf v1)) =
      toRat v1 - toRat v2 := by
  rw [toRat_crossResult, toRat_eq_div v1 h1.1, toRat_eq_div v2 h2.1]
  have hb : (denOf v1 : ℚ) ≠ 0 := by exact_mod_cast (ne_of_gt h1.2)
  have hd : (denOf v2 : ℚ) ≠ 0 := by exact_mod_cast (ne_of_gt h2.2)
  push_cast
  field_simp
  ring

theorem toRat_mul (v1 v2 : ValueBase) (h1 : numericPos v1) (h2 : numericPos v2) :
    toRat (crossResult v1 v2 (numOf v1 * numOf v2)) = toRat v1 * toRat v2 := by
  rw [toRat_crossResult, toRat_eq_div v1 h1.1, toRat_eq_div v2 h2.1]
  have hb : (denOf v1 : ℚ) ≠ 0 := by exact_mod_cast (ne_of_gt h1.2)
  have hd : (denOf v2 : ℚ) ≠ 0 := by exact_mod_cast (ne_of_gt h2.2)
  push_cast
  field_simp

/-- C5, as stated, fails when a product overflows: `(+ 1/65536 1/65536)`
returns `Rational 131072 0`, not `Rational (a*d + c*b) (b*d)` (the exact
denominator is 4294967296), and its value is not the exact sum. -/
theorem C5_plus_overflow_counterexample :
    numericPos (.Rational 1 65536) ∧
    Plus.evalRator (.Rational 1 65536) (.Rational 1 65536) = .ok (.Rational 131072 0) ∧
    (1 * 65536 + 1 * 65536 : Int) = 131072 ∧ (65536 * 65536 : Int) = 4294967296 ∧
    toRat (.Rational 131072 0) ≠ toRat (.Rational 1 65536) + toRat (.Rational 1 65536) := by
  refine ⟨by decide, rfl, by decide, by decide, ?_⟩
  simp only [toRat]
  norm_num

/-- C5 (amended): for numeric operands with positive denominators, read as
`a/b` and `c/d` (an `Integer` `n` as `n/1`), whose exact denominator product
`b*d` fits in an `int`: whenever the exact numerator `a*d + c*b` (resp.
`a*d - c*b`, `a*c`) fits in an `int`, `Plus` (resp. `Minus`, `Mult`) returns the
cross-multiplied, unreduced result with that numerator (an `Integer` when both
operands are `Integer`s, otherwise the `Rational` over `b*d`), which equals the
exact sum (resp. difference, product) in value. -/
theorem C5_arith_cross_multiplied (v1 v2 : ValueBase) (h1 : numericPos v1)
    (h2 : numericPos v2) (hden : inInt32 (denOf v1 * denOf v2)) :
    (inInt32 (numOf v1 * denOf v2 + numOf v2 * denOf v1) →
      Plus.evalRator v1 v2 =
        .ok (crossResult v1 v2 (numOf v1 * denOf v2 + numOf v2 * denOf v1)) ∧
      toRat (crossResult v1 v2 (numOf v1 * denOf v2 + numOf v2 * denOf v1)) =
        toRat v1 + toRat v2) ∧
    (inInt32 (numOf v1 * denOf v2 - numOf v2 * denOf v1) →
      Minus.evalRator v1 v2 =
        .ok (crossResult v1 v2 (numOf v1 * denOf v2 - numOf v2 * denOf v1)) ∧
      toRat (crossResult v1 v2 (numOf v1 * denOf v2 - numOf v2 * denOf v1)) =
        toRat v1 - toRat v2) ∧
    (inInt32 (numOf v1 * numOf v2) →
      Mult.evalRator v1 v2 = .ok (crossResult v1 v2 (numOf v1 * numOf v2)) ∧
      toRat (crossResult v1 v2 (numOf v1 * numOf v2)) = toRat v1 * toRat v2) :=
  ⟨fun h => ⟨Plus_evalRator_exact v1 v2 h1 h2 hden h, toRat_add v1 v2 h1 h2⟩,
   fun h => ⟨Minus_evalRator_exact v1 v2 h1 h2 hden h, toRat_sub v1 v2 h1 h2⟩,
   fun h => ⟨Mult_evalRator_exact v1 v2 h1 h2 hden h, toRat_mul v1 v2 h1 h2⟩⟩

/-- C5 (amended) at `1/2` and `1/3`, and at `(+ 1/2 1/2)`, which is structurally
`4/4`. -/
theorem C5_arith_witness :
    Plus.evalRator (.Rational 1 2) (.Rational 1 3) = .ok (.Rational 5 6) ∧
    toRat (.Rational 5 6) = toRat (.Rational 1 2) + toRat (.Rational 1 3) ∧
    Minus.evalRator (.Rational 1 2) (.Rational 1 3) = .ok (.Rational 1 6) ∧
    Mult.evalRator (.Rational 1 2) (.Rational 1 3) = .ok (.Rational 1 6) ∧
    Plus.evalRator (.Rational 1 2) (.Rational 1 2) = .ok (.Rational 4 4) := by
  have h := C5_arith_cross_multiplied (.Rational 1 2) (.Rational 1 3) (by decide) (by decide)
    (by decide)
  have h' := C5_arith_cross_multiplied (.Rational 1 2) (.Rational 1 2) (by decide) (by decide)
    (by decide)
  exact ⟨(h.1 (by decide)).1, (h.1 (by decide)).2, (h.2.1 (by decide)).1,
    (h.2.2 (by decide)).1, (h'.1 (by decide)).1⟩

theorem add_eq_Plus (v1 v2 : ValueBase) : add v1 v2 = Plus.evalRator v1 v2 := by
  cases v1 <;> cases v2 <;> rfl

theorem multiply_eq_Mult (v1 v2 : ValueBase) : multiply v1 v2 = Mult.evalRator v1 v2 := by
  cases v1 <;> cases v2 <;> rfl

theorem minu_eq_Minus (v1 v2 : ValueBase) : minu v1 v2 = Minus.evalRator v1 v2 := by
  cases v1 <;> cases v2 <;> simp [minu, Minus.evalRator, imul, mul_comm]

/-- When the exact product of the denominators fits in an `int`, `+` returns a
numeric object whose denominator is that product. -/
theorem Plus_denOf_result (v1 v2 : ValueBase) (h1 : numericPos v1) (h2 : numericPos v2)
    (hden : inInt32 (denOf v1 * denOf v2)) :
    ∃ r, Plus.evalRator v1 v2 = .ok r ∧ isNumeric r = true ∧
      denOf r = denOf v1 * denOf v2 := by
  revert hden
  have p1 := h1.2
  have p2 := h2.2
  revert p1 p2
  apply numeric_cases v1 v2 h1.1 h2.1
  · intro a c _ _ _
    exact ⟨_, rfl, rfl, by simp [denOf]⟩
  · intro a c d _ _ _
    exact ⟨_, rfl, rfl, by simp [denOf]⟩
  · intro a b c _ _ _
    exact ⟨_, rfl, rfl, by simp [denOf]⟩
  · intro a b c d p1 p2 hden
    simp only [denOf] at hden p1 p2
    have hpos : ¬ (b * d < 0) := not_lt.mpr (le_of_lt (mul_pos p1 p2))
    refine ⟨.Rational (iadd (imul a d) (imul c b)) (b * d), ?_, rfl, by simp [denOf]⟩
    simp [Plus.evalRator, imul, wrap32_of_inInt32 hden, hpos]

theorem Minus_denOf_result (v1 v2 : ValueBase) (h1 : numericPos v1) (h2 : numericPos v2)
    (hden : inInt32 (denOf v1 * denOf v2)) :
    ∃ r, Minus.evalRator v1 v2 = .ok r ∧ isNumeric r = true ∧
      denOf r = denOf v1 * denOf v2 := by
  revert hden
  have p1 := h1.2
  have p2 := h2.2
  revert p1 p2
  apply numeric_cases v1 v2 h1.1 h2.1
  · intro a c _ _ _
    exact ⟨_, rfl, rfl, by simp [denOf]⟩
  · intro a c d _ _ _
    exact ⟨_, rfl, rfl, by simp [denOf]⟩
  · intro a b c _ _ _
    exact ⟨_, rfl, rfl, by simp [denOf]⟩
  · intro a b c d p1 p2 hden
    simp only [denOf] at hden p1 p2
    have hpos : ¬ (b * d < 0) := not_lt.mpr (le_of_lt (mul_pos p1 p2))
    refine ⟨.Rational (isub (imul a d) (imul c b)) (b * d), ?_, rfl, by simp [denOf]⟩
    simp [Minus.evalRator, imul, wrap32_of_inInt32 hden, hpos]

theorem Mult_denOf_result (v1 v2 : ValueBase) (h1 : numericPos v1) (h2 : numericPos v2)
    (hden : inInt32 (denOf v1 * denOf v2)) :
    ∃ r, Mult.evalRator v1 v2 = .ok r ∧ isNumeric r = true ∧
      denOf r = denOf v1 * denOf v2 := by
  revert hden
  have p1 := h1.2
  have p2 := h2.2
  revert p1 p2
  apply numeric_cases v1 v2 h1.1 h2.1
  · intro a c _ _ _
    exact ⟨_, rfl, rfl, by simp [denOf]⟩
  · intro a c d _ _ _
    exact ⟨_, rfl, rfl, by simp [denOf]⟩
  · intro a b c _ _ _
    exact ⟨_, rfl, rfl, by simp [denOf]⟩
  · intro a b c d p1 p2 hden
    simp only [denOf] at hden p1 p2
    have hpos : ¬ (b * d < 0) := not_lt.mpr (le_of_lt (mul_pos p1 p2))
    refine ⟨.Rational (imul a c) (b * d), ?_, rfl, by simp [denOf]⟩
    simp [Mult.evalRator, imul, wrap32_of_inInt32 hden, hpos]

/-- The sign normalisation of `Div`: for a non-zero `int` value `E` other than
`INT_MIN` the stored denominator is `|E|`. -/
theorem Div_normalised (num E : Int) (hE : E ≠ 0) (hfit : |E| ≤ INT_MAX) :
    (if E ≠ 0 then
        (if E < 0 then (.ok (.Rational (ineg num) (ineg E)) : Res)
         else .ok (.Rational num E))
      else .error "Wrong typename") =
      .ok (.Rational (if E < 0 then ineg num else num) |E|) := by
  have h1 := abs_cases E
  unfold INT_MAX at hfit
  by_cases hneg : E < 0
  · have : ineg E = |E| := by unfold ineg wrap32; omega
    simp [hE, hneg, this]
  · have : E = |E| := by omega
    simp only [hE, hneg, ne_eq, not_false_eq_true, if_true, if_false]
    rw [← this]

/-- When the exact product `E` of the dividend's denominator and the divisor's
numerator satisfies `|E| ≤ INT_MAX`, `/` either fails (exactly when the divisor
is zero-valued) or returns a `Rational` with denominator `|E|`. -/
theorem Div_denOf_result (v1 v2 : ValueBase) (h1 : numericPos v1) (h2 : isNumeric v2 = true)
    (hfit : denOf v1 * |numOf v2| ≤ INT_MAX) :
    (numOf v2 = 0 ∧ isError (Div.evalRator v1 v2) = true) ∨
    (numOf v2 ≠ 0 ∧ ∃ n, Div.evalRator v1 v2 = .ok (.Rational n (denOf v1 * |numOf v2|))) := by
  revert hfit
  have p1 := h1.2
  revert p1
  apply numeric_cases v1 v2 h1.1 h2
  · intro a c _ hfit
    simp only [denOf, numOf, one_mul] at hfit ⊢
    by_cases hc : c = 0
    · left; simp [Div.evalRator, hc, isError]
    · right
      refine ⟨hc, (if c < 0 then ineg a else a), ?_⟩
      simp only [Div.evalRator]
      exact Div_normalised a c hc hfit
  · intro a c d _ hfit
    simp only [denOf, numOf, one_mul] at hfit ⊢
    by_cases hc : c = 0
    · left; simp [Div.evalRator, hc, isError]
    · right
      refine ⟨hc, (if c < 0 then ineg (imul a d) else imul a d), ?_⟩
      simp only [Div.evalRator]
      exact Div_normalised (imul a d) c hc hfit
  · intro a b c p1 hfit
    simp only [denOf, numOf] at hfit p1 ⊢
    have habs : |b * c| = b * |c| := by rw [abs_mul, abs_of_pos p1]
    have hin : inInt32 (b * c) := by
      have := abs_le.mp (le_of_eq_of_le habs hfit)
      unfold inInt32 INT_MIN INT_MAX at *; omega
    by_cases hc : c = 0
    · left; simp [Div.evalRator, hc, isError, imul, wrap32]
    · right
      have hE : b * c ≠ 0 := mul_ne_zero (ne_of_gt p1) hc
      refine ⟨hc, (if b * c < 0 then ineg a else a), ?_⟩
      simp only [Div.evalRator, imul, wrap32_of_inInt32 hin]
      rw [← habs]
      exact Div_normalised a (b * c) hE (le_of_eq_of_le habs hfit)
  · intro a b c d p1 hfit
    simp only [denOf, numOf] at hfit p1 ⊢
    have habs : |b * c| = b * |c| := by rw [abs_mul, abs_of_pos p1]
    have hin : inInt32 (b * c) := by
      have := abs_le.mp (le_of_eq_of_le habs hfit)
      unfold inInt32 INT_MIN INT_MAX at *; omega
    by_cases hc : c = 0
    · left; simp [Div.evalRator, hc, isError, imul, wrap32]
    · right
      have hE : b * c ≠ 0 := mul_ne_zero (ne_of_gt p1) hc
      refine ⟨hc, (if b * c < 0 then ineg (wrap32 (a * d)) else wrap32 (a * d)), ?_⟩
      simp only [Div.evalRator, imul, wrap32_of_inInt32 hin]
      rw [← habs]
      exact Div_normalised (wrap32 (a * d)) (b * c) hE (le_of_eq_of_le habs hfit)

theorem denProduct_cons (a : ValueBase) (rest : List ValueBase) :
    denProduct (a :: rest) = denOf a * denProduct rest := by
  simp [denProduct]

theorem denProduct_pos : ∀ (args : List ValueBase), (∀ a ∈ args, numericPos a) →
    1 ≤ denProduct args
  | [], _ => by simp [denProduct]
  | a :: rest, h => by
    have ha : 0 < denOf a := (h a (List.mem_cons_self a rest)).2
    have hr := denProduct_pos rest (fun x hx => h x (List.mem_cons_of_mem a hx))
    rw [denProduct_cons]
    nlinarith

/-- The fold of `+`, `-` or `*` over operands with positive denominators whose
exact product fits in an `int` returns a numeric object whose denominator is
that product. -/
theorem foldArgs_denOf (f : ValueBase → ValueBase → Res)
    (hf : ∀ v1 v2, numericPos v1 → numericPos v2 → inInt32 (denOf v1 * denOf v2) →
      ∃ r, f v1 v2 = .ok r ∧ isNumeric r = true ∧ denOf r = denOf v1 * denOf v2) :
    ∀ (rest : List ValueBase) (acc : ValueBase), numericPos acc →
      (∀ a ∈ rest, numericPos a) → inInt32 (denOf acc * denProduct rest) →
      ∃ r, foldArgs f acc rest = .ok r ∧ numericPos r ∧
        denOf r = denOf acc * denProduct rest
  | [], acc, hacc, _, _ => ⟨acc, rfl, hacc, by simp [denProduct]⟩
  | a :: rest, acc, hacc, hrest, hfit => by
    have ha : numericPos a := hrest a (List.mem_cons_self a rest)
    have hrest' : ∀ x ∈ rest, numericPos x := fun x hx => hrest x (List.mem_cons_of_mem a hx)
    have hP := denProduct_pos rest hrest'
    rw [denProduct_cons] at hfit
    have hstep : inInt32 (denOf acc * denOf a) := by
      have h1 : 0 < denOf acc * denOf a := mul_pos hacc.2 ha.2
      have h2 : denOf acc * denOf a ≤ denOf acc * (denOf a * denProduct rest) := by nlinarith
      unfold inInt32 INT_MIN INT_MAX at *
      omega
    obtain ⟨r, hr, hnum, hden⟩ := hf acc a hacc ha hstep
    have hrpos : numericPos r := ⟨hnum, by rw [hden]; exact mul_pos hacc.2 ha.2⟩
    have hfit' : inInt32 (denOf r * denProduct rest) := by rw [hden, mul_assoc]; exact hfit
    obtain ⟨r', hr', hpos', hden'⟩ := foldArgs_denOf f hf rest r hrpos hrest' hfit'
    refine ⟨r', ?_, hpos', ?_⟩
    · simp only [foldArgs, hr]; exact hr'
    · rw [hden', hden, denProduct_cons, mul_assoc]

/-- The fold of `/` over numeric operands, when every exact denominator along
the way is at most `INT_MAX`, can only return an object with a positive
denominator. -/
theorem foldArgs_divide_pos : ∀ (rest : List ValueBase) (acc : ValueBase), numericPos acc →
    (∀ a ∈ rest, isNumeric a = true) → divDenominatorsFit (denOf acc) rest →
    ∀ r, foldArgs divide acc rest = .ok r → numericPos r
  | [], acc, hacc, _, _, r, hr => by
    simp only [foldArgs, Except.ok.injEq] at hr
    rw [← hr]; exact hacc
  | a :: rest, acc, hacc, hrest, hfit, r, hr => by
    have ha : isNumeric a = true := hrest a (List.mem_cons_self a rest)
    have hrest' : ∀ x ∈ rest, isNumeric x = true :=
      fun x hx => hrest x (List.mem_cons_of_mem a hx)
    obtain ⟨hfit1, hfit2⟩ := hfit
    rcases Div_denOf_result acc a hacc ha hfit1 with ⟨_, herr⟩ | ⟨hne, n, hok⟩
    · rw [← divide_eq_Div] at herr
      simp only [foldArgs] at hr
      cases hd : divide acc a with
      | error msg => rw [hd] at hr; cases hr
      | ok r1 => rw [hd] at herr; simp [isError] at herr
    · rw [← divide_eq_Div] at hok
      simp only [foldArgs, hok] at hr
      have hpos : numericPos (.Rational n (denOf acc * |numOf a|)) :=
        ⟨rfl, mul_pos hacc.2 (abs_pos.mpr hne)⟩
      exact foldArgs_divide_pos rest _ hpos hrest' hfit2 r hr

/-- C6, as stated, fails when a denominator overflows: `(+ 1/65536 1/65536)`,
binary or n-ary, returns a `Rational` with denominator 0, and
`(/ 1 -2147483648)` one with denominator `INT_MIN`. -/
theorem C6_denominator_counterexample :
    numericPos (.Rational 1 65536) ∧ numericPos (.Integer 1) ∧
    numericPos (.Integer (-2147483648)) ∧
    Plus.evalRator (.Rational 1 65536) (.Rational 1 65536) = .ok (.Rational 131072 0) ∧
    PlusVar.evalRator [.Rational 1 65536, .Rational 1 65536] = .ok (.Rational 131072 0) ∧
    Div.evalRator (.Integer 1) (.Integer (-2147483648)) =
      .ok (.Rational (-1) (-2147483648)) ∧
    ¬ (0 : Int) < 0 ∧ ¬ (0 : Int) < -2147483648 :=
  ⟨by decide, by decide, by decide, rfl, rfl, rfl, by decide, by decide⟩

/-- C6 (amended): for numeric operands with strictly positive denominators,
every `Rational` returned by `Plus`, `Minus`, `Mult` (when the exact product of
the two denominators fits in an `int`), by `Div` (when the dividend's
denominator times the absolute value of the divisor's numerator is at most
`INT_MAX`), by `PlusVar`, `MinusVar`, `MultVar` (when the exact product of all
denominators fits in an `int`) and by `DivVar` (when every exact denominator
along the fold is at most `INT_MAX`) has a strictly positive denominator. -/
theorem C6_denominator_positive (v1 v2 : ValueBase) (args : List ValueBase)
    (h1 : numericPos v1) (h2 : numericPos v2) (hargs : ∀ a ∈ args, numericPos a) :
    (inInt32 (denOf v1 * denOf v2) → ∀ n d : Int,
      (Plus.evalRator v1 v2 = .ok (.Rational n d) ∨
       Minus.evalRator v1 v2 = .ok (.Rational n d) ∨
       Mult.evalRator v1 v2 = .ok (.Rational n d)) → 0 < d) ∧
    (denOf v1 * |numOf v2| ≤ INT_MAX → ∀ n d : Int,
      Div.evalRator v1 v2 = .ok (.Rational n d) → 0 < d) ∧
    (inInt32 (denProduct args) → ∀ n d : Int,
      (PlusVar.evalRator args = .ok (.Rational n d) ∨
       MinusVar.evalRator args = .ok (.Rational n d) ∨
       MultVar.evalRator args = .ok (.Rational n d)) → 0 < d) ∧
    (DivVar.denominatorsFit args → ∀ n d : Int,
      DivVar.evalRator args = .ok (.Rational n d) → 0 < d) := by
  refine ⟨?_, ?_, ?_, ?_⟩
  · intro hden n d h
    have key : ∀ r, isNumeric r = true → denOf r = denOf v1 * denOf v2 →
        r = .Rational n d → 0 < d := by
      intro r _ hd hr
      rw [hr] at hd
      simp only [denOf] at hd
      rw [hd]; exact mul_pos h1.2 h2.2
    rcases h with h | h | h
    · obtain ⟨r, hr, hn, hd⟩ := Plus_denOf_result v1 v2 h1 h2 hden
      rw [hr] at h; exact key r hn hd (Except.ok.inj h)
    · obtain ⟨r, hr, hn, hd⟩ := Minus_denOf_result v1 v2 h1 h2 hden
      rw [hr] at h; exact key r hn hd (Except.ok.inj h)
    · obtain ⟨r, hr, hn, hd⟩ := Mult_denOf_result v1 v2 h1 h2 hden
      rw [hr] at h; exact key r hn hd (Except.ok.inj h)
  · intro hfit n d h
    rcases Div_denOf_result v1 v2 h1 h2.1 hfit with ⟨_, herr⟩ | ⟨hne, m, hok⟩
    · rw [h] at herr; simp [isError] at herr
    · rw [hok] at h
      have hd : denOf v1 * |numOf v2| = d := by
        have := Except.ok.inj h
        injection this
      rw [← hd]; exact mul_pos h1.2 (abs_pos.mpr hne)
  · intro hfit n d h
    cases args with
    | nil =>
      rcases h with h | h | h
      · simp [PlusVar.evalRator] at h
      · simp [MinusVar.evalRator] at h
      · simp [MultVar.evalRator] at h
    | cons a0 rest =>
      have ha0 : numericPos a0 := hargs a0 (List.mem_cons_self a0 rest)
      have hrest : ∀ x ∈ rest, numericPos x :=
        fun x hx => hargs x (List.mem_cons_of_mem a0 hx)
      rw [denProduct_cons] at hfit
      have key : ∀ f : ValueBase → ValueBase → Res,
          (∀ w1 w2, numericPos w1 → numericPos w2 → inInt32 (denOf w1 * denOf w2) →
            ∃ r, f w1 w2 = .ok r ∧ isNumeric r = true ∧ denOf r = denOf w1 * denOf w2) →
          foldArgs f a0 rest = .ok (.Rational n d) → 0 < d := by
        intro f hf hfold
        obtain ⟨r, hr, hpos, _⟩ := foldArgs_denOf f hf rest a0 ha0 hrest hfit
        rw [hr] at hfold
        rw [Except.ok.inj hfold] at hpos
        exact hpos.2
      rcases h with h | h | h
      · exact key add (fun w1 w2 => by rw [add_eq_Plus]; exact Plus_denOf_result w1 w2) h
      · cases rest with
        | nil =>
          simp only [MinusVar.evalRator] at h
          have h0 : numericPos (.Integer 0) := by decide
          obtain ⟨r, hr, _, hd⟩ := Minus_denOf_result (.Integer 0) a0 h0 ha0
            (by simpa [denOf, denProduct] using hfit)
          rw [minu_eq_Minus, hr] at h
          rw [Except.ok.inj h] at hd
          simp only [denOf, one_mul] at hd
          rw [hd]; exact ha0.2
        | cons a1 rest' =>
          exact key minu (fun w1 w2 => by rw [minu_eq_Minus]; exact Minus_denOf_result w1 w2) h
      · exact key multiply
          (fun w1 w2 => by rw [multiply_eq_Mult]; exact Mult_denOf_result w1 w2) h
  · intro hfit n d h
    cases args with
    | nil => simp [DivVar.evalRator] at h
    | cons a0 rest =>
      have ha0 : numericPos a0 := hargs a0 (List.mem_cons_self a0 rest)
      have hrest : ∀ x ∈ rest, isNumeric x = true :=
        fun x hx => (hargs x (List.mem_cons_of_mem a0 hx)).1
      cases rest with
      | nil =>
        simp only [DivVar.evalRator] at h
        have h0 : numericPos (.Integer 1) := by decide
        have := foldArgs_divide_pos [a0] (.Integer 1) h0
          (fun x hx => by
            rw [List.mem_singleton] at hx
            rw [hx]; exact ha0.1)
          hfit (.Rational n d)
          (by
            simp only [foldArgs]
            rw [h])
        exact this.2
      | cons a1 rest' =>
        exact (foldArgs_divide_pos (a1 :: rest') a0 ha0 hrest hfit (.Rational n d) h).2

/-- C6 (amended) at `1/2` and `-3/4`, and at the operands `1/2`, `3`, `-5/7`. -/
theorem C6_denominator_witness :
    (Plus.evalRator (.Rational 1 2) (.Rational (-3) 4) = .ok (.Rational (-2) 8) ∧
      (0 : Int) < 8) ∧
    (Div.evalRator (.Rational 1 2) (.Rational (-3) 4) = .ok (.Rational (-4) 6) ∧
      (0 : Int) < 6) ∧
    (PlusVar.evalRator [.Rational 1 2, .Integer 3, .Rational (-5) 7] =
        .ok (.Rational 39 14) ∧ (0 : Int) < 14) ∧
    (DivVar.evalRator [.Rational 1 2, .Integer 3, .Rational (-5) 7] =
        .ok (.Rational (-7) 30) ∧ (0 : Int) < 30) := by
  have h := C6_denominator_positive (.Rational 1 2) (.Rational (-3) 4)
    [.Rational 1 2, .Integer 3, .Rational (-5) 7] (by decide) (by decide) (by decide)
  have e1 : Plus.evalRator (.Rational 1 2) (.Rational (-3) 4) = .ok (.Rational (-2) 8) := rfl
  have e2 : Div.evalRator (.Rational 1 2) (.Rational (-3) 4) = .ok (.Rational (-4) 6) := rfl
  have e3 : PlusVar.evalRator [.Rational 1 2, .Integer 3, .Rational (-5) 7] =
      .ok (.Rational 39 14) := rfl
  have e4 : DivVar.evalRator [.Rational 1 2, .Integer 3, .Rational (-5) 7] =
      .ok (.Rational (-7) 30) := rfl
  have f1 : inInt32 (denOf (.Rational 1 2) * denOf (.Rational (-3) 4)) := by decide
  have f2 : denOf (.Rational 1 2) * |numOf (.Rational (-3) 4)| ≤ INT_MAX := by
    simp [denOf, numOf, INT_MAX]
  have f3 : inInt32 (denProduct [.Rational 1 2, .Integer 3, .Rational (-5) 7]) := by decide
  have f4 : DivVar.denominatorsFit [.Rational 1 2, .Integer 3, .Rational (-5) 7] := by
    simp [DivVar.denominatorsFit, divDenominatorsFit, denOf, numOf, INT_MAX]
  exact ⟨⟨e1, h.1 f1 (-2) 8 (Or.inl e1)⟩, ⟨e2, h.2.1 f2 (-4) 6 e2⟩,
    ⟨e3, h.2.2.1 f3 39 14 (Or.inl e3)⟩, ⟨e4, h.2.2.2 f4 (-7) 30 e4⟩⟩

theorem compareNumericValues_exact (v1 v2 : ValueBase) (h1 : isNumeric v1 = true)
    (h2 : isNumeric v2 = true) (hl : inInt32 (numOf v1 * denOf v2))
    (hr : inInt32 (numOf v2 * denOf v1)) :
    compareNumericValues v1 v2 =
      .ok (threeWay (numOf v1 * denOf v2) (numOf v2 * denOf v1)) := by
  revert hl hr
  apply numeric_cases v1 v2 h1 h2
  · intro a c _ _
    simp [compareNumericValues, threeWay, numOf, denOf]
  · intro a c d hl _
    simp only [numOf, denOf, mul_one] at hl
    simp [compareNumericValues, threeWay, numOf, denOf, imul, wrap32_of_inInt32 hl]
  · intro a b c _ hr
    simp only [numOf, denOf, mul_one] at hr
    simp [compareNumericValues, threeWay, numOf, denOf, imul, wrap32_of_inInt32 hr]
  · intro a b c d hl hr
    simp only [numOf, denOf] at hl hr
    simp [compareNumericValues, threeWay, numOf, denOf, imul, wrap32_of_inInt32 hl,
      wrap32_of_inInt32 hr]

theorem toRat_lt_iff (v1 v2 : ValueBase) (h1 : numericPos v1) (h2 : numericPos v2) :
    toRat v1 < toRat v2 ↔ numOf v1 * denOf v2 < numOf v2 * denOf v1 := by
  rw [toRat_eq_div v1 h1.1, toRat_eq_div v2 h2.1]
  have hb : (0 : ℚ) < (denOf v1 : ℚ) := by exact_mod_cast h1.2
  have hd : (0 : ℚ) < (denOf v2 : ℚ) := by exact_mod_cast h2.2
  rw [div_lt_div_iff₀ hb hd]
  exact_mod_cast Iff.rfl

theorem toRat_eq_iff (v1 v2 : ValueBase) (h1 : numericPos v1) (h2 : numericPos v2) :
    toRat v1 = toRat v2 ↔ numOf v1 * denOf v2 = numOf v2 * denOf v1 := by
  rw [toRat_eq_div v1 h1.1, toRat_eq_div v2 h2.1]
  have hb : (denOf v1 : ℚ) ≠ 0 := by exact_mod_cast (ne_of_gt h1.2)
  have hd : (denOf v2 : ℚ) ≠ 0 := by exact_mod_cast (ne_of_gt h2.2)
  rw [div_eq_div_iff hb hd]
  exact_mod_cast Iff.rfl

/-- The three-way comparison of the cross products is the sign of the exact
difference. -/
theorem threeWay_eq_sign (v1 v2 : ValueBase) (h1 : numericPos v1) (h2 : numericPos v2) :
    threeWay (numOf v1 * denOf v2) (numOf v2 * denOf v1) =
      ((SignType.sign (toRat v1 - toRat v2) : SignType) : Int) := by
  have hlt := toRat_lt_iff v1 v2 h1 h2
  have hgt := toRat_lt_iff v2 v1 h2 h1
  have heq := toRat_eq_iff v1 v2 h1 h2
  unfold threeWay
  rcases lt_trichotomy (toRat v1) (toRat v2) with h | h | h
  · rw [if_pos (hlt.mp h), sign_neg (sub_neg.mpr h)]; rfl
  · have h' := heq.mp h
    rw [if_neg (by omega), if_neg (by omega), h, sub_self, sign_zero]; rfl
  · have h' := hgt.mp h
    rw [if_neg (by omega), if_pos (by omega), sign_pos (sub_pos.mpr h)]; rfl

theorem compareNumericValues_isError (w1 w2 : ValueBase) :
    isError (compareNumericValues w1 w2) = true ↔
      (isNumeric w1 = false ∨ isNumeric w2 = false) := by
  cases w1 <;> cases w2 <;> simp [compareNumericValues, isError, isNumeric]

/-- C7, as stated, fails when a cross product overflows:
`compareNumericValues(1/65536, 65536)` returns 1 and `(< 1/65536 65536)` returns
`#f`, although `1/65536 < 65536`. -/
theorem C7_compare_overflow_counterexample :
    numericPos (.Rational 1 65536) ∧ numericPos (.Integer 65536) ∧
    compareNumericValues (.Rational 1 65536) (.Integer 65536) = .ok 1 ∧
    Less.evalRator (.Rational 1 65536) (.Integer 65536) = .ok (.Boolean false) ∧
    toRat (.Rational 1 65536) < toRat (.Integer 65536) := by
  refine ⟨by decide, by decide, rfl, rfl, ?_⟩
  simp only [toRat]
  norm_num

/-- C7 (amended): for numeric values `v1`, `v2` with positive denominators whose
exact cross products fit in an `int`, `compareNumericValues(v1, v2)` returns the
sign (-1, 0 or 1) of the exact rational difference `v1 - v2`, and `Less`,
`LessEq`, `Equal`, `GreaterEq`, `Greater` return the Boolean of the exact
relation; for all operands, `compareNumericValues` raises a `RuntimeError` if
and only if an operand is non-numeric. -/
theorem C7_compare_sign (v1 v2 : ValueBase) (h1 : numericPos v1) (h2 : numericPos v2)
    (hl : inInt32 (numOf v1 * denOf v2)) (hr : inInt32 (numOf v2 * denOf v1)) :
    compareNumericValues v1 v2 =
      .ok ((SignType.sign (toRat v1 - toRat v2) : SignType) : Int) ∧
    Less.evalRator v1 v2 = .ok (.Boolean (decide (toRat v1 < toRat v2))) ∧
    LessEq.evalRator v1 v2 = .ok (.Boolean (decide (toRat v1 ≤ toRat v2))) ∧
    Equal.evalRator v1 v2 = .ok (.Boolean (decide (toRat v1 = toRat v2))) ∧
    GreaterEq.evalRator v1 v2 = .ok (.Boolean (decide (toRat v1 ≥ toRat v2))) ∧
    Greater.evalRator v1 v2 = .ok (.Boolean (decide (toRat v1 > toRat v2))) ∧
    (∀ w1 w2 : ValueBase, isError (compareNumericValues w1 w2) = true ↔
      (isNumeric w1 = false ∨ isNumeric w2 = false)) := by
  have hc := compareNumericValues_exact v1 v2 h1.1 h2.1 hl hr
  have hlt := toRat_lt_iff v1 v2 h1 h2
  have hgt := toRat_lt_iff v2 v1 h2 h1
  have heq := toRat_eq_iff v1 v2 h1 h2
  refine ⟨?_, ?_, ?_, ?_, ?_, ?_, compareNumericValues_isError⟩
  · rw [hc, threeWay_eq_sign v1 v2 h1 h2]
  all_goals
    simp only [Less.evalRator, LessEq.evalRator, Equal.evalRator, GreaterEq.evalRator,
      Greater.evalRator, hc, threeWay]
    congr 2
    rcases lt_trichotomy (toRat v1) (toRat v2) with h | h | h
    · have h' := hlt.mp h
      simp [h', h, le_of_lt h, ne_of_lt h, not_le.mpr h, not_lt.mpr (le_of_lt h)]
    · have h' := heq.mp h
      simp [h', h]
    · have h' := hgt.mp h
      have h'' : ¬ (numOf v1 * denOf v2 < numOf v2 * denOf v1) := by omega
      simp [h', h'', h, le_of_lt h, ne_of_gt h, not_le.mpr h, not_lt.mpr (le_of_lt h)]

/-- C7 (amended) at `1/3` and `1/2`. -/
theorem C7_compare_witness :
    compareNumericValues (.Rational 1 3) (.Rational 1 2) =
      .ok ((SignType.sign (toRat (.Rational 1 3) - toRat (.Rational 1 2)) : SignType) : Int) ∧
    Less.evalRator (.Rational 1 3) (.Rational 1 2) =
      .ok (.Boolean (decide (toRat (.Rational 1 3) < toRat (.Rational 1 2)))) ∧
    compareNumericValues (.Rational 1 3) (.Rational 1 2) = .ok (-1) ∧
    Less.evalRator (.Rational 1 3) (.Rational 1 2) = .ok (.Boolean true) := by
  have h := C7_compare_sign (.Rational 1 3) (.Rational 1 2) (by decide) (by decide)
    (by decide) (by decide)
  exact ⟨h.1, h.2.1, rfl, rfl⟩

theorem compareNumericValues_ok (x y : ValueBase) (hx : isNumeric x = true)
    (hy : isNumeric y = true) : ∃ c, compareNumericValues x y = .ok c := by
  cases x <;> cases y <;> simp [isNumeric] at hx hy <;> exact ⟨_, rfl⟩

theorem isNumeric_of_compare_ok {x y : ValueBase} {c : Int}
    (h : compareNumericValues x y = .ok c) : isNumeric x = true ∧ isNumeric y = true := by
  cases x <;> cases y <;> simp [compareNumericValues] at h <;> exact ⟨rfl, rfl⟩

/-- On numeric operands the comparison loop returns a Boolean, which is `#t`
exactly when no adjacent pair fails. -/
theorem compareLoop_numeric (fails : Int → Bool) (B : ValueBase → ValueBase → Res)
    (hB : ∀ x y c, compareNumericValues x y = .ok c → B x y = .ok (.Boolean (!fails c))) :
    ∀ args : List ValueBase, (∀ a ∈ args, isNumeric a = true) →
      ∃ b, compareLoop fails args = .ok (.Boolean b) ∧ (b = true ↔ adjacentPairs B args)
  | [], _ => ⟨true, rfl, by simp [adjacentPairs]⟩
  | [a], _ => ⟨true, rfl, by simp [adjacentPairs]⟩
  | a :: b :: rest, h => by
    have ha : isNumeric a = true := h a (by simp)
    have hb : isNumeric b = true := h b (by simp)
    obtain ⟨c, hc⟩ := compareNumericValues_ok a b ha hb
    obtain ⟨r, hr, hiff⟩ := compareLoop_numeric fails B hB (b :: rest)
      (fun x hx => h x (List.mem_cons_of_mem a hx))
    have hBab := hB a b c hc
    unfold adjacentPairs at hiff ⊢
    rw [List.chain'_cons]
    cases hf : fails c with
    | true =>
      refine ⟨false, by simp [compareLoop, hc, hf], ?_⟩
      rw [hBab, hf]
      simp
    | false =>
      refine ⟨r, by simp [compareLoop, hc, hf, hr], ?_⟩
      rw [hBab, hf]
      simpa using hiff

/-- The comparison loop returns `#f` at the first failing adjacent pair,
whatever operands follow it. -/
theorem compareLoop_short_circuit (fails : Int → Bool) (B : ValueBase → ValueBase → Res)
    (hB : ∀ x y c, compareNumericValues x y = .ok c → B x y = .ok (.Boolean (!fails c))) :
    ∀ (pre : List ValueBase) (a b : ValueBase) (rest : List ValueBase),
      (∀ x ∈ pre ++ [a, b], isNumeric x = true) → adjacentPairs B (pre ++ [a]) →
      B a b = .ok (.Boolean false) →
      compareLoop fails (pre ++ a :: b :: rest) = .ok (.Boolean false)
  | [], a, b, rest, hnum, _, hfail => by
    obtain ⟨c, hc⟩ := compareNumericValues_ok a b (hnum a (by simp)) (hnum b (by simp))
    rw [hB a b c hc] at hfail
    have hf : fails c = true := by simpa using hfail
    simp [compareLoop, hc, hf]
  | [p], a, b, rest, hnum, hchain, hfail => by
    obtain ⟨c, hc⟩ := compareNumericValues_ok p a (hnum p (by simp)) (hnum a (by simp))
    have hpa : B p a = .ok (.Boolean true) := by
      simpa [adjacentPairs] using hchain
    rw [hB p a c hc] at hpa
    have hf : fails c = false := by simpa using hpa
    have ih := compareLoop_short_circuit fails B hB [] a b rest
      (fun x hx => hnum x (by simp at hx ⊢; tauto)) (by simp [adjacentPairs]) hfail
    simp only [List.nil_append] at ih
    show compareLoop fails (p :: a :: b :: rest) = _
    rw [compareLoop, hc]
    simp only [hf, Bool.false_eq_true, if_false]
    exact ih
  | p :: q :: pre, a, b, rest, hnum, hchain, hfail => by
    obtain ⟨c, hc⟩ := compareNumericValues_ok p q (hnum p (by simp)) (hnum q (by simp))
    unfold adjacentPairs at hchain
    simp only [List.cons_append, List.chain'_cons] at hchain
    have hpq := hchain.1
    rw [hB p q c hc] at hpq
    have hf : fails c = false := by simpa using hpq
    have ih := compareLoop_short_circuit fails B hB (q :: pre) a b rest
      (fun x hx => hnum x (by simp at hx ⊢; tauto)) hchain.2 hfail
    simp only [List.cons_append] at ih ⊢
    rw [compareLoop, hc]
    simp only [hf, Bool.false_eq_true, if_false]
    exact ih

/-- Whenever the shared loop with the test of `LessVar` returns, the loop of
`LessVar` (which also checks the operand types) returns the same. -/
theorem LessVar_loop_eq_of_ok : ∀ (args : List ValueBase) (r : ValueBase),
    compareLoop (fun cmp => decide (cmp ≥ 0)) args = .ok r → LessVar.loop args = .ok r
  | [], r, h => by simpa [compareLoop, LessVar.loop] using h
  | [a], r, h => by simpa [compareLoop, LessVar.loop] using h
  | a :: b :: rest, r, h => by
    cases hc : compareNumericValues a b with
    | error msg => simp [compareLoop, hc] at h
    | ok c =>
      obtain ⟨ha, hb⟩ := isNumeric_of_compare_ok hc
      by_cases hf : c ≥ 0
      · simp only [compareLoop, hc, hf, decide_True, if_true] at h
        simp [LessVar.loop, ha, hb, hc, hf, h]
      · simp only [compareLoop, hc, hf, decide_False] at h
        have ih := LessVar_loop_eq_of_ok (b :: rest) r (by simpa using h)
        rw [LessVar.loop, hc]
        simp only [ha, hb, hf, Bool.true_eq_false, or_self, if_false]
        exact ih

theorem Less_of_compare (x y : ValueBase) (c : Int) (h : compareNumericValues x y = .ok c) :
    Less.evalRator x y = .ok (.Boolean (!decide (c ≥ 0))) := by
  simp only [Less.evalRator, h]
  by_cases hc : c < 0
  · simp [hc]
  · simp [hc]; omega

theorem LessEq_of_compare (x y : ValueBase) (c : Int) (h : compareNumericValues x y = .ok c) :
    LessEq.evalRator x y = .ok (.Boolean (!decide (c > 0))) := by
  simp only [LessEq.evalRator, h]
  by_cases hc : c ≤ 0
  · simp [hc]
  · simp [hc]; omega

theorem Equal_of_compare (x y : ValueBase) (c : Int) (h : compareNumericValues x y = .ok c) :
    Equal.evalRator x y = .ok (.Boolean (!decide (c ≠ 0))) := by
  simp only [Equal.evalRator, h]
  by_cases hc : c = 0
  · simp [hc]
  · simp [hc]

theorem GreaterEq_of_compare (x y : ValueBase) (c : Int)
    (h : compareNumericValues x y = .ok c) :
    GreaterEq.evalRator x y = .ok (.Boolean (!decide (c < 0))) := by
  simp only [GreaterEq.evalRator, h]
  by_cases hc : c ≥ 0
  · simp [hc]
  · simp [hc]; omega

theorem Greater_of_compare (x y : ValueBase) (c : Int) (h : compareNumericValues x y = .ok c) :
    Greater.evalRator x y = .ok (.Boolean (!decide (c ≤ 0))) := by
  simp only [Greater.evalRator, h]
  by_cases hc : c > 0
  · simp [hc]
  · simp [hc]; omega

theorem chainedSpec_of_compareLoop (fails : Int → Bool) (V : List ValueBase → Res)
    (B : ValueBase → ValueBase → Res)
    (hB : ∀ x y c, compareNumericValues x y = .ok c → B x y = .ok (.Boolean (!fails c)))
    (hshort : ∀ args, args.length < 2 → V args = .error "Wrong number of arguments")
    (hV : ∀ args r, 2 ≤ args.length → compareLoop fails args = .ok r → V args = .ok r)
    (args : List ValueBase) : chainedSpec V B args := by
  refine ⟨hshort args, ?_, ?_⟩
  · intro hnum hlen
    obtain ⟨b, hb, hiff⟩ := compareLoop_numeric fails B hB args hnum
    exact ⟨b, hV args _ hlen hb, hiff⟩
  · intro pre a b rest hnum hchain hfail
    apply hV
    · simp only [List.length_append, List.length_cons]; omega
    · exact compareLoop_short_circuit fails B hB pre a b rest hnum hchain hfail

/-- C8: each of `LessVar`, `LessEqVar`, `EqualVar`, `GreaterEqVar`, `GreaterVar`
raises a `RuntimeError` when given fewer than two arguments; on at least two
numeric values it returns a Boolean that is `#t` iff every adjacent pair
satisfies the corresponding binary relation; and it returns `#f` at the first
failing adjacent pair whatever the later operands are (they are not
compared). -/
theorem C8_chained_comparisons (args : List ValueBase) :
    chainedSpec LessVar.evalRator Less.evalRator args ∧
    chainedSpec LessEqVar.evalRator LessEq.evalRator args ∧
    chainedSpec EqualVar.evalRator Equal.evalRator args ∧
    chainedSpec GreaterEqVar.evalRator GreaterEq.evalRator args ∧
    chainedSpec GreaterVar.evalRator Greater.evalRator args := by
  refine ⟨?_, ?_, ?_, ?_, ?_⟩
  · apply chainedSpec_of_compareLoop (fun cmp => decide (cmp ≥ 0)) _ _ Less_of_compare
    · intro l h; simp [LessVar.evalRator, h]
    · intro l r h1 h2
      have : ¬ l.length < 2 := by omega
      simp only [LessVar.evalRator, this, if_false]
      exact LessVar_loop_eq_of_ok l r h2
  · apply chainedSpec_of_compareLoop (fun cmp => decide (cmp > 0)) _ _ LessEq_of_compare
    · intro l h; simp [LessEqVar.evalRator, h]
    · intro l r h1 h2
      have : ¬ l.length < 2 := by omega
      simp only [LessEqVar.evalRator, this, if_false]
      exact h2
  · apply chainedSpec_of_compareLoop (fun cmp => decide (cmp ≠ 0)) _ _ Equal_of_compare
    · intro l h; simp [EqualVar.evalRator, h]
    · intro l r h1 h2
      have : ¬ l.length < 2 := by omega
      simp only [EqualVar.evalRator, this, if_false]
      exact h2
  · apply chainedSpec_of_compareLoop (fun cmp => decide (cmp < 0)) _ _ GreaterEq_of_compare
    · intro l h; simp [GreaterEqVar.evalRator, h]
    · intro l r h1 h2
      have : ¬ l.length < 2 := by omega
      simp only [GreaterEqVar.evalRator, this, if_false]
      exact h2
  · apply chainedSpec_of_compareLoop (fun cmp => decide (cmp ≤ 0)) _ _ Greater_of_compare
    · intro l h; simp [GreaterVar.evalRator, h]
    · intro l r h1 h2
      have : ¬ l.length < 2 := by omega
      simp only [GreaterVar.evalRator, this, if_false]
      exact h2

/-- C8 at `(< 1)`, at `(< 1 3/2 2)` and at `(<= 1 3 2 "x")`, where the string
after the failing pair is never compared. -/
theorem C8_chained_witness :
    LessVar.evalRator [.Integer 1] = .error "Wrong number of arguments" ∧
    (∃ b, LessVar.evalRator [.Integer 1, .Rational 3 2, .Integer 2] = .ok (.Boolean b) ∧
      (b = true ↔
        adjacentPairs Less.evalRator [.Integer 1, .Rational 3 2, .Integer 2])) ∧
    LessEqVar.evalRator [.Integer 1, .Integer 3, .Integer 2, .String "x"] =
      .ok (.Boolean false) := by
  refine ⟨(C8_chained_comparisons [.Integer 1]).1.1 (by decide),
    (C8_chained_comparisons [.Integer 1, .Rational 3 2, .Integer 2]).1.2.1
      (by decide) (by decide), ?_⟩
  have e : LessEq.evalRator (.Integer 3) (.Integer 2) = .ok (.Boolean false) := rfl
  have c : adjacentPairs LessEq.evalRator ([.Integer 1] ++ [.Integer 3]) := by
    simp [adjacentPairs]
    rfl
  exact (C8_chained_comparisons []).2.1.2.2 [.Integer 1] (.Integer 3) (.Integer 2)
    [.String "x"] (by decide) c e

/-- C9: the code at the failing input `(let ((x 5)) (cond (x 1)))`, in any
store.  The test `x` alone evaluates to the object `Integer 5`, which is not
`#f`, yet the `cond` returns a fresh `Void` object instead of the value 1 of the
clause body: `Cond::eval` skips a clause whose test is a bare variable other
than `else`, without evaluating the test or the body. -/
theorem C9_cond_variable_test_skipped (T : Tables) (σ : Store) :
    eval T 3 (.Let [("x", .Fixnum 5)] (.Var "x")) [] σ =
      .ok σ.heap.length []
        { heap := σ.heap ++ [.Integer 5], cells := σ.cells ++ [some σ.heap.length],
          out := σ.out } ∧
    eval T 3 (.Let [("x", .Fixnum 5)] (.Cond [[.Var "x", .Fixnum 1]])) [] σ =
      .ok (σ.heap.length + 1) []
        { heap := σ.heap ++ [.Integer 5, .Void], cells := σ.cells ++ [some σ.heap.length],
          out := σ.out } := by
  have hname : Var.invalidName "x" = none := by decide
  constructor
  · simp [eval, evalBindings, returnNew, Store.alloc, extendValues, extend, Var.eval, hname,
      find, Outcome.withEnv]
  · simp [eval, evalBindings, returnNew, Store.alloc, extendValues, extend, Cond.evalClauses,
      Outcome.withEnv]

/-- A clause of `cond` whose test is a bare variable other than `else` is
skipped: the form evaluates as if the clause were not there. -/
theorem Cond_variable_test_skipped (T : Tables) (fuel : Nat) (x : String) (hx : x ≠ "else")
    (body : List Expr) (rest : List (List Expr)) (e : Assoc) (σ : Store) :
    eval T (fuel + 1) (.Cond ((.Var x :: body) :: rest)) e σ =
      eval T (fuel + 1) (.Cond rest) e σ := by
  simp [eval, Cond.evalClauses, hx]

/-- The same clause with the test written as an expression that is not a bare
variable, `(let ((x 5)) (cond ((+ x 0) 1)))`, returns 1: the path of `Cond::eval`
for the other expression kinds evaluates the test. -/
theorem cond_nonvariable_test (T : Tables) :
    eval T 4 (.Let [("x", .Fixnum 5)]
        (.Cond [[.Binary .Plus (.Var "x") (.Fixnum 0), .Fixnum 1]])) [] Store.init =
      .ok 4 []
        { heap := [.Integer 5, .Integer 0, .Integer 5, .Void, .Integer 1],
          cells := [some 0], out := [] } :=
  rfl

/-- The resolver turns the text `(let ((x 5)) (cond (x 1)))` into the expression
of the failing input of C9, whenever `let` and `cond` are the reserved words of
tags `E_LET` and `E_COND` and not primitives. -/
theorem parse_let_cond (T : Tables) (σ : Store)
    (hp1 : T.primitives.lookup "let" = none) (hr1 : T.reserved_words.lookup "let" = some .E_LET)
    (hp2 : T.primitives.lookup "cond" = none)
    (hr2 : T.reserved_words.lookup "cond" = some .E_COND) :
    parse T 4 (.List [.SymbolSyntax "let", .List [.List [.SymbolSyntax "x", .Number 5]],
        .List [.SymbolSyntax "cond", .List [.SymbolSyntax "x", .Number 1]]]) [] σ =
      .ok (.Let [("x", .Fixnum 5)] (.Cond [[.Var "x", .Fixnum 1]]))
        { heap := σ.heap ++ [.Null], cells := σ.cells ++ [some σ.heap.length], out := σ.out } := by
  simp [parse, find, hp1, hr1, hp2, hr2, parseLetBindings, parseClauses, parseAll, wrapBody,
    extend, Store.alloc]

/-- The resolver on `(let ((x 5)) (cond (x 1)))` with the two reserved words in
the table. -/
theorem parse_let_cond_witness :
    parse ⟨[], [("let", .E_LET), ("cond", .E_COND)]⟩ 4
        (.List [.SymbolSyntax "let", .List [.List [.SymbolSyntax "x", .Number 5]],
          .List [.SymbolSyntax "cond", .List [.SymbolSyntax "x", .Number 1]]]) []
        Store.init =
      .ok (.Let [("x", .Fixnum 5)] (.Cond [[.Var "x", .Fixnum 1]]))
        { heap := [.Null], cells := [some 0], out := [] } :=
  parse_let_cond ⟨[], [("let", .E_LET), ("cond", .E_COND)]⟩ Store.init rfl rfl rfl rfl

/-- C10: when the condition of an `if` evaluates to an object `c`, `If::eval` is
the evaluation of the alternative (and of nothing else) if `c` is the Boolean
`#f`, and the evaluation of the consequent (and of nothing else) for every other
`c`; when the condition raises an error, so does the `if`, and no branch is
evaluated. -/
theorem C10_if_selects_branch (T : Tables) (fuel : Nat) (cond conseq alter : Expr)
    (e : Assoc) (σ : Store) :
    (∀ (result : Value) (e1 : Assoc) (σ1 : Store) (c : ValueBase),
      eval T fuel cond e σ = .ok result e1 σ1 → σ1.deref result = some c →
      (c = .Boolean false →
        eval T (fuel + 1) (.If cond conseq alter) e σ = eval T fuel alter e1 σ1) ∧
      (c ≠ .Boolean false →
        eval T (fuel + 1) (.If cond conseq alter) e σ = eval T fuel conseq e1 σ1)) ∧
    (∀ (msg : String) (e1 : Assoc) (σ1 : Store),
      eval T fuel cond e σ = .error msg e1 σ1 →
      eval T (fuel + 1) (.If cond conseq alter) e σ = .error msg e1 σ1) := by
  refine ⟨?_, ?_⟩
  · intro result e1 σ1 c hc hd
    constructor
    · intro hf
      simp [eval, hc, hd, hf, check_true]
    · intro hf
      have ht : check_true c = true := by
        cases c <;> simp [check_true] at hf ⊢
        exact hf
      simp [eval, hc, hd, ht]
  · intro msg e1 σ1 hc
    simp [eval, hc]

/-- C10 at `(if 0 1 2)` and at `(if #f (display "a") (display "b"))`, which
writes only `b`; and the consequent is taken for the empty list, `Void`, a
string and `#t`. -/
theorem C10_if_witness :
    eval ⟨[], []⟩ 2 (.If (.Fixnum 0) (.Fixnum 1) (.Fixnum 2)) [] Store.init =
      eval ⟨[], []⟩ 1 (.Fixnum 1) [] { heap := [.Integer 0], cells := [], out := [] } ∧
    eval ⟨[], []⟩ 2 (.If (.Fixnum 0) (.Fixnum 1) (.Fixnum 2)) [] Store.init =
      .ok 1 [] { heap := [.Integer 0, .Integer 1], cells := [], out := [] } ∧
    eval ⟨[], []⟩ 3 (.If .False (.Unary .Display (.StringExpr "a"))
        (.Unary .Display (.StringExpr "b"))) [] Store.init =
      eval ⟨[], []⟩ 2 (.Unary .Display (.StringExpr "b")) []
        { heap := [.Boolean false], cells := [], out := [] } ∧
    eval ⟨[], []⟩ 3 (.If .False (.Unary .Display (.StringExpr "a"))
        (.Unary .Display (.StringExpr "b"))) [] Store.init =
      .ok 2 [] { heap := [.Boolean false, .String "b", .Void], cells := [],
                 out := [.text "b"] } ∧
    eval ⟨[], []⟩ 3 (.If (.Quote (.List [])) (.Fixnum 1) (.Fixnum 2)) [] Store.init =
      .ok 1 [] { heap := [.Null, .Integer 1], cells := [], out := [] } ∧
    eval ⟨[], []⟩ 2 (.If .MakeVoid (.Fixnum 1) (.Fixnum 2)) [] Store.init =
      .ok 1 [] { heap := [.Void, .Integer 1], cells := [], out := [] } ∧
    eval ⟨[], []⟩ 2 (.If (.StringExpr "") (.Fixnum 1) (.Fixnum 2)) [] Store.init =
      .ok 1 [] { heap := [.String "", .Integer 1], cells := [], out := [] } ∧
    eval ⟨[], []⟩ 2 (.If .True (.Fixnum 1) (.Fixnum 2)) [] Store.init =
      .ok 1 [] { heap := [.Boolean true, .Integer 1], cells := [], out := [] } := by
  have h0 : (ValueBase.Integer 0) ≠ .Boolean false := by simp
  have e0 : eval ⟨[], []⟩ 1 (.Fixnum 0) [] Store.init =
      .ok 0 [] { heap := [.Integer 0], cells := [], out := [] } := rfl
  have d0 : Store.deref { heap := [.Integer 0], cells := [], out := [] } 0 =
      some (.Integer 0) := rfl
  have ef : eval ⟨[], []⟩ 2 .False [] Store.init =
      .ok 0 [] { heap := [.Boolean false], cells := [], out := [] } := rfl
  have df : Store.deref { heap := [.Boolean false], cells := [], out := [] } 0 =
      some (.Boolean false) := rfl
  exact ⟨((C10_if_selects_branch ⟨[], []⟩ 1 (.Fixnum 0) (.Fixnum 1) (.Fixnum 2) []
      Store.init).1 0 [] _ (.Integer 0) e0 d0).2 h0, rfl,
    ((C10_if_selects_branch ⟨[], []⟩ 2 .False (.Unary .Display (.StringExpr "a"))
      (.Unary .Display (.StringExpr "b")) [] Store.init).1 0 [] _ (.Boolean false)
      ef df).1 rfl, rfl, rfl, rfl, rfl, rfl⟩

/-! ### `and`, `or` (C11, C12) -/

/-- A fresh object is read back through its reference. -/
theorem deref_alloc_new (σ : Store) (c : ValueBase) :
    (σ.alloc c).2.deref (σ.alloc c).1 = some c := by
  simp [Store.alloc, Store.deref]

theorem check_true_eq_false_iff (c : ValueBase) : check_true c = false ↔ isFalseObject c := by
  cases c <;> simp [check_true, isFalseObject]

theorem check_true_eq_true_iff (c : ValueBase) : check_true c = true ↔ isTrueObject c := by
  unfold isTrueObject
  rw [← check_true_eq_false_iff]
  simp

theorem onlyAllocated_refl (e : Assoc) (σ : Store) : onlyAllocated e σ e σ :=
  ⟨rfl, rfl, rfl, [], by simp⟩

theorem onlyAllocated_trans {e e1 e2 : Assoc} {σ σ1 σ2 : Store}
    (h1 : onlyAllocated e σ e1 σ1) (h2 : onlyAllocated e1 σ1 e2 σ2) :
    onlyAllocated e σ e2 σ2 := by
  obtain ⟨rfl, hc1, ho1, f1, hh1⟩ := h1
  obtain ⟨rfl, hc2, ho2, f2, hh2⟩ := h2
  exact ⟨rfl, hc2.trans hc1, ho2.trans ho1, f1 ++ f2, by rw [hh2, hh1, List.append_assoc]⟩

theorem onlyAllocated_alloc (e : Assoc) (σ : Store) (c : ValueBase) :
    onlyAllocated e σ e (σ.alloc c).2 :=
  ⟨rfl, rfl, rfl, [c], rfl⟩

theorem evalsAll_onlyAllocated (ev : Expr → Assoc → Store → Result) (P : ValueBase → Prop)
    (xs : List Expr) (e : Assoc) (σ : Store) (e1 : Assoc) (σ1 : Store)
    (hfree : ∀ x ∈ xs, sideEffectFree ev x) (h : evalsAll ev P xs e σ e1 σ1) :
    onlyAllocated e σ e1 σ1 := by
  induction xs generalizing e σ with
  | nil =>
    obtain ⟨rfl, rfl⟩ := h
    exact onlyAllocated_refl _ _
  | cons x rest ih =>
    obtain ⟨v, e2, σ2, c, hev, -, -, hrest⟩ := h
    exact onlyAllocated_trans (hfree x (List.mem_cons_self _ _) e σ v e2 σ2 hev)
      (ih e2 σ2 (fun y hy => hfree y (List.mem_cons_of_mem _ hy)) hrest)

theorem evalsAll_append (ev : Expr → Assoc → Store → Result) (P : ValueBase → Prop)
    (xs ys : List Expr) (e : Assoc) (σ : Store) (e1 : Assoc) (σ1 : Store) (e2 : Assoc)
    (σ2 : Store) (h1 : evalsAll ev P xs e σ e1 σ1) (h2 : evalsAll ev P ys e1 σ1 e2 σ2) :
    evalsAll ev P (xs ++ ys) e σ e2 σ2 := by
  induction xs generalizing e σ with
  | nil =>
    obtain ⟨rfl, rfl⟩ := h1
    exact h2
  | cons x rest ih =>
    obtain ⟨v, e3, σ3, c, hev, hd, hP, hrest⟩ := h1
    exact ⟨v, e3, σ3, c, hev, hd, hP, ih e3 σ3 hrest⟩

/-- The scan of `AndVar::eval` over operands that all evaluate to something
other than `#f` reaches the end. -/
theorem AndVar_scan_all_true (ev : Expr → Assoc → Store → Result) (rands : List Expr)
    (e : Assoc) (σ : Store) (e1 : Assoc) (σ1 : Store)
    (h : evalsAll ev isTrueObject rands e σ e1 σ1) :
    AndVar.scan ev rands e σ = .ok (some ()) e1 σ1 := by
  induction rands generalizing e σ with
  | nil =>
    obtain ⟨rfl, rfl⟩ := h
    rfl
  | cons x rest ih =>
    obtain ⟨v, e2, σ2, c, hev, hd, hP, hrest⟩ := h
    simp only [AndVar.scan, hev, hd, (check_true_eq_true_iff c).mpr hP, if_true]
    exact ih e2 σ2 hrest

/-- The scan of `AndVar::eval` stops at the first operand that evaluates to
`#f`, whatever follows it. -/
theorem AndVar_scan_first_false (ev : Expr → Assoc → Store → Result) (pre : List Expr)
    (x : Expr) (post : List Expr) (e : Assoc) (σ : Store) (e1 : Assoc) (σ1 : Store)
    (v : Value) (e2 : Assoc) (σ2 : Store) (c : ValueBase)
    (h : evalsAll ev isTrueObject pre e σ e1 σ1) (hx : ev x e1 σ1 = .ok v e2 σ2)
    (hd : σ2.deref v = some c) (hc : isFalseObject c) :
    AndVar.scan ev (pre ++ x :: post) e σ = .ok none e2 σ2 := by
  induction pre generalizing e σ with
  | nil =>
    obtain ⟨rfl, rfl⟩ := h
    simp [AndVar.scan, hx, hd, (check_true_eq_false_iff c).mpr hc]
  | cons y rest ih =>
    obtain ⟨w, e3, σ3, d, hev, hdd, hP, hrest⟩ := h
    simp only [List.cons_append, AndVar.scan, hev, hdd, (check_true_eq_true_iff d).mpr hP,
      if_true]
    exact ih e3 σ3 hrest

theorem eval_AndVar_none (T : Tables) (fuel : Nat) (rands : List Expr) (e : Assoc)
    (σ : Store) (e1 : Assoc) (σ1 : Store)
    (h : AndVar.scan (eval T fuel) rands e (σ.alloc (.Boolean true)).2 = .ok none e1 σ1) :
    eval T (fuel + 1) (.AndVar rands) e σ = returnNew (.Boolean false) e1 σ1 := by
  cases rands with
  | nil => simp [AndVar.scan] at h
  | cons x rest => simp only [eval, h]

theorem eval_AndVar_some (T : Tables) (fuel : Nat) (pre : List Expr) (last : Expr) (e : Assoc)
    (σ : Store) (e1 : Assoc) (σ1 : Store)
    (h : AndVar.scan (eval T fuel) (pre ++ [last]) e (σ.alloc (.Boolean true)).2 =
      .ok (some ()) e1 σ1) :
    eval T (fuel + 1) (.AndVar (pre ++ [last])) e σ = eval T fuel last e1 σ1 := by
  cases hp : pre ++ [last] with
  | nil => simp at hp
  | cons x rest =>
    have hl : (x :: rest).getLast? = some last := by rw [← hp]; simp
    rw [hp] at h
    simp only [eval, h, hl]

/-- C11: `AndVar::eval` returns a fresh `#t` for no operand.  When the
operands before `x` evaluate, in order, to objects other than `#f` and `x`
evaluates to `#f`, it returns a fresh `#f` in the state that the evaluation of
`x` left, whatever operands follow `x`: they are not evaluated.  When every
operand evaluates to an object other than `#f`, the result is the evaluation of
the last operand in the state that these evaluations left; for side-effect-free
operands that state differs from the initial one by fresh objects only, and
when the last operand gives the same value again the result has the content
`c` of the value of the last operand.  `(and 1 2 3)` evaluates to 3 and `(and)`
to `#t`. -/
theorem C11_and_short_circuit (T : Tables) (fuel : Nat) :
    (∀ e σ, eval T (fuel + 1) (.AndVar []) e σ = returnNew (.Boolean true) e σ) ∧
    (∀ pre x post e σ e1 σ1 v e2 σ2 c,
      evalsAll (eval T fuel) isTrueObject pre e (σ.alloc (.Boolean true)).2 e1 σ1 →
      eval T fuel x e1 σ1 = .ok v e2 σ2 → σ2.deref v = some c → isFalseObject c →
      eval T (fuel + 1) (.AndVar (pre ++ x :: post)) e σ =
        returnNew (.Boolean false) e2 σ2) ∧
    (∀ pre last e σ e1 σ1 v e2 σ2 c,
      evalsAll (eval T fuel) isTrueObject pre e (σ.alloc (.Boolean true)).2 e1 σ1 →
      eval T fuel last e1 σ1 = .ok v e2 σ2 → σ2.deref v = some c → isTrueObject c →
      eval T (fuel + 1) (.AndVar (pre ++ [last])) e σ = eval T fuel last e2 σ2 ∧
      ((∀ x ∈ pre ++ [last], sideEffectFree (eval T fuel) x) → onlyAllocated e σ e2 σ2) ∧
      (sameValueAgain (eval T fuel) last →
        ∃ v2 e3 σ3, eval T (fuel + 1) (.AndVar (pre ++ [last])) e σ = .ok v2 e3 σ3 ∧
          σ3.deref v2 = some c)) ∧
    (resolveAndEval stdTables 3 andExample [] Store.init).content = some (.Integer 3) ∧
    (resolveAndEval stdTables 3 (.List [.SymbolSyntax "and"]) [] Store.init).content =
      some (.Boolean true) := by
  refine ⟨fun e σ => rfl, ?_, ?_, rfl, rfl⟩
  · intro pre x post e σ e1 σ1 v e2 σ2 c h hx hd hc
    exact eval_AndVar_none T fuel _ e σ e2 σ2
      (AndVar_scan_first_false (eval T fuel) pre x post e _ e1 σ1 v e2 σ2 c h hx hd hc)
  · intro pre last e σ e1 σ1 v e2 σ2 c h hx hd hc
    have hall : evalsAll (eval T fuel) isTrueObject (pre ++ [last]) e
        (σ.alloc (.Boolean true)).2 e2 σ2 :=
      evalsAll_append _ _ pre [last] e _ e1 σ1 e2 σ2 h ⟨v, e2, σ2, c, hx, hd, hc, rfl, rfl⟩
    have hres := eval_AndVar_some T fuel pre last e σ e2 σ2
      (AndVar_scan_all_true (eval T fuel) _ e _ e2 σ2 hall)
    refine ⟨hres, ?_, ?_⟩
    · intro hfree
      exact onlyAllocated_trans (onlyAllocated_alloc e σ _)
        (evalsAll_onlyAllocated _ _ _ e _ e2 σ2 hfree hall)
    · intro hs
      obtain ⟨v2, e3, σ3, hev, hd2⟩ := hs e1 σ1 v e2 σ2 hx
      exact ⟨v2, e3, σ3, hres.trans hev, hd2.trans hd⟩

/-- An integer literal is a side-effect-free operand that gives the same value
again. -/
theorem Fixnum_sideEffectFree (T : Tables) (fuel : Nat) (n : Int) :
    sideEffectFree (eval T (fuel + 1)) (.Fixnum n) ∧
    sameValueAgain (eval T (fuel + 1)) (.Fixnum n) := by
  have he : ∀ e σ, eval T (fuel + 1) (.Fixnum n) e σ = returnNew (.Integer n) e σ :=
    fun _ _ => rfl
  constructor
  · intro e σ v e1 σ1 h
    rw [he] at h
    simp only [returnNew, Outcome.ok.injEq] at h
    obtain ⟨-, rfl, rfl⟩ := h
    exact onlyAllocated_alloc e σ _
  · intro e σ v e1 σ1 h
    rw [he] at h
    simp only [returnNew, Outcome.ok.injEq] at h
    obtain ⟨rfl, rfl, rfl⟩ := h
    refine ⟨_, _, _, he _ _, ?_⟩
    rw [deref_alloc_new, deref_alloc_new]

/-- The loop of `OrVar::eval` over operands that all evaluate to `#f` finds no
value. -/
theorem OrVar_scan_all_false (ev : Expr → Assoc → Store → Result) (rands : List Expr)
    (e : Assoc) (σ : Store) (e1 : Assoc) (σ1 : Store)
    (h : evalsAll ev isFalseObject rands e σ e1 σ1) :
    OrVar.scan ev rands e σ = .ok none e1 σ1 := by
  induction rands generalizing e σ with
  | nil =>
    obtain ⟨rfl, rfl⟩ := h
    rfl
  | cons x rest ih =>
    obtain ⟨v, e2, σ2, c, hev, hd, hP, hrest⟩ := h
    simp only [OrVar.scan, hev, hd, (check_true_eq_false_iff c).mpr hP]
    exact ih e2 σ2 hrest

/-- The loop of `OrVar::eval` stops at the first operand that evaluates to an
object other than `#f`, whatever follows it. -/
theorem OrVar_scan_first_true (ev : Expr → Assoc → Store → Result) (pre : List Expr) (x : Expr)
    (post : List Expr) (e : Assoc) (σ : Store) (e1 : Assoc) (σ1 : Store) (v : Value)
    (e2 : Assoc) (σ2 : Store) (c : ValueBase)
    (h : evalsAll ev isFalseObject pre e σ e1 σ1) (hx : ev x e1 σ1 = .ok v e2 σ2)
    (hd : σ2.deref v = some c) (hc : isTrueObject c) :
    OrVar.scan ev (pre ++ x :: post) e σ = .ok (some v) e2 σ2 := by
  induction pre generalizing e σ with
  | nil =>
    obtain ⟨rfl, rfl⟩ := h
    simp only [List.nil_append, OrVar.scan, hx, hd, (check_true_eq_true_iff c).mpr hc, if_true]
  | cons y rest ih =>
    obtain ⟨w, e3, σ3, d, hev, hdd, hP, hrest⟩ := h
    simp only [List.cons_append, OrVar.scan, hev, hdd, (check_true_eq_false_iff d).mpr hP]
    exact ih e3 σ3 hrest

theorem eval_OrVar_some (T : Tables) (fuel : Nat) (rands : List Expr) (e : Assoc) (σ : Store)
    (v : Value) (e1 : Assoc) (σ1 : Store)
    (h : OrVar.scan (eval T fuel) rands e σ = .ok (some v) e1 σ1) :
    eval T (fuel + 1) (.OrVar rands) e σ = .ok v e1 σ1 := by
  cases rands with
  | nil => simp [OrVar.scan] at h
  | cons x rest => simp only [eval, h]

theorem eval_OrVar_none (T : Tables) (fuel : Nat) (rands : List Expr) (e : Assoc) (σ : Store)
    (e1 : Assoc) (σ1 : Store)
    (h : OrVar.scan (eval T fuel) rands e σ = .ok none e1 σ1) :
    eval T (fuel + 1) (.OrVar rands) e σ = returnNew (.Boolean false) e1 σ1 := by
  cases rands with
  | nil =>
    simp only [OrVar.scan, Outcome.ok.injEq, true_and] at h
    obtain ⟨rfl, rfl⟩ := h
    rfl
  | cons x rest => simp only [eval, h]

/-- C12: `OrVar::eval` returns a fresh `#f` for no operand.  When the operands
before `x` evaluate, in order from left to right, to `#f` and `x` evaluates to
an object other than `#f`, it returns that very value in the state that the
evaluation of `x` left, whatever operands follow `x`: they are not evaluated.
When every operand evaluates to `#f` it returns a fresh `#f`.  `(or #f #f 5)`
evaluates to 5 and `(or)` to `#f`. -/
theorem C12_or_first_true (T : Tables) (fuel : Nat) :
    (∀ e σ, eval T (fuel + 1) (.OrVar []) e σ = returnNew (.Boolean false) e σ) ∧
    (∀ pre x post e σ e1 σ1 v e2 σ2 c,
      evalsAll (eval T fuel) isFalseObject pre e σ e1 σ1 →
      eval T fuel x e1 σ1 = .ok v e2 σ2 → σ2.deref v = some c → isTrueObject c →
      eval T (fuel + 1) (.OrVar (pre ++ x :: post)) e σ = .ok v e2 σ2) ∧
    (∀ rands e σ e1 σ1, evalsAll (eval T fuel) isFalseObject rands e σ e1 σ1 →
      eval T (fuel + 1) (.OrVar rands) e σ = returnNew (.Boolean false) e1 σ1) ∧
    (resolveAndEval stdTables 3 orExample [] Store.init).content = some (.Integer 5) ∧
    (resolveAndEval stdTables 3 (.List [.SymbolSyntax "or"]) [] Store.init).content =
      some (.Boolean false) := by
  refine ⟨fun e σ => rfl, ?_, ?_, rfl, rfl⟩
  · intro pre x post e σ e1 σ1 v e2 σ2 c h hx hd hc
    exact eval_OrVar_some T fuel _ e σ v e2 σ2
      (OrVar_scan_first_true (eval T fuel) pre x post e σ e1 σ1 v e2 σ2 c h hx hd hc)
  · intro rands e σ e1 σ1 h
    exact eval_OrVar_none T fuel _ e σ e1 σ1
      (OrVar_scan_all_false (eval T fuel) _ e σ e1 σ1 h)

/-! ### `let`, `letrec`, grouped definitions (C13, C14, C15) -/

/-- The values of the bindings of a `let` are those of its initialisers,
evaluated like the operands of an application: the names play no part. -/
theorem evalBindings_eq_evalArgs (ev : Expr → Assoc → Store → Result)
    (bind : List (String × Expr)) (e : Assoc) (σ : Store) :
    evalBindings ev bind e σ = evalArgs ev (bind.map Prod.snd) e σ := by
  induction bind generalizing e σ with
  | nil => rfl
  | cons b rest ih =>
    obtain ⟨x, init⟩ := b
    simp only [evalBindings, List.map_cons, evalArgs]
    cases ev init e σ with
    | ok v e1 σ1 => simp only [ih]
    | error msg e1 σ1 => rfl
    | timeout => rfl
    | fault => rfl

/-- The resolved bindings of a `let` do not depend on the environment
`local_env` in which the loop collects the names. -/
theorem parseLetBindings_local_env (p : Syntax → Store → Parsed Expr) (binders : List Syntax)
    (env1 env2 : Assoc) (σ : Store) :
    (parseLetBindings p binders env1 σ).bindings =
      (parseLetBindings p binders env2 σ).bindings := by
  induction binders generalizing env1 env2 σ with
  | nil => rfl
  | cons b rest ih =>
    cases b with
    | List l =>
      match l with
      | [] => rfl
      | [_] => rfl
      | _ :: _ :: _ :: _ => rfl
      | [first, last] =>
        cases first with
        | SymbolSyntax x =>
          simp only [parseLetBindings]
          cases p last σ with
          | ok t σ1 =>
            simp only []
            have := ih ((extend x (some (σ1.alloc .Null).1) env1 (σ1.alloc .Null).2).1)
              ((extend x (some (σ1.alloc .Null).1) env2 (σ1.alloc .Null).2).1)
              ((extend x (some (σ1.alloc .Null).1) env1 (σ1.alloc .Null).2).2)
            have hσ : (extend x (some (σ1.alloc .Null).1) env2 (σ1.alloc .Null).2).2 =
              (extend x (some (σ1.alloc .Null).1) env1 (σ1.alloc .Null).2).2 := rfl
            rw [hσ]
            revert this
            cases parseLetBindings p rest _ _ <;> cases parseLetBindings p rest _ _ <;>
              simp [Parsed.bindings]
          | error msg σ1 => rfl
          | timeout => rfl
        | _ => rfl
    | _ => rfl

theorem parse_let_form (T : Tables) (fuel : Nat) (binders : List Syntax) (body1 : Syntax)
    (bodies : List Syntax) (env : Assoc) (σ : Store) (binded : List (String × Expr))
    (local_env : Assoc) (σ1 : Store) (body_exprs : List Expr) (σ2 : Store)
    (hf : find "let" env σ = none) (hp : T.primitives.lookup "let" = none)
    (hr : T.reserved_words.lookup "let" = some .E_LET)
    (hb : parseLetBindings (fun s => parse T fuel s env) binders env σ =
      .ok (binded, local_env) σ1)
    (hbody : parseAll (fun s => parse T fuel s local_env) (body1 :: bodies) σ1 =
      .ok body_exprs σ2) :
    parse T (fuel + 1) (.List (.SymbolSyntax "let" :: .List binders :: body1 :: bodies))
        env σ = .ok (.Let binded (wrapBody body_exprs)) σ2 := by
  simp only [parse, hf, Option.isSome_none, Bool.false_eq_true, if_false, hp, hr, hb, hbody]

theorem eval_Let (T : Tables) (fuel : Nat) (bind : List (String × Expr)) (body : Expr)
    (e : Assoc) (σ : Store) (values : List Value) (env1 : Assoc) (σ1 : Store)
    (h : evalArgs (eval T fuel) (bind.map Prod.snd) e σ = .ok values env1 σ1) :
    eval T (fuel + 1) (.Let bind body) e σ =
      (eval T fuel body (extendValues (bind.map Prod.fst) values env1 σ1).1
        (extendValues (bind.map Prod.fst) values env1 σ1).2).withEnv env1 := by
  rw [← evalBindings_eq_evalArgs] at h
  simp only [eval, h]

/-- C13: `List::parse` resolves the initialisers of a `let` form with the
resolver of the outer environment `env` (the loop `parseLetBindings` is run
with `parse` in `env`), the environment `local_env` in which the loop collects
the names has no influence on the resolved bindings, and the body is resolved
in `local_env`.  `Let::eval` evaluates the initialisers like the operands of
an application, from the caller's environment, with no name of the `let`
bound, and returns the value of the body in that environment extended with all
the bindings.  `(let ((x 1)) (let ((x 2) (y x)) y))` evaluates to 1. -/
theorem C13_let_outer_scope (T : Tables) (fuel : Nat) :
    (∀ binders body1 bodies env σ binded local_env σ1 body_exprs σ2,
      find "let" env σ = none → T.primitives.lookup "let" = none →
      T.reserved_words.lookup "let" = some .E_LET →
      parseLetBindings (fun s => parse T fuel s env) binders env σ =
        .ok (binded, local_env) σ1 →
      parseAll (fun s => parse T fuel s local_env) (body1 :: bodies) σ1 =
        .ok body_exprs σ2 →
      parse T (fuel + 1) (.List (.SymbolSyntax "let" :: .List binders :: body1 :: bodies))
        env σ = .ok (.Let binded (wrapBody body_exprs)) σ2) ∧
    (∀ p binders env1 env2 σ,
      (parseLetBindings p binders env1 σ).bindings =
        (parseLetBindings p binders env2 σ).bindings) ∧
    (∀ bind e σ,
      evalBindings (eval T fuel) bind e σ = evalArgs (eval T fuel) (bind.map Prod.snd) e σ) ∧
    (∀ bind body e σ values env1 σ1,
      evalArgs (eval T fuel) (bind.map Prod.snd) e σ = .ok values env1 σ1 →
      eval T (fuel + 1) (.Let bind body) e σ =
        (eval T fuel body (extendValues (bind.map Prod.fst) values env1 σ1).1
          (extendValues (bind.map Prod.fst) values env1 σ1).2).withEnv env1) ∧
    (resolveAndEval stdTables 5 letExample [] Store.init).content = some (.Integer 1) :=
  ⟨fun binders body1 bodies env σ binded local_env σ1 body_exprs σ2 hf hp hr hb hbody =>
      parse_let_form T fuel binders body1 bodies env σ binded local_env σ1 body_exprs σ2
        hf hp hr hb hbody,
    parseLetBindings_local_env,
    evalBindings_eq_evalArgs (eval T fuel),
    eval_Let T fuel, rfl⟩

/-- The closure of `(letrec ((f (lambda params body))) lbody)` is made while
the binding cell of `f` holds the null placeholder, in the environment
`letrecEnv` that owns this cell; the cell is then patched with the closure, and
the body of the `letrec` is evaluated in that environment. -/
theorem letrec_closure_patched (T : Tables) (fuel : Nat) (f : String) (params : List String)
    (body lbody : Expr) (e : Assoc) (σ : Store) :
    find f (letrecEnv f e σ) (extendAll nullPlaceholder [f] e σ).2 = none ∧
    eval T (fuel + 1) (.Lambda params body) (letrecEnv f e σ)
        (extendAll nullPlaceholder [f] e σ).2 =
      .ok σ.heap.length (letrecEnv f e σ)
        { heap := σ.heap ++ [.Procedure params body (letrecEnv f e σ)],
          cells := σ.cells ++ [none], out := σ.out } ∧
    find f (letrecEnv f e σ) (letrecStore f params body e σ) = some σ.heap.length ∧
    (letrecStore f params body e σ).deref σ.heap.length =
      some (.Procedure params body (letrecEnv f e σ)) ∧
    eval T (fuel + 2) (.Letrec [(f, .Lambda params body)] lbody) e σ =
      (eval T (fuel + 1) lbody (letrecEnv f e σ) (letrecStore f params body e σ)).withEnv e := by
  refine ⟨?_, rfl, ?_, ?_, ?_⟩
  · simp [find, letrecEnv, extendAll, extend, nullPlaceholder]
  · simp [find, letrecEnv, letrecStore]
  · simp [Store.deref, letrecStore]
  · have hm : modifyAll [f] [σ.heap.length] (letrecEnv f e σ)
        { heap := σ.heap ++ [.Procedure params body (letrecEnv f e σ)],
          cells := σ.cells ++ [none], out := σ.out } = letrecStore f params body e σ := by
      simp [modifyAll, modify, letrecEnv, letrecStore]
    rw [← hm]
    rfl

theorem factorial_le_INT_MAX (k : Nat) (hk : (Nat.factorial k : Int) ≤ INT_MAX) : k ≤ 12 := by
  by_contra h
  have h13 : 13 ≤ k := by omega
  have := Nat.factorial_le h13
  have e13 : Nat.factorial 13 = 6227020800 := by decide
  rw [e13] at this
  unfold INT_MAX at hk
  omega

set_option maxRecDepth 20000 in
/-- The factorial form evaluated for each `k` from 0 to 12. -/
theorem factorialForm_value (k : Nat) (hk : k ≤ 12) :
    (resolveAndEval stdTables 60 (factorialForm k) [] Store.init).content =
      some (.Integer (Nat.factorial k)) := by
  interval_cases k <;> rfl

/-- C14: resolving
`(letrec ((f (lambda (n) (if (= n 0) 1 (* n (f (- n 1))))))) (f k))` in the
empty environment of a fresh session and evaluating the result gives the
object `Integer k!`, for every natural `k` with `k! ≤ INT_MAX`.  And for every
`letrec` that binds one name to a lambda expression: the closure is made while
the binding cell of the name holds the null placeholder, its environment is the
one that owns this cell, and the body of the `letrec` runs after the cell was
patched with the closure, so that a call of the closure finds itself under the
name. -/
theorem C14_letrec_factorial (k : Nat) (hk : (Nat.factorial k : Int) ≤ INT_MAX) :
    (resolveAndEval stdTables 60 (factorialForm k) [] Store.init).content =
      some (.Integer (Nat.factorial k)) ∧
    ∀ (T : Tables) (fuel : Nat) (f : String) (params : List String) (body lbody : Expr)
      (e : Assoc) (σ : Store),
      find f (letrecEnv f e σ) (extendAll nullPlaceholder [f] e σ).2 = none ∧
      eval T (fuel + 1) (.Lambda params body) (letrecEnv f e σ)
          (extendAll nullPlaceholder [f] e σ).2 =
        .ok σ.heap.length (letrecEnv f e σ)
          { heap := σ.heap ++ [.Procedure params body (letrecEnv f e σ)],
            cells := σ.cells ++ [none], out := σ.out } ∧
      find f (letrecEnv f e σ) (letrecStore f params body e σ) = some σ.heap.length ∧
      (letrecStore f params body e σ).deref σ.heap.length =
        some (.Procedure params body (letrecEnv f e σ)) ∧
      eval T (fuel + 2) (.Letrec [(f, .Lambda params body)] lbody) e σ =
        (eval T (fuel + 1) lbody (letrecEnv f e σ)
          (letrecStore f params body e σ)).withEnv e :=
  ⟨factorialForm_value k (factorial_le_INT_MAX k hk), letrec_closure_patched⟩

/-- C14 at `k = 5`: the form evaluates to 120. -/
theorem C14_letrec_witness :
    (Nat.factorial 5 : Int) ≤ INT_MAX ∧
    (resolveAndEval stdTables 60 (factorialForm 5) [] Store.init).content =
      some (.Integer 120) :=
  ⟨by decide, (C14_letrec_factorial 5 (by decide)).1⟩

theorem grows_refl (σ : Store) : σ.grows σ := ⟨⟨[], by simp⟩, ⟨[], by simp⟩⟩

theorem grows_trans {σ σ1 σ2 : Store} (h1 : σ.grows σ1) (h2 : σ1.grows σ2) : σ.grows σ2 := by
  obtain ⟨⟨a1, ha1⟩, ⟨b1, hb1⟩⟩ := h1
  obtain ⟨⟨a2, ha2⟩, ⟨b2, hb2⟩⟩ := h2
  exact ⟨⟨a1 ++ a2, by rw [ha2, ha1, List.append_assoc]⟩,
    ⟨b1 ++ b2, by rw [hb2, hb1, List.append_assoc]⟩⟩

theorem grows_alloc (σ : Store) (c : ValueBase) : σ.grows (σ.alloc c).2 :=
  ⟨⟨[c], rfl⟩, ⟨[], by simp [Store.alloc]⟩⟩

theorem grows_cell (σ : Store) (v : Option Value) :
    σ.grows { σ with cells := σ.cells ++ [v] } :=
  ⟨⟨[], by simp⟩, ⟨[v], rfl⟩⟩

theorem lookup_append_of_some {α : Type} (l m : List α) (i : Nat) (a : α)
    (h : l[i]? = some a) : (l ++ m)[i]? = some a := by
  obtain ⟨hlt, -⟩ := List.getElem?_eq_some.mp h
  rw [List.getElem?_append_left hlt, h]

theorem grows_deref {σ σ1 : Store} (h : σ.grows σ1) (v : Value) (c : ValueBase)
    (hd : σ.deref v = some c) : σ1.deref v = some c := by
  obtain ⟨⟨a, ha⟩, -⟩ := h
  unfold Store.deref at hd ⊢
  rw [ha]
  exact lookup_append_of_some _ _ _ _ hd

theorem grows_cells {σ σ1 : Store} (h : σ.grows σ1) (i : Nat) (c : Option Value)
    (hd : σ.cells[i]? = some c) : σ1.cells[i]? = some c := by
  obtain ⟨-, ⟨b, hb⟩⟩ := h
  rw [hb]
  exact lookup_append_of_some _ _ _ _ hd

theorem evenOddReady_grows {σ σ1 : Store} (h : σ.grows σ1) (hr : evenOddReady σ) :
    evenOddReady σ1 := by
  obtain ⟨pe, po, h0, h1, he, ho⟩ := hr
  exact ⟨pe, po, grows_cells h _ _ h0, grows_cells h _ _ h1, grows_deref h _ _ he,
    grows_deref h _ _ ho⟩

theorem eval_n (T : Tables) (f : Nat) (e : Assoc) (σ : Store) (vn : Value)
    (hfind : find "n" e σ = some vn) : eval T (f + 1) (.Var "n") e σ = .ok vn e σ := by
  have hi : Var.invalidName "n" = none := by decide
  simp only [eval, Var.eval, hi, hfind]

theorem eval_n_equal_zero (T : Tables) (f : Nat) (e : Assoc) (σ : Store) (vn : Value) (n : Int)
    (hfind : find "n" e σ = some vn) (hd : σ.deref vn = some (.Integer n)) :
    eval T (f + 2) (.Binary .Equal (.Var "n") (.Fixnum 0)) e σ =
      returnNew (.Boolean (decide (n = 0))) e (σ.alloc (.Integer 0)).2 := by
  have h1 := eval_n T f e σ vn hfind
  have hd1 := grows_deref (grows_alloc σ (.Integer 0)) _ _ hd
  have hb : decide ((if n < 0 then (-1 : Int) else if n > 0 then 1 else 0) = 0)
      = decide (n = 0) := by
    by_cases h0 : n = 0
    · simp [h0]
    · have : n < 0 ∨ n > 0 := by omega
      rcases this with h | h
      · simp [h, h0]
      · have h' : ¬ n < 0 := by omega
        simp [h, h', h0]
  rw [eval]
  simp only [h1]
  simp only [eval, returnNew, Binary.evalRator, hd1, deref_alloc_new, Equal.evalRator,
    compareNumericValues, returnRes, hb]

theorem eval_n_minus_one (T : Tables) (f : Nat) (e : Assoc) (σ : Store) (vn : Value) (n : Int)
    (hfind : find "n" e σ = some vn) (hd : σ.deref vn = some (.Integer n))
    (h0 : 0 < n) (hmax : n ≤ INT_MAX) :
    eval T (f + 2) (.Binary .Minus (.Var "n") (.Fixnum 1)) e σ =
      returnNew (.Integer (n - 1)) e (σ.alloc (.Integer 1)).2 := by
  have h1 := eval_n T f e σ vn hfind
  have hd1 := grows_deref (grows_alloc σ (.Integer 1)) _ _ hd
  have hw : isub n 1 = n - 1 := by
    unfold INT_MAX at hmax
    unfold isub wrap32
    omega
  rw [eval]
  simp only [h1]
  simp only [eval, returnNew, Binary.evalRator, hd1, deref_alloc_new, Minus.evalRator,
    returnRes, hw]


/-- The application of a variable bound to a closure of one parameter. -/
theorem eval_apply_closure (T : Tables) (f : Nat) (name : String) (arg : Expr) (e : Assoc)
    (σ : Store) (p : Value) (x : String) (body : Expr) (env : Assoc) (v : Value) (σ1 : Store)
    (hi : Var.invalidName name = none) (hfind : find name e σ = some p)
    (hp : σ.deref p = some (.Procedure [x] body env))
    (harg : eval T (f + 1) arg e σ = .ok v e σ1) :
    eval T (f + 2) (.Apply (.Var name) [arg]) e σ =
      (eval T (f + 1) body ((x, σ1.cells.length) :: env)
        { σ1 with cells := σ1.cells ++ [some v] }).withEnv e := by
  have hr : eval T (f + 1) (.Var name) e σ = .ok p e σ := by
    simp only [eval, Var.eval, hi, hfind]
  rw [eval]
  simp only [hr, hp, evalArgs, harg]
  simp [extendValues, extend]

theorem parity_succ (n : Nat) (b : Bool) :
    ((!b) == decide (n % 2 = 0)) = (b == decide ((n + 1) % 2 = 0)) := by
  rcases Nat.mod_two_eq_zero_or_one n with h | h
  · have h2 : (n + 1) % 2 = 1 := by omega
    cases b <;> simp [h, h2]
  · have h2 : (n + 1) % 2 = 0 := by omega
    cases b <;> simp [h, h2]

/-- The body of `even?` or of `odd?`, evaluated with `n` bound to `Integer n`
and with at least `2 * n + 3` levels of recursion, returns the parity. -/
theorem evenOdd_body (n : Nat) :
    ∀ (isEven : Bool) (f : Nat) (σ : Store) (c : Nat) (vn : Value),
      (n : Int) ≤ INT_MAX → 2 * n ≤ f → evenOddReady σ →
      σ.cells[c]? = some (some vn) → σ.deref vn = some (.Integer n) →
      ∃ v e1 σ1, eval stdTables (f + 3) (evenOddBody isEven) (("n", c) :: evenOddEnv) σ =
          .ok v e1 σ1 ∧ σ.grows σ1 ∧
        σ1.deref v = some (.Boolean (isEven == decide (n % 2 = 0))) := by
  induction n with
  | zero =>
    intro isEven f σ c vn hmax hf hr hc hd
    have hfind : find "n" (("n", c) :: evenOddEnv) σ = some vn := by simp [find, hc]
    have hcond := eval_n_equal_zero stdTables f _ σ vn _ hfind hd
    unfold evenOddBody
    rw [eval]
    simp only [hcond, returnNew, deref_alloc_new, check_true]
    simp only [Nat.cast_zero, decide_True, if_true]
    cases isEven
    · exact ⟨_, _, _, rfl, grows_trans (grows_alloc _ _) (grows_trans (grows_alloc _ _)
        (grows_alloc _ _)), by simp [deref_alloc_new]⟩
    · exact ⟨_, _, _, rfl, grows_trans (grows_alloc _ _) (grows_trans (grows_alloc _ _)
        (grows_alloc _ _)), by simp [deref_alloc_new]⟩
  | succ n ih =>
    intro isEven f σ c vn hmax hf hr hc hd
    obtain ⟨g, rfl⟩ : ∃ g, f = g + 2 := ⟨f - 2, by omega⟩
    have hfind : find "n" (("n", c) :: evenOddEnv) σ = some vn := by simp [find, hc]
    have hcond := eval_n_equal_zero stdTables (g + 2) _ σ vn _ hfind hd
    have hne : ¬ ((n + 1 : Nat) : Int) = 0 := by omega
    have hcast : ((n + 1 : Nat) : Int) - 1 = (n : Int) := by push_cast; ring
    have hmax1 : (n : Int) ≤ INT_MAX := by
      have : ((n + 1 : Nat) : Int) = (n : Int) + 1 := by push_cast; ring
      omega
    unfold evenOddBody
    rw [eval]
    simp only [hcond, returnNew, deref_alloc_new, check_true, hne, decide_False,
      Bool.false_eq_true, if_false]
    -- the store after the test
    generalize hσ1 : ((σ.alloc (.Integer 0)).2.alloc (.Boolean false)).2 = σ1
    have hg1 : σ.grows σ1 := hσ1 ▸ grows_trans (grows_alloc _ _) (grows_alloc _ _)
    have hr1 := evenOddReady_grows hg1 hr
    have hfind1 : find "n" (("n", c) :: evenOddEnv) σ1 = some vn := by
      simp [find, grows_cells hg1 _ _ hc]
    have hd1 := grows_deref hg1 _ _ hd
    have harg := eval_n_minus_one stdTables (g + 1) _ _ vn _ hfind1 hd1 (by omega) hmax
    rw [hcast] at harg
    -- the store in which the body of the callee is evaluated
    generalize hσ2 : (σ1.alloc (.Integer 1)).2 = σ2 at harg
    have hg2 : σ1.grows σ2 := hσ2 ▸ grows_alloc _ _
    have hg3 : σ.grows { (σ2.alloc (.Integer n)).2 with
        cells := (σ2.alloc (.Integer n)).2.cells ++ [some (σ2.alloc (.Integer n)).1] } :=
      grows_trans hg1 (grows_trans hg2 (grows_trans (grows_alloc _ _) (grows_cell _ _)))
    have hih := fun b => ih b g _ (σ2.alloc (.Integer n)).2.cells.length
        (σ2.alloc (.Integer n)).1 hmax1 (by omega) (evenOddReady_grows hg3 hr) (by simp)
        (deref_alloc_new σ2 (.Integer n))
    obtain ⟨pe, po, h0, h1, hpe, hpo⟩ := hr1
    cases isEven
    · have happ := eval_apply_closure stdTables (g + 2) "even?" _ (("n", c) :: evenOddEnv) _
        pe "n" _ _ _ _ (by decide) (by simp [find, h0]) hpe harg
      simp only [Bool.false_eq_true, if_false]
      rw [happ]
      obtain ⟨v, e1, σ3, hev, hgr, hres⟩ := hih true
      refine ⟨v, _, σ3, by rw [hev]; rfl, grows_trans hg3 hgr, ?_⟩
      rw [hres, ← parity_succ n false]
      rfl
    · have happ := eval_apply_closure stdTables (g + 2) "odd?" _ (("n", c) :: evenOddEnv) _
        po "n" _ _ _ _ (by decide) (by simp [find, h1]) hpo harg
      simp only [if_true]
      rw [happ]
      obtain ⟨v, e1, σ3, hev, hgr, hres⟩ := hih false
      refine ⟨v, _, σ3, by rw [hev]; rfl, grows_trans hg3 hgr, ?_⟩
      rw [hres, ← parity_succ n true]
      rfl


theorem evenOddReady_evenOddStore : evenOddReady evenOddStore :=
  ⟨1, 3, rfl, rfl, rfl, rfl⟩

/-- C15: in a fresh session, the two forms resolve to the definitions of
`even?` and `odd?`, and `(even? n)` to the application of the variable `even?`;
the first loop of `evaluateDefineGroup` binds both names to the null
placeholder before any initialiser is evaluated, so that both closures hold the
environment with both names; after `evaluateDefineGroup`, evaluating
`(even? n)` with at least `2 * n + 5` levels of recursion returns the Boolean
`#t` if `n` is even and `#f` if `n` is odd, for every natural `n` that an `int`
literal can hold. -/
theorem C15_even_odd (n : Nat) (hn : (n : Int) ≤ INT_MAX) (fuel : Nat)
    (hfuel : 2 * n + 5 ≤ fuel) :
    parse stdTables fuel (evenOddForm true) [] Store.init =
      .ok (.Define "even?" (.Lambda ["n"] (evenOddBody true))) Store.init ∧
    parse stdTables fuel (evenOddForm false) [] Store.init =
      .ok (.Define "odd?" (.Lambda ["n"] (evenOddBody false))) Store.init ∧
    parse stdTables fuel (.List [.SymbolSyntax "even?", .Number n]) [] Store.init =
      .ok (.Apply (.Var "even?") [.Fixnum n]) Store.init ∧
    evaluateDefineGroup.prebind stdTables evenOddDefines [] Store.init =
      .ok () evenOddEnv { heap := [], cells := [none, none], out := [] } ∧
    evaluateDefineGroup stdTables fuel evenOddDefines [] Store.init =
      .ok 4 evenOddEnv evenOddStore ∧
    ∃ v e σ, eval stdTables fuel (.Apply (.Var "even?") [.Fixnum n]) evenOddEnv evenOddStore =
        .ok v e σ ∧ σ.deref v = some (.Boolean (decide (n % 2 = 0))) := by
  obtain ⟨f, rfl⟩ : ∃ f, fuel = f + 5 := ⟨fuel - 5, by omega⟩
  refine ⟨rfl, rfl, rfl, rfl, rfl, ?_⟩
  have harg : eval stdTables (f + 3 + 1) (.Fixnum n) evenOddEnv evenOddStore =
      .ok (evenOddStore.alloc (.Integer n)).1 evenOddEnv (evenOddStore.alloc (.Integer n)).2 :=
    rfl
  have happ := eval_apply_closure stdTables (f + 3) "even?" _ evenOddEnv evenOddStore 1 "n"
    (evenOddBody true) evenOddEnv _ _ (by decide) rfl rfl harg
  have hg : evenOddStore.grows { (evenOddStore.alloc (.Integer n)).2 with
      cells := (evenOddStore.alloc (.Integer n)).2.cells ++
        [some (evenOddStore.alloc (.Integer n)).1] } :=
    grows_trans (grows_alloc _ _) (grows_cell _ _)
  obtain ⟨v, e1, σ1, hev, -, hres⟩ := evenOdd_body n true (f + 1) _
    (evenOddStore.alloc (.Integer n)).2.cells.length (evenOddStore.alloc (.Integer n)).1 hn
    (by omega) (evenOddReady_grows hg evenOddReady_evenOddStore) (by simp)
    (deref_alloc_new evenOddStore (.Integer n))
  refine ⟨v, evenOddEnv, σ1, ?_, ?_⟩
  · rw [happ, hev]
    rfl
  · rw [hres]
    simp

/-- C15 at `n = 10`: `(even? 10)` evaluates to `#t`. -/
theorem C15_even_odd_witness :
    ∃ v e σ, eval stdTables 25 (.Apply (.Var "even?") [.Fixnum 10]) evenOddEnv evenOddStore =
        .ok v e σ ∧ σ.deref v = some (.Boolean true) :=
  (C15_even_odd 10 (by decide) 25 (by decide)).2.2.2.2.2


/-! ### Pairs and `list?` (C16, C17) -/

theorem deref_lt (σ : Store) (a : Value) (c : ValueBase) (h : σ.deref a = some c) :
    a < σ.heap.length := by
  unfold Store.deref at h
  obtain ⟨hlt, -⟩ := List.getElem?_eq_some.mp h
  exact hlt

theorem deref_update_alloc_self (σ : Store) (p : Value) (c d : ValueBase)
    (hp : p < σ.heap.length) : ((σ.update p c).alloc d).2.deref p = some c := by
  simp only [Store.alloc, Store.update, Store.deref]
  rw [List.getElem?_append_left (by simpa using hp)]
  simp [List.getElem?_set, hp]

theorem deref_update_alloc_other (σ : Store) (p a : Value) (c d : ValueBase)
    (ha : a < σ.heap.length) (hne : a ≠ p) :
    ((σ.update p c).alloc d).2.deref a = σ.deref a := by
  simp only [Store.alloc, Store.update, Store.deref]
  rw [List.getElem?_append_left (by simpa using ha)]
  simp [List.getElem?_set, Ne.symm hne]

theorem deref_update_alloc_new (σ : Store) (p : Value) (c d : ValueBase) :
    ((σ.update p c).alloc d).2.deref ((σ.update p c).alloc d).1 = some d := by
  simp [Store.alloc, Store.update, Store.deref]

/-- C16: for a reference `p` to a pair and a reference `v` to an object,
`SetCar::evalRator` returns a fresh `Void` and leaves a store in which `Car`
of every reference `q` to the same pair (an alias is the same reference) is
`v`, `Cdr` is the former `cdr`, and every other object is unchanged; and
symmetrically for `SetCdr::evalRator`.
`(let ((p (cons 1 2))) (set-car! p 9) (car p))` evaluates to 9 and
`(let ((p (cons 1 2))) (let ((q p)) (set-cdr! q 5) (cdr p)))` to 5. -/
theorem C16_set_car_set_cdr (p v car cdr : Value) (cv : ValueBase) (e : Assoc) (σ : Store)
    (hp : σ.deref p = some (.Pair car cdr)) (hv : σ.deref v = some cv) :
    (∃ r σ1, Binary.evalRator .SetCar p v e σ = .ok r e σ1 ∧ σ1.deref r = some .Void ∧
      (∀ q e1, q = p → Unary.evalRator .Car q e1 σ1 = .ok v e1 σ1) ∧
      (∀ q e1, q = p → Unary.evalRator .Cdr q e1 σ1 = .ok cdr e1 σ1) ∧
      (∀ a, a ≠ p → a < σ.heap.length → σ1.deref a = σ.deref a)) ∧
    (∃ r σ1, Binary.evalRator .SetCdr p v e σ = .ok r e σ1 ∧ σ1.deref r = some .Void ∧
      (∀ q e1, q = p → Unary.evalRator .Cdr q e1 σ1 = .ok v e1 σ1) ∧
      (∀ q e1, q = p → Unary.evalRator .Car q e1 σ1 = .ok car e1 σ1) ∧
      (∀ a, a ≠ p → a < σ.heap.length → σ1.deref a = σ.deref a)) ∧
    (resolveAndEval stdTables 8 setCarExample [] Store.init).content = some (.Integer 9) ∧
    (resolveAndEval stdTables 8 setCdrAliasExample [] Store.init).content =
      some (.Integer 5) := by
  have hlt := deref_lt σ p _ hp
  refine ⟨?_, ?_, rfl, rfl⟩
  · refine ⟨_, _, by simp only [Binary.evalRator, hp, hv, returnNew]; rfl,
      deref_update_alloc_new _ _ _ _, ?_, ?_, ?_⟩
    · rintro q e1 rfl
      simp only [Unary.evalRator, deref_update_alloc_self σ q _ _ hlt]
    · rintro q e1 rfl
      simp only [Unary.evalRator, deref_update_alloc_self σ q _ _ hlt]
    · intro a hne ha
      exact deref_update_alloc_other σ p a _ _ ha hne
  · refine ⟨_, _, by simp only [Binary.evalRator, hp, hv, returnNew]; rfl,
      deref_update_alloc_new _ _ _ _, ?_, ?_, ?_⟩
    · rintro q e1 rfl
      simp only [Unary.evalRator, deref_update_alloc_self σ q _ _ hlt]
    · rintro q e1 rfl
      simp only [Unary.evalRator, deref_update_alloc_self σ q _ _ hlt]
    · intro a hne ha
      exact deref_update_alloc_other σ p a _ _ ha hne

/-- C16 in the store with the pair `(1 . 2)` at reference 2 and the object
`Integer 9` at reference 3: after `set-car!` the `car` is the reference 3 and
the `cdr` is still the reference 1. -/
theorem C16_set_car_witness :
    ∃ r σ1, Binary.evalRator .SetCar 2 3 [] onePairStore = .ok r [] σ1 ∧
      σ1.deref r = some .Void ∧
      (∀ q e1, q = 2 → Unary.evalRator .Car q e1 σ1 = .ok 3 e1 σ1) ∧
      (∀ q e1, q = 2 → Unary.evalRator .Cdr q e1 σ1 = .ok 1 e1 σ1) ∧
      (∀ a, a ≠ 2 → a < onePairStore.heap.length → σ1.deref a = onePairStore.deref a) :=
  (C16_set_car_set_cdr 2 3 0 1 (.Integer 9) [] onePairStore rfl rfl).1

theorem cdrChain_zero (σ : Store) (v : Value) : cdrChain σ v 0 = v := rfl

theorem cdrChain_succ (σ : Store) (v : Value) (k : Nat) :
    cdrChain σ v (k + 1) = cdrStep σ (cdrChain σ v k) :=
  Function.iterate_succ_apply' _ _ _

theorem cdrChain_succ_left (σ : Store) (v : Value) (k : Nat) :
    cdrChain σ v (k + 1) = cdrChain σ (cdrStep σ v) k :=
  Function.iterate_succ_apply _ _ _

theorem cdrChain_add (σ : Store) (v : Value) (i s : Nat) :
    cdrChain σ v (i + s) = cdrChain σ (cdrChain σ v i) s := by
  unfold cdrChain
  rw [Nat.add_comm, Function.iterate_add_apply]

theorem isPair_iff (σ : Store) (v : Value) :
    σ.isPair v = true ↔ ∃ a d, σ.deref v = some (.Pair a d) := by
  unfold Store.isPair
  cases h : σ.deref v with
  | none => simp
  | some c => cases c <;> simp

theorem cdrStep_of_pair (σ : Store) (v a d : Value) (h : σ.deref v = some (.Pair a d)) :
    cdrStep σ v = d := by
  simp [cdrStep, h]

theorem cdrStep_of_not_pair (σ : Store) (v : Value) (h : σ.isPair v = false) :
    cdrStep σ v = v := by
  unfold Store.isPair at h
  unfold cdrStep
  cases hd : σ.deref v with
  | none => rfl
  | some c => cases c <;> simp_all

theorem cdrsAllocated_cdr (σ : Store) (h : σ.cdrsAllocated = true) (v a d : Value)
    (hv : σ.deref v = some (.Pair a d)) : d < σ.heap.length := by
  unfold Store.cdrsAllocated at h
  rw [List.all_eq_true] at h
  have hmem : ValueBase.Pair a d ∈ σ.heap := List.getElem?_mem hv
  simpa using h _ hmem

theorem cdrStep_lt (σ : Store) (h : σ.cdrsAllocated = true) (v : Value)
    (hv : v < σ.heap.length) : cdrStep σ v < σ.heap.length := by
  by_cases hp : σ.isPair v = true
  · obtain ⟨a, d, hd⟩ := (isPair_iff σ v).mp hp
    rw [cdrStep_of_pair σ v a d hd]
    exact cdrsAllocated_cdr σ h v a d hd
  · rw [cdrStep_of_not_pair σ v (by simpa using hp)]
    exact hv

theorem cdrChain_lt (σ : Store) (h : σ.cdrsAllocated = true) (v : Value)
    (hv : v < σ.heap.length) (k : Nat) : cdrChain σ v k < σ.heap.length := by
  induction k with
  | zero => exact hv
  | succ k ih =>
    rw [cdrChain_succ]
    exact cdrStep_lt σ h _ ih

/-- An object that is not a pair is where the walk stays. -/
theorem cdrChain_stays (σ : Store) (v : Value) (m : Nat)
    (h : σ.isPair (cdrChain σ v m) = false) (s : Nat) :
    cdrChain σ v (m + s) = cdrChain σ v m := by
  induction s with
  | zero => rfl
  | succ s ih =>
    rw [← Nat.add_assoc, cdrChain_succ, ih, cdrStep_of_not_pair σ _ h]

theorem cdrChain_shift (σ : Store) (v : Value) (i j : Nat)
    (h : cdrChain σ v i = cdrChain σ v j) (s : Nat) :
    cdrChain σ v (i + s) = cdrChain σ v (j + s) := by
  rw [cdrChain_add, cdrChain_add, h]

/-- Two positions of the walk, among the first `length + 1`, hold the same
reference. -/
theorem cdrChain_repeats (σ : Store) (h : σ.cdrsAllocated = true) (v : Value)
    (hv : v < σ.heap.length) :
    ∃ i j, i < j ∧ j ≤ σ.heap.length ∧ cdrChain σ v i = cdrChain σ v j := by
  let f : Fin (σ.heap.length + 1) → Fin σ.heap.length :=
    fun k => ⟨cdrChain σ v k.val, cdrChain_lt σ h v hv k.val⟩
  obtain ⟨x, y, hxy, hf⟩ := Fintype.exists_ne_map_eq_of_card_lt f (by simp)
  have hval : cdrChain σ v x.val = cdrChain σ v y.val := by
    have := congrArg Fin.val hf
    simpa [f] using this
  have hne : x.val ≠ y.val := fun hh => hxy (Fin.ext hh)
  rcases Nat.lt_or_gt_of_ne hne with hlt | hgt
  · exact ⟨x.val, y.val, hlt, Nat.lt_succ_iff.mp y.isLt, hval⟩
  · exact ⟨y.val, x.val, hgt, Nat.lt_succ_iff.mp x.isLt, hval.symm⟩

theorem properList_iff_chain (σ : Store) (v : Value) :
    ProperList σ v ↔ ∃ k, σ.deref (cdrChain σ v k) = some .Null := by
  constructor
  · intro h
    induction h with
    | null v hv => exact ⟨0, hv⟩
    | pair v car cdr hv _ ih =>
      obtain ⟨k, hk⟩ := ih
      refine ⟨k + 1, ?_⟩
      rw [cdrChain_succ_left, cdrStep_of_pair σ v car cdr hv]
      exact hk
  · rintro ⟨k, hk⟩
    induction k generalizing v with
    | zero => exact ProperList.null v hk
    | succ k ih =>
      rw [cdrChain_succ_left] at hk
      by_cases hp : σ.isPair v = true
      · obtain ⟨a, d, hd⟩ := (isPair_iff σ v).mp hp
        rw [cdrStep_of_pair σ v a d hd] at hk
        exact ProperList.pair v a d hd (ih d hk)
      · rw [cdrStep_of_not_pair σ v (by simpa using hp)] at hk
        exact ih v hk


theorem IsList_loop_step (σ : Store) (fuel : Nat) (slow fast : Value)
    (hf : σ.isPair fast = true) (hf1 : σ.isPair (cdrStep σ fast) = true)
    (hs : σ.isPair slow = true) :
    IsList.loop (fuel + 1) slow fast σ =
      if cdrStep σ slow = cdrStep σ (cdrStep σ fast) then .met
      else IsList.loop fuel (cdrStep σ slow) (cdrStep σ (cdrStep σ fast)) σ := by
  obtain ⟨a, d, hd⟩ := (isPair_iff σ fast).mp hf
  rw [cdrStep_of_pair σ fast a d hd] at hf1 ⊢
  obtain ⟨a1, d1, hd1⟩ := (isPair_iff σ d).mp hf1
  obtain ⟨a2, d2, hd2⟩ := (isPair_iff σ slow).mp hs
  rw [cdrStep_of_pair σ d a1 d1 hd1, cdrStep_of_pair σ slow a2 d2 hd2]
  simp only [IsList.loop, hd, hd1, hd2]

theorem IsList_loop_end0 (σ : Store) (fuel : Nat) (slow fast : Value) (c : ValueBase)
    (hd : σ.deref fast = some c) (hp : σ.isPair fast = false) :
    IsList.loop (fuel + 1) slow fast σ = .ended c := by
  unfold Store.isPair at hp
  rw [hd] at hp
  cases c <;> simp_all [IsList.loop]

theorem IsList_loop_end1 (σ : Store) (fuel : Nat) (slow fast : Value) (c : ValueBase)
    (hf : σ.isPair fast = true) (hd : σ.deref (cdrStep σ fast) = some c)
    (hp : σ.isPair (cdrStep σ fast) = false) :
    IsList.loop (fuel + 1) slow fast σ = .ended c := by
  obtain ⟨a, d, hfd⟩ := (isPair_iff σ fast).mp hf
  rw [cdrStep_of_pair σ fast a d hfd] at hd hp
  unfold Store.isPair at hp
  rw [hd] at hp
  cases c <;> simp_all [IsList.loop]

/-- The walk ends at position `m`: the loop returns the object there, as long
as its bound allows `m / 2 + 1` iterations. -/
theorem IsList_loop_ended (σ : Store) (v : Value) (m : Nat) (c : ValueBase)
    (hm : σ.isPair (cdrChain σ v m) = false)
    (hmin : ∀ k, k < m → σ.isPair (cdrChain σ v k) = true)
    (hc : σ.deref (cdrChain σ v m) = some c) (fuel i : Nat) (hi : 2 * i ≤ m)
    (hfuel : m < 2 * (fuel + i)) :
    IsList.loop fuel (cdrChain σ v i) (cdrChain σ v (2 * i)) σ = .ended c := by
  induction fuel generalizing i with
  | zero => omega
  | succ fuel ih =>
    by_cases h0 : m = 2 * i
    · exact IsList_loop_end0 σ fuel _ _ c (h0 ▸ hc) (h0 ▸ hm)
    · by_cases h1 : m = 2 * i + 1
      · have e1 : cdrStep σ (cdrChain σ v (2 * i)) = cdrChain σ v m := by
          rw [h1, cdrChain_succ]
        exact IsList_loop_end1 σ fuel _ _ c (hmin _ (by omega)) (e1 ▸ hc) (e1 ▸ hm)
      · have e1 : cdrStep σ (cdrChain σ v (2 * i)) = cdrChain σ v (2 * i + 1) :=
          (cdrChain_succ σ v _).symm
        have e2 : cdrStep σ (cdrChain σ v (2 * i + 1)) = cdrChain σ v (2 * (i + 1)) :=
          (cdrChain_succ σ v _).symm
        have e3 : cdrStep σ (cdrChain σ v i) = cdrChain σ v (i + 1) :=
          (cdrChain_succ σ v _).symm
        rw [IsList_loop_step σ fuel _ _ (hmin _ (by omega)) (e1 ▸ hmin _ (by omega))
          (hmin _ (by omega)), e1, e2, e3]
        have hne : cdrChain σ v (i + 1) ≠ cdrChain σ v (2 * (i + 1)) := by
          intro heq
          have hs := cdrChain_shift σ v _ _ heq (m - 2 * (i + 1))
          have e4 : 2 * (i + 1) + (m - 2 * (i + 1)) = m := by omega
          rw [e4] at hs
          have hp := hmin (i + 1 + (m - 2 * (i + 1))) (by omega)
          rw [hs, hm] at hp
          cases hp
        rw [if_neg hne]
        exact ih (i + 1) (by omega) (by omega)

/-- The walk never leaves the pairs and position `t` holds the same reference
as position `2 * t`: the loop finds the two cursors equal, as long as its bound
allows `t` iterations. -/
theorem IsList_loop_met (σ : Store) (v : Value)
    (hall : ∀ k, σ.isPair (cdrChain σ v k) = true) (fuel i t : Nat) (hit : i < t)
    (ht : t ≤ i + fuel) (heq : cdrChain σ v t = cdrChain σ v (2 * t)) :
    IsList.loop fuel (cdrChain σ v i) (cdrChain σ v (2 * i)) σ = .met := by
  induction fuel generalizing i with
  | zero => omega
  | succ fuel ih =>
    have e1 : cdrStep σ (cdrChain σ v (2 * i)) = cdrChain σ v (2 * i + 1) :=
      (cdrChain_succ σ v _).symm
    have e2 : cdrStep σ (cdrChain σ v (2 * i + 1)) = cdrChain σ v (2 * (i + 1)) :=
      (cdrChain_succ σ v _).symm
    have e3 : cdrStep σ (cdrChain σ v i) = cdrChain σ v (i + 1) :=
      (cdrChain_succ σ v _).symm
    rw [IsList_loop_step σ fuel _ _ (hall _) (e1 ▸ hall _) (hall _), e1, e2, e3]
    by_cases hmeet : cdrChain σ v (i + 1) = cdrChain σ v (2 * (i + 1))
    · rw [if_pos hmeet]
    · rw [if_neg hmeet]
      have hne : t ≠ i + 1 := fun h => hmeet (h ▸ heq)
      exact ih (i + 1) (by omega) (by omega)

theorem cdrChain_periodic (σ : Store) (v : Value) (i p : Nat)
    (h : cdrChain σ v i = cdrChain σ v (i + p)) (s : Nat) (hs : i ≤ s) (n : Nat) :
    cdrChain σ v (s + n * p) = cdrChain σ v s := by
  induction n with
  | zero => simp
  | succ n ih =>
    have h1 := cdrChain_shift σ v _ _ h (s - i + n * p)
    have e1 : i + (s - i + n * p) = s + n * p := by omega
    have e2 : i + p + (s - i + n * p) = s + (n + 1) * p := by
      rw [Nat.add_mul]; omega
    rw [e1, e2] at h1
    rw [← h1, ih]

/-- Some position `t` with `1 ≤ t ≤ length` holds the same reference as
position `2 * t`. -/
theorem cdrChain_meets (σ : Store) (h : σ.cdrsAllocated = true) (v : Value)
    (hv : v < σ.heap.length) :
    ∃ t, 1 ≤ t ∧ t ≤ σ.heap.length ∧ cdrChain σ v t = cdrChain σ v (2 * t) := by
  obtain ⟨i, j, hij, hj, heq⟩ := cdrChain_repeats σ h v hv
  obtain ⟨p, rfl⟩ : ∃ p, j = i + p := ⟨j - i, by omega⟩
  have hp : 0 < p := by omega
  have heq1 : cdrChain σ v (i + 1) = cdrChain σ v (i + 1 + p) := by
    have := cdrChain_shift σ v _ _ heq 1
    rw [this]
    congr 1
    omega
  have hdiv := Nat.div_add_mod (i + p) p
  have hmod := Nat.mod_lt (i + p) hp
  refine ⟨(i + p) / p * p, ?_, ?_, ?_⟩
  · rw [Nat.mul_comm]; omega
  · rw [Nat.mul_comm]; omega
  · have := cdrChain_periodic σ v (i + 1) p heq1 ((i + p) / p * p)
      (by rw [Nat.mul_comm]; omega) ((i + p) / p)
    rw [← this]
    congr 1
    omega


theorem not_properList_of_all_pairs (σ : Store) (v : Value)
    (hall : ∀ k, σ.isPair (cdrChain σ v k) = true) : ¬ ProperList σ v := by
  rw [properList_iff_chain]
  rintro ⟨k, hk⟩
  have := hall k
  simp [Store.isPair, hk] at this

theorem properList_iff_of_end (σ : Store) (v : Value) (m : Nat) (c : ValueBase)
    (hm : σ.isPair (cdrChain σ v m) = false) (hc : σ.deref (cdrChain σ v m) = some c) :
    ProperList σ v ↔ c = .Null := by
  rw [properList_iff_chain]
  constructor
  · rintro ⟨k, hk⟩
    have hkp : σ.isPair (cdrChain σ v k) = false := by simp [Store.isPair, hk]
    rcases Nat.le_total m k with hmk | hkm
    · obtain ⟨s, rfl⟩ : ∃ s, k = m + s := ⟨k - m, by omega⟩
      rw [cdrChain_stays σ v m hm s, hc] at hk
      exact Option.some.inj hk
    · obtain ⟨s, rfl⟩ : ∃ s, m = k + s := ⟨m - k, by omega⟩
      rw [cdrChain_stays σ v k hkp s, hk] at hc
      exact (Option.some.inj hc).symm
  · rintro rfl
    exact ⟨m, hc⟩

/-- The outcome of `list?` in terms of the walk along the `cdr` fields. -/
theorem IsList_evalRator_spec (σ : Store) (hclosed : σ.cdrsAllocated = true) (rand : Value)
    (hrand : rand < σ.heap.length) (e : Assoc) :
    ∃ b, IsList.evalRator rand e σ = returnNew (.Boolean b) e σ ∧
      (b = true ↔ ProperList σ rand) := by
  by_cases hex : ∃ m, σ.isPair (cdrChain σ rand m) = false
  · -- the walk ends
    classical
    let m := Nat.find hex
    have hm : σ.isPair (cdrChain σ rand m) = false := Nat.find_spec hex
    have hmin : ∀ k, k < m → σ.isPair (cdrChain σ rand k) = true := fun k hk => by
      simpa using Nat.find_min hex hk
    have hlt := cdrChain_lt σ hclosed rand hrand m
    obtain ⟨c, hc⟩ : ∃ c, σ.deref (cdrChain σ rand m) = some c :=
      ⟨σ.heap[cdrChain σ rand m], by simp [Store.deref, List.getElem?_eq_getElem hlt]⟩
    have hiff := properList_iff_of_end σ rand m c hm hc
    have hmL : m ≤ σ.heap.length := by
      obtain ⟨i, j, hij, hj, heq⟩ := cdrChain_repeats σ hclosed rand hrand
      by_contra hgt
      have hs := cdrChain_shift σ rand _ _ heq (m - j)
      have e1 : j + (m - j) = m := by omega
      rw [e1] at hs
      have hp := hmin (i + (m - j)) (by omega)
      rw [hs, hm] at hp
      cases hp
    have hcp : ∀ a d, c ≠ .Pair a d := by
      intro a d hcd
      have : σ.isPair (cdrChain σ rand m) = true := (isPair_iff σ _).mpr ⟨a, d, hcd ▸ hc⟩
      rw [hm] at this
      cases this
    by_cases h0 : m = 0
    · have hd : σ.deref rand = some c := by
        have := hc
        rw [h0] at this
        exact this
      cases c with
      | Null => exact ⟨true, by simp [IsList.evalRator, hd], by simp [hiff]⟩
      | Pair a d => exact absurd rfl (hcp a d)
      | _ => exact ⟨false, by simp [IsList.evalRator, hd], by simp [hiff]⟩
    · have hp0 : σ.isPair rand = true := hmin 0 (by omega)
      obtain ⟨a, d, hd⟩ := (isPair_iff σ rand).mp hp0
      have hloop := IsList_loop_ended σ rand m c hm hmin hc (σ.heap.length + 1) 0
        (by omega) (by omega)
      simp only [Nat.mul_zero, cdrChain_zero] at hloop
      cases c with
      | Null => exact ⟨true, by simp [IsList.evalRator, hd, hloop], by simp [hiff]⟩
      | Pair a d => exact absurd rfl (hcp a d)
      | _ => exact ⟨false, by simp [IsList.evalRator, hd, hloop], by simp [hiff]⟩
  · -- the walk never leaves the pairs
    have hall : ∀ k, σ.isPair (cdrChain σ rand k) = true := by
      intro k
      by_contra hk
      exact hex ⟨k, by simpa using hk⟩
    obtain ⟨a, d, hd⟩ := (isPair_iff σ rand).mp (hall 0)
    obtain ⟨t, ht1, htL, heq⟩ := cdrChain_meets σ hclosed rand hrand
    have hloop := IsList_loop_met σ rand hall (σ.heap.length + 1) 0 t (by omega) (by omega) heq
    simp only [Nat.mul_zero, cdrChain_zero] at hloop
    refine ⟨false, by simp [IsList.evalRator, hd, hloop], ?_⟩
    simp [not_properList_of_all_pairs σ rand hall]


/-- C17: in a store whose pairs hold `cdr` references to objects of the heap,
`IsList::evalRator` applied to a reference to an object returns: its loop ends
within `length + 1` iterations, it never follows a reference to no object, and
the result is a fresh Boolean, `#t` exactly when following `cdr` from the
operand reaches `Null` after finitely many pairs.  In particular it is `#f` when
the walk along the `cdr` fields never leaves the pairs (a circular chain), and
when the walk ends at an object that is neither a pair nor `Null`.  For a pair
whose `cdr` was set to the pair itself, `list?` evaluates to `#f`. -/
theorem C17_list_predicate_terminates (σ : Store) (rand : Value) (e : Assoc)
    (hclosed : σ.cdrsAllocated = true) (hrand : rand < σ.heap.length) :
    (∃ b, IsList.evalRator rand e σ = returnNew (.Boolean b) e σ ∧
      (b = true ↔ ProperList σ rand) ∧
      ((∀ k, σ.isPair (cdrChain σ rand k) = true) → b = false) ∧
      (∀ k c, σ.deref (cdrChain σ rand k) = some c → c ≠ .Null →
        σ.isPair (cdrChain σ rand k) = false → b = false)) ∧
    (eval stdTables 4 circularExample [] Store.init).content = some (.Boolean false) := by
  refine ⟨?_, rfl⟩
  obtain ⟨b, hev, hiff⟩ := IsList_evalRator_spec σ hclosed rand hrand e
  refine ⟨b, hev, hiff, ?_, ?_⟩
  · intro hall
    cases b with
    | false => rfl
    | true => exact absurd (hiff.mp rfl) (not_properList_of_all_pairs σ rand hall)
  · intro k c hc hne hp
    cases b with
    | false => rfl
    | true => exact absurd ((properList_iff_of_end σ rand k c hp hc).mp (hiff.mp rfl)) hne

/-- C17 in the store with one pair whose `cdr` is the pair itself. -/
theorem C17_list_predicate_witness :
    selfLoopStore.cdrsAllocated = true ∧
    ∃ b, IsList.evalRator 1 [] selfLoopStore = returnNew (.Boolean b) [] selfLoopStore ∧
      (b = true ↔ ProperList selfLoopStore 1) ∧
      ((∀ k, selfLoopStore.isPair (cdrChain selfLoopStore 1 k) = true) → b = false) ∧
      (∀ k c, selfLoopStore.deref (cdrChain selfLoopStore 1 k) = some c → c ≠ .Null →
        selfLoopStore.isPair (cdrChain selfLoopStore 1 k) = false → b = false) :=
  ⟨by decide, (C17_list_predicate_terminates selfLoopStore 1 [] (by decide) (by decide)).1⟩

/-! ### Variables and shadowing (C18, C19, C20) -/

theorem primitive_map_not_IsList (t : ExprType) (body : Expr) (params : List String)
    (h : primitive_map t = some (body, params)) (r : Expr) : body ≠ .Unary .IsList r := by
  cases t <;> simp [primitive_map] at h <;> (obtain ⟨rfl, -⟩ := h; simp)

/-- No table of primitives makes `Var::eval` build a closure around the node
`IsList` for an unbound name, and with the standard names the form
`(list? (quote (1 2)))` raises an error: the node `IsList` is never built. -/
theorem list_predicate_never_reified (T : Tables) (fuel : Nat) (x : String) (e : Assoc)
    (σ : Store) :
    (find x e σ = none → ∀ v e1 σ1 ps body env,
      eval T (fuel + 1) (.Var x) e σ = .ok v e1 σ1 →
      σ1.deref v = some (.Procedure ps body env) → ∀ r, body ≠ .Unary .IsList r) ∧
    (∃ σ1, resolveAndEval stdTables 4 listPredicateCall [] Store.init =
      .error "Variable list? not defined" [] σ1) := by
  have he : eval T (fuel + 1) (.Var x) e σ = Var.eval T x e σ := rfl
  rw [he]
  refine ⟨?_, ⟨_, rfl⟩⟩
  intro hfind v e1 σ1 ps body env hev hd r
  unfold Var.eval at hev
  cases hi : Var.invalidName x with
  | some m => simp [hi] at hev
  | none =>
    simp only [hi, hfind] at hev
    cases hl : T.primitives.lookup x with
    | none => simp [hl] at hev
    | some t =>
      simp only [hl] at hev
      cases hp : primitive_map t with
      | none => simp [hp] at hev
      | some bp =>
        obtain ⟨b, params⟩ := bp
        simp only [hp, returnNew, Outcome.ok.injEq] at hev
        obtain ⟨rfl, -, rfl⟩ := hev
        rw [deref_alloc_new] at hd
        simp only [Option.some.injEq, ValueBase.Procedure.injEq] at hd
        obtain ⟨-, rfl, -⟩ := hd
        exact primitive_map_not_IsList t b params hp r

/-- C18 fails at the names `list`, `and` and `or`: with no binding for them,
evaluating the variable announces the primitive and then raises the error of an
unbound variable; no closure is returned. -/
theorem C18_unreified_counterexample :
    resolveAndEval stdTables 1 (.SymbolSyntax "list") [] Store.init =
      .error "Variable list not defined" [] (announced "list" Store.init) ∧
    resolveAndEval stdTables 1 (.SymbolSyntax "and") [] Store.init =
      .error "Variable and not defined" [] (announced "and" Store.init) ∧
    resolveAndEval stdTables 1 (.SymbolSyntax "or") [] Store.init =
      .error "Variable or not defined" [] (announced "or" Store.init) :=
  ⟨rfl, rfl, rfl⟩

/-- C18, amended: for a valid name `x` of the table of primitives that has no
binding in the environment, `Var::eval` announces the primitive and, when the
tag of `x` has an entry in `primitive_map` (it has one for each of the 28 tags
of `reifiedTags`), returns a fresh closure whose parameters and body are those
of the entry (for `car`, `cons` and `not` the nodes `Car`, `Cons` and `Not` on
the parameters) and whose environment is the current one; when the tag is that
of `list`, `and` or `or`, it raises the error of an unbound variable.  With the
standard names `(not #f)`, resolved to the application of the variable `not`,
evaluates to `#t`. -/
theorem C18_primitive_reified (T : Tables) (fuel : Nat) (x : String) (t : ExprType)
    (e : Assoc) (σ : Store) (hname : Var.invalidName x = none) (hfind : find x e σ = none)
    (hx : T.primitives.lookup x = some t) :
    (∀ body params, primitive_map t = some (body, params) →
      eval T (fuel + 1) (.Var x) e σ =
        returnNew (.Procedure params body e) e (announced x σ)) ∧
    (t ∈ reifiedTags → ∃ body params, primitive_map t = some (body, params)) ∧
    (t ∈ specialisedTags →
      eval T (fuel + 1) (.Var x) e σ =
        .error ("Variable " ++ x ++ " not defined") e (announced x σ)) ∧
    primitive_map .E_CAR = some (.Unary .Car (.Var "parm"), ["parm"]) ∧
    primitive_map .E_CONS =
      some (.Binary .Cons (.Var "parm1") (.Var "parm2"), ["parm1", "parm2"]) ∧
    primitive_map .E_NOT = some (.Unary .Not (.Var "parm"), ["parm"]) ∧
    parse stdTables 2 (.List [.SymbolSyntax "not", .FalseSyntax]) [] Store.init =
      .ok (.Apply (.Var "not") [.False]) Store.init ∧
    (resolveAndEval stdTables 3 (.List [.SymbolSyntax "not", .FalseSyntax]) []
      Store.init).content = some (.Boolean true) := by
  have he : eval T (fuel + 1) (.Var x) e σ = Var.eval T x e σ := rfl
  rw [he]
  refine ⟨?_, ?_, ?_, rfl, rfl, rfl, rfl, rfl⟩
  · intro body params hp
    simp only [Var.eval, hname, hfind, hx, hp, announced]
  · intro ht
    simp only [reifiedTags, List.mem_cons, List.mem_singleton, List.not_mem_nil,
      or_false] at ht
    rcases ht with h | h | h | h | h | h | h | h | h | h | h | h | h | h | h | h | h | h |
      h | h | h | h | h | h | h | h | h | h <;> subst h <;> exact ⟨_, _, rfl⟩
  · intro ht
    have hp : primitive_map t = none := by
      simp only [specialisedTags, List.mem_cons, List.mem_singleton, List.not_mem_nil,
        or_false] at ht
      rcases ht with rfl | rfl | rfl <;> rfl
    simp only [Var.eval, hname, hfind, hx, hp, announced]

/-- C18, amended, at the name `car` in a fresh session. -/
theorem C18_primitive_witness :
    eval stdTables 1 (.Var "car") [] Store.init =
      returnNew (.Procedure ["parm"] (.Unary .Car (.Var "parm")) []) []
        (announced "car" Store.init) :=
  (C18_primitive_reified stdTables 0 "car" .E_CAR [] Store.init rfl rfl rfl).1 _ _ rfl

/-- The checks of `Var::eval` on the name refuse exactly the rejected
identifiers. -/
theorem invalidName_isSome_iff (x : String) :
    (Var.invalidName x).isSome = true ↔ rejectedName x := by
  unfold Var.invalidName rejectedName
  cases hx : x.data with
  | nil => simp
  | cons c rest =>
    simp only [reduceCtorEq, false_or]
    by_cases h1 : c.isDigit = true ∨ c = '.' ∨ c = '@'
    · simp only [h1, if_true, Option.isSome_some, true_iff]
      exact Or.inl ⟨c, rest, rfl, h1⟩
    · simp only [h1, if_false]
      by_cases h2 : ((c :: rest).any fun c => Var.forbiddenChars.contains c) = true
      · simp only [h2, if_true, Option.isSome_some, true_iff]
        right
        rw [List.any_eq_true] at h2
        obtain ⟨d, hd, hc⟩ := h2
        refine ⟨d, hd, ?_⟩
        simpa [Var.forbiddenChars] using hc
      · simp only [h2]
        simp only [Bool.false_eq_true, if_false, Option.isSome_none, false_iff, not_or]
        constructor
        · rintro ⟨d, r, hd, hh⟩
          obtain ⟨rfl, -⟩ := List.cons.inj hd
          exact h1 hh
        · rintro ⟨d, hd, hc⟩
          apply h2
          rw [List.any_eq_true]
          refine ⟨d, hd, ?_⟩
          simpa [Var.forbiddenChars] using hc

/-- C19: for an identifier that is empty, or starts with a digit, `.` or `@`,
or contains a quote, a double quote, a backquote or `#`, `Var::eval` raises an
error in every environment and store, whether or not the name is bound; for
every other identifier whose binding holds a value (not the null placeholder)
it returns that value and changes nothing.  The bound name `9lives` raises
"Invalid expression", the bound name `x` gives its value. -/
theorem C19_var_name_validation (T : Tables) (fuel : Nat) (x : String) (e : Assoc)
    (σ : Store) :
    (rejectedName x → ∃ msg, eval T (fuel + 1) (.Var x) e σ = .error msg e σ) ∧
    (¬ rejectedName x → ∀ v, find x e σ = some v →
      eval T (fuel + 1) (.Var x) e σ = .ok v e σ) ∧
    find "9lives" [("9lives", 0)] oneCellStore = some 0 ∧
    eval stdTables 1 (.Var "9lives") [("9lives", 0)] oneCellStore =
      .error "Invalid expression" [("9lives", 0)] oneCellStore ∧
    eval stdTables 1 (.Var "x") [("x", 0)] oneCellStore = .ok 0 [("x", 0)] oneCellStore := by
  have he : eval T (fuel + 1) (.Var x) e σ = Var.eval T x e σ := rfl
  rw [he]
  refine ⟨?_, ?_, rfl, rfl, rfl⟩
  · intro h
    rw [← invalidName_isSome_iff] at h
    obtain ⟨msg, hm⟩ := Option.isSome_iff_exists.mp h
    exact ⟨msg, by simp [Var.eval, hm]⟩
  · intro h v hv
    rw [← invalidName_isSome_iff] at h
    have hn : Var.invalidName x = none := by
      cases hi : Var.invalidName x with
      | none => rfl
      | some m => simp [hi] at h
    simp [Var.eval, hn, hv]

/-- A list headed by a symbol that is bound to a value resolves to the
application of the variable. -/
theorem parse_bound_operator (T : Tables) (fuel : Nat) (op : String)
    (args : List Syntax) (env : Assoc) (σ : Store) (v : Value) (h : find op env σ = some v) :
    parse T (fuel + 1) (.List (.SymbolSyntax op :: args)) env σ =
      applicationOf op (parseAll (fun s => parse T fuel s env) args σ) := by
  simp only [parse, h, Option.isSome_some, if_true, applicationOf]

theorem find_isSome_of_cells_append (x : String) (env : Assoc) (σ σ1 : Store)
    (l : List (Option Value)) (hc : σ1.cells = σ.cells ++ l)
    (h : (find x env σ).isSome = true) : (find x env σ1).isSome = true := by
  induction env with
  | nil => simp [find] at h
  | cons b rest ih =>
    obtain ⟨y, c⟩ := b
    simp only [find] at h ⊢
    by_cases hxy : x = y
    · simp only [hxy, if_true] at h ⊢
      cases hcell : σ.cells[c]? with
      | none => simp [hcell] at h
      | some o =>
        obtain ⟨hlt, -⟩ := List.getElem?_eq_some.mp hcell
        rw [hc, List.getElem?_append_left hlt, hcell]
        rw [hcell] at h
        exact h
    · simp only [hxy, if_false] at h ⊢
      exact ih h

/-- After the parameters `names` were bound to their placeholders, each of
them, and every name that was bound to a value before, is bound to a value. -/
theorem find_extendAll_nullObject (x : String) (names : List String) (env : Assoc)
    (σ : Store) (h : x ∈ names ∨ (find x env σ).isSome = true) :
    (find x (extendAll nullObject names env σ).1 (extendAll nullObject names env σ).2).isSome
      = true := by
  induction names generalizing env σ with
  | nil =>
    rcases h with h | h
    · cases h
    · exact h
  | cons y rest ih =>
    simp only [extendAll]
    apply ih
    by_cases hxy : x = y
    · right
      subst hxy
      simp [extend, find, nullObject, Store.alloc]
    · rcases h with h | h
      · rcases List.mem_cons.mp h with h | h
        · exact absurd h hxy
        · exact Or.inl h
      · right
        simp only [extend, find, hxy, if_false]
        exact find_isSome_of_cells_append x env σ _ [some (σ.alloc .Null).1] rfl h

/-- The loop of the `lambda` case over a list of symbols binds each of them
to a fresh `NullV()`. -/
theorem parseParams_symbols (p : Syntax → Store → Parsed Expr)
    (hp : ∀ x σ, p (.SymbolSyntax x) σ = .ok (.Var x) σ) (names : List String)
    (New_env : Assoc) (σ : Store) :
    parseParams p (names.map .SymbolSyntax) New_env σ =
      .ok (names, (extendAll nullObject names New_env σ).1)
        (extendAll nullObject names New_env σ).2 := by
  induction names generalizing New_env σ with
  | nil => rfl
  | cons y rest ih =>
    simp only [List.map_cons, parseParams, hp]
    rw [ih]
    rfl

theorem parse_lambda_form (T : Tables) (fuel : Nat) (paras : List Syntax) (body1 : Syntax)
    (bodies : List Syntax) (env : Assoc) (σ : Store)
    (hf : find "lambda" env σ = none) (hp : T.primitives.lookup "lambda" = none)
    (hr : T.reserved_words.lookup "lambda" = some .E_LAMBDA) :
    parse T (fuel + 1) (.List (.SymbolSyntax "lambda" :: .List paras :: body1 :: bodies))
        env σ =
      match parseParams (fun s => parse T fuel s env) paras env σ with
      | .ok (vars, New_env) σ1 =>
        match parseAll (fun s => parse T fuel s New_env) (body1 :: bodies) σ1 with
        | .ok body_exprs σ2 => .ok (.Lambda vars (wrapBody body_exprs)) σ2
        | .error msg σ2 => .error msg σ2
        | .timeout => .timeout
      | .error msg σ1 => .error msg σ1
      | .timeout => .timeout := by
  simp only [parse, hf, Option.isSome_none, Bool.false_eq_true, if_false, hp, hr]

/-- In the body of a `lambda`, a list headed by one of the parameters resolves
to the application of the variable, whatever the tables say about the name. -/
theorem lambda_parameter_shadows (T : Tables) (fuel : Nat) (names : List String)
    (op : String) (args : List Syntax) (env : Assoc) (σ : Store) (hop : op ∈ names)
    (hf : find "lambda" env σ = none) (hp : T.primitives.lookup "lambda" = none)
    (hr : T.reserved_words.lookup "lambda" = some .E_LAMBDA) :
    parse T (fuel + 3) (.List [.SymbolSyntax "lambda", .List (names.map .SymbolSyntax),
        .List (.SymbolSyntax op :: args)]) env σ =
      lambdaOf names (applicationOf op
        (parseAll (fun s => parse T (fuel + 1) s (extendAll nullObject names env σ).1) args
          (extendAll nullObject names env σ).2)) := by
  have hs := find_extendAll_nullObject op names env σ (Or.inl hop)
  obtain ⟨v, hv⟩ := Option.isSome_iff_exists.mp hs
  have h2 := parse_bound_operator T (fuel + 1) op args
    (extendAll nullObject names env σ).1 (extendAll nullObject names env σ).2 v hv
  rw [parse_lambda_form T (fuel + 2) _ _ _ env σ hf hp hr,
    parseParams_symbols _ (fun _ _ => rfl)]
  simp only [parseAll]
  rw [h2]
  cases parseAll (fun s => parse T (fuel + 1) s (extendAll nullObject names env σ).1) args
    (extendAll nullObject names env σ).2 <;> rfl

/-- C20: when `find(op, env)` is a value, `List::parse` of a list headed by
the symbol `op` is the application of the variable `op` to the resolved
remaining elements (or the failure of their resolution), whatever the tables
of primitives and reserved words say about `op`.  In the body of a `lambda`
whose parameters are `names`, a list headed by one of the parameters resolves
in this way.  With the standard names: `(list 1 2)` alone resolves to the
primitive node, and to the application of the variable `list` in the body of
`(lambda (list) ...)`, of `(let ((list 0)) ...)` and of
`(letrec ((list (lambda (a b) a))) ...)`; the same for the reserved word `if`
bound by a `let`. -/
theorem C20_bound_operator_is_application (T : Tables) (fuel : Nat) :
    (∀ op args env σ v, find op env σ = some v →
      parse T (fuel + 1) (.List (.SymbolSyntax op :: args)) env σ =
        applicationOf op (parseAll (fun s => parse T fuel s env) args σ)) ∧
    (∀ names op args env σ, op ∈ names → find "lambda" env σ = none →
      T.primitives.lookup "lambda" = none →
      T.reserved_words.lookup "lambda" = some .E_LAMBDA →
      parse T (fuel + 3) (.List [.SymbolSyntax "lambda", .List (names.map .SymbolSyntax),
          .List (.SymbolSyntax op :: args)]) env σ =
        lambdaOf names (applicationOf op
          (parseAll (fun s => parse T (fuel + 1) s (extendAll nullObject names env σ).1) args
            (extendAll nullObject names env σ).2))) ∧
    (∃ σ1, parse stdTables 2 (callOnOneTwo "list") [] Store.init =
      .ok (.Variadic .ListFunc [.Fixnum 1, .Fixnum 2]) σ1) ∧
    (∃ σ1, parse stdTables 3 (.List [.SymbolSyntax "lambda", .List [.SymbolSyntax "list"],
        callOnOneTwo "list"]) [] Store.init =
      .ok (.Lambda ["list"] (.Apply (.Var "list") [.Fixnum 1, .Fixnum 2])) σ1) ∧
    (∃ σ1, parse stdTables 3 (.List [.SymbolSyntax "let",
        .List [.List [.SymbolSyntax "list", .Number 0]], callOnOneTwo "list"]) [] Store.init =
      .ok (.Let [("list", .Fixnum 0)] (.Apply (.Var "list") [.Fixnum 1, .Fixnum 2])) σ1) ∧
    (∃ σ1, parse stdTables 3 (.List [.SymbolSyntax "let",
        .List [.List [.SymbolSyntax "if", .Number 0]], callOnOneTwo "if"]) [] Store.init =
      .ok (.Let [("if", .Fixnum 0)] (.Apply (.Var "if") [.Fixnum 1, .Fixnum 2])) σ1) ∧
    (∃ σ1, parse stdTables 4 (.List [.SymbolSyntax "letrec",
        .List [.List [.SymbolSyntax "list", .List [.SymbolSyntax "lambda",
          .List [.SymbolSyntax "a", .SymbolSyntax "b"], .SymbolSyntax "a"]]],
        callOnOneTwo "list"]) [] Store.init =
      .ok (.Letrec [("list", .Lambda ["a", "b"] (.Var "a"))]
        (.Apply (.Var "list") [.Fixnum 1, .Fixnum 2])) σ1) :=
  ⟨fun op args env σ v h => parse_bound_operator T fuel op args env σ v h,
    fun names op args env σ hop hf hp hr =>
      lambda_parameter_shadows T fuel names op args env σ hop hf hp hr,
    ⟨_, rfl⟩, ⟨_, rfl⟩, ⟨_, rfl⟩, ⟨_, rfl⟩, ⟨_, rfl⟩⟩

/-! ### The function-definition form (C21) -/

theorem defineParams_symbols (names : List String) :
    defineParams (names.map .SymbolSyntax) = some names := by
  induction names with
  | nil => rfl
  | cons x rest ih => simp [defineParams, ih]

theorem parse_define_sugar (T : Tables) (fuel : Nat) (f : String) (names : List String)
    (body1 : Syntax) (bodies : List Syntax) (env : Assoc) (σ : Store)
    (hf : find "define" env σ = none) (hp : T.primitives.lookup "define" = none)
    (hr : T.reserved_words.lookup "define" = some .E_DEFINE) :
    parse T (fuel + 1) (.List (.SymbolSyntax "define" ::
        .List (.SymbolSyntax f :: names.map .SymbolSyntax) :: body1 :: bodies)) env σ =
      defineOf f names (parseAll (fun s => parse T fuel s env) (body1 :: bodies) σ) := by
  simp only [parse, hf, Option.isSome_none, Bool.false_eq_true, if_false, hp, hr,
    defineParams_symbols, defineOf]

theorem parse_define_simple (T : Tables) (fuel : Nat) (f : String) (init : Syntax)
    (env : Assoc) (σ : Store)
    (hf : find "define" env σ = none) (hp : T.primitives.lookup "define" = none)
    (hr : T.reserved_words.lookup "define" = some .E_DEFINE) :
    parse T (fuel + 1) (.List [.SymbolSyntax "define", .SymbolSyntax f, init]) env σ =
      match parse T fuel init env σ with
      | .ok e σ1 => .ok (.Define f e) σ1
      | .error msg σ1 => .error msg σ1
      | .timeout => .timeout := by
  simp only [parse, hf, Option.isSome_none, Bool.false_eq_true, if_false, hp, hr]

theorem parse_define_lambda (T : Tables) (fuel : Nat) (f : String) (names : List String)
    (body1 : Syntax) (bodies : List Syntax) (env : Assoc) (σ : Store)
    (hf : find "define" env σ = none) (hp : T.primitives.lookup "define" = none)
    (hr : T.reserved_words.lookup "define" = some .E_DEFINE)
    (hf2 : find "lambda" env σ = none) (hp2 : T.primitives.lookup "lambda" = none)
    (hr2 : T.reserved_words.lookup "lambda" = some .E_LAMBDA) :
    parse T (fuel + 3) (.List [.SymbolSyntax "define", .SymbolSyntax f,
        .List (.SymbolSyntax "lambda" :: .List (names.map .SymbolSyntax) :: body1 :: bodies)])
        env σ =
      defineOf f names
        (parseAll (fun s => parse T (fuel + 1) s (extendAll nullObject names env σ).1)
          (body1 :: bodies) (extendAll nullObject names env σ).2) := by
  have h1 := parse_lambda_form T (fuel + 1) (names.map .SymbolSyntax) body1 bodies env σ
    hf2 hp2 hr2
  rw [parseParams_symbols _ (fun _ _ => rfl)] at h1
  have h2 := parse_define_simple T (fuel + 2) f (.List (.SymbolSyntax "lambda" ::
    .List (names.map .SymbolSyntax) :: body1 :: bodies)) env σ hf hp hr
  rw [h2, h1]
  dsimp only
  cases parseAll (fun s => parse T (fuel + 1) s (extendAll nullObject names env σ).1)
    (body1 :: bodies) (extendAll nullObject names env σ).2 <;> rfl

/-- C21: the function-definition form resolves to `Define f (Lambda ...)`
whose body was resolved in the enclosing environment, while
`(define f (lambda ...))` resolves to the same node with the body resolved in
the environment extended with the parameters.  The two agree on
`(define (f g) (g 1 2))`, and differ on `(define (f list) (list 1 2))`: the
sugar gives a body that calls the primitive, the explicit form a body that
applies the parameter; called on `car`, the first returns a pair and the second
fails on the number of arguments. -/
theorem C21_define_sugar_resolves_body_outside (T : Tables) (fuel : Nat) :
    (∀ f names body1 bodies env σ, find "define" env σ = none →
      T.primitives.lookup "define" = none →
      T.reserved_words.lookup "define" = some .E_DEFINE →
      parse T (fuel + 2) (.List (.SymbolSyntax "define" ::
          .List (.SymbolSyntax f :: names.map .SymbolSyntax) :: body1 :: bodies)) env σ =
        defineOf f names
          (parseAll (fun s => parse T (fuel + 1) s env) (body1 :: bodies) σ)) ∧
    (∀ f names body1 bodies env σ, find "define" env σ = none →
      T.primitives.lookup "define" = none →
      T.reserved_words.lookup "define" = some .E_DEFINE →
      find "lambda" env σ = none → T.primitives.lookup "lambda" = none →
      T.reserved_words.lookup "lambda" = some .E_LAMBDA →
      parse T (fuel + 3) (.List [.SymbolSyntax "define", .SymbolSyntax f,
          .List (.SymbolSyntax "lambda" :: .List (names.map .SymbolSyntax) ::
            body1 :: bodies)]) env σ =
        defineOf f names
          (parseAll (fun s => parse T (fuel + 1) s (extendAll nullObject names env σ).1)
            (body1 :: bodies) (extendAll nullObject names env σ).2)) ∧
    (∃ σ1, parse stdTables 3 (sugarForm "f" "g") [] Store.init =
      .ok (.Define "f" (.Lambda ["g"] (.Apply (.Var "g") [.Fixnum 1, .Fixnum 2]))) σ1) ∧
    (∃ σ1, parse stdTables 4 (desugaredForm "f" "g") [] Store.init =
      .ok (.Define "f" (.Lambda ["g"] (.Apply (.Var "g") [.Fixnum 1, .Fixnum 2]))) σ1) ∧
    (∃ σ1, parse stdTables 3 (sugarForm "f" "list") [] Store.init =
      .ok (.Define "f" (.Lambda ["list"] (.Variadic .ListFunc [.Fixnum 1, .Fixnum 2])))
        σ1) ∧
    (∃ σ1, parse stdTables 4 (desugaredForm "f" "list") [] Store.init =
      .ok (.Define "f" (.Lambda ["list"] (.Apply (.Var "list") [.Fixnum 1, .Fixnum 2])))
        σ1) ∧
    (∃ a d, (resolveAndEval stdTables 6 (thenCallOnCar (sugarForm "f" "list") "f") []
      Store.init).content = some (.Pair a d)) ∧
    (∃ e1 σ1, resolveAndEval stdTables 6 (thenCallOnCar (desugaredForm "f" "list") "f") []
      Store.init = .error "Wrong number of arguments" e1 σ1) :=
  ⟨fun f names body1 bodies env σ hf hp hr =>
      parse_define_sugar T (fuel + 1) f names body1 bodies env σ hf hp hr,
    fun f names body1 bodies env σ hf hp hr hf2 hp2 hr2 =>
      parse_define_lambda T fuel f names body1 bodies env σ hf hp hr hf2 hp2 hr2,
    ⟨_, rfl⟩, ⟨_, rfl⟩, ⟨_, rfl⟩, ⟨_, rfl⟩, ⟨_, _, rfl⟩, ⟨_, _, rfl⟩⟩

/-! ### Definitions of primitive and reserved names (C22) -/

theorem listed_true (T : Tables) (x : String) :
    T.listed x = true ↔ ((T.primitives.lookup x).isSome = true ∨
      (T.reserved_words.lookup x).isSome = true) := by
  simp [Tables.listed]

theorem listed_false (T : Tables) (x : String) :
    T.listed x = false ↔ ¬ ((T.primitives.lookup x).isSome = true ∨
      (T.reserved_words.lookup x).isSome = true) := by
  rw [← listed_true]
  simp

theorem extendAll_frames (pl : Store → Option Value × Store)
    (hpl : ∀ σ, (pl σ).2.cells = σ.cells) (names : List String) (e : Assoc) (σ : Store) :
    ∃ frames, (extendAll pl names e σ).1 = frames ++ e ∧
      frames.map Prod.fst = names.reverse ∧
      (∀ b ∈ frames, b.2 < (extendAll pl names e σ).2.cells.length) ∧
      σ.cells.length ≤ (extendAll pl names e σ).2.cells.length := by
  induction names generalizing e σ with
  | nil => exact ⟨[], rfl, rfl, fun b hb => (by cases hb), le_refl _⟩
  | cons x rest ih =>
    obtain ⟨frames, h1, h2, h3, h4⟩ :=
      ih (extend x (pl σ).1 e (pl σ).2).1 (extend x (pl σ).1 e (pl σ).2).2
    have hlen : (extend x (pl σ).1 e (pl σ).2).2.cells.length = σ.cells.length + 1 := by
      simp [extend, hpl]
    refine ⟨frames ++ [(x, σ.cells.length)], ?_, ?_, ?_, ?_⟩
    · simp only [extendAll, h1, List.append_assoc]
      simp [extend, hpl]
    · simp [h2]
    · intro b hb
      simp only [extendAll]
      rcases List.mem_append.mp hb with hb | hb
      · exact h3 b hb
      · simp only [List.mem_singleton] at hb
        subst hb
        exact lt_of_lt_of_le (by rw [hlen]; exact Nat.lt_succ_self _) h4
    · simp only [extendAll]
      exact le_trans (by rw [hlen]; exact Nat.le_succ _) h4

theorem Define_listed (T : Tables) (fuel : Nat) (x : String) (init : Expr) (e : Assoc)
    (σ : Store) (h : T.listed x = true) :
    eval T (fuel + 1) (.Define x init) e σ = .error "Undefined variable" e σ := by
  have h2 := (listed_true T x).mp h
  simp only [eval, h2, if_true]

theorem prebind_listed (T : Tables) (pre : List (String × Expr)) (x : String) (init : Expr)
    (post : List (String × Expr)) (e : Assoc) (σ : Store)
    (hpre : ∀ p ∈ pre, T.listed p.1 = false) (h : T.listed x = true) :
    evaluateDefineGroup.prebind T (pre ++ (x, init) :: post) e σ =
      .error ("Cannot redefine primitive: " ++ x)
        (extendAll nullPlaceholder (pre.map Prod.fst) e σ).1
        (extendAll nullPlaceholder (pre.map Prod.fst) e σ).2 := by
  induction pre generalizing e σ with
  | nil =>
    have h2 := (listed_true T x).mp h
    simp only [List.nil_append, evaluateDefineGroup.prebind, h2, if_true, List.map_nil,
      extendAll]
  | cons p rest ih =>
    obtain ⟨y, i⟩ := p
    have h2 := (listed_false T y).mp (hpre (y, i) (List.mem_cons_self _ _))
    simp only [List.cons_append, evaluateDefineGroup.prebind, h2, if_false, List.map_cons,
      extendAll]
    exact ih _ _ (fun p hp => hpre p (List.mem_cons_of_mem _ hp))

theorem evaluateDefineGroup_listed (T : Tables) (fuel : Nat) (pre : List (String × Expr))
    (x : String) (init : Expr) (post : List (String × Expr)) (e : Assoc) (σ : Store)
    (hpre : ∀ p ∈ pre, T.listed p.1 = false) (h : T.listed x = true) :
    evaluateDefineGroup T fuel (pre ++ (x, init) :: post) e σ =
      .error ("Cannot redefine primitive: " ++ x)
        (extendAll nullPlaceholder (pre.map Prod.fst) e σ).1
        (extendAll nullPlaceholder (pre.map Prod.fst) e σ).2 := by
  simp only [evaluateDefineGroup, prebind_listed T pre x init post e σ hpre h]

theorem prebound_names_not_listed (T : Tables) (pre : List (String × Expr)) (x : String)
    (e : Assoc) (σ : Store) (hpre : ∀ p ∈ pre, T.listed p.1 = false) (h : T.listed x = true) :
    ∃ frames, (extendAll nullPlaceholder (pre.map Prod.fst) e σ).1 = frames ++ e ∧
      ∀ b ∈ frames, b.1 ≠ x := by
  obtain ⟨frames, h1, h2, _, _⟩ :=
    extendAll_frames nullPlaceholder (fun _ => rfl) (pre.map Prod.fst) e σ
  refine ⟨frames, h1, ?_⟩
  intro b hb hbx
  have hm : b.1 ∈ frames.map Prod.fst := List.mem_map_of_mem _ hb
  rw [h2, List.mem_reverse, List.mem_map] at hm
  obtain ⟨p, hp, hpb⟩ := hm
  have hp2 := hpre p hp
  rw [hpb, hbx, h] at hp2
  cases hp2

/-- C22: for a name listed in the table of primitives or of reserved words,
`Define::eval` raises "Undefined variable" and leaves the handle and the store
as they were, and `evaluateDefineGroup` raises "Cannot redefine primitive: "
followed by the name, having bound only the names that precede it in the
group.  `Begin::eval` has no such check for its leading defines:
`(begin (define car 1) car)` and `(begin (define if 1) if)` evaluate to 1,
while `(begin 0 (define car 1) car)`, whose define goes through `Define::eval`,
raises the error. -/
theorem C22_begin_defines_unchecked (T : Tables) (fuel : Nat) :
    (∀ x init e σ, T.listed x = true →
      eval T (fuel + 1) (.Define x init) e σ = .error "Undefined variable" e σ) ∧
    (∀ pre x init post e σ, (∀ p ∈ pre, T.listed p.1 = false) → T.listed x = true →
      evaluateDefineGroup T fuel (pre ++ (x, init) :: post) e σ =
        .error ("Cannot redefine primitive: " ++ x)
          (extendAll nullPlaceholder (pre.map Prod.fst) e σ).1
          (extendAll nullPlaceholder (pre.map Prod.fst) e σ).2 ∧
      ∃ frames, (extendAll nullPlaceholder (pre.map Prod.fst) e σ).1 = frames ++ e ∧
        ∀ b ∈ frames, b.1 ≠ x) ∧
    stdTables.listed "car" = true ∧ stdTables.listed "if" = true ∧
    (resolveAndEval stdTables 3 (beginDefineForm "car") [] Store.init).content =
      some (.Integer 1) ∧
    (resolveAndEval stdTables 3 (beginDefineForm "if") [] Store.init).content =
      some (.Integer 1) ∧
    (∃ e1 σ1, resolveAndEval stdTables 3 (lateDefineForm "car") [] Store.init =
      .error "Undefined variable" e1 σ1) :=
  ⟨fun x init e σ h => Define_listed T fuel x init e σ h,
    fun pre x init post e σ hpre h =>
      ⟨evaluateDefineGroup_listed T fuel pre x init post e σ hpre h,
        prebound_names_not_listed T pre x e σ hpre h⟩,
    rfl, rfl, rfl, rfl, ⟨_, _, rfl⟩⟩

/-! ### The handle of the caller -/

theorem handleGrows_of_cells (e : Assoc) {σ σ1 : Store}
    (h : σ.cells.length ≤ σ1.cells.length) : handleGrows e σ e σ1 :=
  ⟨⟨[], rfl, by simp⟩, h⟩

theorem handleGrows_refl (e : Assoc) (σ : Store) : handleGrows e σ e σ :=
  handleGrows_of_cells e (Nat.le_refl _)

theorem handleGrows_trans {e e1 e2 : Assoc} {σ σ1 σ2 : Store}
    (h1 : handleGrows e σ e1 σ1) (h2 : handleGrows e1 σ1 e2 σ2) : handleGrows e σ e2 σ2 := by
  obtain ⟨⟨f1, rfl, hv1⟩, hl1⟩ := h1
  obtain ⟨⟨f2, rfl, hv2⟩, hl2⟩ := h2
  refine ⟨⟨f2 ++ f1, by simp, ?_⟩, Nat.le_trans hl1 hl2⟩
  intro b hb
  rcases List.mem_append.mp hb with hb | hb
  · exact hv2 b hb
  · exact Nat.lt_of_lt_of_le (hv1 b hb) hl2

theorem returnNew_ok {c : ValueBase} {e : Assoc} {σ : Store} {v : Value} {e1 : Assoc}
    {σ1 : Store} (h : returnNew c e σ = .ok v e1 σ1) : e1 = e ∧ σ1.cells = σ.cells := by
  simp only [returnNew, Outcome.ok.injEq] at h
  obtain ⟨-, rfl, rfl⟩ := h
  exact ⟨rfl, rfl⟩

theorem returnRes_ok {r : Res} {e : Assoc} {σ : Store} {v : Value} {e1 : Assoc}
    {σ1 : Store} (h : returnRes r e σ = .ok v e1 σ1) : e1 = e ∧ σ1.cells = σ.cells := by
  cases r with
  | ok c => exact returnNew_ok h
  | error msg => simp [returnRes] at h

theorem returnResOrTrap_ok {r : ResOrTrap} {e : Assoc} {σ : Store} {v : Value} {e1 : Assoc}
    {σ1 : Store} (h : returnResOrTrap r e σ = .ok v e1 σ1) :
    e1 = e ∧ σ1.cells = σ.cells := by
  cases r with
  | ok c => exact returnNew_ok h
  | error msg => simp [returnResOrTrap] at h
  | trap => simp [returnResOrTrap] at h

theorem IsList_evalRator_ok {rand : Value} {e : Assoc} {σ : Store} {v : Value} {e1 : Assoc}
    {σ1 : Store} (h : IsList.evalRator rand e σ = .ok v e1 σ1) :
    e1 = e ∧ σ1.cells = σ.cells := by
  unfold IsList.evalRator at h
  (repeat' split at h)
  all_goals first
    | exact returnNew_ok h
    | cases h

theorem Unary_evalRator_ok {op : UnaryOp} {rand : Value} {e : Assoc} {σ : Store} {v : Value}
    {e1 : Assoc} {σ1 : Store} (h : Unary.evalRator op rand e σ = .ok v e1 σ1) :
    e1 = e ∧ σ1.cells = σ.cells := by
  unfold Unary.evalRator at h
  (repeat' split at h)
  all_goals first
    | exact returnNew_ok h
    | exact IsList_evalRator_ok h
    | (have hh := returnNew_ok h; exact hh)
    | (simp only [Outcome.ok.injEq] at h; obtain ⟨-, rfl, rfl⟩ := h; exact ⟨rfl, rfl⟩)
    | cases h

theorem Binary_evalRator_ok {op : BinaryOp} {rand1 rand2 : Value} {e : Assoc} {σ : Store}
    {v : Value} {e1 : Assoc} {σ1 : Store}
    (h : Binary.evalRator op rand1 rand2 e σ = .ok v e1 σ1) :
    e1 = e ∧ σ1.cells = σ.cells := by
  unfold Binary.evalRator at h
  (repeat' split at h)
  all_goals first
    | exact returnRes_ok h
    | exact returnResOrTrap_ok h
    | exact returnNew_ok h
    | (have hh := returnNew_ok h; simpa [Store.update] using hh)
    | cases h

theorem ListFunc_build_cells (args : List Value) (σ : Store) :
    (ListFunc.build args σ).2.cells = σ.cells := by
  induction args with
  | nil => rfl
  | cons a rest ih => simpa [ListFunc.build, Store.alloc] using ih

theorem Variadic_evalRator_ok {op : VariadicOp} {args : List Value} {e : Assoc} {σ : Store}
    {v : Value} {e1 : Assoc} {σ1 : Store}
    (h : Variadic.evalRator op args e σ = .ok v e1 σ1) :
    e1 = e ∧ σ1.cells = σ.cells := by
  unfold Variadic.evalRator at h
  (repeat' split at h)
  all_goals first
    | exact returnRes_ok h
    | exact returnNew_ok h
    | (simp only [Outcome.ok.injEq] at h; obtain ⟨-, rfl, rfl⟩ := h
       exact ⟨rfl, ListFunc_build_cells _ _⟩)
    | (simp only [Outcome.ok.injEq] at h; obtain ⟨-, rfl, rfl⟩ := h; exact ⟨rfl, rfl⟩)
    | cases h

theorem Var_eval_ok {T : Tables} {x : String} {e : Assoc} {σ : Store} {v : Value}
    {e1 : Assoc} {σ1 : Store} (h : Var.eval T x e σ = .ok v e1 σ1) :
    e1 = e ∧ σ1.cells = σ.cells := by
  unfold Var.eval at h
  (repeat' split at h)
  all_goals first
    | (have hh := returnNew_ok h; exact hh)
    | (simp only [Outcome.ok.injEq] at h; obtain ⟨-, rfl, rfl⟩ := h; exact ⟨rfl, rfl⟩)
    | cases h

theorem setLastCdr_cells {fuel : Nat} {current cdrPart : Value} {σ σ1 : Store}
    (h : setLastCdr fuel current cdrPart σ = some σ1) : σ1.cells = σ.cells := by
  induction fuel generalizing current with
  | zero => simp [setLastCdr] at h
  | succ fuel ih =>
    unfold setLastCdr at h
    (repeat' split at h)
    all_goals first
      | (simp only [Option.some.injEq] at h; subst h; rfl)
      | exact ih h
      | cases h

theorem consAll_cells {conv : Syntax → Store → Outcome Value}
    (hconv : ∀ s σ v e1 σ1, conv s σ = .ok v e1 σ1 → σ1.cells = σ.cells)
    {l : List Syntax} {tail : Value} {σ : Store} {v : Value} {e1 : Assoc} {σ1 : Store}
    (h : consAll conv l tail σ = .ok v e1 σ1) : σ1.cells = σ.cells := by
  induction l generalizing v e1 σ1 with
  | nil =>
    simp only [consAll, Outcome.ok.injEq] at h
    obtain ⟨-, -, rfl⟩ := h
    rfl
  | cons s rest ih =>
    unfold consAll at h
    split at h
    · rename_i r e2 σ2 hrest
      split at h
      · rename_i w e3 σ3 hs
        simp only [Outcome.ok.injEq] at h
        obtain ⟨-, -, rfl⟩ := h
        have h1 := ih hrest
        have h2 := hconv _ _ _ _ _ hs
        simp [Store.alloc, h1, h2]
      · rename_i hne
        exact absurd h (by
          intro hh
          exact hne _ _ _ hh)
    · rename_i hne
      exact absurd h (fun hh => hne _ _ _ hh)

theorem syntaxToValue_cells {fuel : Nat} {s : Syntax} {σ : Store} {v : Value} {e1 : Assoc}
    {σ1 : Store} (h : syntaxToValue fuel s σ = .ok v e1 σ1) : σ1.cells = σ.cells := by
  induction fuel generalizing s σ v e1 σ1 with
  | zero => simp [syntaxToValue] at h
  | succ fuel ih =>
    have hconv : ∀ s σ v e1 σ1, syntaxToValue fuel s σ = .ok v e1 σ1 → σ1.cells = σ.cells :=
      fun s σ v e1 σ1 h => ih h
    unfold syntaxToValue at h
    (repeat' split at h)
    all_goals first
      | exact (returnNew_ok h).2
      | cases h
      | (have hh := consAll_cells hconv h; simpa [Store.alloc] using hh)
      | (exfalso; rename_i hne; exact hne _ _ _ h)
    · have a := consAll_cells hconv ‹consAll _ _ _ _ = _›
      have b := hconv _ _ _ _ _ ‹syntaxToValue fuel _ _ = _›
      have c := setLastCdr_cells ‹setLastCdr _ _ _ _ = some _›
      simp only [Store.alloc] at a
      rw [c, b, a]


theorem modify_cells_length (x : String) (v : Value) (env : Assoc) (σ : Store) :
    (modify x v env σ).cells.length = σ.cells.length := by
  induction env with
  | nil => rfl
  | cons b rest ih =>
    obtain ⟨y, c⟩ := b
    simp only [modify]
    split
    · simp
    · exact ih

theorem modifyAll_cells_length (xs : List String) (vs : List Value) (env : Assoc) (σ : Store) :
    (modifyAll xs vs env σ).cells.length = σ.cells.length := by
  induction xs generalizing vs σ with
  | nil => cases vs <;> rfl
  | cons x rest ih =>
    cases vs with
    | nil => rfl
    | cons v vs => simp only [modifyAll, ih, modify_cells_length]

theorem extendValues_cells_length (xs : List String) (vs : List Value) (env : Assoc)
    (σ : Store) : σ.cells.length ≤ (extendValues xs vs env σ).2.cells.length := by
  induction xs generalizing vs env σ with
  | nil => cases vs <;> exact Nat.le_refl _
  | cons x rest ih =>
    cases vs with
    | nil => exact Nat.le_refl _
    | cons v vs =>
      simp only [extendValues]
      refine Nat.le_trans ?_ (ih vs _ _)
      simp [extend]

theorem extendAll_cells_length (ph : Store → Option Value × Store)
    (hph : ∀ σ, σ.cells.length ≤ (ph σ).2.cells.length) (xs : List String) (env : Assoc)
    (σ : Store) : σ.cells.length ≤ (extendAll ph xs env σ).2.cells.length := by
  induction xs generalizing env σ with
  | nil => exact Nat.le_refl _
  | cons x rest ih =>
    simp only [extendAll]
    refine Nat.le_trans ?_ (ih _ _)
    refine Nat.le_trans (hph σ) ?_
    simp [extend]

theorem evalArgs_grows {ev : Expr → Assoc → Store → Result}
    (hev : ∀ expr e σ v e1 σ1, ev expr e σ = .ok v e1 σ1 → handleGrows e σ e1 σ1)
    {l : List Expr} {e : Assoc} {σ : Store} {vs : List Value} {e1 : Assoc} {σ1 : Store}
    (h : evalArgs ev l e σ = .ok vs e1 σ1) : handleGrows e σ e1 σ1 := by
  induction l generalizing e σ vs with
  | nil =>
    simp only [evalArgs, Outcome.ok.injEq] at h
    obtain ⟨-, rfl, rfl⟩ := h
    exact handleGrows_refl _ _
  | cons x rest ih =>
    unfold evalArgs at h
    split at h
    · rename_i v e2 σ2 hx
      split at h
      · rename_i vs2 e3 σ3 hrest
        simp only [Outcome.ok.injEq] at h
        obtain ⟨-, rfl, rfl⟩ := h
        exact handleGrows_trans (hev _ _ _ _ _ _ hx) (ih hrest)
      all_goals cases h
    all_goals cases h

theorem evalSeq_grows {ev : Expr → Assoc → Store → Result}
    (hev : ∀ expr e σ v e1 σ1, ev expr e σ = .ok v e1 σ1 → handleGrows e σ e1 σ1)
    {l : List Expr} {r : Value} {e : Assoc} {σ : Store} {v : Value} {e1 : Assoc} {σ1 : Store}
    (h : evalSeq ev r l e σ = .ok v e1 σ1) : handleGrows e σ e1 σ1 := by
  induction l generalizing r e σ with
  | nil =>
    simp only [evalSeq, Outcome.ok.injEq] at h
    obtain ⟨-, rfl, rfl⟩ := h
    exact handleGrows_refl _ _
  | cons x rest ih =>
    unfold evalSeq at h
    split at h
    · rename_i w e2 σ2 hx
      exact handleGrows_trans (hev _ _ _ _ _ _ hx) (ih h)
    · rename_i hne
      exact absurd h (fun hh => hne _ _ _ hh)

theorem AndVar_scan_grows {ev : Expr → Assoc → Store → Result}
    (hev : ∀ expr e σ v e1 σ1, ev expr e σ = .ok v e1 σ1 → handleGrows e σ e1 σ1)
    {l : List Expr} {e : Assoc} {σ : Store} {r : Option Unit} {e1 : Assoc} {σ1 : Store}
    (h : AndVar.scan ev l e σ = .ok r e1 σ1) : handleGrows e σ e1 σ1 := by
  induction l generalizing e σ with
  | nil =>
    simp only [AndVar.scan, Outcome.ok.injEq] at h
    obtain ⟨-, rfl, rfl⟩ := h
    exact handleGrows_refl _ _
  | cons x rest ih =>
    unfold AndVar.scan at h
    split at h
    · rename_i w e2 σ2 hx
      split at h
      · cases h
      · split at h
        · exact handleGrows_trans (hev _ _ _ _ _ _ hx) (ih h)
        · simp only [Outcome.ok.injEq] at h
          obtain ⟨-, rfl, rfl⟩ := h
          exact hev _ _ _ _ _ _ hx
    all_goals cases h

theorem OrVar_scan_grows {ev : Expr → Assoc → Store → Result}
    (hev : ∀ expr e σ v e1 σ1, ev expr e σ = .ok v e1 σ1 → handleGrows e σ e1 σ1)
    {l : List Expr} {e : Assoc} {σ : Store} {r : Option Value} {e1 : Assoc} {σ1 : Store}
    (h : OrVar.scan ev l e σ = .ok r e1 σ1) : handleGrows e σ e1 σ1 := by
  induction l generalizing e σ with
  | nil =>
    simp only [OrVar.scan, Outcome.ok.injEq] at h
    obtain ⟨-, rfl, rfl⟩ := h
    exact handleGrows_refl _ _
  | cons x rest ih =>
    unfold OrVar.scan at h
    split at h
    · rename_i w e2 σ2 hx
      split at h
      · cases h
      · split at h
        · simp only [Outcome.ok.injEq] at h
          obtain ⟨-, rfl, rfl⟩ := h
          exact hev _ _ _ _ _ _ hx
        · exact handleGrows_trans (hev _ _ _ _ _ _ hx) (ih h)
    all_goals cases h

theorem handleGrows_alloc {e e1 : Assoc} {σ σ1 : Store} (c : ValueBase)
    (h : handleGrows e (σ.alloc c).2 e1 σ1) : handleGrows e σ e1 σ1 := h

theorem returnNew_grows {c : ValueBase} {e : Assoc} {σ : Store} {v : Value} {e1 : Assoc}
    {σ1 : Store} (h : returnNew c e σ = .ok v e1 σ1) : handleGrows e σ e1 σ1 := by
  obtain ⟨rfl, hc⟩ := returnNew_ok h
  exact handleGrows_of_cells _ (by rw [hc])

theorem Cond_evalBody_grows {ev : Expr → Assoc → Store → Result}
    (hev : ∀ expr e σ v e1 σ1, ev expr e σ = .ok v e1 σ1 → handleGrows e σ e1 σ1)
    {body : List Expr} {e : Assoc} {σ : Store} {v : Value} {e1 : Assoc} {σ1 : Store}
    (h : Cond.evalBody ev body e σ = .ok v e1 σ1) : handleGrows e σ e1 σ1 :=
  handleGrows_alloc _ (evalSeq_grows hev h)

theorem Cond_evalClauses_grows {ev : Expr → Assoc → Store → Result}
    (hev : ∀ expr e σ v e1 σ1, ev expr e σ = .ok v e1 σ1 → handleGrows e σ e1 σ1)
    {l : List (List Expr)} {e : Assoc} {σ : Store} {v : Value} {e1 : Assoc} {σ1 : Store}
    (h : Cond.evalClauses ev l e σ = .ok v e1 σ1) : handleGrows e σ e1 σ1 := by
  induction l generalizing e σ with
  | nil => exact returnNew_grows h
  | cons cl rest ih =>
    cases cl with
    | nil =>
      simp only [Cond.evalClauses] at h
      exact ih h
    | cons test body =>
      cases test <;> simp only [Cond.evalClauses] at h <;> (repeat' split at h)
      all_goals first
        | exact returnNew_grows h
        | exact ih h
        | exact Cond_evalBody_grows hev h
        | (cases h; done)
        | (cases h; exact hev _ _ _ _ _ _ ‹_›)
        | (exfalso; rename_i hne; exact hne _ _ _ h)
        | exact hev _ _ _ _ _ _ ‹_›
        | exact handleGrows_trans (hev _ _ _ _ _ _ ‹_›) (Cond_evalBody_grows hev h)
        | exact handleGrows_trans (hev _ _ _ _ _ _ ‹_›) (ih h)


theorem handleGrows_of_same {e e1 : Assoc} {σ σ1 : Store}
    (h : e1 = e ∧ σ1.cells = σ.cells) : handleGrows e σ e1 σ1 := by
  obtain ⟨rfl, hc⟩ := h
  exact handleGrows_of_cells _ (by rw [hc])

theorem withEnv_ok {α : Type} {r : Outcome α} {e : Assoc} {v : α} {e1 : Assoc} {σ1 : Store}
    (h : r.withEnv e = .ok v e1 σ1) : e1 = e ∧ ∃ e2, r = .ok v e2 σ1 := by
  cases r with
  | ok a e2 σ2 =>
    simp only [Outcome.withEnv, Outcome.ok.injEq] at h
    obtain ⟨rfl, rfl, rfl⟩ := h
    exact ⟨rfl, e2, rfl⟩
  | error msg e2 σ2 => simp [Outcome.withEnv] at h
  | timeout => simp [Outcome.withEnv] at h
  | fault => simp [Outcome.withEnv] at h

theorem evalAndPatch_grows {ev : Expr → Assoc → Store → Result}
    (hev : ∀ expr e σ v e1 σ1, ev expr e σ = .ok v e1 σ1 → handleGrows e σ e1 σ1)
    {l : List (String × Expr)} {e : Assoc} {σ : Store} {u : Unit} {e1 : Assoc} {σ1 : Store}
    (h : evalAndPatch ev l e σ = .ok u e1 σ1) : handleGrows e σ e1 σ1 := by
  induction l generalizing e σ with
  | nil =>
    simp only [evalAndPatch, Outcome.ok.injEq] at h
    obtain ⟨-, rfl, rfl⟩ := h
    exact handleGrows_refl _ _
  | cons b rest ih =>
    obtain ⟨x, init⟩ := b
    unfold evalAndPatch at h
    split at h
    · rename_i w e2 σ2 hx
      have h1 := hev _ _ _ _ _ _ hx
      have h2 := ih h
      have h3 : handleGrows e2 σ2 e2 (modify x w e2 σ2) :=
        handleGrows_of_cells _ (by rw [modify_cells_length])
      exact handleGrows_trans h1 (handleGrows_trans h3 h2)
    all_goals cases h

/-- An evaluation that returns leaves the caller's handle with more frames in
front at most, all with allocated binding cells, and removes no binding cell. -/
theorem eval_handleGrows (T : Tables) (fuel : Nat) :
    ∀ expr e σ v e1 σ1, eval T fuel expr e σ = .ok v e1 σ1 → handleGrows e σ e1 σ1 := by
  induction fuel with
  | zero =>
    intro expr e σ v e1 σ1 h
    simp [eval] at h
  | succ fuel ih =>
    intro expr e σ v e1 σ1 h
    cases expr <;> simp only [eval] at h
    case Fixnum => exact returnNew_grows h
    case RationalNum => exact returnNew_grows h
    case StringExpr => exact returnNew_grows h
    case True => exact returnNew_grows h
    case False => exact returnNew_grows h
    case MakeVoid => exact returnNew_grows h
    case Exit => exact returnNew_grows h
    case Lambda => exact returnNew_grows h
    case Var => exact handleGrows_of_same (Var_eval_ok h)
    case Cond => exact Cond_evalClauses_grows ih h
    case Unary op rand =>
      split at h
      · rename_i w e2 σ2 hx
        exact handleGrows_trans (ih _ _ _ _ _ _ hx) (handleGrows_of_same (Unary_evalRator_ok h))
      · rename_i hne
        exact absurd h (fun hh => hne _ _ _ hh)
    case Binary op rand1 rand2 =>
      split at h
      · rename_i w1 e2 σ2 hx1
        split at h
        · rename_i w2 e3 σ3 hx2
          exact handleGrows_trans (ih _ _ _ _ _ _ hx1) (handleGrows_trans (ih _ _ _ _ _ _ hx2)
            (handleGrows_of_same (Binary_evalRator_ok h)))
        · rename_i hne
          exact absurd h (fun hh => hne _ _ _ hh)
      · rename_i hne
        exact absurd h (fun hh => hne _ _ _ hh)
    case Variadic op rands =>
      split at h
      · rename_i ws e2 σ2 hx
        exact handleGrows_trans (evalArgs_grows ih hx)
          (handleGrows_of_same (Variadic_evalRator_ok h))
      all_goals cases h
    case AndVar rands =>
      split at h
      · exact returnNew_grows h
      · split at h
        · rename_i e2 σ2 hs
          exact handleGrows_trans (handleGrows_alloc _ (AndVar_scan_grows ih hs))
            (returnNew_grows h)
        · rename_i u e2 σ2 hs
          split at h
          · exact handleGrows_trans (handleGrows_alloc _ (AndVar_scan_grows ih hs))
              (ih _ _ _ _ _ _ h)
          · cases h
        all_goals cases h
    case OrVar rands =>
      split at h
      · exact returnNew_grows h
      · split at h
        · rename_i r e2 σ2 hs
          simp only [Outcome.ok.injEq] at h
          obtain ⟨-, rfl, rfl⟩ := h
          exact OrVar_scan_grows ih hs
        · rename_i e2 σ2 hs
          exact handleGrows_trans (OrVar_scan_grows ih hs) (returnNew_grows h)
        all_goals cases h
    case Quote s =>
      obtain ⟨rfl, e2, hq⟩ := withEnv_ok h
      exact handleGrows_of_cells _ (by rw [syntaxToValue_cells hq])
    case If cond conseq alter =>
      split at h
      · rename_i w e2 σ2 hc
        split at h
        · cases h
        · split at h
          · exact handleGrows_trans (ih _ _ _ _ _ _ hc) (ih _ _ _ _ _ _ h)
          · exact handleGrows_trans (ih _ _ _ _ _ _ hc) (ih _ _ _ _ _ _ h)
      · rename_i hne
        exact absurd h (fun hh => hne _ _ _ hh)
    case Apply rator rand =>
      split at h
      · rename_i p e2 σ2 hr
        split at h
        · cases h
        · rename_i ps body env hd
          split at h
          · rename_i args e3 σ3 ha
            split at h
            · cases h
            · obtain ⟨rfl, e4, hb⟩ := withEnv_ok h
              have h1 := handleGrows_trans (ih _ _ _ _ _ _ hr) (evalArgs_grows ih ha)
              have h2 := (ih _ _ _ _ _ _ hb).2
              have h3 := extendValues_cells_length ps args env σ3
              exact handleGrows_trans h1 (handleGrows_of_cells _ (Nat.le_trans h3 h2))
          all_goals cases h
        · cases h
      · rename_i hne
        exact absurd h (fun hh => hne _ _ _ hh)
    case Define var init =>
      split at h
      · cases h
      · split at h
        · rename_i w e2 σ2 hi
          obtain ⟨rfl, hc⟩ := returnNew_ok h
          obtain ⟨⟨frames, rfl, hv⟩, hl⟩ := ih _ _ _ _ _ _ hi
          have hlen : σ1.cells.length = σ2.cells.length := by
            rw [hc, modify_cells_length]
          simp only [extend, List.length_append, List.length_singleton] at hl
          refine ⟨⟨frames ++ [(var, σ.cells.length)], by simp [extend], ?_⟩, by omega⟩
          intro b hb
          rcases List.mem_append.mp hb with hb | hb
          · have := hv b hb
            omega
          · simp only [List.mem_singleton] at hb
            subst hb
            simp only
            omega
        · rename_i hne
          exact absurd h (fun hh => hne _ _ _ hh)
    case Let bind body =>
      split at h
      · rename_i values e2 σ2 hb
        obtain ⟨rfl, e4, hbody⟩ := withEnv_ok h
        rw [evalBindings_eq_evalArgs] at hb
        have h1 := evalArgs_grows ih hb
        have h2 := (ih _ _ _ _ _ _ hbody).2
        have h3 := extendValues_cells_length (bind.map Prod.fst) values e1 σ2
        exact handleGrows_trans h1 (handleGrows_of_cells _ (Nat.le_trans h3 h2))
      all_goals cases h
    case Letrec bind body =>
      split at h
      · rename_i values e2 σ2 hb
        obtain ⟨rfl, e4, hbody⟩ := withEnv_ok h
        rw [evalBindings_eq_evalArgs] at hb
        have h1 := (evalArgs_grows ih hb).2
        have h2 := (ih _ _ _ _ _ _ hbody).2
        rw [modifyAll_cells_length] at h2
        have h3 := extendAll_cells_length nullPlaceholder (fun _ => Nat.le_refl _)
          (bind.map Prod.fst) e1 σ
        exact handleGrows_of_cells _ (Nat.le_trans h3 (Nat.le_trans h1 h2))
      all_goals cases h
    case Set var init =>
      split at h
      · rename_i w e2 σ2 hi
        split at h
        · cases h
        · obtain ⟨rfl, hc⟩ := returnNew_ok h
          have h1 := ih _ _ _ _ _ _ hi
          exact handleGrows_trans h1 (handleGrows_of_cells _ (by
            rw [hc, modify_cells_length]))
      · rename_i hne
        exact absurd h (fun hh => hne _ _ _ hh)
    case Begin es =>
      have hvoid : ∀ σ : Store, σ.cells.length ≤ (voidPlaceholder σ).2.cells.length :=
        fun _ => Nat.le_refl _
      split at h
      · exact returnNew_grows h
      · rename_i first others
        split at h
        · split at h
          · rename_i r e2 σ2 hf
            exact handleGrows_trans (ih _ _ _ _ _ _ hf) (evalSeq_grows ih h)
          · rename_i hne
            exact absurd h (fun hh => hne _ _ _ hh)
        · rename_i pr defs remaining hne hld
          split at h
          · rename_i u new_env σ2 hp
            have h1 := extendAll_cells_length voidPlaceholder hvoid (defs.map Prod.fst) e σ
            have h2 := (evalAndPatch_grows ih hp).2
            split at h
            · obtain ⟨rfl, hc⟩ := returnNew_ok h
              exact handleGrows_of_cells _ (by rw [hc]; exact Nat.le_trans h1 h2)
            · rename_i next more
              split at h
              · rename_i r env2 σ3 hn
                obtain ⟨rfl, e4, hs⟩ := withEnv_ok h
                have h3 := (ih _ _ _ _ _ _ hn).2
                have h4 := (evalSeq_grows ih hs).2
                exact handleGrows_of_cells _
                  (Nat.le_trans h1 (Nat.le_trans h2 (Nat.le_trans h3 h4)))
              · rename_i hne
                obtain ⟨rfl, e4, hs⟩ := withEnv_ok h
                exact absurd hs (fun hh => hne _ _ _ hh)
          all_goals cases h

/-! ### define (C23) -/

theorem modify_heap (x : String) (v : Value) (env : Assoc) (σ : Store) :
    (modify x v env σ).heap = σ.heap := by
  induction env with
  | nil => rfl
  | cons b rest ih =>
    obtain ⟨y, c⟩ := b
    simp only [modify]
    split
    · rfl
    · exact ih

theorem find_modify_frames (x : String) (v : Value) (frames : List (String × Nat))
    (c0 : Nat) (e : Assoc) (σ : Store) (hf : ∀ b ∈ frames, b.2 < σ.cells.length)
    (hc : c0 < σ.cells.length) :
    find x (frames ++ (x, c0) :: e) (modify x v (frames ++ (x, c0) :: e) σ) = some v := by
  induction frames with
  | nil => simp [find, modify, hc]
  | cons b rest ih =>
    obtain ⟨y, c⟩ := b
    have hcl : c < σ.cells.length := hf (y, c) (List.mem_cons_self _ _)
    by_cases hxy : x = y
    · simp [find, modify, hxy, hcl]
    · simp only [List.cons_append, find, modify, hxy, if_false]
      exact ih (fun b hb => hf b (List.mem_cons_of_mem _ hb))

theorem find_cells_eq (x : String) (env : Assoc) (σ σ1 : Store) (h : σ1.cells = σ.cells) :
    find x env σ1 = find x env σ := by
  induction env with
  | nil => rfl
  | cons b rest ih =>
    obtain ⟨y, c⟩ := b
    simp only [find, h, ih]

theorem find_extend_other (x y : String) (w : Option Value) (env : Assoc) (σ : Store)
    (v : Value) (hxy : x ≠ y) (h : find x env σ = some v) :
    find x (extend y w env σ).1 (extend y w env σ).2 = some v := by
  have h2 : ∀ env, find x env σ = some v →
      find x env { σ with cells := σ.cells ++ [w] } = some v := by
    intro env
    induction env with
    | nil => intro h; simp [find] at h
    | cons b rest ih =>
      obtain ⟨z, c⟩ := b
      simp only [find]
      split
      · intro h
        cases hc : σ.cells[c]? with
        | none => simp [hc] at h
        | some o => rw [lookup_append_of_some _ _ _ _ hc]; rw [hc] at h; exact h
      · exact ih
  simp only [extend, find, hxy, if_false]
  exact h2 env h

/-- A name that is bound to a value and is not a parameter is bound to the same
value in the frame that `Apply::eval` builds for a call. -/
theorem find_extendValues_other (x : String) (ps : List String) (args : List Value)
    (env : Assoc) (σ : Store) (v : Value) (hx : x ∉ ps) (h : find x env σ = some v) :
    find x (extendValues ps args env σ).1 (extendValues ps args env σ).2 = some v := by
  induction ps generalizing args env σ with
  | nil => cases args <;> exact h
  | cons p rest ih =>
    cases args with
    | nil => exact h
    | cons a as =>
      simp only [extendValues]
      exact ih as _ _ (fun hm => hx (List.mem_cons_of_mem _ hm))
        (find_extend_other x p (some a) env σ v
          (fun hxp => hx (hxp ▸ List.mem_cons_self _ _)) h)

theorem Define_eval_unlisted (T : Tables) (fuel : Nat) (x : String) (init : Expr) (e : Assoc)
    (σ : Store) (v : Value) (env1 : Assoc) (σ1 : Store) (hx : T.listed x = false)
    (hinit : eval T fuel init (extend x none e σ).1 (extend x none e σ).2 = .ok v env1 σ1) :
    eval T (fuel + 1) (.Define x init) e σ = returnNew .Void env1 (modify x v env1 σ1) := by
  have h2 := (listed_false T x).mp hx
  simp only [eval, h2, if_false, hinit]

/-- C23: for a name `x` that is neither primitive nor reserved, whose binding
cell is `σ.cells.length`, and an initialiser that evaluates to `v` in the
environment extended with the null placeholder for `x` (where `find` of `x`
is null), `Define::eval` returns a fresh `Void`; the caller's handle then has
the frame of `x` in front of `e`, possibly under frames that the initialiser
added, and `find` of `x` in it is `v`.  When the initialiser is a `lambda`,
`v` is a closure whose environment is that handle, in which `x` is bound to the
closure itself, and the frame of a call binds `x` to `v` unless `x` is a
parameter.  `(begin 0 (define (fact n) ...) (fact 5))` evaluates to 120. -/
theorem C23_define_binds_name (T : Tables) (fuel : Nat) (x : String) (init : Expr)
    (e : Assoc) (σ : Store) (v : Value) (env1 : Assoc) (σ1 : Store)
    (hx : T.listed x = false)
    (hinit : eval T fuel init (extend x none e σ).1 (extend x none e σ).2 = .ok v env1 σ1) :
    find x (extend x none e σ).1 (extend x none e σ).2 = none ∧
    (∃ r σ2, eval T (fuel + 1) (.Define x init) e σ = .ok r env1 σ2 ∧
      σ2.deref r = some .Void ∧
      (∃ frames, env1 = frames ++ (x, σ.cells.length) :: e) ∧
      find x env1 σ2 = some v ∧
      (∀ ps body, init = .Lambda ps body →
        env1 = (x, σ.cells.length) :: e ∧ σ2.deref v = some (.Procedure ps body env1) ∧
        ∀ args σ3, x ∉ ps → find x env1 σ3 = some v →
          find x (extendValues ps args env1 σ3).1 (extendValues ps args env1 σ3).2 =
            some v)) ∧
    (resolveAndEval stdTables 30 (defineFactorialForm 5) [] Store.init).content =
      some (.Integer 120) := by
  obtain ⟨⟨frames, hfr, hval⟩, hlen⟩ := eval_handleGrows T fuel _ _ _ _ _ _ hinit
  have hlen2 : σ.cells.length < σ1.cells.length := by
    have : (extend x none e σ).2.cells.length = σ.cells.length + 1 := by simp [extend]
    omega
  have hfind : find x env1 (modify x v env1 σ1) = some v := by
    rw [hfr]
    exact find_modify_frames x v frames _ e σ1 hval hlen2
  refine ⟨by simp [extend, find], ⟨_, _, Define_eval_unlisted T fuel x init e σ v env1 σ1 hx hinit,
    deref_alloc_new _ _, ⟨frames, hfr⟩, ?_, ?_⟩, rfl⟩
  · exact (find_cells_eq x env1 (modify x v env1 σ1)
      ((modify x v env1 σ1).alloc .Void).2 rfl).trans hfind
  · intro ps body hl
    subst hl
    cases fuel with
    | zero => simp [eval] at hinit
    | succ n =>
      simp only [eval, returnNew] at hinit
      cases hinit
      refine ⟨rfl, ?_, fun args σ3 hx h => find_extendValues_other x ps args _ σ3 _ hx h⟩
      simp [Store.alloc, Store.deref, modify_heap, extend, List.getElem_append_right]

theorem C23_define_witness :
    stdTables.listed "f" = false ∧
    (∃ r σ2, eval stdTables 2 (.Define "f" (.Fixnum 7)) [] Store.init = .ok r [("f", 0)] σ2 ∧
      σ2.deref r = some .Void ∧ find "f" [("f", 0)] σ2 = some 0 ∧
      σ2.deref 0 = some (.Integer 7)) := by
  refine ⟨rfl, ?_⟩
  obtain ⟨r, σ2, h1, h2, -, h4, -⟩ :=
    (C23_define_binds_name stdTables 1 "f" (.Fixnum 7) [] Store.init 0 [("f", 0)]
      { heap := [.Integer 7], cells := [none], out := [] } rfl rfl).2.1
  refine ⟨r, σ2, h1, h2, h4, ?_⟩
  cases h1
  rfl

/-! ### begin (C24) -/

theorem evalsInOrder_cons (ev : Expr → Assoc → Store → Result) (x : Expr) (rest : List Expr)
    (e : Assoc) (σ : Store) (v : Value) (e1 : Assoc) (σ1 : Store)
    (h : evalsInOrder ev (x :: rest) e σ v e1 σ1) :
    ∃ w e2 σ2, ev x e σ = .ok w e2 σ2 ∧ evalSeq ev w rest e2 σ2 = .ok v e1 σ1 := by
  induction rest generalizing x e σ with
  | nil => exact ⟨v, e1, σ1, h, rfl⟩
  | cons y rest ih =>
    obtain ⟨w, e2, σ2, hx, hrest⟩ := h
    obtain ⟨w2, e3, σ3, hy, hseq⟩ := ih y e2 σ2 hrest
    refine ⟨w, e2, σ2, hx, ?_⟩
    simp only [evalSeq, hy, hseq]

theorem definesPatched_evalAndPatch (ev : Expr → Assoc → Store → Result)
    (Q : String → Value → Assoc → Store → Prop) (defs : List (String × Expr)) (e : Assoc)
    (σ : Store) (e1 : Assoc) (σ1 : Store) (h : definesPatched ev Q defs e σ e1 σ1) :
    evalAndPatch ev defs e σ = .ok () e1 σ1 := by
  induction defs generalizing e σ with
  | nil => obtain ⟨h1, h2⟩ := h; subst h1; subst h2; rfl
  | cons p rest ih =>
    obtain ⟨x, init⟩ := p
    obtain ⟨v, e2, σ2, hx, -, hrest⟩ := h
    simp only [evalAndPatch, hx]
    exact ih _ _ hrest

theorem leadingDefines_definesOf (defs : List (String × Expr)) (remaining : List Expr)
    (h : ∀ x ∈ remaining.head?, notDefine x) :
    Begin.leadingDefines (definesOf defs ++ remaining) = (defs, remaining) := by
  induction defs with
  | nil =>
    cases remaining with
    | nil => rfl
    | cons x rest =>
      have hx : notDefine x := h x rfl
      cases x <;> first | rfl | exact absurd rfl (hx _ _)
  | cons p rest ih =>
    show Begin.leadingDefines (.Define p.1 p.2 :: (definesOf rest ++ remaining)) = _
    rw [Begin.leadingDefines, ih]

theorem leadingDefines_notDefine (first : Expr) (others : List Expr) (h : notDefine first) :
    Begin.leadingDefines (first :: others) = ([], first :: others) :=
  leadingDefines_definesOf [] (first :: others) (fun x hx => by cases hx; exact h)

theorem Begin_eval_no_define (T : Tables) (fuel : Nat) (first : Expr) (others : List Expr)
    (e : Assoc) (σ : Store) (v : Value) (e1 : Assoc) (σ1 : Store) (h : notDefine first)
    (hs : evalsInOrder (eval T fuel) (first :: others) e σ v e1 σ1) :
    eval T (fuel + 1) (.Begin (first :: others)) e σ = .ok v e1 σ1 := by
  obtain ⟨w, e2, σ2, hx, hseq⟩ := evalsInOrder_cons _ _ _ _ _ _ _ _ hs
  simp only [eval, leadingDefines_notDefine first others h, hx, hseq]

theorem Begin_eval_only_defines (T : Tables) (fuel : Nat) (p : String × Expr)
    (defs : List (String × Expr)) (e : Assoc) (σ : Store) (new_env : Assoc) (σ1 : Store)
    (hd : evalAndPatch (eval T fuel) (p :: defs)
      (extendAll voidPlaceholder ((p :: defs).map Prod.fst) e σ).1
      (extendAll voidPlaceholder ((p :: defs).map Prod.fst) e σ).2 = .ok () new_env σ1) :
    eval T (fuel + 1) (.Begin (definesOf (p :: defs))) e σ = returnNew .Void e σ1 := by
  have hl := leadingDefines_definesOf (p :: defs) [] (fun x hx => by cases hx)
  simp only [definesOf, List.map_cons, List.append_nil] at hl
  simp only [List.map_cons] at hd
  simp only [eval, definesOf, List.map_cons, hl, hd]

theorem Begin_eval_defines (T : Tables) (fuel : Nat) (p : String × Expr)
    (defs : List (String × Expr)) (next : Expr) (more : List Expr) (e : Assoc) (σ : Store)
    (new_env : Assoc) (σ1 : Store) (v : Value) (e2 : Assoc) (σ2 : Store)
    (h : notDefine next)
    (hd : evalAndPatch (eval T fuel) (p :: defs)
      (extendAll voidPlaceholder ((p :: defs).map Prod.fst) e σ).1
      (extendAll voidPlaceholder ((p :: defs).map Prod.fst) e σ).2 = .ok () new_env σ1)
    (hs : evalsInOrder (eval T fuel) (next :: more) new_env σ1 v e2 σ2) :
    eval T (fuel + 1) (.Begin (definesOf (p :: defs) ++ next :: more)) e σ = .ok v e σ2 := by
  have hl := leadingDefines_definesOf (p :: defs) (next :: more)
    (fun x hx => by cases hx; exact h)
  obtain ⟨w, e3, σ3, hx, hseq⟩ := evalsInOrder_cons _ _ _ _ _ _ _ _ hs
  simp only [definesOf, List.map_cons, List.cons_append] at hl
  simp only [List.map_cons] at hd
  simp only [eval, definesOf, List.map_cons, List.cons_append, hl, hd, hx, hseq,
    Outcome.withEnv]


theorem find_modify_valid (x : String) (v : Value) (frames : List (String × Nat))
    (e0 : Assoc) (σ : Store) (hf : ∀ b ∈ frames, b.2 < σ.cells.length)
    (hx : x ∈ frames.map Prod.fst) :
    find x (frames ++ e0) (modify x v (frames ++ e0) σ) = some v := by
  induction frames with
  | nil => cases hx
  | cons b rest ih =>
    obtain ⟨y, c⟩ := b
    have hcl : c < σ.cells.length := hf (y, c) (List.mem_cons_self _ _)
    by_cases hxy : x = y
    · simp [find, modify, hxy, hcl]
    · simp only [List.cons_append, find, modify, hxy, if_false]
      refine ih (fun b hb => hf b (List.mem_cons_of_mem _ hb)) ?_
      simp only [List.map_cons, List.mem_cons] at hx
      rcases hx with hx | hx
      · exact absurd hx hxy
      · exact hx

theorem definesPatched_bound (T : Tables) (fuel : Nat) (defs : List (String × Expr))
    (frames : List (String × Nat)) (e0 : Assoc) (σ : Store) (e1 : Assoc) (σ1 : Store)
    (hf : ∀ b ∈ frames, b.2 < σ.cells.length)
    (hn : ∀ p ∈ defs, p.1 ∈ frames.map Prod.fst)
    (h : definesPatched (eval T fuel) anyPatch defs (frames ++ e0) σ e1 σ1) :
    definesPatched (eval T fuel) boundTo defs (frames ++ e0) σ e1 σ1 ∧
      ∃ more, e1 = more ++ (frames ++ e0) := by
  induction defs generalizing frames σ with
  | nil => exact ⟨h, [], h.1⟩
  | cons p rest ih =>
    obtain ⟨x, init⟩ := p
    obtain ⟨v, e2, σ2, hx, -, hrest⟩ := h
    obtain ⟨⟨fr, hfr, hval⟩, hlen⟩ := eval_handleGrows T fuel _ _ _ _ _ _ hx
    have hval2 : ∀ b ∈ fr ++ frames, b.2 < (modify x v e2 σ2).cells.length := by
      intro b hb
      rw [modify_cells_length]
      rcases List.mem_append.mp hb with hb | hb
      · exact hval b hb
      · exact lt_of_lt_of_le (hf b hb) hlen
    have hn2 : ∀ p ∈ (x, init) :: rest, p.1 ∈ (fr ++ frames).map Prod.fst := by
      intro p hp
      rw [List.map_append]
      exact List.mem_append_right _ (hn p hp)
    have he2 : e2 = (fr ++ frames) ++ e0 := by rw [hfr, List.append_assoc]
    have hb : boundTo x v e2 (modify x v e2 σ2) := by
      unfold boundTo
      rw [he2]
      refine find_modify_valid x v (fr ++ frames) e0 σ2 ?_ (hn2 _ (List.mem_cons_self _ _))
      intro b hb
      have := hval2 b hb
      rwa [modify_cells_length] at this
    rw [he2] at hrest
    obtain ⟨h1, more, h2⟩ := ih (fr ++ frames) (modify x v ((fr ++ frames) ++ e0) σ2)
      (by rw [← he2]; exact hval2)
      (fun p hp => hn2 p (List.mem_cons_of_mem _ hp)) hrest
    rw [← he2] at h1
    refine ⟨⟨v, e2, σ2, hx, hb, h1⟩, more ++ fr, ?_⟩
    rw [h2]
    simp

theorem begin_defines_bound (T : Tables) (fuel : Nat) (defs : List (String × Expr))
    (e : Assoc) (σ : Store) (new_env : Assoc) (σ1 : Store)
    (h : definesPatched (eval T fuel) anyPatch defs
      (extendAll voidPlaceholder (defs.map Prod.fst) e σ).1
      (extendAll voidPlaceholder (defs.map Prod.fst) e σ).2 new_env σ1) :
    definesPatched (eval T fuel) boundTo defs
      (extendAll voidPlaceholder (defs.map Prod.fst) e σ).1
      (extendAll voidPlaceholder (defs.map Prod.fst) e σ).2 new_env σ1 ∧
      ∃ frames, new_env = frames ++ e := by
  obtain ⟨frames, h1, h2, h3, -⟩ :=
    extendAll_frames voidPlaceholder (fun _ => rfl) (defs.map Prod.fst) e σ
  rw [h1] at h ⊢
  obtain ⟨hb, more, hm⟩ := definesPatched_bound T fuel defs frames e _ new_env σ1 h3
    (fun p hp => by
      rw [h2, List.mem_reverse]
      exact List.mem_map_of_mem _ hp) h
  exact ⟨hb, more ++ frames, by rw [hm, List.append_assoc]⟩

/-- C24: `Begin::eval` returns a fresh `Void` for the empty sequence, and for a
sequence of definitions whose initialisers evaluate, in the caller's handle.
For a sequence whose first expression is not a definition it evaluates the
expressions in order from the caller's handle and returns the value of the last
one.  For definitions followed by other expressions it pre-binds the names,
evaluates and patches each definition in turn (each name is bound to its value
right after its patch, in an environment that extends the caller's), evaluates
the other expressions in order in that environment and returns the value of the
last one, with the caller's handle as it was.  `(begin)` and
`(begin (define a 1) (define b 2))` give `Void`, `(begin 1 2 3)` gives 3,
`(begin (define a 1) (define b 2) (+ a b))` gives 3, and a `begin` that defines
`even?` and `odd?` and calls `(even? 3)` gives `#f`. -/
theorem C24_begin_sequence (T : Tables) (fuel : Nat) :
    (∀ e σ, eval T (fuel + 1) (.Begin []) e σ = returnNew .Void e σ) ∧
    (∀ p defs e σ new_env σ1,
      definesPatched (eval T fuel) anyPatch (p :: defs)
        (extendAll voidPlaceholder ((p :: defs).map Prod.fst) e σ).1
        (extendAll voidPlaceholder ((p :: defs).map Prod.fst) e σ).2 new_env σ1 →
      eval T (fuel + 1) (.Begin (definesOf (p :: defs))) e σ = returnNew .Void e σ1) ∧
    (∀ first others e σ v e1 σ1, notDefine first →
      evalsInOrder (eval T fuel) (first :: others) e σ v e1 σ1 →
      eval T (fuel + 1) (.Begin (first :: others)) e σ = .ok v e1 σ1) ∧
    (∀ p defs next more e σ new_env σ1 v e2 σ2, notDefine next →
      definesPatched (eval T fuel) anyPatch (p :: defs)
        (extendAll voidPlaceholder ((p :: defs).map Prod.fst) e σ).1
        (extendAll voidPlaceholder ((p :: defs).map Prod.fst) e σ).2 new_env σ1 →
      evalsInOrder (eval T fuel) (next :: more) new_env σ1 v e2 σ2 →
      eval T (fuel + 1) (.Begin (definesOf (p :: defs) ++ next :: more)) e σ =
        .ok v e σ2) ∧
    (∀ defs e σ new_env σ1,
      definesPatched (eval T fuel) anyPatch defs
        (extendAll voidPlaceholder (defs.map Prod.fst) e σ).1
        (extendAll voidPlaceholder (defs.map Prod.fst) e σ).2 new_env σ1 →
      definesPatched (eval T fuel) boundTo defs
        (extendAll voidPlaceholder (defs.map Prod.fst) e σ).1
        (extendAll voidPlaceholder (defs.map Prod.fst) e σ).2 new_env σ1 ∧
      ∃ frames, new_env = frames ++ e) ∧
    (resolveAndEval stdTables 3 (beginForm []) [] Store.init).content = some .Void ∧
    (resolveAndEval stdTables 3 (beginForm [defineNumber "a" 1, defineNumber "b" 2]) []
      Store.init).content = some .Void ∧
    (resolveAndEval stdTables 3 (beginForm [.Number 1, .Number 2, .Number 3]) []
      Store.init).content = some (.Integer 3) ∧
    (resolveAndEval stdTables 4 (beginForm [defineNumber "a" 1, defineNumber "b" 2,
      .List [.SymbolSyntax "+", .SymbolSyntax "a", .SymbolSyntax "b"]]) []
      Store.init).content = some (.Integer 3) ∧
    (resolveAndEval stdTables 20 (beginForm [evenOddForm true, evenOddForm false,
      .List [.SymbolSyntax "even?", .Number 3]]) [] Store.init).content =
      some (.Boolean false) :=
  ⟨fun _ _ => rfl,
    fun p defs e σ new_env σ1 h => Begin_eval_only_defines T fuel p defs e σ new_env σ1
      (definesPatched_evalAndPatch _ _ _ _ _ _ _ h),
    fun first others e σ v e1 σ1 hn h =>
      Begin_eval_no_define T fuel first others e σ v e1 σ1 hn h,
    fun p defs next more e σ new_env σ1 v e2 σ2 hn hd hs =>
      Begin_eval_defines T fuel p defs next more e σ new_env σ1 v e2 σ2 hn
        (definesPatched_evalAndPatch _ _ _ _ _ _ _ hd) hs,
    fun defs e σ new_env σ1 h => begin_defines_bound T fuel defs e σ new_env σ1 h,
    rfl, rfl, rfl, rfl, rfl⟩

/-! ### Application and lexical scoping (C25, C26) -/

theorem operandValues_evalArgs (ev : Expr → Assoc → Store → Result) (xs : List Expr)
    (e : Assoc) (σ : Store) (vs : List Value) (e1 : Assoc) (σ1 : Store)
    (h : operandValues ev xs e σ vs e1 σ1) :
    evalArgs ev xs e σ = .ok vs e1 σ1 ∧ vs.length = xs.length := by
  induction xs generalizing e σ vs with
  | nil =>
    obtain ⟨h1, h2, h3⟩ := h
    subst h1; subst h2; subst h3
    exact ⟨rfl, rfl⟩
  | cons x rest ih =>
    obtain ⟨v, e2, σ2, more, hx, hrest, hvs⟩ := h
    obtain ⟨h1, h2⟩ := ih _ _ _ hrest
    subst hvs
    refine ⟨?_, by simp [h2]⟩
    simp only [evalArgs, hx, h1]

theorem Apply_eval_not_procedure (T : Tables) (fuel : Nat) (rator : Expr) (rand : List Expr)
    (e : Assoc) (σ : Store) (p : Value) (e1 : Assoc) (σ1 : Store) (c : ValueBase)
    (hr : eval T fuel rator e σ = .ok p e1 σ1) (hd : σ1.deref p = some c)
    (hc : notProcedure c) :
    eval T (fuel + 1) (.Apply rator rand) e σ =
      .error "Attempt to apply a non-procedure" e1 σ1 := by
  simp only [eval, hr, hd]
  cases c <;> first | rfl | exact absurd rfl (hc _ _ _)

theorem Apply_eval_arity (T : Tables) (fuel : Nat) (rator : Expr) (rand : List Expr)
    (e : Assoc) (σ : Store) (p : Value) (e1 : Assoc) (σ1 : Store) (ps : List String)
    (body : Expr) (env : Assoc) (args : List Value) (e2 : Assoc) (σ2 : Store)
    (hr : eval T fuel rator e σ = .ok p e1 σ1)
    (hd : σ1.deref p = some (.Procedure ps body env))
    (ha : operandValues (eval T fuel) rand e1 σ1 args e2 σ2)
    (hn : rand.length ≠ ps.length) :
    eval T (fuel + 1) (.Apply rator rand) e σ = .error "Wrong number of arguments" e2 σ2 := by
  obtain ⟨h1, h2⟩ := operandValues_evalArgs _ _ _ _ _ _ _ ha
  have h3 : args.length ≠ ps.length := by rw [h2]; exact hn
  simp only [eval, hr, hd, h1, h3, ne_eq, not_false_eq_true, if_true]

theorem Apply_eval_call (T : Tables) (fuel : Nat) (rator : Expr) (rand : List Expr)
    (e : Assoc) (σ : Store) (p : Value) (e1 : Assoc) (σ1 : Store) (ps : List String)
    (body : Expr) (env : Assoc) (args : List Value) (e2 : Assoc) (σ2 : Store)
    (hr : eval T fuel rator e σ = .ok p e1 σ1)
    (hd : σ1.deref p = some (.Procedure ps body env))
    (ha : operandValues (eval T fuel) rand e1 σ1 args e2 σ2)
    (hn : rand.length = ps.length) :
    eval T (fuel + 1) (.Apply rator rand) e σ =
      (eval T fuel body (extendValues ps args env σ2).1
        (extendValues ps args env σ2).2).withEnv e2 := by
  obtain ⟨h1, h2⟩ := operandValues_evalArgs _ _ _ _ _ _ _ ha
  have h3 : args.length = ps.length := by rw [h2]; exact hn
  simp only [eval, hr, hd, h1, h3, ne_eq, not_true_eq_false, if_false]

theorem find_extendValues_param (ps : List String) (args : List Value) (env : Assoc)
    (σ : Store) (i : Nat) (x : String) (a : Value) (hx : ps[i]? = some x)
    (ha : args[i]? = some a) (hlast : x ∉ ps.drop (i + 1)) :
    find x (extendValues ps args env σ).1 (extendValues ps args env σ).2 = some a := by
  induction ps generalizing args env σ i with
  | nil => simp at hx
  | cons p rest ih =>
    cases args with
    | nil => simp at ha
    | cons b bs =>
      simp only [extendValues]
      cases i with
      | zero =>
        simp only [List.getElem?_cons_zero, Option.some.injEq] at hx ha
        subst hx; subst ha
        refine find_extendValues_other p rest bs _ _ b (by simpa using hlast) ?_
        simp [extend, find]
      | succ k =>
        simp only [List.getElem?_cons_succ] at hx ha
        exact ih bs _ _ k hx ha (by simpa using hlast)

/-- C25: `Apply::eval` raises "Attempt to apply a non-procedure" when the
operator evaluates to an object that is not a `Procedure`, before any operand
is evaluated; it evaluates the operands from left to right from the handle that
the operator left, and raises "Wrong number of arguments" when their number is
not the number of parameters; otherwise it evaluates the body in the
environment of the closure extended with the parameters, where `find` of a
parameter that is not repeated further in the list is the value of its
operand, and restores the handle.  `((lambda (x y) (- x y)) 5 3)` is 2; with
one or three operands the call fails on the number of arguments; `(1 2)` fails
as the application of a non-procedure. -/
theorem C25_apply_checks (T : Tables) (fuel : Nat) :
    (∀ rator rand e σ p e1 σ1 c, eval T fuel rator e σ = .ok p e1 σ1 →
      σ1.deref p = some c → notProcedure c →
      eval T (fuel + 1) (.Apply rator rand) e σ =
        .error "Attempt to apply a non-procedure" e1 σ1) ∧
    (∀ rator rand e σ p e1 σ1 ps body env args e2 σ2,
      eval T fuel rator e σ = .ok p e1 σ1 → σ1.deref p = some (.Procedure ps body env) →
      operandValues (eval T fuel) rand e1 σ1 args e2 σ2 →
      (rand.length ≠ ps.length →
        eval T (fuel + 1) (.Apply rator rand) e σ =
          .error "Wrong number of arguments" e2 σ2) ∧
      (rand.length = ps.length →
        eval T (fuel + 1) (.Apply rator rand) e σ =
          (eval T fuel body (extendValues ps args env σ2).1
            (extendValues ps args env σ2).2).withEnv e2 ∧
        ∀ i x a, ps[i]? = some x → args[i]? = some a → x ∉ ps.drop (i + 1) →
          find x (extendValues ps args env σ2).1 (extendValues ps args env σ2).2 =
            some a)) ∧
    (resolveAndEval stdTables 5 (callDifference [.Number 5, .Number 3]) []
      Store.init).content = some (.Integer 2) ∧
    (∃ e1 σ1, resolveAndEval stdTables 5 (callDifference [.Number 5]) [] Store.init =
      .error "Wrong number of arguments" e1 σ1) ∧
    (∃ e1 σ1, resolveAndEval stdTables 5 (callDifference [.Number 5, .Number 3, .Number 1])
      [] Store.init = .error "Wrong number of arguments" e1 σ1) ∧
    (∃ e1 σ1, resolveAndEval stdTables 5 (.List [.Number 1, .Number 2]) [] Store.init =
      .error "Attempt to apply a non-procedure" e1 σ1) :=
  ⟨fun rator rand e σ p e1 σ1 c hr hd hc =>
      Apply_eval_not_procedure T fuel rator rand e σ p e1 σ1 c hr hd hc,
    fun rator rand e σ p e1 σ1 ps body env args e2 σ2 hr hd ha =>
      ⟨fun hn => Apply_eval_arity T fuel rator rand e σ p e1 σ1 ps body env args e2 σ2
          hr hd ha hn,
        fun hn => ⟨Apply_eval_call T fuel rator rand e σ p e1 σ1 ps body env args e2 σ2
          hr hd ha hn,
          fun i x a hx ha2 hl => find_extendValues_param ps args env σ2 i x a hx ha2 hl⟩⟩,
    rfl, ⟨_, _, rfl⟩, ⟨_, _, rfl⟩, ⟨_, _, rfl⟩⟩

theorem Apply_eval_free_variable (T : Tables) (fuel : Nat) (rator : Expr) (rand : List Expr)
    (e : Assoc) (σ : Store) (p : Value) (e1 : Assoc) (σ1 : Store) (ps : List String)
    (x : String) (env : Assoc) (args : List Value) (e2 : Assoc) (σ2 : Store) (v : Value)
    (hr : eval T (fuel + 1) rator e σ = .ok p e1 σ1)
    (hd : σ1.deref p = some (.Procedure ps (.Var x) env))
    (ha : operandValues (eval T (fuel + 1)) rand e1 σ1 args e2 σ2)
    (hn : rand.length = ps.length) (hi : Var.invalidName x = none) (hx : x ∉ ps)
    (hf : find x env σ2 = some v) :
    eval T (fuel + 2) (.Apply rator rand) e σ = .ok v e2 (extendValues ps args env σ2).2 := by
  rw [Apply_eval_call T (fuel + 1) rator rand e σ p e1 σ1 ps (.Var x) env args e2 σ2 hr hd ha hn]
  simp only [eval, Var.eval, hi, find_extendValues_other x ps args env σ2 v hx hf,
    Outcome.withEnv]

/-- C26: `Lambda::eval` returns a closure that holds the current environment,
and `Apply::eval` evaluates the body of a closure in the environment that the
closure holds, extended with the parameters, whatever the handle of the caller
is.  When the body is a variable that is not a parameter and that the
environment of the closure binds to `v`, the call returns `v`, whatever the
caller's environment binds the name to.
`(let ((x 1)) (let ((f (lambda () x))) (let ((x 2)) (f))))` evaluates to 1, and
so does the same program with each `let` written as the call of a `lambda`. -/
theorem C26_lexical_scoping (T : Tables) (fuel : Nat) :
    (∀ ps body e σ,
      eval T (fuel + 1) (.Lambda ps body) e σ = returnNew (.Procedure ps body e) e σ) ∧
    (∀ rator rand e σ p e1 σ1 ps body env args e2 σ2,
      eval T fuel rator e σ = .ok p e1 σ1 → σ1.deref p = some (.Procedure ps body env) →
      operandValues (eval T fuel) rand e1 σ1 args e2 σ2 → rand.length = ps.length →
      eval T (fuel + 1) (.Apply rator rand) e σ =
        (eval T fuel body (extendValues ps args env σ2).1
          (extendValues ps args env σ2).2).withEnv e2) ∧
    (∀ rator rand e σ p e1 σ1 ps x env args e2 σ2 v,
      eval T (fuel + 1) rator e σ = .ok p e1 σ1 →
      σ1.deref p = some (.Procedure ps (.Var x) env) →
      operandValues (eval T (fuel + 1)) rand e1 σ1 args e2 σ2 → rand.length = ps.length →
      Var.invalidName x = none → x ∉ ps → find x env σ2 = some v →
      eval T (fuel + 2) (.Apply rator rand) e σ =
        .ok v e2 (extendValues ps args env σ2).2) ∧
    (resolveAndEval stdTables 8 lexicalExample [] Store.init).content =
      some (.Integer 1) ∧
    (resolveAndEval stdTables 8 lexicalLambdaExample [] Store.init).content =
      some (.Integer 1) :=
  ⟨fun _ _ _ _ => rfl,
    fun rator rand e σ p e1 σ1 ps body env args e2 σ2 hr hd ha hn =>
      Apply_eval_call T fuel rator rand e σ p e1 σ1 ps body env args e2 σ2 hr hd ha hn,
    fun rator rand e σ p e1 σ1 ps x env args e2 σ2 v hr hd ha hn hi hx hf =>
      Apply_eval_free_variable T fuel rator rand e σ p e1 σ1 ps x env args e2 σ2 v
        hr hd ha hn hi hx hf,
    rfl, rfl⟩

/-! ### Quoted dotted lists (C27) -/

theorem findDot_first (pre post : List Syntax) (h : ∀ s ∈ pre, isDot s = false) :
    findDot (pre ++ dotToken :: post) = some pre.length := by
  induction pre with
  | nil => simp [findDot, dotToken]
  | cons s rest ih =>
    have hs : isDot s = false := h s (List.mem_cons_self _ _)
    have hr := ih (fun t ht => h t (List.mem_cons_of_mem _ ht))
    cases s with
    | SymbolSyntax x =>
      have hx : x ≠ "." := by simpa [isDot] using hs
      simp [findDot, hx, hr]
    | _ => simp [findDot, hr]

theorem syntaxToValue_dot_position (fuel : Nat) (pre post : List Syntax) (σ : Store)
    (h : ∀ s ∈ pre, isDot s = false) (hp : pre = [] ∨ post = []) :
    syntaxToValue (fuel + 1) (.List (pre ++ dotToken :: post)) σ =
      .error "Invalid dot position" [] σ := by
  have hf := findDot_first pre post h
  have hc : pre.length = 0 ∨ pre.length = (pre ++ dotToken :: post).length - 1 := by
    rcases hp with hp | hp
    · left; rw [hp]; rfl
    · right; rw [hp]; simp
  cases hl : pre ++ dotToken :: post with
  | nil => simp at hl
  | cons a rest =>
    rw [hl] at hf hc
    simp only [syntaxToValue, hf, hc, if_true]

theorem syntaxToValue_dot_tail (fuel : Nat) (pre post : List Syntax) (σ : Store)
    (h : ∀ s ∈ pre, isDot s = false) (hp : pre ≠ []) (hq : 2 ≤ post.length) :
    syntaxToValue (fuel + 1) (.List (pre ++ dotToken :: post)) σ =
      .error "Dot must be followed by exactly one element" [] σ := by
  have hf := findDot_first pre post h
  have hpl : 0 < pre.length := List.length_pos.mpr hp
  have hc : ¬ (pre.length = 0 ∨ pre.length = (pre ++ dotToken :: post).length - 1) := by
    simp only [List.length_append, List.length_cons]
    omega
  have hd : (pre ++ dotToken :: post).length ≠ pre.length + 2 := by
    simp only [List.length_append, List.length_cons]
    omega
  cases hl : pre ++ dotToken :: post with
  | nil => simp at hl
  | cons a rest =>
    rw [hl] at hf hc hd
    simp only [syntaxToValue, hf, hc, hd, if_false, ne_eq, not_false_eq_true, if_true]

theorem syntaxToValue_dot_accepted (fuel : Nat) (pre : List Syntax) (last : Syntax)
    (σ : Store) (h : ∀ s ∈ pre, isDot s = false) (hp : pre ≠ []) :
    syntaxToValue (fuel + 1) (.List (pre ++ [dotToken, last])) σ =
      dottedChain fuel pre last σ := by
  have hf := findDot_first pre [last] h
  have hpl : 0 < pre.length := List.length_pos.mpr hp
  have hc : ¬ (pre.length = 0 ∨ pre.length = (pre ++ [dotToken, last]).length - 1) := by
    simp only [List.length_append, List.length_cons, List.length_nil]
    omega
  have hd : ¬ ((pre ++ [dotToken, last]).length ≠ pre.length + 2) := by
    simp [List.length_append]
  have ht : (pre ++ [dotToken, last]).take pre.length = pre := by simp
  have hg : (pre ++ [dotToken, last])[pre.length + 1]? = some last := by
    rw [List.getElem?_append_right (by omega)]
    simp
  cases hl : pre ++ [dotToken, last] with
  | nil => simp at hl
  | cons a rest =>
    rw [hl] at hf hc hd ht hg
    cases h1 : consAll (syntaxToValue fuel) pre (σ.alloc .Null).1 (σ.alloc .Null).2 with
    | ok carPart e1 σ1 =>
      cases h2 : syntaxToValue fuel last σ1 with
      | ok cdrPart e2 σ2 =>
        cases h3 : setLastCdr (pre.length + 1) carPart cdrPart σ2 <;>
          simp only [syntaxToValue, hf, hc, hd, if_false, ht, hg, dottedChain, h1, h2, h3]
      | _ => simp only [syntaxToValue, hf, hc, hd, if_false, ht, hg, dottedChain, h1, h2]
    | _ => simp only [syntaxToValue, hf, hc, hd, if_false, ht, hg, dottedChain, h1]

theorem syntaxToValue_atom (fuel : Nat) (s : Syntax) (c : ValueBase) (σ : Store)
    (h : atomObject s = some c) : syntaxToValue (fuel + 1) s σ = returnNew c [] σ := by
  cases s with
  | List l =>
    cases l with
    | nil => simp only [atomObject, Option.some.injEq] at h; subst h; rfl
    | cons a rest => simp [atomObject] at h
  | _ => simp only [atomObject, Option.some.injEq] at h; subst h; rfl

theorem descSpine_grows {σ σ1 : Store} (hg : σ.grows σ1) (r : Value) (objs : List ValueBase)
    (tail : Value) (h : descSpine σ r objs tail) : descSpine σ1 r objs tail := by
  induction objs generalizing r with
  | nil => exact h
  | cons o rest ih =>
    obtain ⟨a, d, h1, h2, h3, h4, h5⟩ := h
    exact ⟨a, d, grows_deref hg _ _ h1, grows_deref hg _ _ h2, h3, h4, ih d h5⟩

theorem consAll_atoms (fuel : Nat) (pre : List Syntax) (objs : List ValueBase)
    (hobjs : pre.map atomObject = objs.map some) (tail : Value) (σ : Store)
    (ht : tail < σ.heap.length) :
    ∃ r σ1, consAll (syntaxToValue (fuel + 1)) pre tail σ = .ok r [] σ1 ∧ σ.grows σ1 ∧
      descSpine σ1 r objs tail ∧ r < σ1.heap.length := by
  induction pre generalizing objs with
  | nil =>
    cases objs with
    | nil => exact ⟨tail, σ, rfl, grows_refl σ, rfl, ht⟩
    | cons o rest => simp at hobjs
  | cons s rest ih =>
    cases objs with
    | nil => simp at hobjs
    | cons o os =>
      simp only [List.map_cons, List.cons.injEq] at hobjs
      obtain ⟨r1, σ1, h1, hg, hs, hr⟩ := ih os hobjs.2
      refine ⟨((σ1.alloc o).2.alloc (.Pair (σ1.alloc o).1 r1)).1,
        ((σ1.alloc o).2.alloc (.Pair (σ1.alloc o).1 r1)).2, ?_, ?_, ?_, ?_⟩
      · simp only [consAll, h1, syntaxToValue_atom fuel s o σ1 hobjs.1, returnNew]
      · exact grows_trans hg (grows_trans (grows_alloc _ _) (grows_alloc _ _))
      · refine ⟨σ1.heap.length, r1, ?_, ?_, hr, ?_, ?_⟩
        · exact deref_alloc_new _ _
        · exact grows_deref (grows_alloc _ _) _ _ (deref_alloc_new σ1 o)
        · simp [Store.alloc]
        · exact descSpine_grows (grows_trans (grows_alloc _ _) (grows_alloc _ _)) _ _ _ hs
      · simp [Store.alloc]

theorem deref_update_self (σ : Store) (u : Value) (c : ValueBase) (hu : u < σ.heap.length) :
    (σ.update u c).deref u = some c := by
  simp [Store.update, Store.deref, List.getElem?_set, hu]

theorem deref_update_other (σ : Store) (u a : Value) (c : ValueBase) (hne : a ≠ u) :
    (σ.update u c).deref a = σ.deref a := by
  simp [Store.update, Store.deref, List.getElem?_set, Ne.symm hne]

theorem setLastCdr_descSpine (σ : Store) (tail t : Value) (c : ValueBase)
    (hnull : σ.deref tail = some .Null) (hc : σ.deref t = some c) (o : ValueBase)
    (objs : List ValueBase) (r : Value) (fuel : Nat) (hs : descSpine σ r (o :: objs) tail)
    (hrt : r < t) (hfuel : objs.length < fuel) :
    ∃ u a, setLastCdr fuel r t σ = some (σ.update u (.Pair a t)) ∧ tail < u ∧ u ≤ r ∧
      improperListOf (σ.update u (.Pair a t)) r (o :: objs) c := by
  induction objs generalizing o r fuel with
  | nil =>
    obtain ⟨a, d, h1, h2, h3, h4, h5⟩ := hs
    have hd : d = tail := h5
    subst hd
    cases fuel with
    | zero => simp at hfuel
    | succ f =>
      refine ⟨r, a, ?_, lt_trans h3 h4, le_refl _, a, t, ?_, ?_, ?_⟩
      · simp only [setLastCdr, h1, hnull]
      · exact deref_update_self σ r _ (deref_lt σ r _ h1)
      · rw [deref_update_other σ r a _ (ne_of_lt h4)]
        exact h2
      · show (σ.update r (.Pair a t)).deref t = some c
        rw [deref_update_other σ r t _ (ne_of_gt hrt)]
        exact hc
  | cons o2 rest ih =>
    obtain ⟨a, d, h1, h2, h3, h4, h5⟩ := hs
    cases fuel with
    | zero => simp at hfuel
    | succ f =>
      obtain ⟨a2, d2, g1, -⟩ := id h5
      obtain ⟨u, b, hset, htu, hud, himp⟩ := ih o2 d f h5 (lt_trans (lt_trans h3 h4) hrt)
        (by simpa using hfuel)
      have hur : u < r := lt_of_le_of_lt hud (lt_trans h3 h4)
      have hua : u < a := lt_of_le_of_lt hud h3
      refine ⟨u, b, ?_, htu, le_of_lt hur, a, d, ?_, ?_, himp⟩
      · simp only [setLastCdr, h1, g1]
        exact hset
      · rw [deref_update_other σ u r _ (ne_of_gt hur)]
        exact h1
      · rw [deref_update_other σ u a _ (ne_of_gt hua)]
        exact h2

theorem dottedChain_atoms (fuel : Nat) (pre : List Syntax) (objs : List ValueBase)
    (last : Syntax) (c : ValueBase) (σ : Store) (hp : pre ≠ [])
    (hobjs : pre.map atomObject = objs.map some) (hlast : atomObject last = some c) :
    ∃ v σ3, dottedChain (fuel + 1) pre last σ = .ok v [] σ3 ∧ improperListOf σ3 v objs c ∧
      ∀ a, a < σ.heap.length → σ3.deref a = σ.deref a := by
  obtain ⟨r, σ1, h1, hg, hs, hr⟩ := consAll_atoms fuel pre objs hobjs (σ.alloc .Null).1
    (σ.alloc .Null).2 (by simp [Store.alloc])
  have hlen : objs.length = pre.length := by
    have := congrArg List.length hobjs
    simpa using this.symm
  cases objs with
  | nil =>
    cases pre with
    | nil => exact absurd rfl hp
    | cons s rest => simp at hlen
  | cons o os =>
    have hnull : (σ1.alloc c).2.deref (σ.alloc .Null).1 = some .Null :=
      grows_deref (grows_trans hg (grows_alloc _ _)) _ _ (deref_alloc_new σ .Null)
    obtain ⟨u, a, hset, htu, hur, himp⟩ := setLastCdr_descSpine (σ1.alloc c).2
      (σ.alloc .Null).1 (σ1.alloc c).1 c hnull (deref_alloc_new σ1 c) o os r (pre.length + 1)
      (descSpine_grows (grows_alloc _ _) _ _ _ hs) hr
      (by rw [← hlen, List.length_cons]; omega)
    refine ⟨r, _, ?_, himp, ?_⟩
    · simp only [dottedChain, h1, syntaxToValue_atom fuel last c σ1 hlast, returnNew, hset]
    · intro b hb
      have hbu : b ≠ u := by
        have h0 : (σ.alloc .Null).1 = σ.heap.length := rfl
        rw [h0] at htu
        exact ne_of_lt (lt_trans hb htu)
      rw [deref_update_other _ u b _ hbu]
      obtain ⟨c0, hc0⟩ : ∃ c0, σ.deref b = some c0 := by
        unfold Store.deref
        exact ⟨σ.heap[b], List.getElem?_eq_getElem hb⟩
      rw [hc0]
      exact grows_deref (grows_trans (grows_alloc σ .Null) (grows_trans hg (grows_alloc _ _)))
        _ _ hc0

/-- C27: in a quoted list whose first dot token comes after the elements `pre`,
`syntaxToValue` raises "Invalid dot position" when the dot is the first or the
last element, and "Dot must be followed by exactly one element" when two or
more elements follow it; when exactly one element follows a dot that is not the
first element, it conses the elements before the dot onto a new `Null`,
converts the element after the dot and sets the `cdr` of the last pair to it,
whatever that element is.  When the elements are not themselves non-empty
lists, the conversion succeeds and returns the chain of pairs whose `car`s are
the objects of the elements before the dot and whose last `cdr` is the object
of the element after it, and the objects of the store of the call are as they
were; `(1 2 . 3)` gives the chain of 1, 2 and 3.  This holds when the element
after the dot is a second dot token: the datum `(a . .)` has two dot tokens and
converts to the pair of the symbols `a` and `.`, with no error. -/
theorem C27_second_dot_accepted (fuel : Nat) :
    (∀ pre post σ, (∀ s ∈ pre, isDot s = false) → pre = [] ∨ post = [] →
      syntaxToValue (fuel + 1) (.List (pre ++ dotToken :: post)) σ =
        .error "Invalid dot position" [] σ) ∧
    (∀ pre post σ, (∀ s ∈ pre, isDot s = false) → pre ≠ [] → 2 ≤ post.length →
      syntaxToValue (fuel + 1) (.List (pre ++ dotToken :: post)) σ =
        .error "Dot must be followed by exactly one element" [] σ) ∧
    (∀ pre last σ, (∀ s ∈ pre, isDot s = false) → pre ≠ [] →
      syntaxToValue (fuel + 1) (.List (pre ++ [dotToken, last])) σ =
        dottedChain fuel pre last σ) ∧
    (∀ pre objs last c σ, (∀ s ∈ pre, isDot s = false) → pre ≠ [] →
      pre.map atomObject = objs.map some → atomObject last = some c →
      ∃ v σ3, syntaxToValue (fuel + 2) (.List (pre ++ [dotToken, last])) σ = .ok v [] σ3 ∧
        improperListOf σ3 v objs c ∧ ∀ a, a < σ.heap.length → σ3.deref a = σ.deref a) ∧
    (∀ pre objs σ, (∀ s ∈ pre, isDot s = false) → pre ≠ [] →
      pre.map atomObject = objs.map some →
      2 ≤ dotCount (pre ++ [dotToken, dotToken]) ∧
      ∃ v σ3, syntaxToValue (fuel + 2) (.List (pre ++ [dotToken, dotToken])) σ =
          .ok v [] σ3 ∧
        improperListOf σ3 v objs (.Symbol ".")) ∧
    (∃ e1 σ1, resolveAndEval stdTables 3 (quoteForm dottedDatum) [] Store.init =
        .ok 4 e1 σ1 ∧
      σ1.deref 4 = some (.Pair 3 2) ∧ σ1.deref 3 = some (.Integer 1) ∧
      σ1.deref 2 = some (.Pair 1 5) ∧ σ1.deref 1 = some (.Integer 2) ∧
      σ1.deref 5 = some (.Integer 3)) ∧
    dotCount [.SymbolSyntax "a", dotToken, dotToken] = 2 ∧
    (∃ e1 σ1, resolveAndEval stdTables 3 (quoteForm twoDotsDatum) [] Store.init =
        .ok 2 e1 σ1 ∧
      σ1.deref 2 = some (.Pair 1 3) ∧ σ1.deref 1 = some (.Symbol "a") ∧
      σ1.deref 3 = some (.Symbol ".")) := by
  refine ⟨fun pre post σ h hp => syntaxToValue_dot_position fuel pre post σ h hp,
    fun pre post σ h hp hq => syntaxToValue_dot_tail fuel pre post σ h hp hq,
    fun pre last σ h hp => syntaxToValue_dot_accepted fuel pre last σ h hp,
    ?_, ?_, ⟨_, _, rfl, rfl, rfl, rfl, rfl, rfl⟩, rfl, ⟨_, _, rfl, rfl, rfl, rfl⟩⟩
  · intro pre objs last c σ h hp hobjs hlast
    rw [syntaxToValue_dot_accepted (fuel + 1) pre last σ h hp]
    exact dottedChain_atoms fuel pre objs last c σ hp hobjs hlast
  · intro pre objs σ h hp hobjs
    refine ⟨?_, ?_⟩
    · simp [dotCount, dotToken, isDot, List.filter_append]
    · rw [syntaxToValue_dot_accepted (fuel + 1) pre dotToken σ h hp]
      obtain ⟨v, σ3, h1, h2, -⟩ :=
        dottedChain_atoms fuel pre objs dotToken (.Symbol ".") σ hp hobjs rfl
      exact ⟨v, σ3, h1, h2⟩

/-! ### eq? and modulo (C28, C30) -/

theorem IsEq_by_reference (rand1 rand2 : Value) (c1 c2 : ValueBase)
    (h : ¬ sameScalarType c1 c2) :
    IsEq.evalRator rand1 rand2 c1 c2 = true ↔ rand1 = rand2 := by
  cases c1 <;> cases c2 <;> simp [IsEq.evalRator, sameScalarType] at h ⊢

/-- C28: `IsEq::evalRator` gives `#t` for two `Integer` objects exactly when
the numbers are equal, for two `Boolean` objects exactly when the truth values
are equal, for two `Symbol` objects exactly when the names are equal, `#t` for
`Null` with `Null` and for `Void` with `Void`, and for every other pair of
objects `#t` exactly when the two references are the same; the result is a new
`Boolean`, never an error.  `(eq? 2 2)` and `(eq? (quote ()) (quote ()))` are
`#t`; two pairs, strings, rationals or procedures of equal content, and `1`
with `#t`, give `#f`; each of a pair, a string, a rational and a procedure
compared with itself gives `#t`. -/
theorem C28_eq_cases :
    (∀ rand1 rand2 n1 n2,
      IsEq.evalRator rand1 rand2 (.Integer n1) (.Integer n2) = true ↔ n1 = n2) ∧
    (∀ rand1 rand2 b1 b2,
      IsEq.evalRator rand1 rand2 (.Boolean b1) (.Boolean b2) = true ↔ b1 = b2) ∧
    (∀ rand1 rand2 s1 s2,
      IsEq.evalRator rand1 rand2 (.Symbol s1) (.Symbol s2) = true ↔ s1 = s2) ∧
    (∀ rand1 rand2, IsEq.evalRator rand1 rand2 .Null .Null = true) ∧
    (∀ rand1 rand2, IsEq.evalRator rand1 rand2 .Void .Void = true) ∧
    (∀ rand1 rand2 c1 c2, ¬ sameScalarType c1 c2 →
      (IsEq.evalRator rand1 rand2 c1 c2 = true ↔ rand1 = rand2)) ∧
    (∀ rand1 rand2 e σ c1 c2, σ.deref rand1 = some c1 → σ.deref rand2 = some c2 →
      Binary.evalRator .IsEq rand1 rand2 e σ =
        returnNew (.Boolean (IsEq.evalRator rand1 rand2 c1 c2)) e σ) ∧
    (resolveAndEval stdTables 3 (eqForm (.Number 2) (.Number 2)) [] Store.init).content =
      some (.Boolean true) ∧
    (resolveAndEval stdTables 3 (eqForm (.List [.SymbolSyntax "quote", .List []])
      (.List [.SymbolSyntax "quote", .List []])) [] Store.init).content =
      some (.Boolean true) ∧
    (resolveAndEval stdTables 3 (eqForm (.Number 1) .TrueSyntax) [] Store.init).content =
      some (.Boolean false) ∧
    (resolveAndEval stdTables 4 (eqForm consOneTwo consOneTwo) [] Store.init).content =
      some (.Boolean false) ∧
    (resolveAndEval stdTables 3 (eqForm (.StringSyntax "a") (.StringSyntax "a")) []
      Store.init).content = some (.Boolean false) ∧
    (resolveAndEval stdTables 3 (eqForm (.RationalSyntax 1 2) (.RationalSyntax 1 2)) []
      Store.init).content = some (.Boolean false) ∧
    (resolveAndEval stdTables 4 (eqForm identityForm identityForm) []
      Store.init).content = some (.Boolean false) ∧
    (resolveAndEval stdTables 5 (eqSelfForm consOneTwo) [] Store.init).content =
      some (.Boolean true) ∧
    (resolveAndEval stdTables 5 (eqSelfForm (.StringSyntax "a")) [] Store.init).content =
      some (.Boolean true) ∧
    (resolveAndEval stdTables 5 (eqSelfForm (.RationalSyntax 1 2)) [] Store.init).content =
      some (.Boolean true) ∧
    (resolveAndEval stdTables 5 (eqSelfForm identityForm) [] Store.init).content =
      some (.Boolean true) := by
  refine ⟨?_, ?_, ?_, fun _ _ => rfl, fun _ _ => rfl, IsEq_by_reference, ?_,
    rfl, rfl, rfl, rfl, rfl, rfl, rfl, rfl, rfl, rfl, rfl⟩
  · intro rand1 rand2 n1 n2; simp [IsEq.evalRator]
  · intro rand1 rand2 b1 b2; simp [IsEq.evalRator]
  · intro rand1 rand2 s1 s2; simp [IsEq.evalRator]
  · intro rand1 rand2 e σ c1 c2 h1 h2
    simp only [Binary.evalRator, h1, h2]

theorem irem_defined (a b : Int) (h : ¬ (a = INT_MIN ∧ b = -1)) :
    irem a b = some (Int.tmod a b) := by
  simp only [irem, h, if_false]

theorem tmod_inInt32 (a b : Int) (ha : inInt32 a) : inInt32 (Int.tmod a b) := by
  unfold inInt32 INT_MIN INT_MAX at *
  rcases a with m | m <;> rcases b with n | n <;>
    simp only [Int.tmod, Int.ofNat_eq_coe, Nat.succ_eq_add_one] at ha ⊢
  · have := Nat.mod_le m n
    omega
  · have := Nat.mod_le m (n + 1)
    omega
  · have := Nat.mod_le (m + 1) n
    have h2 : Int.negSucc m = -((m : Int) + 1) := rfl
    rw [h2] at ha
    omega
  · have := Nat.mod_le (m + 1) (n + 1)
    have h2 : Int.negSucc m = -((m : Int) + 1) := rfl
    rw [h2] at ha
    omega

theorem Modulo_not_integer (c1 c2 : ValueBase) (h : notInteger c1 ∨ notInteger c2) :
    Modulo.evalRator c1 c2 = .error "modulo is only defined for integers" := by
  rcases h with h | h
  · cases c1 <;> first | rfl | exact absurd rfl (h _)
  · cases c2 <;> cases c1 <;> first | rfl | exact absurd rfl (h _)

/-- C30 (counterexample): the dividend `INT_MIN` and the divisor -1 are
`Integer`s within the range of `int` and the divisor is not 0, yet
`Modulo::evalRator` returns no `Integer` and raises no error: `INT_MIN % -1` has
no result, and `(modulo -2147483648 -1)` ends in a fault. -/
theorem C30_modulo_int_min_counterexample :
    inInt32 INT_MIN ∧ inInt32 (-1) ∧ (-1 : Int) ≠ 0 ∧
    irem INT_MIN (-1) = none ∧
    Modulo.evalRator (.Integer INT_MIN) (.Integer (-1)) = .trap ∧
    (∀ r, Modulo.evalRator (.Integer INT_MIN) (.Integer (-1)) ≠ .ok (.Integer r)) ∧
    (∀ msg, Modulo.evalRator (.Integer INT_MIN) (.Integer (-1)) ≠ .error msg) ∧
    resolveAndEval stdTables 3 (moduloForm (.Number (-2147483648)) (.Number (-1))) []
      Store.init = .fault := by
  have h : Modulo.evalRator (.Integer INT_MIN) (.Integer (-1)) = .trap := rfl
  refine ⟨by decide, by decide, by decide, rfl, h, fun r hr => ?_, fun msg hm => ?_, rfl⟩
  · rw [h] at hr
    cases hr
  · rw [h] at hm
    cases hm

/-- C30: for two `Integer` operands with a divisor other than 0, and other
than the pair `INT_MIN` with -1, `Modulo::evalRator` returns the `Integer`
remainder of the truncated division, an `int` whenever the dividend is one; it
raises "Division by zero" for every `Integer` dividend when the divisor is the
`Integer` 0, and raises "modulo is only defined for integers" when one of the
operands is not an `Integer`.  `(modulo 7 3)` is 1, `(modulo -7 3)` is -1,
`(modulo 5 0)` raises the division error, and `(modulo 1/2 3)`,
`(modulo 3 1/2)` and `(modulo 5 #t)` raise the type error. -/
theorem C30_modulo_cases :
    (∀ a b, b ≠ 0 → ¬ (a = INT_MIN ∧ b = -1) →
      irem a b = some (Int.tmod a b) ∧
      Modulo.evalRator (.Integer a) (.Integer b) = .ok (.Integer (Int.tmod a b)) ∧
      (inInt32 a → inInt32 (Int.tmod a b))) ∧
    (∀ a, Modulo.evalRator (.Integer a) (.Integer 0) = .error "Division by zero") ∧
    (∀ c1 c2, notInteger c1 ∨ notInteger c2 →
      Modulo.evalRator c1 c2 = .error "modulo is only defined for integers") ∧
    (∀ rand1 rand2 e σ c1 c2, σ.deref rand1 = some c1 → σ.deref rand2 = some c2 →
      Binary.evalRator .Modulo rand1 rand2 e σ =
        returnResOrTrap (Modulo.evalRator c1 c2) e σ) ∧
    (resolveAndEval stdTables 3 (moduloForm (.Number 7) (.Number 3)) []
      Store.init).content = some (.Integer 1) ∧
    (resolveAndEval stdTables 3 (moduloForm (.Number (-7)) (.Number 3)) []
      Store.init).content = some (.Integer (-1)) ∧
    (∃ e1 σ1, resolveAndEval stdTables 3 (moduloForm (.Number 5) (.Number 0)) []
      Store.init = .error "Division by zero" e1 σ1) ∧
    (∃ e1 σ1, resolveAndEval stdTables 3 (moduloForm (.RationalSyntax 1 2) (.Number 3)) []
      Store.init = .error "modulo is only defined for integers" e1 σ1) ∧
    (∃ e1 σ1, resolveAndEval stdTables 3 (moduloForm (.Number 3) (.RationalSyntax 1 2)) []
      Store.init = .error "modulo is only defined for integers" e1 σ1) ∧
    (∃ e1 σ1, resolveAndEval stdTables 3 (moduloForm (.Number 5) .TrueSyntax) []
      Store.init = .error "modulo is only defined for integers" e1 σ1) := by
  refine ⟨?_, fun a => rfl, Modulo_not_integer, ?_, rfl, rfl, ⟨_, _, rfl⟩, ⟨_, _, rfl⟩,
    ⟨_, _, rfl⟩, ⟨_, _, rfl⟩⟩
  · intro a b hb hne
    have hd := irem_defined a b hne
    exact ⟨hd, by simp only [Modulo.evalRator, hb, if_false, hd], tmod_inInt32 a b⟩
  · intro rand1 rand2 e σ c1 c2 h1 h2
    simp only [Binary.evalRator, h1, h2]

/-! ### list (C29) -/

theorem ListFunc_build_layout (args : List Value) (σ : Store) :
    (ListFunc.build args σ).1 = σ.heap.length + args.length ∧
    (∃ objects, (ListFunc.build args σ).2.heap = σ.heap ++ objects ∧
      objects.length = args.length + 1) ∧
    (ListFunc.build args σ).2.cells = σ.cells ∧
    (ListFunc.build args σ).2.deref σ.heap.length = some .Null ∧
    ∀ i a, args[i]? = some a →
      (ListFunc.build args σ).2.deref (σ.heap.length + args.length - i) =
        some (.Pair a (σ.heap.length + args.length - i - 1)) := by
  induction args with
  | nil =>
    refine ⟨rfl, ⟨[.Null], rfl, rfl⟩, rfl, by simp [ListFunc.build, Store.alloc, Store.deref],
      fun i a h => by simp at h⟩
  | cons b rest ih =>
    obtain ⟨h1, ⟨objects, h2, h2l⟩, h3, h4, h5⟩ := ih
    have hlen : (ListFunc.build rest σ).2.heap.length = σ.heap.length + rest.length + 1 := by
      rw [h2, List.length_append, h2l]; omega
    have hheap : (ListFunc.build (b :: rest) σ).2.heap =
        (ListFunc.build rest σ).2.heap ++ [.Pair b (ListFunc.build rest σ).1] := rfl
    refine ⟨?_, ⟨objects ++ [.Pair b (ListFunc.build rest σ).1], ?_, ?_⟩, h3, ?_, ?_⟩
    · show (ListFunc.build rest σ).2.heap.length = _
      rw [hlen, List.length_cons]; omega
    · rw [hheap, h2, List.append_assoc]
    · rw [List.length_append, h2l, List.length_cons]; rfl
    · unfold Store.deref at h4 ⊢
      rw [hheap]
      exact lookup_append_of_some _ _ _ _ h4
    · intro i a hia
      unfold Store.deref at h5 ⊢
      rw [hheap]
      cases i with
      | zero =>
        simp only [List.getElem?_cons_zero, Option.some.injEq] at hia
        subst hia
        have e1 : σ.heap.length + (b :: rest).length - 0 =
            (ListFunc.build rest σ).2.heap.length := by
          rw [hlen, List.length_cons]; omega
        have e2 : σ.heap.length + (b :: rest).length - 0 - 1 = (ListFunc.build rest σ).1 := by
          rw [h1, List.length_cons]; omega
        rw [e2, e1, List.getElem?_append_right (le_refl _), Nat.sub_self]
        rfl
      | succ k =>
        simp only [List.getElem?_cons_succ] at hia
        have h6 := h5 k a hia
        have e1 : σ.heap.length + (b :: rest).length - (k + 1) =
            σ.heap.length + rest.length - k := by
          rw [List.length_cons]; omega
        rw [e1]
        exact lookup_append_of_some _ _ _ _ h6

theorem ListFunc_build_chain (args : List Value) (σ : Store) (i : Nat)
    (hi : i ≤ args.length) :
    cdrChain (ListFunc.build args σ).2 (ListFunc.build args σ).1 i =
      σ.heap.length + args.length - i := by
  obtain ⟨h1, -, -, -, h5⟩ := ListFunc_build_layout args σ
  induction i with
  | zero => rw [cdrChain_zero, h1]; rfl
  | succ k ih =>
    have hk : k < args.length := hi
    rw [cdrChain_succ, ih (le_of_lt hk)]
    have ha : args[k]? = some args[k] := List.getElem?_eq_getElem hk
    rw [cdrStep_of_pair _ _ _ _ (h5 k _ ha)]
    exact Nat.sub_sub _ _ _

theorem ListFunc_build_freshListOf (args : List Value) (σ : Store) :
    freshListOf σ args (ListFunc.build args σ).1 (ListFunc.build args σ).2 := by
  obtain ⟨h1, ⟨objects, h2, h2l⟩, h3, h4, h5⟩ := ListFunc_build_layout args σ
  refine ⟨⟨⟨objects, h2⟩, ⟨[], by rw [h3, List.append_nil]⟩⟩, h3, ?_, ?_, ?_⟩
  · intro i a hia
    have hi : i < args.length := (List.getElem?_eq_some.mp hia).1
    rw [ListFunc_build_chain args σ i (le_of_lt hi),
      ListFunc_build_chain args σ (i + 1) hi]
    exact ⟨by omega, h5 i a hia⟩
  · intro i j hij hj
    rw [ListFunc_build_chain args σ i (by omega), ListFunc_build_chain args σ j hj]
    intro h
    have h6 : σ.heap.length + args.length - i = σ.heap.length + args.length - j := h
    omega
  · rw [ListFunc_build_chain args σ _ (le_refl _)]
    simpa using h4

theorem ListFunc_build_proper (args : List Value) (σ : Store) :
    ProperList (ListFunc.build args σ).2 (ListFunc.build args σ).1 :=
  (properList_iff_chain _ _).mpr ⟨args.length, (ListFunc_build_freshListOf args σ).2.2.2.2⟩

theorem ListFunc_build_IsList (args : List Value) (e : Assoc) (σ : Store) :
    IsList.evalRator (ListFunc.build args σ).1 e (ListFunc.build args σ).2 =
      returnNew (.Boolean true) e (ListFunc.build args σ).2 := by
  obtain ⟨-, -, hpairs, -, hnull⟩ := ListFunc_build_freshListOf args σ
  obtain ⟨-, ⟨objects, h2, h2l⟩, -, -, -⟩ := ListFunc_build_layout args σ
  cases args with
  | nil =>
    rw [List.length_nil, cdrChain_zero] at hnull
    simp only [IsList.evalRator, hnull]
  | cons b rest =>
    have e0 : (b :: rest)[0]? = some b := List.getElem?_cons_zero
    have h0 := (hpairs 0 b e0).2
    rw [cdrChain_zero] at h0
    have hloop := IsList_loop_ended (ListFunc.build (b :: rest) σ).2
      (ListFunc.build (b :: rest) σ).1 (b :: rest).length .Null
      (by unfold Store.isPair; rw [hnull])
      (fun k hk => by
        have ha : (b :: rest)[k]? = some (b :: rest)[k] := List.getElem?_eq_getElem hk
        unfold Store.isPair
        rw [(hpairs k _ ha).2])
      hnull ((ListFunc.build (b :: rest) σ).2.heap.length + 1) 0 (Nat.zero_le _)
      (by rw [h2, List.length_append, h2l]; omega)
    rw [Nat.mul_zero, cdrChain_zero] at hloop
    simp only [IsList.evalRator, h0, hloop]

/-- C29: for arguments that refer to objects, `ListFunc::evalRator` returns the
reference and the store that its loop builds, and a new `Null` for no argument.
The result is a list built on top of the store of the call: the `i`-th object
along the `cdr` fields is a new pair whose `car` is the `i`-th argument itself,
the pairs are distinct, and after as many pairs as there are arguments comes a
`Null`; it is a proper list, and `IsList::evalRator` on it returns `#t`.
`(list)` evaluates to `Null`, and `(list? (list 1 2 3))`, evaluated by the two
nodes, to `#t`. -/
theorem C29_list_builds_proper_list :
    (∀ args e σ cs, derefAll σ args = some cs →
      Variadic.evalRator .ListFunc args e σ =
        .ok (ListFunc.build args σ).1 e (ListFunc.build args σ).2) ∧
    (∀ e σ, Variadic.evalRator .ListFunc [] e σ = returnNew .Null e σ) ∧
    (∀ args σ, freshListOf σ args (ListFunc.build args σ).1 (ListFunc.build args σ).2) ∧
    (∀ args σ, ProperList (ListFunc.build args σ).2 (ListFunc.build args σ).1) ∧
    (∀ args e σ, IsList.evalRator (ListFunc.build args σ).1 e (ListFunc.build args σ).2 =
      returnNew (.Boolean true) e (ListFunc.build args σ).2) ∧
    (resolveAndEval stdTables 3 (.List [.SymbolSyntax "list"]) [] Store.init).content =
      some .Null ∧
    (resolveAndEval stdTables 3 (callOnOneTwo "list") [] Store.init).content =
      some (.Pair 0 3) ∧
    (eval stdTables 4 listOfThreeIsList [] Store.init).content = some (.Boolean true) := by
  refine ⟨?_, fun _ _ => rfl, ListFunc_build_freshListOf, ListFunc_build_proper,
    ListFunc_build_IsList, rfl, rfl, rfl⟩
  intro args e σ cs h
  cases args with
  | nil => rfl
  | cons b rest => simp only [Variadic.evalRator, h]

/-! ### set! (C31) -/

theorem find_eq_nearestCell (x : String) (env : Assoc) (σ : Store) :
    find x env σ = (nearestCell x env).bind (fun c => (σ.cells[c]?).join) := by
  induction env with
  | nil => rfl
  | cons b rest ih =>
    obtain ⟨y, c⟩ := b
    simp only [find, nearestCell]
    split
    · rfl
    · exact ih

theorem modify_eq_assign (x : String) (v : Value) (env : Assoc) (σ : Store) (c : Nat)
    (h : nearestCell x env = some c) : modify x v env σ = σ.assign c v := by
  induction env with
  | nil => simp [nearestCell] at h
  | cons b rest ih =>
    obtain ⟨y, d⟩ := b
    simp only [nearestCell] at h
    simp only [modify]
    split
    · rename_i hxy
      simp only [hxy, if_true, Option.some.injEq] at h
      subst h
      rfl
    · rename_i hxy
      simp only [hxy, if_false] at h
      exact ih h

theorem find_none_of_not_boundWithValue (x : String) (env : Assoc) (σ : Store)
    (h : ¬ boundWithValue x env σ) : find x env σ = none := by
  induction env with
  | nil => rfl
  | cons b rest ih =>
    obtain ⟨y, c⟩ := b
    simp only [find]
    split
    · rename_i hxy
      subst hxy
      cases hc : σ.cells[c]? with
      | none => rfl
      | some o =>
        cases o with
        | none => rfl
        | some v => exact absurd ⟨c, v, List.mem_cons_self _ _, hc⟩ h
    · exact ih (fun ⟨c2, v, hm, hc⟩ => h ⟨c2, v, List.mem_cons_of_mem _ hm, hc⟩)

theorem find_assign_self (y : String) (env : Assoc) (σ : Store) (c : Nat) (v : Value)
    (hc : c < σ.cells.length) (h : nearestCell y env = some c) :
    find y env (σ.assign c v) = some v := by
  rw [find_eq_nearestCell, h]
  simp [Store.assign, List.getElem?_set, hc]

theorem find_assign_other (y : String) (env : Assoc) (σ : Store) (c c2 : Nat) (v : Value)
    (h : nearestCell y env = some c2) (hne : c2 ≠ c) :
    find y env (σ.assign c v) = find y env σ := by
  rw [find_eq_nearestCell, find_eq_nearestCell, h]
  simp [Store.assign, List.getElem?_set, Ne.symm hne]

theorem find_assign_unbound (y : String) (env : Assoc) (σ : Store) (c : Nat) (v : Value)
    (h : nearestCell y env = none) : find y env (σ.assign c v) = find y env σ := by
  rw [find_eq_nearestCell, find_eq_nearestCell, h]
  rfl

theorem Set_eval_unbound (T : Tables) (fuel : Nat) (x : String) (init : Expr) (e : Assoc)
    (σ : Store) (v : Value) (env1 : Assoc) (σ1 : Store)
    (hi : eval T fuel init e σ = .ok v env1 σ1) (hf : find x env1 σ1 = none) :
    eval T (fuel + 1) (.Set x init) e σ = .error "No such variable" env1 σ1 := by
  simp only [eval, hi, hf]

theorem Set_eval_bound (T : Tables) (fuel : Nat) (x : String) (init : Expr) (e : Assoc)
    (σ : Store) (v : Value) (env1 : Assoc) (σ1 : Store) (old : Value)
    (hi : eval T fuel init e σ = .ok v env1 σ1) (hf : find x env1 σ1 = some old) :
    ∃ c, nearestCell x env1 = some c ∧ c < σ1.cells.length ∧
      eval T (fuel + 1) (.Set x init) e σ = returnNew .Void env1 (σ1.assign c v) := by
  have h1 := find_eq_nearestCell x env1 σ1
  rw [hf] at h1
  cases hn : nearestCell x env1 with
  | none => rw [hn] at h1; cases h1
  | some c =>
    rw [hn] at h1
    refine ⟨c, rfl, ?_, ?_⟩
    · by_contra hlt
      have : σ1.cells[c]? = none := List.getElem?_eq_none (by omega)
      simp [this] at h1
    · simp only [eval, hi, hf, modify_eq_assign x v env1 σ1 c hn]

/-- C31 (counterexample): an outer frame binds `x` to 5 and the innermost
binding of `x` is a null placeholder, so `x` has a binding with a value in the
chain; `Set::eval` of `(set! x 1)` raises "No such variable" and leaves the
store as it was.  The state arises in
`((lambda (x) (letrec ((x (set! x 1))) x)) 5)`, which raises the error. -/
theorem C31_shadowing_placeholder_counterexample :
    boundWithValue "x" shadowEnv shadowStore ∧
    eval stdTables 2 (.Set "x" (.Fixnum 1)) shadowEnv shadowStore =
      .error "No such variable" shadowEnv (shadowStore.alloc (.Integer 1)).2 ∧
    (∃ e1 σ1, resolveAndEval stdTables 6 shadowedSetForm [] Store.init =
      .error "No such variable" e1 σ1) :=
  ⟨⟨0, 0, by simp [shadowEnv], rfl⟩, rfl, ⟨_, _, rfl⟩⟩

/-- C31: `Set::eval` evaluates the expression first.  When `find` of the
variable then yields no value, which is the case when no frame binds the name
to a value and also when the innermost frame that binds it holds a null
placeholder, it raises "No such variable" and leaves the handle and the store
as the evaluation of the expression left them.  Otherwise it returns a new
`Void` and assigns the value to the binding cell `c` of the innermost frame
that binds the name, and to nothing else: every environment whose innermost
binding of a name is the cell `c` then finds the new value, every environment
finds what it found before for a name whose innermost binding is another cell
or that it does not bind, and the objects are as they were.  A closure made
before `(set! x 2)` returns 2 when called after it; an assignment to an inner
`x` leaves the outer `x` at 1; `(set! y 1)` with no binding of `y` raises the
error. -/
theorem C31_set_assigns_nearest_binding (T : Tables) (fuel : Nat) :
    (∀ x init e σ v env1 σ1, eval T fuel init e σ = .ok v env1 σ1 →
      find x env1 σ1 = none →
      eval T (fuel + 1) (.Set x init) e σ = .error "No such variable" env1 σ1) ∧
    (∀ x env σ, find x env σ = none ↔
      (nearestCell x env = none ∨
        ∃ c, nearestCell x env = some c ∧ (σ.cells[c]?).join = none)) ∧
    (∀ x env σ, ¬ boundWithValue x env σ → find x env σ = none) ∧
    (∀ x init e σ v env1 σ1 old, eval T fuel init e σ = .ok v env1 σ1 →
      find x env1 σ1 = some old →
      ∃ c, nearestCell x env1 = some c ∧ c < σ1.cells.length ∧
        eval T (fuel + 1) (.Set x init) e σ = returnNew .Void env1 (σ1.assign c v) ∧
        (σ1.assign c v).heap = σ1.heap ∧
        (∀ y env, nearestCell y env = some c → find y env (σ1.assign c v) = some v) ∧
        (∀ y env c2, nearestCell y env = some c2 → c2 ≠ c →
          find y env (σ1.assign c v) = find y env σ1) ∧
        (∀ y env, nearestCell y env = none →
          find y env (σ1.assign c v) = find y env σ1)) ∧
    (resolveAndEval stdTables 7 sharedSetForm [] Store.init).content = some (.Integer 2) ∧
    (resolveAndEval stdTables 7 innerSetForm [] Store.init).content = some (.Integer 1) ∧
    (∃ e1 σ1, resolveAndEval stdTables 3
      (.List [.SymbolSyntax "set!", .SymbolSyntax "y", .Number 1]) [] Store.init =
        .error "No such variable" e1 σ1) := by
  refine ⟨fun x init e σ v env1 σ1 hi hf => Set_eval_unbound T fuel x init e σ v env1 σ1 hi hf,
    ?_, find_none_of_not_boundWithValue, ?_, rfl, rfl, ⟨_, _, rfl⟩⟩
  · intro x env σ
    rw [find_eq_nearestCell]
    cases nearestCell x env with
    | none => simp
    | some c => simp
  · intro x init e σ v env1 σ1 old hi hf
    obtain ⟨c, hn, hc, hev⟩ := Set_eval_bound T fuel x init e σ v env1 σ1 old hi hf
    exact ⟨c, hn, hc, hev, rfl,
      fun y env h => find_assign_self y env σ1 c v hc h,
      fun y env c2 h hne => find_assign_other y env σ1 c c2 v h hne,
      fun y env h => find_assign_unbound y env σ1 c v h⟩

/-! ### Termination of the resolver -/

theorem parseAll_quiet {p : Syntax → Store → Parsed Expr} {out : List Output}
    {l : List Syntax} (hp : ∀ s ∈ l, ∀ σ, σ.out = out → (p s σ).quiet out) :
    ∀ σ, σ.out = out → (parseAll p l σ).quiet out := by
  induction l with
  | nil => intro σ h; exact h
  | cons s rest ih =>
    intro σ h
    have h1 := hp s (List.mem_cons_self _ _) σ h
    cases hs : p s σ with
    | ok x σ1 =>
      rw [hs] at h1
      have h2 := ih (fun t ht => hp t (List.mem_cons_of_mem _ ht)) σ1 h1
      cases hr : parseAll p rest σ1 <;> rw [hr] at h2 <;> simp only [parseAll, hs, hr] <;>
        exact h2
    | error msg σ1 => rw [hs] at h1; simp only [parseAll, hs]; exact h1
    | timeout => rw [hs] at h1; simp only [parseAll, hs]; exact h1

theorem parseClauses_quiet {p : Syntax → Store → Parsed Expr} {out : List Output}
    {l : List Syntax}
    (hp : ∀ c ∈ l, ∀ ss, c = .List ss → ∀ s ∈ ss, ∀ σ, σ.out = out → (p s σ).quiet out) :
    ∀ σ, σ.out = out → (parseClauses p l σ).quiet out := by
  induction l with
  | nil => intro σ h; exact h
  | cons c rest ih =>
    intro σ h
    cases c with
    | List ss =>
      cases ss with
      | nil => exact h
      | cons s ss =>
        have h1 := parseAll_quiet (hp _ (List.mem_cons_self _ _) (s :: ss) rfl) σ h
        cases hs : parseAll p (s :: ss) σ with
        | ok x σ1 =>
          rw [hs] at h1
          have h2 := ih (fun t ht => hp t (List.mem_cons_of_mem _ ht)) σ1 h1
          cases hr : parseClauses p rest σ1 <;> rw [hr] at h2 <;>
            simp only [parseClauses, hs, hr] <;> exact h2
        | error msg σ1 => rw [hs] at h1; simp only [parseClauses, hs]; exact h1
        | timeout => rw [hs] at h1; simp only [parseClauses, hs]; exact h1
    | _ => exact h

theorem parseParams_quiet {p : Syntax → Store → Parsed Expr} {out : List Output}
    {l : List Syntax} (hp : ∀ s ∈ l, ∀ σ, σ.out = out → (p s σ).quiet out) :
    ∀ New_env σ, σ.out = out → (parseParams p l New_env σ).quiet out := by
  induction l with
  | nil => intro New_env σ h; exact h
  | cons s rest ih =>
    intro New_env σ h
    have h1 := hp s (List.mem_cons_self _ _) σ h
    cases hs : p s σ with
    | ok x σ1 =>
      rw [hs] at h1
      cases x with
      | Var y =>
        have h2 := ih (fun t ht => hp t (List.mem_cons_of_mem _ ht))
          ((extend y (some (σ1.alloc .Null).1) New_env (σ1.alloc .Null).2).1)
          ((extend y (some (σ1.alloc .Null).1) New_env (σ1.alloc .Null).2).2) h1
        cases hr : parseParams p rest
          ((extend y (some (σ1.alloc .Null).1) New_env (σ1.alloc .Null).2).1)
          ((extend y (some (σ1.alloc .Null).1) New_env (σ1.alloc .Null).2).2) <;>
          rw [hr] at h2 <;> simp only [parseParams, hs, hr] <;> exact h2
      | _ => simp only [parseParams, hs]; exact h1
    | error msg σ1 => rw [hs] at h1; simp only [parseParams, hs]; exact h1
    | timeout => rw [hs] at h1; simp only [parseParams, hs]; exact h1

theorem parseLetBindings_quiet {p : Syntax → Store → Parsed Expr} {out : List Output}
    {l : List Syntax}
    (hp : ∀ c ∈ l, ∀ first last, c = .List [first, last] →
      ∀ σ, σ.out = out → (p last σ).quiet out) :
    ∀ local_env σ, σ.out = out → (parseLetBindings p l local_env σ).quiet out := by
  induction l with
  | nil => intro local_env σ h; exact h
  | cons c rest ih =>
    intro local_env σ h
    cases c with
    | List ss =>
      match ss with
      | [] => exact h
      | [_] => exact h
      | _ :: _ :: _ :: _ => exact h
      | [first, last] =>
        cases first with
        | SymbolSyntax x =>
          have h1 := hp _ (List.mem_cons_self _ _) (.SymbolSyntax x) last rfl σ h
          cases hs : p last σ with
          | ok t σ1 =>
            rw [hs] at h1
            have h2 := ih (fun t ht => hp t (List.mem_cons_of_mem _ ht))
              ((extend x (some (σ1.alloc .Null).1) local_env (σ1.alloc .Null).2).1)
              ((extend x (some (σ1.alloc .Null).1) local_env (σ1.alloc .Null).2).2) h1
            cases hr : parseLetBindings p rest
              ((extend x (some (σ1.alloc .Null).1) local_env (σ1.alloc .Null).2).1)
              ((extend x (some (σ1.alloc .Null).1) local_env (σ1.alloc .Null).2).2) <;>
              rw [hr] at h2 <;> simp only [parseLetBindings, hs, hr] <;> exact h2
          | error msg σ1 => rw [hs] at h1; simp only [parseLetBindings, hs]; exact h1
          | timeout => rw [hs] at h1; simp only [parseLetBindings, hs]; exact h1
        | _ => exact h
    | _ => exact h

theorem letrecNames_quiet {out : List Output} (l : List Syntax) :
    ∀ temp_env σ, σ.out = out → (letrecNames l temp_env σ).quiet out := by
  induction l with
  | nil => intro temp_env σ h; exact h
  | cons c rest ih =>
    intro temp_env σ h
    cases c with
    | List ss =>
      match ss with
      | [] => exact h
      | [_] => exact h
      | _ :: _ :: _ :: _ => exact h
      | [first, last] =>
        cases first with
        | SymbolSyntax x =>
          simp only [letrecNames]
          exact ih _ _ h
        | _ => exact h
    | _ => exact h

theorem parseLetrecBindings_quiet {p : Syntax → Store → Parsed Expr} {out : List Output}
    {l : List Syntax}
    (hp : ∀ c ∈ l, ∀ first last, c = .List [first, last] →
      ∀ σ, σ.out = out → (p last σ).quiet out) :
    ∀ σ, σ.out = out → (parseLetrecBindings p l σ).quiet out := by
  induction l with
  | nil => intro σ h; exact h
  | cons c rest ih =>
    intro σ h
    cases c with
    | List ss =>
      cases ss with
      | nil => exact h
      | cons first ss =>
        cases first with
        | SymbolSyntax x =>
          match ss with
          | [] => exact h
          | _ :: _ :: _ => exact h
          | [last] =>
            have h1 := hp _ (List.mem_cons_self _ _) (.SymbolSyntax x) last rfl σ h
            cases hs : p last σ with
            | ok t σ1 =>
              rw [hs] at h1
              have h2 := ih (fun t ht => hp t (List.mem_cons_of_mem _ ht)) σ1 h1
              cases hr : parseLetrecBindings p rest σ1 <;>
                rw [hr] at h2 <;> simp only [parseLetrecBindings, hs, hr] <;> exact h2
            | error msg σ1 => rw [hs] at h1; simp only [parseLetrecBindings, hs]; exact h1
            | timeout => rw [hs] at h1; simp only [parseLetrecBindings, hs]; exact h1
        | _ => exact h
    | _ => exact h

theorem quiet_of_eq {α : Type} {out : List Output} {r r1 : Parsed α} (h : r.quiet out)
    (he : r = r1) : r1.quiet out := he ▸ h

theorem parse_quiet (T : Tables) :
    ∀ fuel stx env σ, sizeOf stx < fuel → (parse T fuel stx env σ).quiet σ.out := by
  intro fuel
  induction fuel with
  | zero => intro stx env σ h; omega
  | succ fuel ih =>
    intro stx env σ hlt
    cases stx with
    | List l =>
      cases l with
      | nil => exact rfl
      | cons head args =>
        have hsub : ∀ s, sizeOf s < sizeOf (head :: args) →
            ∀ env1 σ1, σ1.out = σ.out → (parse T fuel s env1 σ1).quiet σ.out := by
          intro s hs env1 σ1 h1
          rw [← h1]
          refine ih s env1 σ1 ?_
          simp only [Syntax.List.sizeOf_spec] at hlt
          omega
        have hall : ∀ l : List Syntax, sizeOf l ≤ sizeOf args → ∀ env1 σ1, σ1.out = σ.out →
            (parseAll (fun s => parse T fuel s env1) l σ1).quiet σ.out := by
          intro l hl env1 σ1 h1
          refine parseAll_quiet (fun s hs σ2 h2 => hsub s ?_ env1 σ2 h2) σ1 h1
          have h3 := List.sizeOf_lt_of_mem hs
          simp only [List.cons.sizeOf_spec]
          omega
        cases head with
        | SymbolSyntax op =>
          by_cases hfind : (find op env σ).isSome = true
          · have hq := hall args (le_refl _) env σ rfl
            cases hp : parseAll (fun s => parse T fuel s env) args σ <;> rw [hp] at hq <;>
              simp only [parse, hfind, if_true, hp] <;> exact hq
          · replace hfind : (find op env σ).isSome = false := by simpa using hfind
            cases hprim : T.primitives.lookup op with
            | some op_type =>
              have hq := hall args (le_refl _) env σ rfl
              cases hp : parseAll (fun s => parse T fuel s env) args σ with
              | ok parameters σ1 =>
                rw [hp] at hq
                cases hpp : parsePrimitive op op_type parameters <;>
                  simp only [parse, hfind, Bool.false_eq_true, if_false, hprim, hp, hpp] <;> exact hq
              | error msg σ1 =>
                rw [hp] at hq
                simp only [parse, hfind, Bool.false_eq_true, if_false, hprim, hp]
                exact hq
              | timeout =>
                rw [hp] at hq
                simp only [parse, hfind, Bool.false_eq_true, if_false, hprim, hp]
                exact hq
            | none =>
              cases hres : T.reserved_words.lookup op with
              | none =>
                have hq := hall args (le_refl _) env σ rfl
                cases hp : parseAll (fun s => parse T fuel s env) args σ <;> rw [hp] at hq <;>
                  simp only [parse, hfind, Bool.false_eq_true, if_false, hprim, hres, hp] <;> exact hq
              | some t =>
                cases t with
                | E_BEGIN =>
                  have hq := hall args (le_refl _) env σ rfl
                  cases hp : parseAll (fun s => parse T fuel s env) args σ <;> rw [hp] at hq <;>
                    simp only [parse, hfind, Bool.false_eq_true, if_false, hprim, hres, hp] <;> exact hq
                | E_QUOTE =>
                  simp only [parse, hfind, Bool.false_eq_true, if_false, hprim, hres]
                  split <;> exact rfl
                | E_IF =>
                  simp only [parse, hfind, Bool.false_eq_true, if_false, hprim, hres]
                  split
                  · rename_i s1 s2 s3
                    have hq := hall [s1, s2, s3] (le_refl _) env σ rfl
                    split <;> (rename_i heq; rw [heq] at hq; exact hq)
                  · exact rfl
                | E_COND =>
                  simp only [parse, hfind, Bool.false_eq_true, if_false, hprim, hres]
                  split
                  · exact rfl
                  · have hq := parseClauses_quiet (p := fun s => parse T fuel s env)
                      (l := args) (fun c hc ss hss s hs σ2 h2 => hsub s (by
                        have h3 := List.sizeOf_lt_of_mem hc
                        have h4 := List.sizeOf_lt_of_mem hs
                        subst hss
                        simp only [List.cons.sizeOf_spec, Syntax.List.sizeOf_spec] at h3 ⊢
                        omega) env σ2 h2) σ rfl
                    cases hp : parseClauses (fun s => parse T fuel s env) args σ <;>
                      rw [hp] at hq <;> exact hq
                | E_LAMBDA =>
                  simp only [parse, hfind, Bool.false_eq_true, if_false, hprim, hres]
                  split
                  · rename_i paras body1 bodies
                    have hq := parseParams_quiet (p := fun s => parse T fuel s env)
                      (l := paras) (fun s hs σ2 h2 => hsub s (by
                        have h3 := List.sizeOf_lt_of_mem hs
                        simp only [List.cons.sizeOf_spec, Syntax.List.sizeOf_spec]
                        omega) env σ2 h2) env σ rfl
                    split
                    · rename_i vars New_env σ1 heq
                      rw [heq] at hq
                      have hq2 := hall (body1 :: bodies) (by
                        simp only [List.cons.sizeOf_spec]
                        omega) New_env σ1 hq
                      split <;> (rename_i heq2; rw [heq2] at hq2; exact hq2)
                    · rename_i heq
                      rw [heq] at hq
                      exact hq
                    · rename_i heq
                      rw [heq] at hq
                      exact hq
                  · exact rfl
                  · exact rfl
                | E_DEFINE =>
                  simp only [parse, hfind, Bool.false_eq_true, if_false, hprim, hres]
                  repeat' split
                  all_goals first
                    | exact rfl
                    | (rename_i heq; have hq3 := quiet_of_eq (hsub _ (by simp only [List.cons.sizeOf_spec]; omega) env σ rfl) heq; exact hq3)
                    | (rename_i heq; have hq3 := quiet_of_eq (hall _ (by simp only [List.cons.sizeOf_spec]; omega) env σ rfl) heq; exact hq3)
                | E_LET =>
                  simp only [parse, hfind, Bool.false_eq_true, if_false, hprim, hres]
                  split
                  · rename_i binders body1 bodies
                    have hq := parseLetBindings_quiet (p := fun s => parse T fuel s env)
                      (l := binders) (fun c hc first last hcl σ2 h2 => hsub last (by
                        have h3 := List.sizeOf_lt_of_mem hc
                        subst hcl
                        simp only [List.cons.sizeOf_spec, Syntax.List.sizeOf_spec] at h3 ⊢
                        omega) env σ2 h2) env σ rfl
                    split
                    · rename_i binded local_env σ1 heq
                      rw [heq] at hq
                      have hq2 := hall (body1 :: bodies) (by
                        simp only [List.cons.sizeOf_spec]
                        omega) local_env σ1 hq
                      split <;> (rename_i heq2; rw [heq2] at hq2; exact hq2)
                    · rename_i heq
                      rw [heq] at hq
                      exact hq
                    · rename_i heq
                      rw [heq] at hq
                      exact hq
                  · exact rfl
                  · exact rfl
                | E_LETREC =>
                  simp only [parse, hfind, Bool.false_eq_true, if_false, hprim, hres]
                  split
                  · rename_i binders body
                    have hq : (letrecNames binders env σ).quiet σ.out :=
                      letrecNames_quiet binders env σ rfl
                    split
                    · rename_i temp_env σ1 heq
                      rw [heq] at hq
                      have hq2 := parseLetrecBindings_quiet
                        (p := fun s => parse T fuel s temp_env) (l := binders)
                        (fun c hc first last hcl σ2 h2 => hsub last (by
                          have h3 := List.sizeOf_lt_of_mem hc
                          subst hcl
                          simp only [List.cons.sizeOf_spec, Syntax.List.sizeOf_spec] at h3 ⊢
                          omega) temp_env σ2 h2) σ1 hq
                      split
                      · rename_i binded σ2 heq2
                        rw [heq2] at hq2
                        have hq3 := hsub body (by
                          simp only [List.cons.sizeOf_spec]
                          omega) temp_env σ2 hq2
                        split <;> (rename_i heq3; rw [heq3] at hq3; exact hq3)
                      · rename_i heq2
                        rw [heq2] at hq2
                        exact hq2
                      · rename_i heq2
                        rw [heq2] at hq2
                        exact hq2
                    · rename_i heq
                      rw [heq] at hq
                      exact hq
                    · rename_i heq
                      rw [heq] at hq
                      exact hq
                  · exact rfl
                  · exact rfl
                | E_SET =>
                  simp only [parse, hfind, Bool.false_eq_true, if_false, hprim, hres]
                  split
                  · rename_i var_name value
                    have hq := hsub value (by
                      simp only [List.cons.sizeOf_spec]
                      omega) env σ rfl
                    cases hp : parse T fuel value env σ <;> rw [hp] at hq <;> exact hq
                  · exact rfl
                | _ => simp only [parse, hfind, Bool.false_eq_true, if_false, hprim, hres]; exact rfl
        | _ =>
          have hq := hall args (le_refl _) env σ rfl
          simp only [parse]
          split
          · rename_i parameters σ1 heq
            rw [heq] at hq
            split <;> (rename_i heq2; have hq3 := quiet_of_eq (hsub _ (by simp only [List.cons.sizeOf_spec]; omega) env σ1 hq) heq2; exact hq3)
          · rename_i heq
            rw [heq] at hq
            exact hq
          · rename_i heq
            rw [heq] at hq
            exact hq
    | _ => exact rfl

theorem raisesIn_of_quiet {α : Type} {out : List Output} {r : Parsed α} (h : r.quiet out)
    (hn : ∀ a σ1, r ≠ .ok a σ1) : r.raisesIn out := by
  cases r with
  | ok a σ1 => exact absurd rfl (hn a σ1)
  | error msg σ1 => exact h
  | timeout => exact h

theorem resolutionRaises_of_not_ok (T : Tables) (stx : Syntax) (env : Assoc) (σ : Store)
    (h : ∀ fuel x σ1, parse T (fuel + 1) stx env σ ≠ .ok x σ1) :
    resolutionRaises T stx env σ := by
  refine ⟨sizeOf stx + 1, fun fuel hk => ?_⟩
  obtain ⟨f, rfl⟩ : ∃ f, fuel = f + 1 := ⟨fuel - 1, by omega⟩
  exact raisesIn_of_quiet (parse_quiet T (f + 1) stx env σ (by omega)) (h f)

theorem parseAll_length {p : Syntax → Store → Parsed Expr} {l : List Syntax} {σ : Store}
    {xs : List Expr} {σ1 : Store} (h : parseAll p l σ = .ok xs σ1) : xs.length = l.length := by
  induction l generalizing σ xs σ1 with
  | nil =>
    simp only [parseAll, Parsed.ok.injEq] at h
    rw [← h.1]
    rfl
  | cons s rest ih =>
    cases hs : p s σ with
    | ok x σ2 =>
      cases hr : parseAll p rest σ2 with
      | ok ys σ3 =>
        simp only [parseAll, hs, hr, Parsed.ok.injEq] at h
        rw [← h.1, List.length_cons, List.length_cons, ih hr]
      | error msg σ3 => simp [parseAll, hs, hr] at h
      | timeout => simp [parseAll, hs, hr] at h
    | error msg σ2 => simp [parseAll, hs] at h
    | timeout => simp [parseAll, hs] at h

theorem isSome_of_find_none {op : String} {env : Assoc} {σ : Store}
    (h : find op env σ = none) : (find op env σ).isSome = false := by
  rw [h]
  rfl

theorem parse_primitive_ok (T : Tables) (fuel : Nat) (op : String) (t : ExprType)
    (args : List Syntax) (env : Assoc) (σ : Store) (x : Expr) (σ1 : Store)
    (h : primitiveHead T op t env σ)
    (hp : parse T (fuel + 1) (.List (.SymbolSyntax op :: args)) env σ = .ok x σ1) :
    ∃ ps, ps.length = args.length ∧ parsePrimitive op t ps = .ok x := by
  obtain ⟨hfind, hprim⟩ := h
  have hf := isSome_of_find_none hfind
  cases ha : parseAll (fun s => parse T fuel s env) args σ with
  | ok ps σ2 =>
    cases hpp : parsePrimitive op t ps with
    | ok y =>
      simp only [parse, hf, Bool.false_eq_true, if_false, hprim, ha, hpp,
        Parsed.ok.injEq] at hp
      exact ⟨ps, parseAll_length ha, by rw [hpp, hp.1]⟩
    | error msg =>
      simp [parse, hf, hprim, ha, hpp] at hp
  | error msg σ2 => simp [parse, hf, hprim, ha] at hp
  | timeout => simp [parse, hf, hprim, ha] at hp

theorem parse_primitive_raises (T : Tables) (op : String) (t : ExprType)
    (args : List Syntax) (env : Assoc) (σ : Store) (h : primitiveHead T op t env σ)
    (hbad : ∀ ps x, ps.length = args.length → parsePrimitive op t ps ≠ .ok x) :
    resolutionRaises T (.List (.SymbolSyntax op :: args)) env σ := by
  refine resolutionRaises_of_not_ok T _ env σ (fun fuel x σ1 hp => ?_)
  obtain ⟨ps, hl, hpp⟩ := parse_primitive_ok T fuel op t args env σ x σ1 h hp
  exact hbad ps x hl hpp

/-! ### Operand counts of the primitives (C32) -/

theorem parse_no_operand (T : Tables) (fuel : Nat) (op : String) (t : ExprType) (env : Assoc)
    (σ : Store) (h : primitiveHead T op t env σ) :
    parse T (fuel + 1) (callForm op []) env σ =
      match parsePrimitive op t [] with
      | .ok expr => .ok expr σ
      | .error msg => .error msg σ := by
  obtain ⟨hfind, hprim⟩ := h
  have hf := isSome_of_find_none hfind
  cases hpp : parsePrimitive op t [] <;>
    simp only [callForm, parse, hf, Bool.false_eq_true, if_false, hprim, parseAll, hpp]

theorem comparison_raises (T : Tables) (op : String) (t : ExprType) (args : List Syntax)
    (env : Assoc) (σ : Store) (ht : t ∈ comparisonTags) (hl : args.length < 2)
    (h : primitiveHead T op t env σ) : resolutionRaises T (callForm op args) env σ := by
  refine parse_primitive_raises T op t args env σ h (fun ps x hps => ?_)
  have h2 : ps.length < 2 := by omega
  simp only [comparisonTags, List.mem_cons, List.mem_singleton, List.not_mem_nil,
    or_false] at ht
  match ps, h2 with
  | [], _ => rcases ht with rfl | rfl | rfl | rfl | rfl <;> simp [parsePrimitive]
  | [_], _ => rcases ht with rfl | rfl | rfl | rfl | rfl <;> simp [parsePrimitive]

theorem modulo_raises (T : Tables) (op : String) (args : List Syntax)
    (env : Assoc) (σ : Store) (hl : args.length ≠ 2)
    (h : primitiveHead T op .E_MODULO env σ) : resolutionRaises T (callForm op args) env σ := by
  refine parse_primitive_raises T op .E_MODULO args env σ h (fun ps x hps => ?_)
  have h2 : ps.length ≠ 2 := by omega
  match ps, h2 with
  | [], _ => simp [parsePrimitive]
  | [_], _ => simp [parsePrimitive]
  | _ :: _ :: _ :: _, _ => simp [parsePrimitive]

/-- C32: for a head symbol that is dispatched as a primitive (no frame binds it
to a value), `List::parse` raises "Wrong number of arguments for -" on `(-)`
and "Wrong number of arguments for /" on `(/)` at once; with enough fuel it
raises a `RuntimeError`, with nothing written to the output, for each of `<`,
`<=`, `=`, `>=`, `>` with fewer than two operands and for `modulo` with an
operand count other than 2.  `(+)`, `(*)`, `(list)`, `(and)` and `(or)` resolve
to the n-ary nodes with no operand, which evaluate to new objects `Integer 0`,
`Integer 1`, `Null`, `#t` and `#f`.  The examples run the forms with the
standard names. -/
theorem C32_primitive_operand_counts (T : Tables) (fuel : Nat) :
    (∀ op env σ, primitiveHead T op .E_MINUS env σ →
      parse T (fuel + 1) (callForm op []) env σ =
        .error "Wrong number of arguments for -" σ) ∧
    (∀ op env σ, primitiveHead T op .E_DIV env σ →
      parse T (fuel + 1) (callForm op []) env σ =
        .error "Wrong number of arguments for /" σ) ∧
    (∀ op t args env σ, t ∈ comparisonTags → args.length < 2 →
      primitiveHead T op t env σ → resolutionRaises T (callForm op args) env σ) ∧
    (∀ op args env σ, args.length ≠ 2 → primitiveHead T op .E_MODULO env σ →
      resolutionRaises T (callForm op args) env σ) ∧
    (∀ op env σ, primitiveHead T op .E_PLUS env σ →
      parse T (fuel + 1) (callForm op []) env σ = .ok (.Variadic .PlusVar []) σ) ∧
    (∀ op env σ, primitiveHead T op .E_MUL env σ →
      parse T (fuel + 1) (callForm op []) env σ = .ok (.Variadic .MultVar []) σ) ∧
    (∀ op env σ, primitiveHead T op .E_LIST env σ →
      parse T (fuel + 1) (callForm op []) env σ = .ok (.Variadic .ListFunc []) σ) ∧
    (∀ op env σ, primitiveHead T op .E_AND env σ →
      parse T (fuel + 1) (callForm op []) env σ = .ok (.AndVar []) σ) ∧
    (∀ op env σ, primitiveHead T op .E_OR env σ →
      parse T (fuel + 1) (callForm op []) env σ = .ok (.OrVar []) σ) ∧
    (∀ e σ, eval T (fuel + 1) (.Variadic .PlusVar []) e σ = returnNew (.Integer 0) e σ) ∧
    (∀ e σ, eval T (fuel + 1) (.Variadic .MultVar []) e σ = returnNew (.Integer 1) e σ) ∧
    (∀ e σ, eval T (fuel + 1) (.Variadic .ListFunc []) e σ = returnNew .Null e σ) ∧
    (∀ e σ, eval T (fuel + 1) (.AndVar []) e σ = returnNew (.Boolean true) e σ) ∧
    (∀ e σ, eval T (fuel + 1) (.OrVar []) e σ = returnNew (.Boolean false) e σ) ∧
    (resolveAndEval stdTables 2 (callForm "+" []) [] Store.init).content =
      some (.Integer 0) ∧
    (resolveAndEval stdTables 2 (callForm "*" []) [] Store.init).content =
      some (.Integer 1) ∧
    (resolveAndEval stdTables 2 (callForm "list" []) [] Store.init).content = some .Null ∧
    (resolveAndEval stdTables 2 (callForm "and" []) [] Store.init).content =
      some (.Boolean true) ∧
    (resolveAndEval stdTables 2 (callForm "or" []) [] Store.init).content =
      some (.Boolean false) ∧
    resolveAndEval stdTables 2 (callForm "-" []) [] Store.init =
      .error "Wrong number of arguments for -" [] Store.init ∧
    resolveAndEval stdTables 2 (callForm "/" []) [] Store.init =
      .error "Wrong number of arguments for /" [] Store.init ∧
    resolveAndEval stdTables 2 (callForm "<" []) [] Store.init =
      .error "Wrong number of arguments for <" [] Store.init ∧
    resolveAndEval stdTables 2 (callForm ">=" [.Number 1]) [] Store.init =
      .error "Wrong number of arguments for >=" [] Store.init ∧
    resolveAndEval stdTables 2 (callForm "modulo" [.Number 1]) [] Store.init =
      .error "Wrong number of arguments for modulo" [] Store.init ∧
    resolveAndEval stdTables 2 (callForm "modulo" [.Number 1, .Number 2, .Number 3]) []
      Store.init = .error "Wrong number of arguments for modulo" [] Store.init :=
  ⟨fun op env σ h => parse_no_operand T fuel op _ env σ h,
    fun op env σ h => parse_no_operand T fuel op _ env σ h,
    fun op t args env σ ht hl h => comparison_raises T op t args env σ ht hl h,
    fun op args env σ hl h => modulo_raises T op args env σ hl h,
    fun op env σ h => parse_no_operand T fuel op _ env σ h,
    fun op env σ h => parse_no_operand T fuel op _ env σ h,
    fun op env σ h => parse_no_operand T fuel op _ env σ h,
    fun op env σ h => parse_no_operand T fuel op _ env σ h,
    fun op env σ h => parse_no_operand T fuel op _ env σ h,
    fun _ _ => rfl, fun _ _ => rfl, fun _ _ => rfl, fun _ _ => rfl, fun _ _ => rfl,
    rfl, rfl, rfl, rfl, rfl, rfl, rfl, rfl, rfl, rfl, rfl⟩

/-! ### A single operand of + and * (C33) -/

theorem parseAll_single (p : Syntax → Store → Parsed Expr) (x : Syntax) (σ : Store) :
    parseAll p [x] σ =
      match p x σ with
      | .ok a σ1 => .ok [a] σ1
      | .error msg σ1 => .error msg σ1
      | .timeout => .timeout := by
  cases h : p x σ <;> simp only [parseAll, h]

theorem parse_single_passthrough (T : Tables) (fuel : Nat) (op : String) (t : ExprType)
    (x : Syntax) (env : Assoc) (σ : Store) (hf : find op env σ = none)
    (hp : T.primitives.lookup op = some t) (ht : t = .E_PLUS ∨ t = .E_MUL) :
    parse T (fuel + 1) (.List [.SymbolSyntax op, x]) env σ = parse T fuel x env σ := by
  cases h : parse T fuel x env σ with
  | ok a σ1 =>
    rcases ht with ht | ht <;> subst ht <;>
      simp only [parse, hf, Option.isSome_none, Bool.false_eq_true, if_false, hp, parseAll, h,
        parsePrimitive]
  | error msg σ1 =>
    simp only [parse, hf, Option.isSome_none, Bool.false_eq_true, if_false, hp, parseAll, h]
  | timeout =>
    simp only [parse, hf, Option.isSome_none, Bool.false_eq_true, if_false, hp, parseAll, h]

theorem resolveAndEval_passthrough (T : Tables) (fuel : Nat) (op : String) (t : ExprType)
    (x : Syntax) (env : Assoc) (σ : Store) (expr : Expr) (σ1 : Store)
    (hf : find op env σ = none) (hp : T.primitives.lookup op = some t)
    (ht : t = .E_PLUS ∨ t = .E_MUL) (hx : parse T fuel x env σ = .ok expr σ1) :
    resolveAndEval T (fuel + 1) (.List [.SymbolSyntax op, x]) env σ =
      eval T (fuel + 1) expr env σ1 := by
  simp only [resolveAndEval, parse_single_passthrough T fuel op t x env σ hf hp ht, hx]

/-- C33: when the operator is not bound and the table of primitives gives it
the tag of `+` or of `*`, `List::parse` of the form with the single operand `x`
is what `x` itself resolves to, expression or error, one level of nesting
below; resolving and evaluating the form therefore evaluates that expression
alone.  `(+ "a")` evaluates to the string, `(* (quote (1 2)))` to the list and
`(+ (* 7))` to 7, with no type error. -/
theorem C33_single_operand_passthrough (T : Tables) (fuel : Nat) :
    (∀ op t x env σ, find op env σ = none → T.primitives.lookup op = some t →
      t = .E_PLUS ∨ t = .E_MUL →
      parse T (fuel + 1) (.List [.SymbolSyntax op, x]) env σ = parse T fuel x env σ) ∧
    (∀ op t x env σ expr σ1, find op env σ = none → T.primitives.lookup op = some t →
      t = .E_PLUS ∨ t = .E_MUL → parse T fuel x env σ = .ok expr σ1 →
      resolveAndEval T (fuel + 1) (.List [.SymbolSyntax op, x]) env σ =
        eval T (fuel + 1) expr env σ1) ∧
    stdTables.primitives.lookup "+" = some .E_PLUS ∧
    stdTables.primitives.lookup "*" = some .E_MUL ∧
    (resolveAndEval stdTables 3 (callForm "+" [.StringSyntax "a"]) [] Store.init).content =
      some (.String "a") ∧
    (resolveAndEval stdTables 3 (callForm "*" [.List [.SymbolSyntax "quote",
      .List [.Number 1, .Number 2]]]) [] Store.init).content = some (.Pair 3 2) ∧
    (resolveAndEval stdTables 3 (callForm "+" [callForm "*" [.Number 7]]) []
      Store.init).content = some (.Integer 7) :=
  ⟨fun op t x env σ hf hp ht => parse_single_passthrough T fuel op t x env σ hf hp ht,
    fun op t x env σ expr σ1 hf hp ht hx =>
      resolveAndEval_passthrough T fuel op t x env σ expr σ1 hf hp ht hx,
    rfl, rfl, rfl, rfl, rfl⟩

/-! ### Malformed special forms (C34) -/

theorem parseClauses_ok_shape {p : Syntax → Store → Parsed Expr} {l : List Syntax}
    {σ : Store} {cs : List (List Expr)} {σ1 : Store} (h : parseClauses p l σ = .ok cs σ1) :
    ∀ c ∈ l, clauseShape c := by
  induction l generalizing σ cs σ1 with
  | nil => intro c hc; cases hc
  | cons c rest ih =>
    cases c with
    | List ss =>
      cases ss with
      | nil => simp [parseClauses] at h
      | cons s ss =>
        cases hs : parseAll p (s :: ss) σ with
        | ok x σ2 =>
          cases hr : parseClauses p rest σ2 with
          | ok ys σ3 =>
            intro c hc
            rcases List.mem_cons.mp hc with rfl | hc
            · exact ⟨_, _, rfl⟩
            · exact ih hr c hc
          | error msg σ3 => simp [parseClauses, hs, hr] at h
          | timeout => simp [parseClauses, hs, hr] at h
        | error msg σ2 => simp [parseClauses, hs] at h
        | timeout => simp [parseClauses, hs] at h
    | _ => simp [parseClauses] at h

theorem parseParams_ok_vars {p : Syntax → Store → Parsed Expr} {l : List Syntax}
    {New_env : Assoc} {σ : Store} {r : List String × Assoc} {σ1 : Store}
    (h : parseParams p l New_env σ = .ok r σ1) :
    ∀ s ∈ l, ∃ σa x σb, p s σa = .ok (.Var x) σb := by
  induction l generalizing New_env σ r σ1 with
  | nil => intro c hc; cases hc
  | cons s rest ih =>
    cases hs : p s σ with
    | ok x σ2 =>
      cases x with
      | Var y =>
        cases hr : parseParams p rest
          ((extend y (some (σ2.alloc .Null).1) New_env (σ2.alloc .Null).2).1)
          ((extend y (some (σ2.alloc .Null).1) New_env (σ2.alloc .Null).2).2) with
        | ok ys σ3 =>
          intro c hc
          rcases List.mem_cons.mp hc with rfl | hc
          · exact ⟨_, _, _, hs⟩
          · exact ih hr c hc
        | error msg σ3 => simp [parseParams, hs, hr] at h
        | timeout => simp [parseParams, hs, hr] at h
      | _ => simp [parseParams, hs] at h
    | error msg σ2 => simp [parseParams, hs] at h
    | timeout => simp [parseParams, hs] at h

theorem parseLetBindings_ok_shape {p : Syntax → Store → Parsed Expr} {l : List Syntax}
    {local_env : Assoc} {σ : Store} {r : List (String × Expr) × Assoc} {σ1 : Store}
    (h : parseLetBindings p l local_env σ = .ok r σ1) : ∀ b ∈ l, bindingShape b := by
  induction l generalizing local_env σ r σ1 with
  | nil => intro c hc; cases hc
  | cons c rest ih =>
    cases c with
    | List ss =>
      match ss with
      | [] => simp [parseLetBindings] at h
      | [_] => simp [parseLetBindings] at h
      | _ :: _ :: _ :: _ => simp [parseLetBindings] at h
      | [first, last] =>
        cases first with
        | SymbolSyntax x =>
          cases hs : p last σ with
          | ok t σ2 =>
            cases hr : parseLetBindings p rest
              ((extend x (some (σ2.alloc .Null).1) local_env (σ2.alloc .Null).2).1)
              ((extend x (some (σ2.alloc .Null).1) local_env (σ2.alloc .Null).2).2) with
            | ok ys σ3 =>
              intro c hc
              rcases List.mem_cons.mp hc with rfl | hc
              · exact ⟨_, _, rfl⟩
              · exact ih hr c hc
            | error msg σ3 => simp [parseLetBindings, hs, hr] at h
            | timeout => simp [parseLetBindings, hs, hr] at h
          | error msg σ2 => simp [parseLetBindings, hs] at h
          | timeout => simp [parseLetBindings, hs] at h
        | _ => simp [parseLetBindings] at h
    | _ => simp [parseLetBindings] at h

theorem letrecNames_ok_shape {l : List Syntax} {temp_env : Assoc} {σ : Store} {r : Assoc}
    {σ1 : Store} (h : letrecNames l temp_env σ = .ok r σ1) : ∀ b ∈ l, bindingShape b := by
  induction l generalizing temp_env σ r σ1 with
  | nil => intro c hc; cases hc
  | cons c rest ih =>
    cases c with
    | List ss =>
      match ss with
      | [] => simp [letrecNames] at h
      | [_] => simp [letrecNames] at h
      | _ :: _ :: _ :: _ => simp [letrecNames] at h
      | [first, last] =>
        cases first with
        | SymbolSyntax x =>
          simp only [letrecNames] at h
          intro c hc
          rcases List.mem_cons.mp hc with rfl | hc
          · exact ⟨_, _, rfl⟩
          · exact ih h c hc
        | _ => simp [letrecNames] at h
    | _ => simp [letrecNames] at h

theorem defineParams_some {l : List Syntax} {names : List String}
    (h : defineParams l = some names) : ∀ s ∈ l, isSymbol s := by
  induction l generalizing names with
  | nil => intro c hc; cases hc
  | cons c rest ih =>
    cases c with
    | SymbolSyntax x =>
      simp only [defineParams, Option.map_eq_some'] at h
      obtain ⟨ns, hns, -⟩ := h
      intro c hc
      rcases List.mem_cons.mp hc with rfl | hc
      · exact ⟨_, rfl⟩
      · exact ih hns c hc
    | _ => simp [defineParams] at h

theorem literal_not_var (T : Tables) (s : Syntax) (h : isLiteral s) : ¬ resolvesToVar T s := by
  rintro ⟨fuel, env, σ, x, σ1, hp⟩
  cases fuel with
  | zero => simp [parse] at hp
  | succ f =>
    cases s with
    | List l =>
      cases l with
      | nil => simp [parse] at hp
      | cons a b => exact h
    | SymbolSyntax y => exact h
    | _ => simp [parse] at hp

theorem raises_of_inversion (T : Tables) (stx : Syntax) (env : Assoc) (σ : Store) (W : Prop)
    (h : ∀ fuel x σ1, parse T (fuel + 1) stx env σ = .ok x σ1 → W) (hw : ¬ W) :
    resolutionRaises T stx env σ :=
  resolutionRaises_of_not_ok T stx env σ (fun fuel x σ1 hp => hw (h fuel x σ1 hp))

theorem parse_quote_ok (T : Tables) (fuel : Nat) (op : String) (args : List Syntax)
    (env : Assoc) (σ : Store) (x : Expr) (σ1 : Store) (h : reservedHead T op .E_QUOTE env σ)
    (hp : parse T (fuel + 1) (callForm op args) env σ = .ok x σ1) : args.length = 1 := by
  obtain ⟨hfind, hprim, hres⟩ := h
  have hf := isSome_of_find_none hfind
  simp only [callForm, parse, hf, Bool.false_eq_true, if_false, hprim, hres] at hp
  split at hp
  · rfl
  · cases hp

theorem parse_if_ok (T : Tables) (fuel : Nat) (op : String) (args : List Syntax)
    (env : Assoc) (σ : Store) (x : Expr) (σ1 : Store) (h : reservedHead T op .E_IF env σ)
    (hp : parse T (fuel + 1) (callForm op args) env σ = .ok x σ1) : args.length = 3 := by
  obtain ⟨hfind, hprim, hres⟩ := h
  have hf := isSome_of_find_none hfind
  simp only [callForm, parse, hf, Bool.false_eq_true, if_false, hprim, hres] at hp
  split at hp
  · rfl
  · cases hp

theorem parse_cond_ok (T : Tables) (fuel : Nat) (op : String) (args : List Syntax)
    (env : Assoc) (σ : Store) (x : Expr) (σ1 : Store) (h : reservedHead T op .E_COND env σ)
    (hp : parse T (fuel + 1) (callForm op args) env σ = .ok x σ1) : condShape args := by
  obtain ⟨hfind, hprim, hres⟩ := h
  have hf := isSome_of_find_none hfind
  simp only [callForm, parse, hf, Bool.false_eq_true, if_false, hprim, hres] at hp
  split at hp
  · cases hp
  · rename_i hne
    split at hp
    · rename_i hc
      exact ⟨fun h0 => hne h0, parseClauses_ok_shape hc⟩
    · cases hp
    · cases hp

theorem parse_lambda_ok (T : Tables) (fuel : Nat) (op : String) (args : List Syntax)
    (env : Assoc) (σ : Store) (x : Expr) (σ1 : Store) (h : reservedHead T op .E_LAMBDA env σ)
    (hp : parse T (fuel + 1) (callForm op args) env σ = .ok x σ1) : lambdaShape T args := by
  obtain ⟨hfind, hprim, hres⟩ := h
  have hf := isSome_of_find_none hfind
  simp only [callForm, parse, hf, Bool.false_eq_true, if_false, hprim, hres] at hp
  split at hp
  · rename_i paras body1 bodies
    split at hp
    · rename_i hc
      refine ⟨paras, body1, bodies, rfl, fun s hs => ?_⟩
      obtain ⟨σa, y, σb, hy⟩ := parseParams_ok_vars hc s hs
      exact ⟨fuel, env, σa, y, σb, hy⟩
    · cases hp
    · cases hp
  · cases hp
  · cases hp

theorem parse_let_ok (T : Tables) (fuel : Nat) (op : String) (args : List Syntax)
    (env : Assoc) (σ : Store) (x : Expr) (σ1 : Store) (h : reservedHead T op .E_LET env σ)
    (hp : parse T (fuel + 1) (callForm op args) env σ = .ok x σ1) : letShape args := by
  obtain ⟨hfind, hprim, hres⟩ := h
  have hf := isSome_of_find_none hfind
  simp only [callForm, parse, hf, Bool.false_eq_true, if_false, hprim, hres] at hp
  split at hp
  · rename_i binders body1 bodies
    split at hp
    · rename_i hc
      exact ⟨binders, body1, bodies, rfl, parseLetBindings_ok_shape hc⟩
    · cases hp
    · cases hp
  · cases hp
  · cases hp

theorem parse_letrec_ok (T : Tables) (fuel : Nat) (op : String) (args : List Syntax)
    (env : Assoc) (σ : Store) (x : Expr) (σ1 : Store) (h : reservedHead T op .E_LETREC env σ)
    (hp : parse T (fuel + 1) (callForm op args) env σ = .ok x σ1) : letrecShape args := by
  obtain ⟨hfind, hprim, hres⟩ := h
  have hf := isSome_of_find_none hfind
  simp only [callForm, parse, hf, Bool.false_eq_true, if_false, hprim, hres] at hp
  split at hp
  · rename_i binders body
    split at hp
    · rename_i hc
      exact ⟨binders, body, rfl, letrecNames_ok_shape hc⟩
    · cases hp
    · cases hp
  · cases hp
  · cases hp

theorem parse_set_ok (T : Tables) (fuel : Nat) (op : String) (args : List Syntax)
    (env : Assoc) (σ : Store) (x : Expr) (σ1 : Store) (h : reservedHead T op .E_SET env σ)
    (hp : parse T (fuel + 1) (callForm op args) env σ = .ok x σ1) : setShape args := by
  obtain ⟨hfind, hprim, hres⟩ := h
  have hf := isSome_of_find_none hfind
  simp only [callForm, parse, hf, Bool.false_eq_true, if_false, hprim, hres] at hp
  split at hp
  · exact ⟨_, _, rfl⟩
  · cases hp

theorem parse_define_ok (T : Tables) (fuel : Nat) (op : String) (args : List Syntax)
    (env : Assoc) (σ : Store) (x : Expr) (σ1 : Store) (h : reservedHead T op .E_DEFINE env σ)
    (hp : parse T (fuel + 1) (callForm op args) env σ = .ok x σ1) : defineShape args := by
  obtain ⟨hfind, hprim, hres⟩ := h
  have hf := isSome_of_find_none hfind
  simp only [callForm, parse, hf, Bool.false_eq_true, if_false, hprim, hres] at hp
  split at hp
  · rename_i func_def_list body1 bodies
    split at hp
    · cases hp
    · rename_i func_name params
      split at hp
      · cases hp
      · rename_i names hd
        exact Or.inr ⟨func_name, params, body1, bodies, rfl, defineParams_some hd⟩
    · cases hp
  · split at hp
    · exact Or.inl ⟨_, _, rfl⟩
    · cases hp
  · cases hp
  · cases hp

theorem symbol_resolvesToVar (T : Tables) (s : Syntax) (h : isSymbol s) :
    resolvesToVar T s := by
  obtain ⟨x, rfl⟩ := h
  exact ⟨1, [], Store.init, x, Store.init, rfl⟩

/-- C34: for a head symbol that is dispatched as a reserved word, `List::parse`
raises a `RuntimeError` once it has enough fuel, with nothing written to the
output, on a `quote` whose operand count is not 1, an `if` whose operand count
is not 3, a `cond` with no clause or with a clause that is not a non-empty
list, a `let` or `letrec` that is not a list of bindings (lists of two elements
headed by a symbol) followed by a body, a `set!` that is not a symbol and a
form, and a `define` that is neither a symbol and a form nor a non-empty list
of symbols and a body.  A `lambda` raises when it has fewer than two operands,
when its first operand is not a list, or when a parameter is not resolved to a
variable: literals and `()` are not, symbols are.  But the parameter `(+ x)`,
which is no symbol, is resolved to the variable `x`: `(lambda ((+ x)) x)` is
accepted as `(lambda (x) x)`, and applied to 5 it returns 5, while the same
parameter in `(define (f (+ x)) x)` raises "Invalid parameter in function
definition". -/
theorem C34_malformed_special_forms (T : Tables) :
    (∀ op args env σ, reservedHead T op .E_QUOTE env σ → args.length ≠ 1 →
      resolutionRaises T (callForm op args) env σ) ∧
    (∀ op args env σ, reservedHead T op .E_IF env σ → args.length ≠ 3 →
      resolutionRaises T (callForm op args) env σ) ∧
    (∀ op args env σ, reservedHead T op .E_COND env σ → ¬ condShape args →
      resolutionRaises T (callForm op args) env σ) ∧
    (∀ op args env σ, reservedHead T op .E_LAMBDA env σ → ¬ lambdaShape T args →
      resolutionRaises T (callForm op args) env σ) ∧
    (∀ s, isSymbol s → resolvesToVar T s) ∧
    (∀ s, isLiteral s → ¬ resolvesToVar T s) ∧
    (∀ op args env σ, reservedHead T op .E_LET env σ → ¬ letShape args →
      resolutionRaises T (callForm op args) env σ) ∧
    (∀ op args env σ, reservedHead T op .E_LETREC env σ → ¬ letrecShape args →
      resolutionRaises T (callForm op args) env σ) ∧
    (∀ op args env σ, reservedHead T op .E_SET env σ → ¬ setShape args →
      resolutionRaises T (callForm op args) env σ) ∧
    (∀ op args env σ, reservedHead T op .E_DEFINE env σ → ¬ defineShape args →
      resolutionRaises T (callForm op args) env σ) ∧
    ¬ isSymbol (.List [.SymbolSyntax "+", .SymbolSyntax "x"]) ∧
    parse stdTables 3 lambdaWithSumParameter [] Store.init =
      .ok (.Lambda ["x"] (.Var "x")) oneParameterStore ∧
    (resolveAndEval stdTables 4 callLambdaWithSumParameter [] Store.init).content =
      some (.Integer 5) ∧
    parse stdTables 3 defineWithSumParameter [] Store.init =
      .error "Invalid parameter in function definition" Store.init ∧
    parse stdTables 3 (callForm "lambda" [.List [.Number 5], .SymbolSyntax "x"]) []
      Store.init = .error "Invalid input of variable" Store.init ∧
    parse stdTables 3 (callForm "lambda" [.SymbolSyntax "x", .SymbolSyntax "x"]) []
      Store.init = .error "Invalid lambda parameter list" Store.init ∧
    parse stdTables 3 (callForm "lambda" [.List [.SymbolSyntax "x"]]) []
      Store.init = .error "wrong parameter number for lambda" Store.init ∧
    parse stdTables 3 (callForm "quote" []) [] Store.init =
      .error "wrong parameter number for quote" Store.init ∧
    parse stdTables 3 (callForm "if" [.Number 1, .Number 2]) [] Store.init =
      .error "wrong parameter number for if" Store.init ∧
    parse stdTables 3 (callForm "cond" []) [] Store.init =
      .error "wrong parameter number for cond" Store.init ∧
    parse stdTables 3 (callForm "cond" [.List [.TrueSyntax, .Number 1], .List []]) []
      Store.init = .error "Invalid cond clause" Store.init ∧
    parse stdTables 3 (callForm "let" [.List [.List [.Number 5, .Number 1]],
      .SymbolSyntax "x"]) [] Store.init = .error "Invalid input of identifier" Store.init ∧
    parse stdTables 3 (callForm "letrec" [.List [.List [.SymbolSyntax "x"]],
      .SymbolSyntax "x"]) [] Store.init = .error "Invalid letrec binding" Store.init ∧
    parse stdTables 3 (callForm "set!" [.Number 5, .Number 1]) [] Store.init =
      .error "Invalid set! syntax" Store.init ∧
    parse stdTables 3 (callForm "define" [.SymbolSyntax "x"]) [] Store.init =
      .error "wrong parameter number for define" Store.init ∧
    parse stdTables 3 (callForm "define" [.Number 5, .Number 1]) [] Store.init =
      .error "Invalid define variable" Store.init :=
  ⟨fun op args env σ h hw => raises_of_inversion T _ env σ _
      (fun fuel x σ1 hp => parse_quote_ok T fuel op args env σ x σ1 h hp) hw,
    fun op args env σ h hw => raises_of_inversion T _ env σ _
      (fun fuel x σ1 hp => parse_if_ok T fuel op args env σ x σ1 h hp) hw,
    fun op args env σ h hw => raises_of_inversion T _ env σ _
      (fun fuel x σ1 hp => parse_cond_ok T fuel op args env σ x σ1 h hp) hw,
    fun op args env σ h hw => raises_of_inversion T _ env σ _
      (fun fuel x σ1 hp => parse_lambda_ok T fuel op args env σ x σ1 h hp) hw,
    fun s h => symbol_resolvesToVar T s h,
    fun s h => literal_not_var T s h,
    fun op args env σ h hw => raises_of_inversion T _ env σ _
      (fun fuel x σ1 hp => parse_let_ok T fuel op args env σ x σ1 h hp) hw,
    fun op args env σ h hw => raises_of_inversion T _ env σ _
      (fun fuel x σ1 hp => parse_letrec_ok T fuel op args env σ x σ1 h hp) hw,
    fun op args env σ h hw => raises_of_inversion T _ env σ _
      (fun fuel x σ1 hp => parse_set_ok T fuel op args env σ x σ1 h hp) hw,
    fun op args env σ h hw => raises_of_inversion T _ env σ _
      (fun fuel x σ1 hp => parse_define_ok T fuel op args env σ x σ1 h hp) hw,
    (fun h => by obtain ⟨x, hx⟩ := h; cases hx),
    rfl, rfl, rfl, rfl, rfl, rfl, rfl, rfl, rfl, rfl, rfl, rfl, rfl, rfl, rfl⟩

/-! ### The last operand of and (C35) -/

/-- C35: when the operands before the last evaluate, in order, to objects other
than `#f`, and so does the last, `AndVar::eval` evaluates the last operand once
more, from the state that its first evaluation left, and returns what that
second evaluation returns.  In `(and (set! x (+ x 1)))` with `x` bound to 0 the
assignment runs twice and `x` is 2 afterwards; `(and (begin (set! x (+ x 1))
x))` returns 2; `(and (display 1))` writes the number twice. -/
theorem C35_and_evaluates_last_twice (T : Tables) (fuel : Nat) :
    (∀ pre last e σ e1 σ1 v e2 σ2 c,
      evalsAll (eval T fuel) isTrueObject pre e (σ.alloc (.Boolean true)).2 e1 σ1 →
      eval T fuel last e1 σ1 = .ok v e2 σ2 → σ2.deref v = some c → isTrueObject c →
      eval T (fuel + 1) (.AndVar (pre ++ [last])) e σ = eval T fuel last e2 σ2) ∧
    (resolveAndEval stdTables 8 (andTwiceForm incrementForm) [] Store.init).content =
      some (.Integer 2) ∧
    (resolveAndEval stdTables 8 (.List [.SymbolSyntax "and",
      .List [.SymbolSyntax "display", .Number 1]]) [] Store.init).output =
      [.text "Found primitive: display\n", .shown 2,
        .text "Found primitive: display\n", .shown 5] ∧
    (resolveAndEval stdTables 9 (.List [.List [.SymbolSyntax "lambda",
      .List [.SymbolSyntax "x"],
      .List [.SymbolSyntax "and", .List [.SymbolSyntax "begin", incrementForm,
        .SymbolSyntax "x"]]], .Number 0]) [] Store.init).content = some (.Integer 2) := by
  refine ⟨?_, rfl, rfl, rfl⟩
  intro pre last e σ e1 σ1 v e2 σ2 c h hx hd hc
  have hall : evalsAll (eval T fuel) isTrueObject (pre ++ [last]) e
      (σ.alloc (.Boolean true)).2 e2 σ2 :=
    evalsAll_append _ _ pre [last] e _ e1 σ1 e2 σ2 h ⟨v, e2, σ2, c, hx, hd, hc, rfl, rfl⟩
  exact eval_AndVar_some T fuel pre last e σ e2 σ2
    (AndVar_scan_all_true (eval T fuel) _ e _ e2 σ2 hall)

/-! ### Binary and n-ary arithmetic (C36) -/

theorem foldArgs_single (f : ValueBase → ValueBase → Res) (a b : ValueBase) :
    foldArgs f a [b] = f a b := by
  simp only [foldArgs]
  cases f a b <;> rfl

theorem Binary_eq_Variadic_pair (bop : BinaryOp) (vop : VariadicOp)
    (f : ValueBase → ValueBase → Res) (g : List ValueBase → Res)
    (hb : ∀ r1 r2 e σ c1 c2, σ.deref r1 = some c1 → σ.deref r2 = some c2 →
      Binary.evalRator bop r1 r2 e σ = returnRes (f c1 c2) e σ)
    (hv : ∀ r1 r2 e σ c1 c2, σ.deref r1 = some c1 → σ.deref r2 = some c2 →
      Variadic.evalRator vop [r1, r2] e σ = returnRes (g [c1, c2]) e σ)
    (hfg : ∀ c1 c2, f c1 c2 = g [c1, c2])
    (hbf : ∀ r1 r2 e σ, (σ.deref r1 = none ∨ σ.deref r2 = none) →
      Binary.evalRator bop r1 r2 e σ = .fault)
    (hvf : ∀ r1 r2 e σ, (σ.deref r1 = none ∨ σ.deref r2 = none) →
      Variadic.evalRator vop [r1, r2] e σ = .fault)
    (r1 r2 : Value) (e : Assoc) (σ : Store) :
    Binary.evalRator bop r1 r2 e σ = Variadic.evalRator vop [r1, r2] e σ := by
  cases h1 : σ.deref r1 with
  | none => rw [hbf r1 r2 e σ (Or.inl h1), hvf r1 r2 e σ (Or.inl h1)]
  | some c1 =>
    cases h2 : σ.deref r2 with
    | none => rw [hbf r1 r2 e σ (Or.inr h2), hvf r1 r2 e σ (Or.inr h2)]
    | some c2 => rw [hb r1 r2 e σ c1 c2 h1 h2, hv r1 r2 e σ c1 c2 h1 h2, hfg]

theorem Binary_fault (bop : BinaryOp) (r1 r2 : Value) (e : Assoc) (σ : Store)
    (h : σ.deref r1 = none ∨ σ.deref r2 = none) : Binary.evalRator bop r1 r2 e σ = .fault := by
  unfold Binary.evalRator
  rcases h with h | h
  · rw [h]
  · rw [h]; cases σ.deref r1 <;> rfl

theorem derefAll_pair (σ : Store) (r1 r2 : Value) (c1 c2 : ValueBase)
    (h1 : σ.deref r1 = some c1) (h2 : σ.deref r2 = some c2) :
    derefAll σ [r1, r2] = some [c1, c2] := by
  simp [derefAll, h1, h2]

theorem derefAll_pair_none (σ : Store) (r1 r2 : Value)
    (h : σ.deref r1 = none ∨ σ.deref r2 = none) : derefAll σ [r1, r2] = none := by
  rcases h with h | h
  · simp [derefAll, h]
  · cases h1 : σ.deref r1 <;> simp [derefAll, h, h1]

theorem Variadic_fault (vop : VariadicOp) (r1 r2 : Value) (e : Assoc) (σ : Store)
    (h : σ.deref r1 = none ∨ σ.deref r2 = none) :
    Variadic.evalRator vop [r1, r2] e σ = .fault := by
  simp only [Variadic.evalRator, derefAll_pair_none σ r1 r2 h]

/-- C36: on two operands each fixed arithmetic node and its n-ary counterpart
give the same result, value or error with its message: on the objects,
`Plus`/`PlusVar`, `Minus`/`MinusVar`, `Mult`/`MultVar` and `Div`/`DivVar`
agree, and on the references the two `evalRator`s return the same outcome in
every store.  `MinusVar` on one operand is `Minus` of the `Integer` 0 and the
operand, and `DivVar` on one operand is `Div` of the `Integer` 1 and the
operand.  `(- 5)` evaluates to -5 and `(/ 2)` to 1/2. -/
theorem C36_binary_agrees_with_variadic :
    (∀ a b, Plus.evalRator a b = PlusVar.evalRator [a, b]) ∧
    (∀ a b, Minus.evalRator a b = MinusVar.evalRator [a, b]) ∧
    (∀ a b, Mult.evalRator a b = MultVar.evalRator [a, b]) ∧
    (∀ a b, Div.evalRator a b = DivVar.evalRator [a, b]) ∧
    (∀ r1 r2 e σ,
      Binary.evalRator .Plus r1 r2 e σ = Variadic.evalRator .PlusVar [r1, r2] e σ ∧
      Binary.evalRator .Minus r1 r2 e σ = Variadic.evalRator .MinusVar [r1, r2] e σ ∧
      Binary.evalRator .Mult r1 r2 e σ = Variadic.evalRator .MultVar [r1, r2] e σ ∧
      Binary.evalRator .Div r1 r2 e σ = Variadic.evalRator .DivVar [r1, r2] e σ) ∧
    (∀ x, MinusVar.evalRator [x] = Minus.evalRator (.Integer 0) x) ∧
    (∀ x, DivVar.evalRator [x] = Div.evalRator (.Integer 1) x) ∧
    (∀ r e σ c, σ.deref r = some c →
      Variadic.evalRator .MinusVar [r] e σ = returnRes (Minus.evalRator (.Integer 0) c) e σ ∧
      Variadic.evalRator .DivVar [r] e σ = returnRes (Div.evalRator (.Integer 1) c) e σ) ∧
    (resolveAndEval stdTables 3 (callForm "-" [.Number 5]) [] Store.init).content =
      some (.Integer (-5)) ∧
    (resolveAndEval stdTables 3 (callForm "/" [.Number 2]) [] Store.init).content =
      some (.Rational 1 2) := by
  have hP : ∀ a b, Plus.evalRator a b = PlusVar.evalRator [a, b] := fun a b => by
    simp only [PlusVar.evalRator, foldArgs_single, add_eq_Plus]
  have hM : ∀ a b, Minus.evalRator a b = MinusVar.evalRator [a, b] := fun a b => by
    simp only [MinusVar.evalRator, foldArgs_single, minu_eq_Minus]
  have hT : ∀ a b, Mult.evalRator a b = MultVar.evalRator [a, b] := fun a b => by
    simp only [MultVar.evalRator, foldArgs_single, multiply_eq_Mult]
  have hD : ∀ a b, Div.evalRator a b = DivVar.evalRator [a, b] := fun a b => by
    simp only [DivVar.evalRator, foldArgs_single, divide_eq_Div]
  refine ⟨hP, hM, hT, hD, ?_, fun x => by simp only [MinusVar.evalRator, minu_eq_Minus],
    fun x => by simp only [DivVar.evalRator, divide_eq_Div], ?_, rfl, rfl⟩
  · intro r1 r2 e σ
    refine ⟨?_, ?_, ?_, ?_⟩
    · exact Binary_eq_Variadic_pair .Plus .PlusVar Plus.evalRator PlusVar.evalRator
        (fun r1 r2 e σ c1 c2 h1 h2 => by simp only [Binary.evalRator, h1, h2])
        (fun r1 r2 e σ c1 c2 h1 h2 => by
          simp only [Variadic.evalRator, derefAll_pair σ r1 r2 c1 c2 h1 h2])
        hP (Binary_fault _) (Variadic_fault _) r1 r2 e σ
    · exact Binary_eq_Variadic_pair .Minus .MinusVar Minus.evalRator MinusVar.evalRator
        (fun r1 r2 e σ c1 c2 h1 h2 => by simp only [Binary.evalRator, h1, h2])
        (fun r1 r2 e σ c1 c2 h1 h2 => by
          simp only [Variadic.evalRator, derefAll_pair σ r1 r2 c1 c2 h1 h2])
        hM (Binary_fault _) (Variadic_fault _) r1 r2 e σ
    · exact Binary_eq_Variadic_pair .Mult .MultVar Mult.evalRator MultVar.evalRator
        (fun r1 r2 e σ c1 c2 h1 h2 => by simp only [Binary.evalRator, h1, h2])
        (fun r1 r2 e σ c1 c2 h1 h2 => by
          simp only [Variadic.evalRator, derefAll_pair σ r1 r2 c1 c2 h1 h2])
        hT (Binary_fault _) (Variadic_fault _) r1 r2 e σ
    · exact Binary_eq_Variadic_pair .Div .DivVar Div.evalRator DivVar.evalRator
        (fun r1 r2 e σ c1 c2 h1 h2 => by simp only [Binary.evalRator, h1, h2])
        (fun r1 r2 e σ c1 c2 h1 h2 => by
          simp only [Variadic.evalRator, derefAll_pair σ r1 r2 c1 c2 h1 h2])
        hD (Binary_fault _) (Variadic_fault _) r1 r2 e σ
  · intro r e σ c h
    have hd : derefAll σ [r] = some [c] := by simp [derefAll, h]
    refine ⟨?_, ?_⟩
    · simp only [Variadic.evalRator, hd, MinusVar.evalRator, minu_eq_Minus]
    · simp only [Variadic.evalRator, hd, DivVar.evalRator, divide_eq_Div]

/-! ### Truncated division in modulo (C37) -/

theorem tdiv_eq_truncatedQuotient (a b : Int) : a.tdiv b = truncatedQuotient a b := by
  unfold truncatedQuotient
  rcases a with m | m <;> rcases b with n | n
  · cases m <;> cases n <;> simp [Int.tdiv, Int.sign]
    rw [abs_of_nonneg (by positivity), abs_of_nonneg (by positivity)]
  · cases m <;> simp [Int.tdiv, Int.sign, Int.natAbs]
  · cases n <;> simp [Int.tdiv, Int.sign, Int.natAbs]
  · simp [Int.tdiv, Int.sign, Int.natAbs]

theorem tmod_eq_sub (a b : Int) : Int.tmod a b = a - b * truncatedQuotient a b := by
  rw [← tdiv_eq_truncatedQuotient]
  have := Int.tmod_add_tdiv a b
  omega

theorem tmod_abs_lt (a b : Int) (hb : b ≠ 0) : |Int.tmod a b| < |b| := by
  rcases a with m | m <;> rcases b with n | n <;>
    simp only [Int.tmod, Int.ofNat_eq_coe, Nat.succ_eq_add_one]
  · have hn : 0 < n := by
      rcases n with _ | n
      · exact absurd rfl hb
      · exact Nat.succ_pos _
    have := Nat.mod_lt m hn
    rw [abs_lt, abs_of_nonneg (by positivity)]
    omega
  · have := Nat.mod_lt m (show 0 < n + 1 by omega)
    have h2 : Int.negSucc n = -((n : Int) + 1) := rfl
    rw [h2, abs_lt, abs_neg, abs_of_nonneg (by positivity)]
    omega
  · have hn : 0 < n := by
      rcases n with _ | n
      · exact absurd rfl hb
      · exact Nat.succ_pos _
    have := Nat.mod_lt (m + 1) hn
    rw [abs_lt, abs_of_nonneg (by positivity)]
    omega
  · have := Nat.mod_lt (m + 1) (show 0 < n + 1 by omega)
    have h2 : Int.negSucc n = -((n : Int) + 1) := rfl
    rw [h2, abs_lt, abs_neg, abs_of_nonneg (by positivity)]
    omega

theorem tmod_sign (a b : Int) :
    Int.tmod a b = 0 ∨ (0 < Int.tmod a b ∧ 0 < a) ∨ (Int.tmod a b < 0 ∧ a < 0) := by
  rcases a with m | m <;> rcases b with n | n <;>
    simp only [Int.tmod, Int.ofNat_eq_coe, Nat.succ_eq_add_one]
  · have := Nat.mod_le m n
    omega
  · have := Nat.mod_le m (n + 1)
    omega
  · have h2 : Int.negSucc m = -((m : Int) + 1) := rfl
    rw [h2]
    omega
  · have h2 : Int.negSucc m = -((m : Int) + 1) := rfl
    rw [h2]
    omega

/-- C37: for `Integer` operands `a` and `b` within the range of `int`, with
`b` other than 0 and the pair other than `INT_MIN` with -1,
`Modulo::evalRator` returns the `Integer` `r = a - b * q`, where `q` is the
quotient of `a` by `b` truncated toward zero; `|r| < |b|`, and `r` is zero or
has the sign of `a`.  `(modulo -7 2)` is -1 and `(modulo 7 -2)` is 1. -/
theorem C37_modulo_truncated :
    (∀ a b, inInt32 a → inInt32 b → b ≠ 0 → ¬ (a = INT_MIN ∧ b = -1) →
      ∃ r, Modulo.evalRator (.Integer a) (.Integer b) = .ok (.Integer r) ∧
        r = a - b * truncatedQuotient a b ∧ |r| < |b| ∧
        (r = 0 ∨ (0 < r ∧ 0 < a) ∨ (r < 0 ∧ a < 0)) ∧ inInt32 r) ∧
    truncatedQuotient (-7) 2 = -3 ∧ truncatedQuotient 7 (-2) = -3 ∧
    (resolveAndEval stdTables 3 (moduloForm (.Number (-7)) (.Number 2)) []
      Store.init).content = some (.Integer (-1)) ∧
    (resolveAndEval stdTables 3 (moduloForm (.Number 7) (.Number (-2))) []
      Store.init).content = some (.Integer 1) := by
  refine ⟨?_, by decide, by decide, rfl, rfl⟩
  intro a b ha _ hb hne
  exact ⟨Int.tmod a b,
    by simp only [Modulo.evalRator, hb, if_false, irem_defined a b hne],
    tmod_eq_sub a b, tmod_abs_lt a b hb, tmod_sign a b, tmod_inInt32 a b ha⟩

/-! ### References to a placeholder (C38) -/

theorem handleFresh_of_cells (e : Assoc) {σ σ1 : Store}
    (h : σ.cells.length ≤ σ1.cells.length) : handleFresh e σ e σ1 :=
  ⟨⟨[], rfl, by simp⟩, h⟩

theorem handleFresh_refl (e : Assoc) (σ : Store) : handleFresh e σ e σ :=
  handleFresh_of_cells e (Nat.le_refl _)

theorem handleFresh_trans {e e1 e2 : Assoc} {σ σ1 σ2 : Store}
    (h1 : handleFresh e σ e1 σ1) (h2 : handleFresh e1 σ1 e2 σ2) : handleFresh e σ e2 σ2 := by
  obtain ⟨⟨f1, rfl, hv1⟩, hl1⟩ := h1
  obtain ⟨⟨f2, rfl, hv2⟩, hl2⟩ := h2
  refine ⟨⟨f2 ++ f1, by simp, ?_⟩, Nat.le_trans hl1 hl2⟩
  intro b hb
  rcases List.mem_append.mp hb with hb | hb
  · exact ⟨Nat.le_trans hl1 (hv2 b hb).1, (hv2 b hb).2⟩
  · exact ⟨(hv1 b hb).1, Nat.lt_of_lt_of_le (hv1 b hb).2 hl2⟩

theorem evalArgs_fresh {ev : Expr → Assoc → Store → Result}
    (hev : ∀ expr e σ v e1 σ1, ev expr e σ = .ok v e1 σ1 → handleFresh e σ e1 σ1)
    {l : List Expr} {e : Assoc} {σ : Store} {vs : List Value} {e1 : Assoc} {σ1 : Store}
    (h : evalArgs ev l e σ = .ok vs e1 σ1) : handleFresh e σ e1 σ1 := by
  induction l generalizing e σ vs with
  | nil =>
    simp only [evalArgs, Outcome.ok.injEq] at h
    obtain ⟨-, rfl, rfl⟩ := h
    exact handleFresh_refl _ _
  | cons x rest ih =>
    unfold evalArgs at h
    split at h
    · rename_i v e2 σ2 hx
      split at h
      · rename_i vs2 e3 σ3 hrest
        simp only [Outcome.ok.injEq] at h
        obtain ⟨-, rfl, rfl⟩ := h
        exact handleFresh_trans (hev _ _ _ _ _ _ hx) (ih hrest)
      all_goals cases h
    all_goals cases h

theorem evalSeq_fresh {ev : Expr → Assoc → Store → Result}
    (hev : ∀ expr e σ v e1 σ1, ev expr e σ = .ok v e1 σ1 → handleFresh e σ e1 σ1)
    {l : List Expr} {r : Value} {e : Assoc} {σ : Store} {v : Value} {e1 : Assoc} {σ1 : Store}
    (h : evalSeq ev r l e σ = .ok v e1 σ1) : handleFresh e σ e1 σ1 := by
  induction l generalizing r e σ with
  | nil =>
    simp only [evalSeq, Outcome.ok.injEq] at h
    obtain ⟨-, rfl, rfl⟩ := h
    exact handleFresh_refl _ _
  | cons x rest ih =>
    unfold evalSeq at h
    split at h
    · rename_i w e2 σ2 hx
      exact handleFresh_trans (hev _ _ _ _ _ _ hx) (ih h)
    · rename_i hne
      exact absurd h (fun hh => hne _ _ _ hh)

theorem AndVar_scan_fresh {ev : Expr → Assoc → Store → Result}
    (hev : ∀ expr e σ v e1 σ1, ev expr e σ = .ok v e1 σ1 → handleFresh e σ e1 σ1)
    {l : List Expr} {e : Assoc} {σ : Store} {r : Option Unit} {e1 : Assoc} {σ1 : Store}
    (h : AndVar.scan ev l e σ = .ok r e1 σ1) : handleFresh e σ e1 σ1 := by
  induction l generalizing e σ with
  | nil =>
    simp only [AndVar.scan, Outcome.ok.injEq] at h
    obtain ⟨-, rfl, rfl⟩ := h
    exact handleFresh_refl _ _
  | cons x rest ih =>
    unfold AndVar.scan at h
    split at h
    · rename_i w e2 σ2 hx
      split at h
      · cases h
      · split at h
        · exact handleFresh_trans (hev _ _ _ _ _ _ hx) (ih h)
        · simp only [Outcome.ok.injEq] at h
          obtain ⟨-, rfl, rfl⟩ := h
          exact hev _ _ _ _ _ _ hx
    all_goals cases h

theorem OrVar_scan_fresh {ev : Expr → Assoc → Store → Result}
    (hev : ∀ expr e σ v e1 σ1, ev expr e σ = .ok v e1 σ1 → handleFresh e σ e1 σ1)
    {l : List Expr} {e : Assoc} {σ : Store} {r : Option Value} {e1 : Assoc} {σ1 : Store}
    (h : OrVar.scan ev l e σ = .ok r e1 σ1) : handleFresh e σ e1 σ1 := by
  induction l generalizing e σ with
  | nil =>
    simp only [OrVar.scan, Outcome.ok.injEq] at h
    obtain ⟨-, rfl, rfl⟩ := h
    exact handleFresh_refl _ _
  | cons x rest ih =>
    unfold OrVar.scan at h
    split at h
    · rename_i w e2 σ2 hx
      split at h
      · cases h
      · split at h
        · simp only [Outcome.ok.injEq] at h
          obtain ⟨-, rfl, rfl⟩ := h
          exact hev _ _ _ _ _ _ hx
        · exact handleFresh_trans (hev _ _ _ _ _ _ hx) (ih h)
    all_goals cases h

theorem handleFresh_alloc {e e1 : Assoc} {σ σ1 : Store} (c : ValueBase)
    (h : handleFresh e (σ.alloc c).2 e1 σ1) : handleFresh e σ e1 σ1 := h

theorem returnNew_fresh {c : ValueBase} {e : Assoc} {σ : Store} {v : Value} {e1 : Assoc}
    {σ1 : Store} (h : returnNew c e σ = .ok v e1 σ1) : handleFresh e σ e1 σ1 := by
  obtain ⟨rfl, hc⟩ := returnNew_ok h
  exact handleFresh_of_cells _ (by rw [hc])

theorem Cond_evalBody_fresh {ev : Expr → Assoc → Store → Result}
    (hev : ∀ expr e σ v e1 σ1, ev expr e σ = .ok v e1 σ1 → handleFresh e σ e1 σ1)
    {body : List Expr} {e : Assoc} {σ : Store} {v : Value} {e1 : Assoc} {σ1 : Store}
    (h : Cond.evalBody ev body e σ = .ok v e1 σ1) : handleFresh e σ e1 σ1 :=
  handleFresh_alloc _ (evalSeq_fresh hev h)

theorem Cond_evalClauses_fresh {ev : Expr → Assoc → Store → Result}
    (hev : ∀ expr e σ v e1 σ1, ev expr e σ = .ok v e1 σ1 → handleFresh e σ e1 σ1)
    {l : List (List Expr)} {e : Assoc} {σ : Store} {v : Value} {e1 : Assoc} {σ1 : Store}
    (h : Cond.evalClauses ev l e σ = .ok v e1 σ1) : handleFresh e σ e1 σ1 := by
  induction l generalizing e σ with
  | nil => exact returnNew_fresh h
  | cons cl rest ih =>
    cases cl with
    | nil =>
      simp only [Cond.evalClauses] at h
      exact ih h
    | cons test body =>
      cases test <;> simp only [Cond.evalClauses] at h <;> (repeat' split at h)
      all_goals first
        | exact returnNew_fresh h
        | exact ih h
        | exact Cond_evalBody_fresh hev h
        | (cases h; done)
        | (cases h; exact hev _ _ _ _ _ _ ‹_›)
        | (exfalso; rename_i hne; exact hne _ _ _ h)
        | exact hev _ _ _ _ _ _ ‹_›
        | exact handleFresh_trans (hev _ _ _ _ _ _ ‹_›) (Cond_evalBody_fresh hev h)
        | exact handleFresh_trans (hev _ _ _ _ _ _ ‹_›) (ih h)

theorem handleFresh_of_same {e e1 : Assoc} {σ σ1 : Store}
    (h : e1 = e ∧ σ1.cells = σ.cells) : handleFresh e σ e1 σ1 := by
  obtain ⟨rfl, hc⟩ := h
  exact handleFresh_of_cells _ (by rw [hc])

theorem evalAndPatch_fresh {ev : Expr → Assoc → Store → Result}
    (hev : ∀ expr e σ v e1 σ1, ev expr e σ = .ok v e1 σ1 → handleFresh e σ e1 σ1)
    {l : List (String × Expr)} {e : Assoc} {σ : Store} {u : Unit} {e1 : Assoc} {σ1 : Store}
    (h : evalAndPatch ev l e σ = .ok u e1 σ1) : handleFresh e σ e1 σ1 := by
  induction l generalizing e σ with
  | nil =>
    simp only [evalAndPatch, Outcome.ok.injEq] at h
    obtain ⟨-, rfl, rfl⟩ := h
    exact handleFresh_refl _ _
  | cons b rest ih =>
    obtain ⟨x, init⟩ := b
    unfold evalAndPatch at h
    split at h
    · rename_i w e2 σ2 hx
      have h1 := hev _ _ _ _ _ _ hx
      have h2 := ih h
      have h3 : handleFresh e2 σ2 e2 (modify x w e2 σ2) :=
        handleFresh_of_cells _ (by rw [modify_cells_length])
      exact handleFresh_trans h1 (handleFresh_trans h3 h2)
    all_goals cases h

/-- An evaluation that returns leaves the caller's handle with more frames in
front at most, all with allocated binding cells, and removes no binding cell. -/
theorem eval_handleFresh (T : Tables) (fuel : Nat) :
    ∀ expr e σ v e1 σ1, eval T fuel expr e σ = .ok v e1 σ1 → handleFresh e σ e1 σ1 := by
  induction fuel with
  | zero =>
    intro expr e σ v e1 σ1 h
    simp [eval] at h
  | succ fuel ih =>
    intro expr e σ v e1 σ1 h
    cases expr <;> simp only [eval] at h
    case Fixnum => exact returnNew_fresh h
    case RationalNum => exact returnNew_fresh h
    case StringExpr => exact returnNew_fresh h
    case True => exact returnNew_fresh h
    case False => exact returnNew_fresh h
    case MakeVoid => exact returnNew_fresh h
    case Exit => exact returnNew_fresh h
    case Lambda => exact returnNew_fresh h
    case Var => exact handleFresh_of_same (Var_eval_ok h)
    case Cond => exact Cond_evalClauses_fresh ih h
    case Unary op rand =>
      split at h
      · rename_i w e2 σ2 hx
        exact handleFresh_trans (ih _ _ _ _ _ _ hx) (handleFresh_of_same (Unary_evalRator_ok h))
      · rename_i hne
        exact absurd h (fun hh => hne _ _ _ hh)
    case Binary op rand1 rand2 =>
      split at h
      · rename_i w1 e2 σ2 hx1
        split at h
        · rename_i w2 e3 σ3 hx2
          exact handleFresh_trans (ih _ _ _ _ _ _ hx1) (handleFresh_trans (ih _ _ _ _ _ _ hx2)
            (handleFresh_of_same (Binary_evalRator_ok h)))
        · rename_i hne
          exact absurd h (fun hh => hne _ _ _ hh)
      · rename_i hne
        exact absurd h (fun hh => hne _ _ _ hh)
    case Variadic op rands =>
      split at h
      · rename_i ws e2 σ2 hx
        exact handleFresh_trans (evalArgs_fresh ih hx)
          (handleFresh_of_same (Variadic_evalRator_ok h))
      all_goals cases h
    case AndVar rands =>
      split at h
      · exact returnNew_fresh h
      · split at h
        · rename_i e2 σ2 hs
          exact handleFresh_trans (handleFresh_alloc _ (AndVar_scan_fresh ih hs))
            (returnNew_fresh h)
        · rename_i u e2 σ2 hs
          split at h
          · exact handleFresh_trans (handleFresh_alloc _ (AndVar_scan_fresh ih hs))
              (ih _ _ _ _ _ _ h)
          · cases h
        all_goals cases h
    case OrVar rands =>
      split at h
      · exact returnNew_fresh h
      · split at h
        · rename_i r e2 σ2 hs
          simp only [Outcome.ok.injEq] at h
          obtain ⟨-, rfl, rfl⟩ := h
          exact OrVar_scan_fresh ih hs
        · rename_i e2 σ2 hs
          exact handleFresh_trans (OrVar_scan_fresh ih hs) (returnNew_fresh h)
        all_goals cases h
    case Quote s =>
      obtain ⟨rfl, e2, hq⟩ := withEnv_ok h
      exact handleFresh_of_cells _ (by rw [syntaxToValue_cells hq])
    case If cond conseq alter =>
      split at h
      · rename_i w e2 σ2 hc
        split at h
        · cases h
        · split at h
          · exact handleFresh_trans (ih _ _ _ _ _ _ hc) (ih _ _ _ _ _ _ h)
          · exact handleFresh_trans (ih _ _ _ _ _ _ hc) (ih _ _ _ _ _ _ h)
      · rename_i hne
        exact absurd h (fun hh => hne _ _ _ hh)
    case Apply rator rand =>
      split at h
      · rename_i p e2 σ2 hr
        split at h
        · cases h
        · rename_i ps body env hd
          split at h
          · rename_i args e3 σ3 ha
            split at h
            · cases h
            · obtain ⟨rfl, e4, hb⟩ := withEnv_ok h
              have h1 := handleFresh_trans (ih _ _ _ _ _ _ hr) (evalArgs_fresh ih ha)
              have h2 := (ih _ _ _ _ _ _ hb).2
              have h3 := extendValues_cells_length ps args env σ3
              exact handleFresh_trans h1 (handleFresh_of_cells _ (Nat.le_trans h3 h2))
          all_goals cases h
        · cases h
      · rename_i hne
        exact absurd h (fun hh => hne _ _ _ hh)
    case Define var init =>
      split at h
      · cases h
      · split at h
        · rename_i w e2 σ2 hi
          obtain ⟨rfl, hc⟩ := returnNew_ok h
          obtain ⟨⟨frames, rfl, hv⟩, hl⟩ := ih _ _ _ _ _ _ hi
          have hlen : σ1.cells.length = σ2.cells.length := by
            rw [hc, modify_cells_length]
          simp only [extend, List.length_append, List.length_singleton] at hl
          refine ⟨⟨frames ++ [(var, σ.cells.length)], by simp [extend], ?_⟩, by omega⟩
          intro b hb
          rcases List.mem_append.mp hb with hb | hb
          · have hb2 := hv b hb
            simp only [extend, List.length_append, List.length_singleton] at hb2
            omega
          · simp only [List.mem_singleton] at hb
            subst hb
            simp only
            omega
        · rename_i hne
          exact absurd h (fun hh => hne _ _ _ hh)
    case Let bind body =>
      split at h
      · rename_i values e2 σ2 hb
        obtain ⟨rfl, e4, hbody⟩ := withEnv_ok h
        rw [evalBindings_eq_evalArgs] at hb
        have h1 := evalArgs_fresh ih hb
        have h2 := (ih _ _ _ _ _ _ hbody).2
        have h3 := extendValues_cells_length (bind.map Prod.fst) values e1 σ2
        exact handleFresh_trans h1 (handleFresh_of_cells _ (Nat.le_trans h3 h2))
      all_goals cases h
    case Letrec bind body =>
      split at h
      · rename_i values e2 σ2 hb
        obtain ⟨rfl, e4, hbody⟩ := withEnv_ok h
        rw [evalBindings_eq_evalArgs] at hb
        have h1 := (evalArgs_fresh ih hb).2
        have h2 := (ih _ _ _ _ _ _ hbody).2
        rw [modifyAll_cells_length] at h2
        have h3 := extendAll_cells_length nullPlaceholder (fun _ => Nat.le_refl _)
          (bind.map Prod.fst) e1 σ
        exact handleFresh_of_cells _ (Nat.le_trans h3 (Nat.le_trans h1 h2))
      all_goals cases h
    case Set var init =>
      split at h
      · rename_i w e2 σ2 hi
        split at h
        · cases h
        · obtain ⟨rfl, hc⟩ := returnNew_ok h
          have h1 := ih _ _ _ _ _ _ hi
          exact handleFresh_trans h1 (handleFresh_of_cells _ (by
            rw [hc, modify_cells_length]))
      · rename_i hne
        exact absurd h (fun hh => hne _ _ _ hh)
    case Begin es =>
      have hvoid : ∀ σ : Store, σ.cells.length ≤ (voidPlaceholder σ).2.cells.length :=
        fun _ => Nat.le_refl _
      split at h
      · exact returnNew_fresh h
      · rename_i first others
        split at h
        · split at h
          · rename_i r e2 σ2 hf
            exact handleFresh_trans (ih _ _ _ _ _ _ hf) (evalSeq_fresh ih h)
          · rename_i hne
            exact absurd h (fun hh => hne _ _ _ hh)
        · rename_i pr defs remaining hne hld
          split at h
          · rename_i u new_env σ2 hp
            have h1 := extendAll_cells_length voidPlaceholder hvoid (defs.map Prod.fst) e σ
            have h2 := (evalAndPatch_fresh ih hp).2
            split at h
            · obtain ⟨rfl, hc⟩ := returnNew_ok h
              exact handleFresh_of_cells _ (by rw [hc]; exact Nat.le_trans h1 h2)
            · rename_i next more
              split at h
              · rename_i r env2 σ3 hn
                obtain ⟨rfl, e4, hs⟩ := withEnv_ok h
                have h3 := (ih _ _ _ _ _ _ hn).2
                have h4 := (evalSeq_fresh ih hs).2
                exact handleFresh_of_cells _
                  (Nat.le_trans h1 (Nat.le_trans h2 (Nat.le_trans h3 h4)))
              · rename_i hne
                obtain ⟨rfl, e4, hs⟩ := withEnv_ok h
                exact absurd hs (fun hh => hne _ _ _ hh)
          all_goals cases h

theorem cellsKept_refl (n : Nat) (σ : Store) : cellsKept n σ σ := fun _ _ => rfl

theorem cellsKept_trans {n : Nat} {σ σ1 σ2 : Store} (h1 : cellsKept n σ σ1)
    (h2 : cellsKept n σ1 σ2) : cellsKept n σ σ2 :=
  fun c hc => (h2 c hc).trans (h1 c hc)

theorem cellsKept_of_cells {n : Nat} {σ σ1 : Store} (h : σ1.cells = σ.cells) :
    cellsKept n σ σ1 := fun c _ => by rw [h]

theorem find_cellsKept (x : String) (e : Assoc) (n : Nat) (σ σ1 : Store)
    (he : ∀ b ∈ e, b.2 < n) (h : cellsKept n σ σ1) : find x e σ1 = find x e σ := by
  induction e with
  | nil => rfl
  | cons b rest ih =>
    obtain ⟨y, c⟩ := b
    simp only [find]
    split
    · rw [h c (he (y, c) (List.mem_cons_self _ _))]
    · exact ih (fun b hb => he b (List.mem_cons_of_mem _ hb))

theorem modify_cellsKept (x : String) (v : Value) (frames : List (String × Nat)) (e : Assoc)
    (n : Nat) (σ : Store) (hf : ∀ b ∈ frames, n ≤ b.2) (hx : x ∈ frames.map Prod.fst) :
    cellsKept n σ (modify x v (frames ++ e) σ) := by
  induction frames with
  | nil => cases hx
  | cons b rest ih =>
    obtain ⟨y, c⟩ := b
    have hcl : n ≤ c := hf (y, c) (List.mem_cons_self _ _)
    by_cases hxy : x = y
    · intro k hk
      simp only [List.cons_append, modify, hxy, if_true]
      rw [List.getElem?_set_ne (by omega)]
    · simp only [List.cons_append, modify, hxy, if_false]
      refine ih (fun b hb => hf b (List.mem_cons_of_mem _ hb)) ?_
      simp only [List.map_cons, List.mem_cons] at hx
      rcases hx with hx | hx
      · exact absurd hx hxy
      · exact hx

theorem extendAll_fresh (names : List String) (e : Assoc) (σ : Store) :
    ∃ frames, (extendAll voidPlaceholder names e σ).1 = frames ++ e ∧
      frames.map Prod.fst = names.reverse ∧
      (∀ b ∈ frames, σ.cells.length ≤ b.2 ∧
        b.2 < (extendAll voidPlaceholder names e σ).2.cells.length) ∧
      σ.cells.length ≤ (extendAll voidPlaceholder names e σ).2.cells.length ∧
      cellsKept σ.cells.length σ (extendAll voidPlaceholder names e σ).2 := by
  induction names generalizing e σ with
  | nil => exact ⟨[], rfl, rfl, fun b hb => (by cases hb), le_refl _, cellsKept_refl _ _⟩
  | cons x rest ih =>
    obtain ⟨frames, h1, h2, h3, h4, h5⟩ :=
      ih (extend x (voidPlaceholder σ).1 e (voidPlaceholder σ).2).1
        (extend x (voidPlaceholder σ).1 e (voidPlaceholder σ).2).2
    have hlen : (extend x (voidPlaceholder σ).1 e (voidPlaceholder σ).2).2.cells.length =
        σ.cells.length + 1 := by
      simp [extend, voidPlaceholder, Store.alloc]
    refine ⟨frames ++ [(x, σ.cells.length)], ?_, ?_, ?_, ?_, ?_⟩
    · simp only [extendAll, h1, List.append_assoc]
      simp [extend, voidPlaceholder, Store.alloc]
    · simp [h2]
    · intro b hb
      rcases List.mem_append.mp hb with hb | hb
      · have hb2 := h3 b hb
        simp only [extendAll]
        omega
      · simp only [List.mem_singleton] at hb
        subst hb
        simp only [extendAll]
        omega
    · simp only [extendAll]
      omega
    · intro c hc
      simp only [extendAll]
      rw [h5 c (by omega)]
      simp only [extend, voidPlaceholder, Store.alloc]
      rw [List.getElem?_append_left hc]

theorem evalSeq_keeps {ev : Expr → Assoc → Store → Result} {n : Nat} {l : List Expr}
    (hk : ∀ x ∈ l, keepsCells ev n x) {w : Value} {e : Assoc} {σ : Store} {v : Value}
    {e1 : Assoc} {σ1 : Store} (h : evalSeq ev w l e σ = .ok v e1 σ1) : cellsKept n σ σ1 := by
  induction l generalizing w e σ with
  | nil =>
    simp only [evalSeq, Outcome.ok.injEq] at h
    obtain ⟨-, -, rfl⟩ := h
    exact cellsKept_refl _ _
  | cons x rest ih =>
    simp only [evalSeq] at h
    split at h
    · rename_i w2 e2 σ2 hx
      exact cellsKept_trans (hk x (List.mem_cons_self _ _) _ _ _ _ _ hx)
        (ih (fun y hy => hk y (List.mem_cons_of_mem _ hy)) h)
    · rename_i hne
      exact absurd h (fun hh => hne _ _ _ hh)

theorem evalAndPatch_keeps {ev : Expr → Assoc → Store → Result}
    (hev : ∀ expr e σ v e1 σ1, ev expr e σ = .ok v e1 σ1 → handleFresh e σ e1 σ1)
    {n : Nat} {defs : List (String × Expr)} {e0 : Assoc} (frames : List (String × Nat))
    {σ : Store} {u : Unit} {e1 : Assoc} {σ1 : Store} (hn : n ≤ σ.cells.length)
    (hf : ∀ b ∈ frames, n ≤ b.2) (hx : ∀ p ∈ defs, p.1 ∈ frames.map Prod.fst)
    (hk : ∀ p ∈ defs, keepsCells ev n p.2)
    (h : evalAndPatch ev defs (frames ++ e0) σ = .ok u e1 σ1) : cellsKept n σ σ1 := by
  induction defs generalizing frames σ with
  | nil =>
    simp only [evalAndPatch, Outcome.ok.injEq] at h
    obtain ⟨-, -, rfl⟩ := h
    exact cellsKept_refl _ _
  | cons p rest ih =>
    obtain ⟨x, init⟩ := p
    unfold evalAndPatch at h
    split at h
    · rename_i w e2 σ2 hi
      obtain ⟨⟨f2, rfl, hv⟩, hl⟩ := hev _ _ _ _ _ _ hi
      have hf2 : ∀ b ∈ f2 ++ frames, n ≤ b.2 := by
        intro b hb
        rcases List.mem_append.mp hb with hb | hb
        · exact Nat.le_trans hn (hv b hb).1
        · exact hf b hb
      have hx2 : x ∈ (f2 ++ frames).map Prod.fst := by
        rw [List.map_append]
        exact List.mem_append_right _ (hx (x, init) (List.mem_cons_self _ _))
      rw [← List.append_assoc] at h
      have h1 := hk (x, init) (List.mem_cons_self _ _) _ _ _ _ _ hi
      have h2 := modify_cellsKept x w (f2 ++ frames) e0 n σ2 hf2 hx2
      have h3 := ih (f2 ++ frames)
        (by rw [modify_cells_length]; exact Nat.le_trans hn hl) hf2
        (fun p hp => by
          rw [List.map_append]
          exact List.mem_append_right _ (hx p (List.mem_cons_of_mem _ hp)))
        (fun p hp => hk p (List.mem_cons_of_mem _ hp)) h
      exact cellsKept_trans h1 (cellsKept_trans h2 h3)
    all_goals cases h

theorem handle_withEnv {α : Type} (r : Outcome α) (e : Assoc) :
    ∀ e1 ∈ (r.withEnv e).handle, e1 = e := by
  intro e1 h
  cases r <;> simp [Outcome.withEnv, Outcome.handle] at h <;> exact h.symm

theorem Begin_eval_handle (T : Tables) (fuel : Nat) (es : List Expr) (e : Assoc) (σ : Store)
    (h : (Begin.leadingDefines es).1 ≠ []) :
    ∀ e1 ∈ (eval T (fuel + 1) (.Begin es) e σ).handle, e1 = e := by
  cases es with
  | nil => exact absurd rfl h
  | cons first others =>
    rcases hl : Begin.leadingDefines (first :: others) with ⟨defs, remaining⟩
    rw [hl] at h
    cases defs with
    | nil => exact absurd rfl h
    | cons p defs =>
      simp only [eval, hl]
      repeat' split
      all_goals first
        | exact handle_withEnv _ _
        | (intro e1 h1; simp only [returnNew, Outcome.handle, Option.mem_def, Option.some.injEq] at h1; exact h1.symm)
        | (intro e1 h1; simp [Outcome.handle] at h1)

theorem Begin_eval_keeps_bindings (T : Tables) (fuel : Nat) (es : List Expr)
    (p : String × Expr) (defs : List (String × Expr)) (remaining : List Expr) (e : Assoc)
    (σ : Store) (v : Value) (e1 : Assoc) (σ1 : Store)
    (hl : Begin.leadingDefines es = (p :: defs, remaining))
    (hk : ∀ q ∈ p :: defs, keepsCells (eval T fuel) σ.cells.length q.2)
    (hk2 : ∀ x ∈ remaining, keepsCells (eval T fuel) σ.cells.length x)
    (h : eval T (fuel + 1) (.Begin es) e σ = .ok v e1 σ1) :
    e1 = e ∧ cellsKept σ.cells.length σ σ1 := by
  have hh : e1 = e := by
    refine Begin_eval_handle T fuel es e σ (by rw [hl]; exact List.cons_ne_nil _ _) e1 ?_
    rw [h]
    rfl
  refine ⟨hh, ?_⟩
  obtain ⟨frames, h1, h2, h3, h4, h5⟩ :=
    extendAll_fresh ((p :: defs).map Prod.fst) e σ
  have hpatch : ∀ u new_env σ2, evalAndPatch (eval T fuel) (p :: defs)
      (extendAll voidPlaceholder ((p :: defs).map Prod.fst) e σ).1
      (extendAll voidPlaceholder ((p :: defs).map Prod.fst) e σ).2 = .ok u new_env σ2 →
      cellsKept σ.cells.length σ σ2 := by
    intro u new_env σ2 hp
    rw [h1] at hp
    refine cellsKept_trans h5 (evalAndPatch_keeps (eval_handleFresh T fuel) frames h4
      (fun b hb => (h3 b hb).1) ?_ hk hp)
    intro q hq
    rw [h2, List.mem_reverse]
    exact List.mem_map_of_mem _ hq
  cases es with
  | nil => simp [Begin.leadingDefines] at hl
  | cons first others =>
    simp only [eval, hl] at h
    split at h
    · rename_i u new_env σ2 hp
      have hc := hpatch _ _ _ hp
      split at h
      · obtain ⟨-, hs⟩ := returnNew_ok h
        exact cellsKept_trans hc (cellsKept_of_cells (by rw [hs]))
      · rename_i next more
        split at h
        · rename_i w e3 σ3 hn
          obtain ⟨-, e4, hseq⟩ := withEnv_ok h
          exact cellsKept_trans hc (cellsKept_trans
            (hk2 next (List.mem_cons_self _ _) _ _ _ _ _ hn)
            (evalSeq_keeps (fun y hy => hk2 y (List.mem_cons_of_mem _ hy)) hseq))
        · rename_i hne
          obtain ⟨-, e4, hseq⟩ := withEnv_ok h
          exact absurd hseq (fun hh => hne _ _ _ hh)
    all_goals cases h

theorem keepsCells_Fixnum (T : Tables) (fuel n : Nat) (k : Int) :
    keepsCells (eval T fuel) n (.Fixnum k) := by
  intro e σ v e1 σ1 h
  cases fuel with
  | zero => simp [eval] at h
  | succ m =>
    simp only [eval] at h
    exact cellsKept_of_cells (returnNew_ok h).2

theorem keepsCells_Var (T : Tables) (fuel n : Nat) (x : String) :
    keepsCells (eval T fuel) n (.Var x) := by
  intro e σ v e1 σ1 h
  cases fuel with
  | zero => simp [eval] at h
  | succ m =>
    simp only [eval] at h
    exact cellsKept_of_cells (Var_eval_ok h).2

theorem Begin_eval_later_define (T : Tables) (fuel : Nat) (first : Expr) (x : String)
    (init : Expr) (e : Assoc) (σ : Store) (w : Value) (e2 : Assoc) (σ2 : Store) (v : Value)
    (e3 : Assoc) (σ3 : Store) (hn : notDefine first) (hx : T.listed x = false)
    (hf : eval T (fuel + 1) first e σ = .ok w e2 σ2)
    (hi : eval T fuel init (extend x none e2 σ2).1 (extend x none e2 σ2).2 = .ok v e3 σ3) :
    eval T (fuel + 2) (.Begin [first, .Define x init]) e σ =
      returnNew .Void e3 (modify x v e3 σ3) ∧
    (∃ frames more, e3 = frames ++ (x, σ2.cells.length) :: (more ++ e)) ∧
    find x e3 ((modify x v e3 σ3).alloc .Void).2 = some v := by
  obtain ⟨⟨frames, hfr, hval⟩, hlen⟩ := eval_handleGrows T fuel _ _ _ _ _ _ hi
  obtain ⟨⟨more, hmore, -⟩, -⟩ := eval_handleGrows T (fuel + 1) _ _ _ _ _ _ hf
  have hlen2 : σ2.cells.length < σ3.cells.length := by
    have : (extend x none e2 σ2).2.cells.length = σ2.cells.length + 1 := by simp [extend]
    omega
  have hfind : find x e3 (modify x v e3 σ3) = some v := by
    rw [hfr]
    exact find_modify_frames x v frames _ e2 σ3 hval hlen2
  have hd := Define_eval_unlisted T fuel x init e2 σ2 v e3 σ3 hx hi
  refine ⟨?_, ⟨frames, more, ?_⟩, ?_⟩
  · refine Begin_eval_no_define T (fuel + 1) first [.Define x init] e σ _ _ _ hn ?_
    exact ⟨w, e2, σ2, hf, hd⟩
  · rw [hfr, hmore]
    rfl
  · exact (find_cells_eq x e3 (modify x v e3 σ3)
      ((modify x v e3 σ3).alloc .Void).2 rfl).trans hfind

/-- C39: whenever `Begin::eval` on a sequence with a leading definition returns
or throws, the caller's handle is the one it was called with.  The names are
pre-bound in frames put in front of a copy of the caller's environment, whose
binding cells are new cells of the store; when the initialisers and the other
expressions assign no binding cell that the store had before (constants and
variable references never do), the evaluation leaves all these cells as they
were, so `find` of any name in the caller's environment gives what it gave
before.  A `begin` whose first expression is not a definition, followed by a
definition of a name that is neither primitive nor reserved, leaves the handle
with a frame for the name in front of the caller's environment, where `find`
of the name is the value.  `(begin (define x 1) x)` where `x` is 7 evaluates to
1 and leaves `x` bound to the 7; with no binding at all it leaves none; and
`(begin 1 (define x 2))` with no binding leaves `x` bound to the 2. -/
theorem C39_begin_define_scope (T : Tables) (fuel : Nat) :
    (∀ es e σ, (Begin.leadingDefines es).1 ≠ [] →
      ∀ e1 ∈ (eval T (fuel + 1) (.Begin es) e σ).handle, e1 = e) ∧
    (∀ names e σ, ∃ frames, (extendAll voidPlaceholder names e σ).1 = frames ++ e ∧
      frames.map Prod.fst = names.reverse ∧
      (∀ b ∈ frames, σ.cells.length ≤ b.2 ∧
        b.2 < (extendAll voidPlaceholder names e σ).2.cells.length) ∧
      cellsKept σ.cells.length σ (extendAll voidPlaceholder names e σ).2) ∧
    (∀ es p defs remaining e σ v e1 σ1,
      Begin.leadingDefines es = (p :: defs, remaining) →
      (∀ q ∈ p :: defs, keepsCells (eval T fuel) σ.cells.length q.2) →
      (∀ x ∈ remaining, keepsCells (eval T fuel) σ.cells.length x) →
      eval T (fuel + 1) (.Begin es) e σ = .ok v e1 σ1 →
      e1 = e ∧ cellsKept σ.cells.length σ σ1 ∧
        ((∀ b ∈ e, b.2 < σ.cells.length) → ∀ x, find x e1 σ1 = find x e σ)) ∧
    (∀ n k x, keepsCells (eval T fuel) n (.Fixnum k) ∧ keepsCells (eval T fuel) n (.Var x)) ∧
    (∀ first x init e σ w e2 σ2 v e3 σ3, notDefine first → T.listed x = false →
      eval T (fuel + 1) first e σ = .ok w e2 σ2 →
      eval T fuel init (extend x none e2 σ2).1 (extend x none e2 σ2).2 = .ok v e3 σ3 →
      eval T (fuel + 2) (.Begin [first, .Define x init]) e σ =
        returnNew .Void e3 (modify x v e3 σ3) ∧
      (∃ frames more, e3 = frames ++ (x, σ2.cells.length) :: (more ++ e)) ∧
      find x e3 ((modify x v e3 σ3).alloc .Void).2 = some v) ∧
    (resolveAndEval stdTables 4 beginDefineThenUse [("x", 0)] oneCellStore).handle =
      some [("x", 0)] ∧
    (resolveAndEval stdTables 4 beginDefineThenUse [("x", 0)] oneCellStore).content =
      some (.Integer 1) ∧
    (resolveAndEval stdTables 4 beginDefineThenUse [("x", 0)] oneCellStore).found "x" =
      some 0 ∧
    oneCellStore.deref 0 = some (.Integer 7) ∧
    (resolveAndEval stdTables 4 beginDefineThenUse [] Store.init).handle = some [] ∧
    (resolveAndEval stdTables 4 beginDefineThenUse [] Store.init).found "x" = none ∧
    resolveAndEval stdTables 4 beginThenDefine [] Store.init =
      .ok 2 [("x", 0)] { heap := [.Integer 1, .Integer 2, .Void], cells := [some 1], out := [] } :=
  ⟨fun es e σ h => Begin_eval_handle T fuel es e σ h,
    fun names e σ => by
      obtain ⟨frames, h1, h2, h3, -, h5⟩ := extendAll_fresh names e σ
      exact ⟨frames, h1, h2, h3, h5⟩,
    fun es p defs remaining e σ v e1 σ1 hl hk hk2 h => by
      obtain ⟨h1, h2⟩ :=
        Begin_eval_keeps_bindings T fuel es p defs remaining e σ v e1 σ1 hl hk hk2 h
      refine ⟨h1, h2, fun he x => ?_⟩
      rw [h1]
      exact find_cellsKept x e σ.cells.length σ σ1 he h2,
    fun n k x => ⟨keepsCells_Fixnum T fuel n k, keepsCells_Var T fuel n x⟩,
    fun first x init e σ w e2 σ2 v e3 σ3 hn hx hf hi =>
      Begin_eval_later_define T fuel first x init e σ w e2 σ2 v e3 σ3 hn hx hf hi,
    rfl, rfl, rfl, rfl, rfl, rfl, rfl⟩

/-! ### Primitives as values (C40) -/

theorem primitive_map_arity (t : ExprType) :
    (primitive_map t).map (fun p => p.2.length) = primitiveArity t := by
  cases t <;> rfl

theorem Var_eval_primitive (T : Tables) (x : String) (t : ExprType) (body : Expr)
    (params : List String) (e : Assoc) (σ : Store) (hi : Var.invalidName x = none)
    (hf : find x e σ = none) (hp : T.primitives.lookup x = some t)
    (hm : primitive_map t = some (body, params)) :
    Var.eval T x e σ = returnNew (.Procedure params body e) e (announced x σ) := by
  simp only [Var.eval, hi, hf, hp, hm, announced]

/-- C40: the procedure that `Var::eval` makes for a primitive name without a
binding has the body and the parameters of its entry of `primitive_map`, and
the number of parameters is the one stated: none for `void` and `exit`, one for
the unary primitives, two for the others.  Applying a procedure whose
parameters and body are those of an entry to a number of operands other than
that number raises "Wrong number of arguments", once the operands are
evaluated.  `((lambda (f) (f 1 2 3)) +)` raises the error while `(+ 1 2 3)` is
6 and `((lambda (f) (f 1 2)) +)` is 3; `<` on one operand, `car` on two and
`void` on one raise it too. -/
theorem C40_first_class_primitive_arity (T : Tables) (fuel : Nat) :
    (∀ t, (primitive_map t).map (fun p => p.2.length) = primitiveArity t) ∧
    (∀ x t body params e σ, Var.invalidName x = none → find x e σ = none →
      T.primitives.lookup x = some t → primitive_map t = some (body, params) →
      eval T (fuel + 1) (.Var x) e σ =
        returnNew (.Procedure params body e) e (announced x σ) ∧
      primitiveArity t = some params.length) ∧
    (∀ t rator rand e σ p e1 σ1 params body env args e2 σ2,
      primitive_map t = some (body, params) → eval T fuel rator e σ = .ok p e1 σ1 →
      σ1.deref p = some (.Procedure params body env) →
      operandValues (eval T fuel) rand e1 σ1 args e2 σ2 →
      primitiveArity t ≠ some rand.length →
      eval T (fuel + 1) (.Apply rator rand) e σ =
        .error "Wrong number of arguments" e2 σ2) ∧
    (∃ e1 σ1, resolveAndEval stdTables 5
      (firstClassCall "+" [.Number 1, .Number 2, .Number 3]) [] Store.init =
        .error "Wrong number of arguments" e1 σ1) ∧
    (resolveAndEval stdTables 5 (.List [.SymbolSyntax "+", .Number 1, .Number 2, .Number 3])
      [] Store.init).content = some (.Integer 6) ∧
    (resolveAndEval stdTables 5 (firstClassCall "+" [.Number 1, .Number 2]) []
      Store.init).content = some (.Integer 3) ∧
    (∃ e1 σ1, resolveAndEval stdTables 5 (firstClassCall "<" [.Number 1]) [] Store.init =
        .error "Wrong number of arguments" e1 σ1) ∧
    (∃ e1 σ1, resolveAndEval stdTables 5 (firstClassCall "car" [.Number 1, .Number 2]) []
      Store.init = .error "Wrong number of arguments" e1 σ1) ∧
    (∃ e1 σ1, resolveAndEval stdTables 5 (firstClassCall "void" [.Number 1]) []
      Store.init = .error "Wrong number of arguments" e1 σ1) := by
  refine ⟨primitive_map_arity, ?_, ?_, ⟨_, _, rfl⟩, rfl, rfl, ⟨_, _, rfl⟩, ⟨_, _, rfl⟩,
    ⟨_, _, rfl⟩⟩
  · intro x t body params e σ hi hf hp hm
    refine ⟨?_, ?_⟩
    · simp only [eval]
      exact Var_eval_primitive T x t body params e σ hi hf hp hm
    · rw [← primitive_map_arity, hm]
      rfl
  · intro t rator rand e σ p e1 σ1 params body env args e2 σ2 hm hr hd ha hn
    apply Apply_eval_arity T fuel rator rand e σ p e1 σ1 params body env args e2 σ2 hr hd ha
    intro hlen
    apply hn
    rw [← primitive_map_arity, hm, hlen]
    rfl

end Scheme
